import Mathlib

/-!
# web-chess: position, make/unmake, Zobrist hashing and move generation

A shallow embedding of `src/server/ChessServer/chess.hh` and `chess.cc`.

Conventions of the embedding.

* `bits` (`size_t`, 64 bit) is a `Nat`; every operation that can leave the 64-bit range
  (`~`, `<<`, unary minus, `*`) is reduced modulo `2 ^ 64` explicitly.
* Shift counts are taken modulo 64, as the x86-64 shift instructions do.  All theorems are
  about situations in which the count is below 64 anyway.
* `int` coordinates are `Int`; a square index `x + 8 * y` that is used to address `pieces`
  or as a shift count is converted by `sq`.
* Arrays (`pieces`, `side_sets`, `piece_sets`, `matrices`, `previous_states`) are functions
  from the index; `setAt` is the assignment `a[i] = v`.
* `move_stack` is a list whose head is `move_stack.back()`.
* The idiom `while (s) { _BitScanForward64(&ind, s); ...; s &= s - 1; }` visits the set bits
  of `s` in ascending order; it is embedded as a traversal of `set_bits s`.
* Member functions that mutate the board take the board and return the new board.
  `generate_moves`, `legalize` and `is_move_safe` run `make_move`/`unmake_move` on the board
  and therefore return the board they leave behind, too.
-/

namespace WebChess

/-! ## 64-bit words -/

/-- The operation `~a` on a 64-bit word. -/
def not64 (a : Nat) : Nat := (2 ^ 64 - 1) ^^^ (a % 2 ^ 64)

/-- The operation `a << n` on a 64-bit word. -/
def shl64 (a n : Nat) : Nat := (a <<< (n % 64)) % 2 ^ 64

/-- The operation `a >> n` on a 64-bit word. -/
def shr64 (a n : Nat) : Nat := (a % 2 ^ 64) >>> (n % 64)

/-- The operation `-a` on a 64-bit word. -/
def neg64 (a : Nat) : Nat := (2 ^ 64 - a % 2 ^ 64) % 2 ^ 64

/-- A shift count given by an `int` expression: its low six bits. -/
def cnt (n : Int) : Nat := (n % 64).toNat

/-- The index `x + y * 8` of a square as an array index or shift count. -/
def sq (x y : Int) : Nat := (x + y * 8).toNat

/-- Array assignment `a[i] = v`. -/
def setAt (f : Nat → Nat) (i v : Nat) : Nat → Nat := fun j => if j = i then v else f j

/-- The indices of the set bits of a 64-bit word, ascending. -/
def set_bits (s : Nat) : List Nat := (List.range 64).filter (fun i => s.testBit i)

/-- Index written by `_BitScanForward64`: the lowest set bit (0 when there is none). -/
def bsf (s : Nat) : Nat := ((List.range 64).find? (fun i => s.testBit i)).getD 0

/-- Index written by `_BitScanReverse64`: the highest set bit (0 when there is none). -/
def bsr (s : Nat) : Nat := ((List.range 64).reverse.find? (fun i => s.testBit i)).getD 0

/-! ## Piece encoding (`enum` of chess.hh) -/

def king : Nat := 1

def queen : Nat := 2

def bishop : Nat := 3

def knight : Nat := 4

def rook : Nat := 5

def pawn : Nat := 6

def type_mask : Nat := 7

def side_shift : Nat := 3

/-! ## The generator `std::mt19937_64` that fills `zobrist_table` -/

/-- Seeding of the 312-word state: `mt[i] = f * (mt[i-1] ^ (mt[i-1] >> 62)) + i`. -/
def mt_seed (seed : Nat) : List Nat :=
  ((List.range 311).foldl
    (fun (acc : List Nat × Nat) i =>
      let v := (6364136223846793005 * (acc.2 ^^^ (acc.2 >>> 62)) + (i + 1)) % 2 ^ 64
      (v :: acc.1, v))
    ([seed % 2 ^ 64], seed % 2 ^ 64)).1.reverse

/-- One regeneration of the state (the "twist"), performed in place from index 0 upwards. -/
def mt_twist (s : List Nat) : List Nat :=
  (List.range 312).foldl
    (fun mt i =>
      let x := (mt.getD i 0 &&& 0xFFFFFFFF80000000) ||| (mt.getD ((i + 1) % 312) 0 &&& 0x7FFFFFFF)
      let xA := if x % 2 = 1 then (x >>> 1) ^^^ 0xB5026F5AA96619E9 else x >>> 1
      mt.set i (mt.getD ((i + 156) % 312) 0 ^^^ xA))
    s

/-- The state from which outputs `312 * k, ..., 312 * k + 311` are drawn. -/
def mt_state (seed : Nat) : Nat → List Nat
  | 0 => mt_twist (mt_seed seed)
  | k + 1 => mt_twist (mt_state seed k)

/-- Tempering of one state word. -/
def mt_temper (y : Nat) : Nat :=
  let y1 := y ^^^ ((y >>> 29) &&& 0x5555555555555555)
  let y2 := y1 ^^^ (((y1 <<< 17) % 2 ^ 64) &&& 0x71D67FFFEDA60000)
  let y3 := y2 ^^^ (((y2 <<< 37) % 2 ^ 64) &&& 0xFFF7EEE000000000)
  y3 ^^^ (y3 >>> 43)

/-- The `n`-th value (from 0) returned by `std::mt19937_64 e(seed)`. -/
def mt19937_64 (seed n : Nat) : Nat :=
  mt_temper ((mt_state seed (n / 312)).getD (n % 312) 0) % 2 ^ 64

/-! ## Lookup tables (`init_lookups`) -/

/-- The table `zobrist_table[i][j]`: filled row by row from `std::mt19937_64 e(339532)`. -/
def zobrist_table (i j : Nat) : Nat := mt19937_64 339532 (i * 16 + j)

/-- The lambda `a` of `init_lookups` for the square `(x, y)`: the bit of the square
`(x + i, y + j)` when it is on the board, else 0. -/
def a (x y i j : Int) : Nat :=
  if 0 ≤ i + x ∧ i + x ≤ 7 ∧ 0 ≤ j + y ∧ j + y ≤ 7 then shl64 1 (sq (i + x) (j + y)) else 0

/-- The entries `capture_masks[I][knight]` and `capture_masks[I][king]`; all other entries
stay zero. -/
def capture_masks (I type : Nat) : Nat :=
  let x : Int := (I % 8 : Nat)
  let y : Int := (I / 8 : Nat)
  if type = knight then
    a x y (-2) (-1) ||| a x y (-1) (-2) ||| a x y (-2) 1 ||| a x y 1 (-2) |||
    a x y 2 (-1) ||| a x y (-1) 2 ||| a x y 2 1 ||| a x y 1 2
  else if type = king then
    a x y (-1) (-1) ||| a x y 0 (-1) ||| a x y 1 (-1) ||| a x y (-1) 0 |||
    a x y (-1) 1 ||| a x y 0 1 ||| a x y 1 1 ||| a x y 1 0
  else 0

/-- The struct `sliding_mask`. -/
structure sliding_mask where
  steps : Nat → Nat
  last : Nat

/-- The `do ... while (M)` loops of `init_lookups` along the direction `(dx, dy)` from
`(x, y)`, started at the `k`-th step with `m` as the mask accumulated so far: at most seven
squares lie on a ray, so the fuel 8 is never used up. -/
def ray_from (x y dx dy : Int) : Nat → Int → sliding_mask → sliding_mask
  | 0, _, m => m
  | fuel + 1, k, m =>
    let M := a x y (k * dx) (k * dy)
    if M = 0 then m
    else
      let value := m.last ||| M
      ray_from x y dx dy fuel (k + 1)
        { steps := setAt m.steps (sq (x + k * dx) (y + k * dy)) value, last := value }

/-- The sliding mask of the ray that leaves square `I` in direction `(dx, dy)`. -/
def ray (I : Nat) (dx dy : Int) : sliding_mask :=
  ray_from ((I % 8 : Nat) : Int) ((I / 8 : Nat) : Int) dx dy 8 1 { steps := fun _ => 0, last := 0 }

/-- The table `bishop_masks[I][i][j]`: direction `(2i - 1, 2j - 1)`. -/
def bishop_masks (I i j : Nat) : sliding_mask := ray I (2 * (i : Int) - 1) (2 * (j : Int) - 1)

/-- The table `rook_masks[I][i][j]`: `j` selects the axis (`1` is `Y`), `i` the sign. -/
def rook_masks (I i j : Nat) : sliding_mask :=
  if j ≠ 0 then ray I 0 (2 * (i : Int) - 1) else ray I (2 * (i : Int) - 1) 0

/-- The table `masks_fw[I][k]`: the four rays on which the square index grows. -/
def masks_fw (I k : Nat) : sliding_mask :=
  if k = 0 then bishop_masks I 0 1
  else if k = 1 then bishop_masks I 1 1
  else if k = 2 then rook_masks I 1 0
  else rook_masks I 1 1

/-- The table `masks_rev[I][k]`: the four rays on which the square index falls. -/
def masks_rev (I k : Nat) : sliding_mask :=
  if k = 0 then bishop_masks I 0 0
  else if k = 1 then bishop_masks I 1 0
  else if k = 2 then rook_masks I 0 0
  else rook_masks I 0 1

/-! ## Position (`chess.hh`) -/

/-- The struct `chessmove`: the undo record. -/
structure chessmove where
  org_x : Int := 0
  org_y : Int := 0
  org_had_moved : Nat := 0
  dest_x : Int := 0
  dest_y : Int := 0
  captured_x : Int := 0
  captured_y : Int := 0
  captured_type : Nat := 0
  captured_had_moved : Nat := 0
  promotion_type : Nat := 0
  two_squares_flag_changed : Nat := 0
  deriving DecidableEq

/-- The member `chessmove::empty`. -/
def chessmove.empty (m : chessmove) : Bool :=
  m.org_x == 0 && m.org_y == 0 && m.dest_x == 0 && m.dest_y == 0

/-- The struct `chessboard`.  `previous_states` is the table of `fastmap<uint16_t>`, indexed
by the slot `key % 2 ^ 22`. -/
structure chessboard where
  appended_moves : Int
  hash : Nat
  previous_states : Nat → Nat
  move_stack : List chessmove
  pieces : Nat → Nat
  side_sets : Nat → Nat
  piece_sets : Nat → Nat
  has_moved : Nat
  move_count : Int
  side_to_move : Nat

/-- Conversion of a `bool` to the integer 0 or 1. -/
def b2n (c : Bool) : Nat := if c then 1 else 0

/-- The expression shared by `make_move` and `zobrist`: the record on top of the move stack
ends on a square that now holds a pawn, two ranks from where it started. -/
def pawn_two_squares (b : chessboard) : Bool :=
  match b.move_stack with
  | [] => false
  | last :: _ =>
    (b.pieces (sq last.dest_x last.dest_y) &&& type_mask == pawn)
      && ((last.org_y - last.dest_y).natAbs == 2)

/-- The member `chessboard::make_move`. -/
def make_move (b : chessboard) (org_x org_y dest_x dest_y : Int) : chessboard :=
  if org_x = 0 ∧ org_y = 0 ∧ dest_x = 0 ∧ dest_y = 0 then
    { b with
      side_to_move := b.side_to_move ^^^ 1
      hash := b.hash ^^^ zobrist_table 1 8
      move_stack := ({} : chessmove) :: b.move_stack
      move_count := b.move_count + 1 }
  else
    let old_pawn_two_squares := pawn_two_squares b
    let org_ind := sq org_x org_y
    let dest_ind := sq dest_x dest_y
    let org_mask := shl64 1 org_ind
    let dest_mask := shl64 1 dest_ind
    -- Remove moving piece from its original location
    let org := b.pieces org_ind
    let org_type := org &&& type_mask
    let org_side := org >>> side_shift
    let org_had_moved := (b.has_moved &&& org_mask) != 0
    let has_moved1 := b.has_moved &&& not64 org_mask
    let delta_x := org_x - dest_x
    let delta_y := org_y - dest_y
    let change_x := delta_x.natAbs
    let change_y := delta_y.natAbs
    let two_squares_changed := (change_y == 2 && org_type == pawn) != old_pawn_two_squares
    let hash1 := if two_squares_changed then b.hash ^^^ zobrist_table 0 8 else b.hash
    -- This is castling, move the rook
    let castling := org_type == king && change_x == 2
    let rook_org := sq (if delta_x > 0 then 0 else 7) org_y
    let rook_dst := sq (dest_x + delta_x.tdiv 2) org_y
    let rk := rook ||| (org_side <<< side_shift)
    let rook_mask := shl64 1 rook_org ||| shl64 1 rook_dst
    let side_sets1 :=
      if castling then setAt b.side_sets org_side (b.side_sets org_side ^^^ rook_mask)
      else b.side_sets
    let piece_sets1 :=
      if castling then setAt b.piece_sets rook (b.piece_sets rook ^^^ rook_mask)
      else b.piece_sets
    let pieces1 :=
      if castling then
        setAt (setAt b.pieces rook_org (b.pieces rook_dst)) rook_dst (b.pieces rook_org)
      else b.pieces
    let hash2 :=
      if castling then hash1 ^^^ (zobrist_table rook_org rk ^^^ zobrist_table rook_dst rk)
      else hash1
    -- This is en passant, capture the enemy pawn a rank behind
    let en_passant := pieces1 dest_ind == 0 && org_type == pawn && change_x == 1
    let captured_x := dest_x
    let captured_y :=
      if en_passant then (if org_side ≠ 0 then dest_y + 1 else dest_y - 1) else dest_y
    let captured := pieces1 (sq dest_x captured_y)
    let cap_type := captured &&& type_mask
    let cap_side := captured >>> side_shift
    let cap_ind := sq captured_x captured_y
    let captured_mask := not64 (shl64 1 cap_ind)
    let captured_had_moved := (has_moved1 &&& not64 captured_mask) != 0
    let has_moved2 := has_moved1 &&& captured_mask
    let side_sets2 := setAt side_sets1 cap_side (side_sets1 cap_side &&& captured_mask)
    let piece_sets2 := setAt piece_sets1 cap_type (piece_sets1 cap_type &&& captured_mask)
    let pieces2 := setAt pieces1 cap_ind 0
    let hash3 := if captured ≠ 0 then hash2 ^^^ zobrist_table cap_ind captured else hash2
    -- Place the moving piece in its new location
    let has_moved3 := has_moved2 ||| dest_mask
    let side_sets3 := setAt side_sets2 org_side (side_sets2 org_side ^^^ (org_mask ^^^ dest_mask))
    let piece_sets3 := setAt piece_sets2 org_type (piece_sets2 org_type ^^^ (org_mask ^^^ dest_mask))
    let pieces3 := setAt (setAt pieces2 org_ind 0) dest_ind org
    let hash4 := hash3 ^^^ (zobrist_table org_ind org ^^^ zobrist_table dest_ind org)
    -- Promote to queen
    let promote := org_type == pawn && dest_y == (1 - (org_side : Int)) * 7
    let new_type := queen ||| (org_side <<< side_shift)
    let promotion := if promote then new_type else 0
    let piece_sets4 :=
      if promote then
        let ps := setAt piece_sets3 pawn (piece_sets3 pawn &&& not64 dest_mask)
        setAt ps queen (ps queen ||| dest_mask)
      else piece_sets3
    let pieces4 := if promote then setAt pieces3 dest_ind new_type else pieces3
    let hash5 :=
      if promote then hash4 ^^^ (zobrist_table dest_ind org ^^^ zobrist_table dest_ind new_type)
      else hash4
    let hash6 := hash5 ^^^ zobrist_table 1 8
    { b with
      side_to_move := b.side_to_move ^^^ 1
      hash := hash6
      previous_states :=
        setAt b.previous_states (hash6 % 2 ^ 22) ((b.previous_states (hash6 % 2 ^ 22) + 1) % 2 ^ 16)
      move_stack :=
        { org_x := org_x, org_y := org_y, org_had_moved := b2n org_had_moved,
          dest_x := dest_x, dest_y := dest_y,
          captured_x := captured_x, captured_y := captured_y, captured_type := captured,
          captured_had_moved := b2n captured_had_moved,
          promotion_type := promotion,
          two_squares_flag_changed := b2n two_squares_changed } :: b.move_stack
      pieces := pieces4
      side_sets := side_sets3
      piece_sets := piece_sets4
      has_moved := has_moved3
      move_count := b.move_count + 1 }

/-- The member `chessboard::unmake_move`.  On an empty move stack the C++ code is undefined;
the embedding then leaves the board as it is. -/
def unmake_move (b : chessboard) : chessboard :=
  match b.move_stack with
  | [] => b
  | move :: rest =>
    let side_to_move1 := b.side_to_move ^^^ 1
    let previous_states1 :=
      if !move.empty then
        setAt b.previous_states (b.hash % 2 ^ 22)
          ((b.previous_states (b.hash % 2 ^ 22) + (2 ^ 16 - 1)) % 2 ^ 16)
      else b.previous_states
    let hash1 := b.hash ^^^ zobrist_table 1 8
    if move.empty then
      { b with
        move_stack := rest
        move_count := b.move_count - 1
        side_to_move := side_to_move1
        previous_states := previous_states1
        hash := hash1 }
    else
      let hash2 := if move.two_squares_flag_changed ≠ 0 then hash1 ^^^ zobrist_table 0 8 else hash1
      let org_ind := sq move.org_x move.org_y
      let dest_ind := sq move.dest_x move.dest_y
      let cap_ind := sq move.captured_x move.captured_y
      let org_piece := b.pieces dest_ind
      let org_type := org_piece &&& type_mask
      let org_side := org_piece >>> side_shift
      let cap_piece := move.captured_type
      let cap_type := cap_piece &&& type_mask
      let cap_side := cap_piece >>> side_shift
      let cap_mask := shl64 1 cap_ind
      let org_mask := shl64 1 org_ind
      let dest_mask := shl64 1 dest_ind
      let delta_x := move.org_x - move.dest_x
      let change_x := delta_x.natAbs
      -- This is castling, move the rook
      let castling := org_type == king && change_x == 2
      let rook_org := sq (if delta_x > 0 then 0 else 7) move.org_y
      let rook_dst := sq (move.dest_x + delta_x.tdiv 2) move.org_y
      let rk := rook ||| (org_side <<< side_shift)
      let rook_mask := shl64 1 rook_org ||| shl64 1 rook_dst
      let side_sets1 :=
        if castling then setAt b.side_sets org_side (b.side_sets org_side ^^^ rook_mask)
        else b.side_sets
      let piece_sets1 :=
        if castling then setAt b.piece_sets rook (b.piece_sets rook ^^^ rook_mask)
        else b.piece_sets
      let pieces1 :=
        if castling then
          setAt (setAt b.pieces rook_org (b.pieces rook_dst)) rook_dst (b.pieces rook_org)
        else b.pieces
      let hash3 :=
        if castling then hash2 ^^^ (zobrist_table rook_org rk ^^^ zobrist_table rook_dst rk)
        else hash2
      let has_moved1 :=
        (b.has_moved &&& not64 (org_mask ||| dest_mask)) ||| shl64 move.org_had_moved org_ind
      let side_sets2 := setAt side_sets1 org_side (side_sets1 org_side ^^^ (dest_mask ^^^ org_mask))
      let piece_sets2 := setAt piece_sets1 org_type (piece_sets1 org_type ^^^ dest_mask)
      let org_type1 := if move.promotion_type ≠ 0 then pawn else org_type
      let org_new := org_type1 ||| (org_side <<< side_shift)
      let pieces2 := setAt (setAt pieces1 dest_ind 0) org_ind org_new
      let piece_sets3 := setAt piece_sets2 org_type1 (piece_sets2 org_type1 ^^^ org_mask)
      let hash4 := hash3 ^^^ (zobrist_table dest_ind org_piece ^^^ zobrist_table org_ind org_new)
      if move.captured_type ≠ 0 then
        { b with
          move_stack := rest
          move_count := b.move_count - 1
          side_to_move := side_to_move1
          previous_states := previous_states1
          hash := hash4 ^^^ zobrist_table cap_ind cap_piece
          has_moved := (has_moved1 &&& not64 cap_mask) ||| shl64 move.captured_had_moved cap_ind
          pieces := setAt pieces2 cap_ind cap_piece
          side_sets := setAt side_sets2 cap_side (side_sets2 cap_side ||| cap_mask)
          piece_sets := setAt piece_sets3 cap_type (piece_sets3 cap_type ||| cap_mask) }
      else
        { b with
          move_stack := rest
          move_count := b.move_count - 1
          side_to_move := side_to_move1
          previous_states := previous_states1
          hash := hash4
          has_moved := has_moved1
          pieces := pieces2
          side_sets := side_sets2
          piece_sets := piece_sets3 }

/-- The member `chessboard::zobrist`: the digest recomputed from scratch. -/
def zobrist (b : chessboard) : Nat :=
  let h1 := (b2n (pawn_two_squares b) * zobrist_table 0 8) % 2 ^ 64
  let h2 := h1 ^^^ ((b.side_to_move * zobrist_table 1 8) % 2 ^ 64)
  (List.range 64).foldl
    (fun h i => if b.pieces i ≠ 0 then h ^^^ zobrist_table i (b.pieces i) else h) h2

/-- The record `move_stack.size() ? move_stack.back() : chessmove{}`. -/
def last_move (b : chessboard) : chessmove :=
  match b.move_stack with
  | [] => {}
  | m :: _ => m

/-- The expression `(0b101ull << (ind % 8) >> 1 & 255ull) << ((ind / 8 - fside) << 3)`: the two
squares a pawn of `side` on `ind` attacks. -/
def capture_base (side ind : Nat) : Nat :=
  shl64 (shr64 (shl64 5 (ind % 8)) 1 &&& 255)
    (cnt ((((ind / 8 : Nat) : Int) - ((side : Int) * 2 - 1)) * 8))

/-- The member `chessboard::any_pseudo_captures`. -/
def any_pseudo_captures (b : chessboard) (side target : Nat) : Bool :=
  let last := last_move b
  let all_pieces := b.side_sets 0 ||| b.side_sets 1
  let last_move_dest := shl64 1 (sq last.dest_x last.dest_y)
  let fside : Int := (side : Int) * 2 - 1
  let our := b.side_sets side
  -- Process pawns
  (set_bits (b.piece_sets pawn &&& our)).any (fun ind =>
    let cb := capture_base side ind
    let last_moved_enemy_pawn := (b.piece_sets pawn &&& last_move_dest) != 0
    (cb &&& target != 0) ||
    ((last.org_y - last.dest_y == fside * 2 && last_moved_enemy_pawn) &&
      ((if side ≠ 0 then shl64 last_move_dest 8 else shr64 last_move_dest 8) &&& cb &&& target != 0)))
  ||
  (set_bits ((b.piece_sets knight ||| b.piece_sets king) &&& our)).any (fun ind =>
    capture_masks ind (b.pieces ind &&& type_mask) &&& target != 0)
  ||
  -- Process sliding pieces
  [bishop, rook, queen].any (fun type =>
    let start := if type = rook then 2 else 0
    let stop := if type = bishop then 2 else 4
    (set_bits (b.piece_sets type &&& our)).any (fun ind =>
      (List.range' start (stop - start)).any (fun i =>
        let maskfw := (masks_fw ind i).last &&& all_pieces
        let maskrev := (masks_rev ind i).last &&& all_pieces
        (maskfw &&& neg64 maskfw &&& target != 0) ||
        (maskrev != 0 && (shl64 1 (bsr maskrev) &&& target != 0)))))

/-- The member `chessboard::in_check`. -/
def in_check (b : chessboard) (side : Nat) : Bool :=
  any_pseudo_captures b (side ^^^ 1) (b.piece_sets king &&& b.side_sets side)

/-- The member `chessboard::is_move_safe`: the answer and the board after the `unmake_move`. -/
def is_move_safe (b : chessboard) (for_side : Nat) (org_x org_y dest_x dest_y : Int) :
    Bool × chessboard :=
  let b1 := make_move b org_x org_y dest_x dest_y
  let check := in_check b1 for_side
  (!check, unmake_move b1)

/-- The loop of `chessboard::legalize` over the remaining candidate squares. -/
def legalize_loop (side : Nat) (ox oy : Int) : List Nat → Nat → chessboard → Nat × chessboard
  | [], acc, b => (acc, b)
  | ind :: rest, acc, b =>
    let r := is_move_safe b side ox oy ((ind &&& 7 : Nat) : Int) ((ind >>> 3 : Nat) : Int)
    legalize_loop side ox oy rest (if r.1 then acc ||| shl64 1 ind else acc) r.2

/-- The member `chessboard::legalize`: the safe moves among `moves` and the board left
behind. -/
def legalize (b : chessboard) (side i moves : Nat) : Nat × chessboard :=
  legalize_loop side ((i &&& 7 : Nat) : Int) ((i >>> 3 : Nat) : Int) (set_bits moves) 0 b

/-! ## Move generation -/

/-- The mutable data of a run of `generate_moves`: the output array and the board. -/
structure gen_state where
  matrices : Nat → Nat
  board : chessboard

/-- The statement `if (!pseudo && (matrices[ind] = legalize(side, ind, matrices[ind] & mask))
&& exit_on_legal) return true;`: whether it returns, and the state after it. -/
def legalize_step (pseudo exit_on_legal : Bool) (side mask ind : Nat) (st : gen_state) :
    Bool × gen_state :=
  if pseudo then (false, st)
  else
    let r := legalize st.board side ind (st.matrices ind &&& mask)
    (r.1 != 0 && exit_on_legal, { matrices := setAt st.matrices ind r.1, board := r.2 })

/-- The body of the pawn loop, written into `matrices[ind]` before the legality filter.
`last` is `last_move`, `b` the board at the time of the iteration. -/
def pawn_moves (b : chessboard) (last : chessmove) (side ind : Nat) (theirs free : Nat) : Nat :=
  let last_move_dest := shl64 1 (sq last.dest_x last.dest_y)
  let fside : Int := (side : Int) * 2 - 1
  let shifted_free := if side ≠ 0 then shr64 free 8 else shl64 free 8
  let bit := shl64 1 ind
  let cb := capture_base side ind
  let capture_mask := cb &&& theirs
  let step_mask := (if side ≠ 0 then shr64 bit 8 else shl64 bit 8) &&& free
  let double_mask :=
    ((shr64 (not64 b.has_moved) ind &&& 1) *
      ((if side ≠ 0 then shr64 bit 16 else shl64 bit 16) &&& free &&& shifted_free)) % 2 ^ 64
  let last_moved_enemy_pawn := (b.piece_sets pawn &&& last_move_dest) != 0
  let en_passant_mask :=
    (b2n (last.dest_y - last.org_y == fside * 2 && last_moved_enemy_pawn) *
      ((if side ≠ 0 then shl64 last_move_dest 8 else shr64 last_move_dest 8) &&& cb)) % 2 ^ 64
  capture_mask ||| step_mask ||| double_mask ||| en_passant_mask

/-- The pawn loop of `generate_moves` over the remaining pawns; `last` is the copy of the top
record taken when `generate_moves` was entered. -/
def pawn_loop (last : chessmove) (side : Nat) (pseudo exit_on_legal : Bool)
    (mask theirs free : Nat) : List Nat → gen_state → Bool × gen_state
  | [], st => (false, st)
  | ind :: rest, st =>
    let st1 : gen_state :=
      { st with matrices := setAt st.matrices ind (pawn_moves st.board last side ind theirs free) }
    let r := legalize_step pseudo exit_on_legal side mask ind st1
    if r.1 then (true, r.2)
    else pawn_loop last side pseudo exit_on_legal mask theirs free rest r.2

/-- The function template `sgn`. -/
def sgn (v : Int) : Int := b2n (decide (0 < v)) - b2n (decide (v < 0))

/-- The function template `between`. -/
def between (x lo hi : Int) : Bool := decide (lo ≤ x) && decide (x < hi)

/-- The lambda `piece` of the king branch: the square `(x + i, y + j)` is on the board and
occupied in `all_pieces`. -/
def piece (all_pieces : Nat) (x y i j : Int) : Bool :=
  decide (0 ≤ i + x ∧ i + x ≤ 7 ∧ 0 ≤ j + y ∧ j + y ≤ 7)
    && (all_pieces &&& shl64 1 (sq (i + x) (j + y)) != 0)

/-- The `for` loop of the lambda `can_castle`, entered with the counter `i`.  The counter
moves `X = x + i * dx` out of `[2, 7)` after at most five rounds when `dx` is not zero, so
the fuel 8 that `can_castle` passes is never used up. -/
def can_castle_loop (side all_pieces : Nat) (x y dx : Int) :
    Nat → Int → chessboard → Bool × chessboard
  | 0, _, b => (true, b)
  | fuel + 1, i, b =>
    if between (x + i * dx) 2 7 then
      if piece all_pieces x y (i * dx) 0 then (false, b)
      else if i ≠ 1 then
        let r := is_move_safe b side x y (x + i * dx) y
        if !r.1 then (false, r.2)
        else can_castle_loop side all_pieces x y dx fuel (i + 1) r.2
      else can_castle_loop side all_pieces x y dx fuel (i + 1) b
    else (true, b)

/-- The lambda `can_castle` of the king branch. -/
def can_castle (b : chessboard) (side all_pieces : Nat) (x y rx ry : Int) : Bool × chessboard :=
  if (b.has_moved &&& shl64 1 (sq rx ry) != 0) || (b.has_moved &&& shl64 1 (sq x y) != 0) then
    (false, b)
  else can_castle_loop side all_pieces x y (sgn (rx - x)) 8 1 b

/-- One attempt `if (relevant_rooks & corner && can_castle(rx, y)) { matrices[ind] |= dest;
legalize-and-maybe-return }` of the king branch. -/
def castle_step (side : Nat) (pseudo exit_on_legal : Bool) (mask all_pieces relevant_rooks : Nat)
    (ind : Nat) (rx : Int) (corner dest : Nat) (st : gen_state) : Bool × gen_state :=
  let x : Int := ((ind &&& 7 : Nat) : Int)
  let y : Int := ((ind >>> 3 : Nat) : Int)
  if relevant_rooks &&& corner != 0 then
    let r := can_castle st.board side all_pieces x y rx y
    if r.1 then
      legalize_step pseudo exit_on_legal side mask ind
        { matrices := setAt st.matrices ind (st.matrices ind ||| dest), board := r.2 }
    else (false, { st with board := r.2 })
  else (false, st)

/-- The block `if (!in_check(side)) { ... }` of the king branch: the two castling attempts
for the king on `ind`. -/
def castle_block (side : Nat) (pseudo exit_on_legal : Bool) (mask our all_pieces : Nat)
    (ind : Nat) (st : gen_state) : Bool × gen_state :=
  let y : Nat := ind >>> 3
  if !in_check st.board side then
    let relevant_rooks := our &&& st.board.piece_sets rook
    let left_rook := shl64 1 (8 * y)
    let right_rook := shl64 1 (7 + 8 * y)
    let r1 := castle_step side pseudo exit_on_legal mask all_pieces relevant_rooks ind 0
      left_rook (shl64 1 ((ind + 2 ^ 32 - 2) % 2 ^ 32)) st
    if r1.1 then r1
    else castle_step side pseudo exit_on_legal mask all_pieces relevant_rooks ind 7
      right_rook (shl64 1 ((ind + 2) % 2 ^ 32)) r1.2
  else (false, st)

/-- The loop over the knights (`type = knight`) or kings (`type = king`) of
`generate_moves`. -/
def jump_loop (side : Nat) (pseudo exit_on_legal : Bool) (mask our all_pieces not_friendly : Nat)
    (type : Nat) : List Nat → gen_state → Bool × gen_state
  | [], st => (false, st)
  | ind :: rest, st =>
    let st1 : gen_state :=
      { st with matrices := setAt st.matrices ind (capture_masks ind type &&& not_friendly) }
    let r2 : Bool × gen_state :=
      if type = king then castle_block side pseudo exit_on_legal mask our all_pieces ind st1
      else (false, st1)
    if r2.1 then r2
    else
      let r3 := legalize_step pseudo exit_on_legal side mask ind r2.2
      if r3.1 then r3
      else jump_loop side pseudo exit_on_legal mask our all_pieces not_friendly type rest r3.2

/-- The destination set of a sliding piece of `type` on `ind` before the legality filter. -/
def sliding_moves (type ind all_pieces not_friendly : Nat) : Nat :=
  let start := if type = rook then 2 else 0
  let stop := if type = bishop then 2 else 4
  (List.range' start (stop - start)).foldl
    (fun captures i =>
      let fw := masks_fw ind i
      let rev := masks_rev ind i
      let maskfw := if fw.last &&& all_pieces != 0 then fw.steps (bsf (fw.last &&& all_pieces)) else fw.last
      let maskrev :=
        if rev.last &&& all_pieces != 0 then rev.steps (bsr (rev.last &&& all_pieces)) else rev.last
      captures ||| ((maskfw ||| maskrev) &&& not_friendly))
    0

/-- The loop over the sliding pieces of one type. -/
def sliding_loop (side : Nat) (pseudo exit_on_legal : Bool) (mask all_pieces not_friendly : Nat)
    (type : Nat) : List Nat → gen_state → Bool × gen_state
  | [], st => (false, st)
  | ind :: rest, st =>
    let st1 : gen_state :=
      { st with matrices := setAt st.matrices ind (sliding_moves type ind all_pieces not_friendly) }
    let r := legalize_step pseudo exit_on_legal side mask ind st1
    if r.1 then (true, r.2)
    else sliding_loop side pseudo exit_on_legal mask all_pieces not_friendly type rest r.2

/-- The member `chessboard::generate_moves`: the returned flag, and the array `matrices` and
the board as the call leaves them. -/
def generate_moves (b : chessboard) (side : Nat) (matrices : Nat → Nat) (pseudo : Bool)
    (exit_on_legal : Bool) (mask : Nat) : Bool × gen_state :=
  let all_pieces := b.side_sets 0 ||| b.side_sets 1
  let our := b.side_sets side
  let theirs := b.side_sets (side ^^^ 1)
  let free := not64 all_pieces
  let not_friendly := free ||| theirs
  -- Process pawns
  let r1 := pawn_loop (last_move b) side pseudo exit_on_legal mask theirs free
    (set_bits (b.piece_sets pawn &&& our)) { matrices := matrices, board := b }
  if r1.1 then r1
  else
    -- Process non-sliding pieces
    let r2 := jump_loop side pseudo exit_on_legal mask our all_pieces not_friendly knight
      (set_bits (r1.2.board.piece_sets knight &&& our)) r1.2
    if r2.1 then r2
    else
      let r3 := jump_loop side pseudo exit_on_legal mask our all_pieces not_friendly king
        (set_bits (r2.2.board.piece_sets king &&& our)) r2.2
      if r3.1 then r3
      else
        -- Process sliding pieces
        let r4 := sliding_loop side pseudo exit_on_legal mask all_pieces not_friendly bishop
          (set_bits (r3.2.board.piece_sets bishop &&& our)) r3.2
        if r4.1 then r4
        else
          let r5 := sliding_loop side pseudo exit_on_legal mask all_pieces not_friendly rook
            (set_bits (r4.2.board.piece_sets rook &&& our)) r4.2
          if r5.1 then r5
          else
            sliding_loop side pseudo exit_on_legal mask all_pieces not_friendly queen
              (set_bits (r5.2.board.piece_sets queen &&& our)) r5.2

/-- The member `chessboard::any_moves`. -/
def any_moves (b : chessboard) (side : Nat) : Bool × gen_state :=
  generate_moves b side (fun _ => 0) false true (2 ^ 64 - 1)

/-! ## Building a position the way `process_move` of server.cc does -/

/-- The default-constructed `chessboard`. -/
def empty_board : chessboard :=
  { appended_moves := 0, hash := 0, previous_states := fun _ => 0, move_stack := [],
    pieces := fun _ => 0, side_sets := fun _ => 0, piece_sets := fun _ => 0,
    has_moved := 0, move_count := 0, side_to_move := 1 }

/-- The loop of `process_move` that stores the 64 piece codes of the request and sets the
masks; `codes` are the codes that are left, the first one for square `i`. -/
def place_pieces : List Nat → Nat → chessboard → chessboard
  | [], _, b => b
  | data :: rest, i, b =>
    let type := data &&& type_mask
    let side := data >>> side_shift
    let b1 := { b with pieces := setAt b.pieces i data }
    let b2 :=
      if data ≠ 0 then
        { b1 with
          side_sets := setAt b1.side_sets side (b1.side_sets side ||| shl64 1 i)
          piece_sets := setAt b1.piece_sets type (b1.piece_sets type ||| shl64 1 i) }
      else b1
    place_pieces rest (i + 1) b2

/-- The board `process_move` holds after reading the placement `codes` and executing
`board->hash = board->zobrist()`. -/
def board_of (codes : List Nat) : chessboard :=
  let b := place_pieces codes 0 empty_board
  { b with hash := zobrist b }

/-- Modelled from the spec: the placement of the standard initial position, which the
client sends and no file under `src/` holds.  Side 1 moves first (`side_to_move = 1`) and
its pawns advance towards `y = 0`, so it starts on the ranks `y = 6, 7`; in algebraic terms
file `a..h` is `x = 0..7` and rank `r` is `y = 8 - r`. -/
def standard_codes : List Nat :=
  [5, 4, 3, 2, 1, 3, 4, 5,
   6, 6, 6, 6, 6, 6, 6, 6,
   0, 0, 0, 0, 0, 0, 0, 0,
   0, 0, 0, 0, 0, 0, 0, 0,
   0, 0, 0, 0, 0, 0, 0, 0,
   0, 0, 0, 0, 0, 0, 0, 0,
   14, 14, 14, 14, 14, 14, 14, 14,
   13, 12, 11, 10, 9, 11, 12, 13]

/-- The board of the standard initial position. -/
def standard_board : chessboard := board_of standard_codes

/-! ## Consistency of the masks with the piece array -/

/-- A piece code of the encoding: empty, or a type in `1..6` with a side bit. -/
def valid_code (p : Nat) : Prop := p < 16 ∧ p ≠ 7 ∧ p ≠ 8 ∧ p ≠ 15

instance (p : Nat) : Decidable (valid_code p) := by unfold valid_code; infer_instance

/-- The masks `S` (`side_sets`) and `T` (`piece_sets`) describe the array `P` (`pieces`):
bit `i` of `S s` says that square `i` holds a piece of side `s`, bit `i` of `T t` that it
holds a piece of type `t`; the unused slot `T 0` is zero. -/
structure MC (P S T : Nat → Nat) : Prop where
  codes : ∀ i, i < 64 → valid_code (P i)
  side : ∀ s i, s < 2 → ((S s).testBit i = true ↔ i < 64 ∧ P i ≠ 0 ∧ P i / 8 = s)
  type : ∀ t i, 1 ≤ t → t ≤ 6 → ((T t).testBit i = true ↔ i < 64 ∧ P i % 8 = t)
  t0 : T 0 = 0

/-- The call `make_move(o & 7, o >> 3, d & 7, d >> 3)` by which `legalize` and search.cc play
the move from square `o` to square `d`. -/
def make_move_sq (b : chessboard) (o d : Nat) : chessboard :=
  make_move b ((o &&& 7 : Nat) : Int) ((o >>> 3 : Nat) : Int) ((d &&& 7 : Nat) : Int)
    ((d >>> 3 : Nat) : Int)

/-- The body of `make_move` for a move that is not the null move, as a function of the
quantities it computes from the coordinates: the square indices, whether the move is a
castling move (`castling`, with the rook going from `rook_org` to `rook_dst`), whether the
pawn is promoted (`promote`) and whether the move is a pawn's two-square advance
(`two_squares`).  `make_move_eq_core` states that `make_move` is this function. -/
def move_core (b : chessboard) (org_x org_y dest_x dest_y captured_y : Int)
    (org_ind dest_ind cap_ind rook_org rook_dst : Nat) (castling promote two_squares : Bool) :
    chessboard :=
  let org_mask := shl64 1 org_ind
  let dest_mask := shl64 1 dest_ind
  let org := b.pieces org_ind
  let org_type := org &&& type_mask
  let org_side := org >>> side_shift
  let org_had_moved := (b.has_moved &&& org_mask) != 0
  let has_moved1 := b.has_moved &&& not64 org_mask
  let two_squares_changed := two_squares != pawn_two_squares b
  let hash1 := if two_squares_changed then b.hash ^^^ zobrist_table 0 8 else b.hash
  let rk := rook ||| (org_side <<< side_shift)
  let rook_mask := shl64 1 rook_org ||| shl64 1 rook_dst
  let side_sets1 :=
    if castling then setAt b.side_sets org_side (b.side_sets org_side ^^^ rook_mask)
    else b.side_sets
  let piece_sets1 :=
    if castling then setAt b.piece_sets rook (b.piece_sets rook ^^^ rook_mask)
    else b.piece_sets
  let pieces1 :=
    if castling then
      setAt (setAt b.pieces rook_org (b.pieces rook_dst)) rook_dst (b.pieces rook_org)
    else b.pieces
  let hash2 :=
    if castling then hash1 ^^^ (zobrist_table rook_org rk ^^^ zobrist_table rook_dst rk)
    else hash1
  let captured := pieces1 cap_ind
  let cap_type := captured &&& type_mask
  let cap_side := captured >>> side_shift
  let captured_mask := not64 (shl64 1 cap_ind)
  let captured_had_moved := (has_moved1 &&& not64 captured_mask) != 0
  let has_moved2 := has_moved1 &&& captured_mask
  let side_sets2 := setAt side_sets1 cap_side (side_sets1 cap_side &&& captured_mask)
  let piece_sets2 := setAt piece_sets1 cap_type (piece_sets1 cap_type &&& captured_mask)
  let pieces2 := setAt pieces1 cap_ind 0
  let hash3 := if captured ≠ 0 then hash2 ^^^ zobrist_table cap_ind captured else hash2
  let has_moved3 := has_moved2 ||| dest_mask
  let side_sets3 := setAt side_sets2 org_side (side_sets2 org_side ^^^ (org_mask ^^^ dest_mask))
  let piece_sets3 := setAt piece_sets2 org_type (piece_sets2 org_type ^^^ (org_mask ^^^ dest_mask))
  let pieces3 := setAt (setAt pieces2 org_ind 0) dest_ind org
  let hash4 := hash3 ^^^ (zobrist_table org_ind org ^^^ zobrist_table dest_ind org)
  let new_type := queen ||| (org_side <<< side_shift)
  let promotion := if promote then new_type else 0
  let piece_sets4 :=
    if promote then
      let ps := setAt piece_sets3 pawn (piece_sets3 pawn &&& not64 dest_mask)
      setAt ps queen (ps queen ||| dest_mask)
    else piece_sets3
  let pieces4 := if promote then setAt pieces3 dest_ind new_type else pieces3
  let hash5 :=
    if promote then hash4 ^^^ (zobrist_table dest_ind org ^^^ zobrist_table dest_ind new_type)
    else hash4
  let hash6 := hash5 ^^^ zobrist_table 1 8
  { b with
    side_to_move := b.side_to_move ^^^ 1
    hash := hash6
    previous_states :=
      setAt b.previous_states (hash6 % 2 ^ 22) ((b.previous_states (hash6 % 2 ^ 22) + 1) % 2 ^ 16)
    move_stack :=
      { org_x := org_x, org_y := org_y, org_had_moved := b2n org_had_moved,
        dest_x := dest_x, dest_y := dest_y,
        captured_x := dest_x, captured_y := captured_y, captured_type := captured,
        captured_had_moved := b2n captured_had_moved,
        promotion_type := promotion,
        two_squares_flag_changed := b2n two_squares_changed } :: b.move_stack
    pieces := pieces4
    side_sets := side_sets3
    piece_sets := piece_sets4
    has_moved := has_moved3
    move_count := b.move_count + 1 }

/-- The square from which `make_move` removes the captured piece. -/
def cap_y (b : chessboard) (org_x org_y dest_x dest_y : Int) : Int :=
  let org := b.pieces (sq org_x org_y)
  let castling := org &&& type_mask == king && (org_x - dest_x).natAbs == 2
  let rook_org := sq (if org_x - dest_x > 0 then 0 else 7) org_y
  let rook_dst := sq (dest_x + (org_x - dest_x).tdiv 2) org_y
  let pieces1 :=
    if castling then
      setAt (setAt b.pieces rook_org (b.pieces rook_dst)) rook_dst (b.pieces rook_org)
    else b.pieces
  let en_passant :=
    pieces1 (sq dest_x dest_y) == 0 && org &&& type_mask == pawn && (org_x - dest_x).natAbs == 1
  if en_passant then (if org >>> side_shift ≠ 0 then dest_y + 1 else dest_y - 1) else dest_y

/-- What `move_core` needs to know about the squares it is given: `o` holds the moving
piece, `c` is the square of the capture (the destination `d`, or another square when `d` is
empty), and in a castling move the rook stands on `r1`, unmoved, next to the empty squares
`r2` and `d`. -/
structure CoreOK (b : chessboard) (o d c r1 r2 : Nat) (castling promote : Bool) : Prop where
  ho : o < 64
  hd : d < 64
  hc : c < 64
  hne : o ≠ d
  hp0 : b.pieces o ≠ 0
  hco : c ≠ o
  hcd : c = d ∨ b.pieces d = 0
  cast : castling = true →
    b.pieces o % 8 = 1 ∧ r1 < 64 ∧ r2 < 64 ∧ r1 ≠ r2 ∧ r1 ≠ o ∧ r1 ≠ d ∧ r2 ≠ o ∧ r2 ≠ d ∧
      b.pieces r1 = 5 + 8 * (b.pieces o / 8) ∧ b.pieces r2 = 0 ∧ b.pieces d = 0 ∧ c = d ∧
      b.has_moved.testBit r1 = false
  prom : promote = true → b.pieces o % 8 = 6

/-- The body of `unmake_move` for a record `move` that is not the null move, as a function
of the quantities it computes from the record. -/
def unmake_core (b : chessboard) (move : chessmove) (rest : List chessmove)
    (org_ind dest_ind cap_ind rook_org rook_dst : Nat) (castling : Bool) : chessboard :=
  let side_to_move1 := b.side_to_move ^^^ 1
  let previous_states1 :=
    setAt b.previous_states (b.hash % 2 ^ 22)
      ((b.previous_states (b.hash % 2 ^ 22) + (2 ^ 16 - 1)) % 2 ^ 16)
  let hash1 := b.hash ^^^ zobrist_table 1 8
  let hash2 := if move.two_squares_flag_changed ≠ 0 then hash1 ^^^ zobrist_table 0 8 else hash1
  let org_piece := b.pieces dest_ind
  let org_type := org_piece &&& type_mask
  let org_side := org_piece >>> side_shift
  let cap_piece := move.captured_type
  let cap_type := cap_piece &&& type_mask
  let cap_side := cap_piece >>> side_shift
  let cap_mask := shl64 1 cap_ind
  let org_mask := shl64 1 org_ind
  let dest_mask := shl64 1 dest_ind
  let rk := rook ||| (org_side <<< side_shift)
  let rook_mask := shl64 1 rook_org ||| shl64 1 rook_dst
  let side_sets1 :=
    if castling then setAt b.side_sets org_side (b.side_sets org_side ^^^ rook_mask)
    else b.side_sets
  let piece_sets1 :=
    if castling then setAt b.piece_sets rook (b.piece_sets rook ^^^ rook_mask)
    else b.piece_sets
  let pieces1 :=
    if castling then
      setAt (setAt b.pieces rook_org (b.pieces rook_dst)) rook_dst (b.pieces rook_org)
    else b.pieces
  let hash3 :=
    if castling then hash2 ^^^ (zobrist_table rook_org rk ^^^ zobrist_table rook_dst rk)
    else hash2
  let has_moved1 :=
    (b.has_moved &&& not64 (org_mask ||| dest_mask)) ||| shl64 move.org_had_moved org_ind
  let side_sets2 := setAt side_sets1 org_side (side_sets1 org_side ^^^ (dest_mask ^^^ org_mask))
  let piece_sets2 := setAt piece_sets1 org_type (piece_sets1 org_type ^^^ dest_mask)
  let org_type1 := if move.promotion_type ≠ 0 then pawn else org_type
  let org_new := org_type1 ||| (org_side <<< side_shift)
  let pieces2 := setAt (setAt pieces1 dest_ind 0) org_ind org_new
  let piece_sets3 := setAt piece_sets2 org_type1 (piece_sets2 org_type1 ^^^ org_mask)
  let hash4 := hash3 ^^^ (zobrist_table dest_ind org_piece ^^^ zobrist_table org_ind org_new)
  if move.captured_type ≠ 0 then
    { b with
      move_stack := rest
      move_count := b.move_count - 1
      side_to_move := side_to_move1
      previous_states := previous_states1
      hash := hash4 ^^^ zobrist_table cap_ind cap_piece
      has_moved := (has_moved1 &&& not64 cap_mask) ||| shl64 move.captured_had_moved cap_ind
      pieces := setAt pieces2 cap_ind cap_piece
      side_sets := setAt side_sets2 cap_side (side_sets2 cap_side ||| cap_mask)
      piece_sets := setAt piece_sets3 cap_type (piece_sets3 cap_type ||| cap_mask) }
  else
    { b with
      move_stack := rest
      move_count := b.move_count - 1
      side_to_move := side_to_move1
      previous_states := previous_states1
      hash := hash4
      has_moved := has_moved1
      pieces := pieces2
      side_sets := side_sets2
      piece_sets := piece_sets3 }

/-- What `unmake_core` needs to know about the board `b` and the record `m` it undoes. -/
structure UnOK (b : chessboard) (m : chessmove) (o d c r1 r2 : Nat) (castling : Bool) :
    Prop where
  ho : o < 64
  hd : d < 64
  hc : c < 64
  hne : o ≠ d
  hco : c ≠ o
  hpd : b.pieces d ≠ 0
  hpo : b.pieces o = 0
  cast : castling = true →
    r1 < 64 ∧ r2 < 64 ∧ r1 ≠ r2 ∧ r1 ≠ o ∧ r1 ≠ d ∧ r2 ≠ o ∧ r2 ≠ d ∧
      b.pieces r1 = 0 ∧ b.pieces r2 = 5 + 8 * (b.pieces d / 8)
  cap : m.captured_type ≠ 0 →
    valid_code m.captured_type ∧ (c = d ∨ b.pieces c = 0) ∧ (castling = true → c = d)

/-- The coordinates of an undo record are on the board. -/
def chessmove.sane (m : chessmove) : Prop :=
  0 ≤ m.org_x ∧ m.org_x ≤ 7 ∧ 0 ≤ m.org_y ∧ m.org_y ≤ 7 ∧
  0 ≤ m.dest_x ∧ m.dest_x ≤ 7 ∧ 0 ≤ m.dest_y ∧ m.dest_y ≤ 7

/-- The invariant of the position that play from a real starting position maintains.
Besides the consistency of the masks with `pieces` it records the discipline of `has_moved`
on which the generator relies: a bit of `has_moved` belongs to an occupied square, a pawn
whose bit is clear stands on the rank where its side starts, a king whose bit is clear
stands on file 4; pawns never stand on the first or last rank. -/
structure WF (b : chessboard) : Prop where
  mc : MC b.pieces b.side_sets b.piece_sets
  hm_occ : ∀ i, b.has_moved.testBit i = true → i < 64 ∧ b.pieces i ≠ 0
  pawn_rank : ∀ i, i < 64 → b.pieces i % 8 = 6 → 8 ≤ i ∧ i < 56
  pawn_home : ∀ i, i < 64 → b.pieces i % 8 = 6 → b.has_moved.testBit i = false →
    (b.pieces i / 8 = 1 → i / 8 = 6) ∧ (b.pieces i / 8 = 0 → i / 8 = 1)
  king_home : ∀ i, i < 64 → b.pieces i % 8 = 1 → b.has_moved.testBit i = false → i % 8 = 4
  stack_sane : ∀ m, m ∈ b.move_stack → m.sane
  prev_lt : ∀ k, b.previous_states k < 2 ^ 16
  stm : b.side_to_move ≤ 1

/-- The undo record that `move_core` pushes. -/
def core_record (b : chessboard) (ox oy dx dy cy : Int) (o c r1 r2 : Nat)
    (castling promote ts : Bool) : chessmove :=
  let pieces1 :=
    if castling then setAt (setAt b.pieces r1 (b.pieces r2)) r2 (b.pieces r1) else b.pieces
  { org_x := ox, org_y := oy,
    org_had_moved := b2n ((b.has_moved &&& shl64 1 o) != 0),
    dest_x := dx, dest_y := dy, captured_x := dx, captured_y := cy,
    captured_type := pieces1 c,
    captured_had_moved :=
      b2n (((b.has_moved &&& not64 (shl64 1 o)) &&& not64 (not64 (shl64 1 c))) != 0),
    promotion_type := if promote then queen ||| ((b.pieces o >>> side_shift) <<< side_shift) else 0,
    two_squares_flag_changed := b2n (ts != pawn_two_squares b) }

/-- The castling move of the king on `o` to `d`, two files away: the king stands on file 4
with its `has_moved` bit clear, `d` and the square the king steps over are empty, and the
rook of the king's side stands in the corner on that side with its `has_moved` bit clear. -/
def CastleOK (b : chessboard) (o d : Nat) : Prop :=
  o % 8 = 4 ∧ b.pieces d = 0 ∧ b.has_moved.testBit o = false ∧
    ((d + 2 = o ∧ b.pieces (o - 4) = 5 + 8 * (b.pieces o / 8) ∧ b.pieces (o - 1) = 0 ∧
        b.has_moved.testBit (o - 4) = false) ∨
     (d = o + 2 ∧ b.pieces (o + 3) = 5 + 8 * (b.pieces o / 8) ∧ b.pieces (o + 1) = 0 ∧
        b.has_moved.testBit (o + 3) = false))

/-- The geometry of a pawn move from `o` to `d`: one rank forward on the same or on an
adjacent file, or two ranks forward by a pawn whose `has_moved` bit is clear.  Side 1 moves
towards rank 0, side 0 towards rank 7. -/
def PawnOK (b : chessboard) (o d : Nat) : Prop :=
  (b.pieces o / 8 = 1 →
    (d + 8 = o ∨ (d + 9 = o ∧ o % 8 ≠ 0) ∨ (d + 7 = o ∧ o % 8 ≠ 7) ∨
      (d + 16 = o ∧ b.has_moved.testBit o = false))) ∧
  (b.pieces o / 8 = 0 →
    (d = o + 8 ∨ (d = o + 9 ∧ o % 8 ≠ 7) ∨ (d = o + 7 ∧ o % 8 ≠ 0) ∨
      (d = o + 16 ∧ b.has_moved.testBit o = false)))

/-- The moves from square `o` to square `d` that `make_move` is prepared for: `o` holds a
piece, a king moves two files only to castle, and a pawn moves like a pawn. -/
structure MoveOK (b : chessboard) (o d : Nat) : Prop where
  ho : o < 64
  hd : d < 64
  hne : o ≠ d
  hp0 : b.pieces o ≠ 0
  king : b.pieces o % 8 = 1 → (d % 8 + 2 = o % 8 ∨ o % 8 + 2 = d % 8) → CastleOK b o d
  pawn : b.pieces o % 8 = 6 → PawnOK b o d

/-- The square of the capture in `make_move_sq`. -/
def cap_sq (b : chessboard) (o d : Nat) : Nat :=
  if b.pieces d = 0 ∧ b.pieces o % 8 = 6 ∧ (d % 8 + 1 = o % 8 ∨ o % 8 + 1 = d % 8) then
    (if b.pieces o / 8 ≠ 0 then d + 8 else d - 8)
  else d

/-- Whether `make_move_sq` treats the move as castling. -/
def is_castling (b : chessboard) (o d : Nat) : Bool :=
  decide (b.pieces o % 8 = 1 ∧ (d % 8 + 2 = o % 8 ∨ o % 8 + 2 = d % 8))

/-- Whether `make_move_sq` promotes the moving pawn. -/
def is_promotion (b : chessboard) (o d : Nat) : Bool :=
  decide (b.pieces o % 8 = 6 ∧ ((d / 8 : Nat) : Int) = (1 - ((b.pieces o / 8 : Nat) : Int)) * 7)

/-- Whether the move is a pawn's advance by two ranks. -/
def is_two_squares (b : chessboard) (o d : Nat) : Bool :=
  decide ((d / 8 + 2 = o / 8 ∨ o / 8 + 2 = d / 8) ∧ b.pieces o % 8 = 6)

/-- The corner from which the rook of a castling move comes. -/
def rook_from (o d : Nat) : Nat := (if d % 8 < o % 8 then 0 else 7) + 8 * (o / 8)

/-- The square on which the rook of a castling move lands. -/
def rook_to (o d : Nat) : Nat :=
  sq (((d &&& 7 : Nat) : Int) + (((o &&& 7 : Nat) : Int) - ((d &&& 7 : Nat) : Int)).tdiv 2)
    ((o >>> 3 : Nat) : Int)

/-- The value `captured_y` of `make_move_sq`. -/
def cap_row (b : chessboard) (o d : Nat) : Int :=
  cap_y b ((o &&& 7 : Nat) : Int) ((o >>> 3 : Nat) : Int) ((d &&& 7 : Nat) : Int)
    ((d >>> 3 : Nat) : Int)

/-- The key that a square with content `p` contributes to the digest. -/
def piece_key (i p : Nat) : Nat := if p ≠ 0 then zobrist_table i p else 0

/-- The keys of the squares in `l`, combined. -/
def zsum (P : Nat → Nat) : List Nat → Nat
  | [] => 0
  | i :: l => piece_key i (P i) ^^^ zsum P l

/-! ## The legality filter on a well-formed board -/

/-- The answer of `is_move_safe` for the move from `o` to `d`. -/
def safe_sq (b : chessboard) (side o d : Nat) : Bool := !in_check (make_move_sq b o d) side

/-- Square `ind` holds a piece of type `t` and side `side`. -/
def Own (b : chessboard) (side t ind : Nat) : Prop :=
  ind < 64 ∧ b.pieces ind % 8 = t ∧ b.pieces ind / 8 = side ∧ b.pieces ind ≠ 0

/-- What the generator may write into `matrices[o]` for a piece of type `t` before the
legality filter: moves that `make_move` is prepared for, and for a pawn exactly bits of
`pawn_moves`. -/
def EntryOK (b : chessboard) (side t o v : Nat) : Prop :=
  ∀ d, v.testBit d = true → MoveOK b o d ∧
    (t = 6 → (pawn_moves b (last_move b) side o (b.side_sets (side ^^^ 1))
      (not64 (b.side_sets 0 ||| b.side_sets 1))).testBit d = true)

/-- In legal mode every bit of the entry is a move after which `side` is not in check. -/
def EntrySafe (b : chessboard) (side : Nat) (pseudo : Bool) (o v : Nat) : Prop :=
  pseudo = false → ∀ d, v.testBit d = true → safe_sq b side o d = true

/-- The invariant of a run of `generate_moves` on the board `b` with the initial array
`M0`: the board is `b` again, and each entry is either untouched or holds moves of a piece
of `side` standing on that square. -/
def GInv (b : chessboard) (side : Nat) (pseudo : Bool) (M0 : Nat → Nat) (st : gen_state) : Prop :=
  st.board = b ∧ ∀ o, st.matrices o = M0 o ∨
    ∃ t, Own b side t o ∧ EntryOK b side t o (st.matrices o) ∧
      EntrySafe b side pseudo o (st.matrices o)

instance (m : chessmove) : Decidable m.sane := by unfold chessmove.sane; infer_instance

/-- The part of `WF` that can be checked square by square. -/
def WFcheck (b : chessboard) : Prop :=
  (∀ i, i < 64 → valid_code (b.pieces i)) ∧
  (∀ s, s < 2 → b.side_sets s < 2 ^ 64 ∧
    ∀ i, i < 64 → ((b.side_sets s).testBit i = true ↔ b.pieces i ≠ 0 ∧ b.pieces i / 8 = s)) ∧
  (∀ t, t < 7 → 1 ≤ t → b.piece_sets t < 2 ^ 64 ∧
    ∀ i, i < 64 → ((b.piece_sets t).testBit i = true ↔ b.pieces i % 8 = t)) ∧
  b.piece_sets 0 = 0 ∧
  b.has_moved < 2 ^ 64 ∧
  (∀ i, i < 64 → b.has_moved.testBit i = true → b.pieces i ≠ 0) ∧
  (∀ i, i < 64 → b.pieces i % 8 = 6 → 8 ≤ i ∧ i < 56) ∧
  (∀ i, i < 64 → b.pieces i % 8 = 6 → b.has_moved.testBit i = false →
    (b.pieces i / 8 = 1 → i / 8 = 6) ∧ (b.pieces i / 8 = 0 → i / 8 = 1)) ∧
  (∀ i, i < 64 → b.pieces i % 8 = 1 → b.has_moved.testBit i = false → i % 8 = 4) ∧
  (∀ m, m ∈ b.move_stack → m.sane) ∧
  b.side_to_move ≤ 1

set_option synthInstance.maxSize 2000 in
set_option synthInstance.maxHeartbeats 400000 in
instance (b : chessboard) : Decidable (WFcheck b) := by unfold WFcheck; infer_instance

/-- Whether `generate_moves`, run for `side` on a zeroed array as `process_move` and `search`
run it, leaves bit `d` in `matrices[o]`. -/
def generated (b : chessboard) (side : Nat) (pseudo : Bool) (o d : Nat) : Bool :=
  ((generate_moves b side (fun _ => 0) pseudo false (2 ^ 64 - 1)).2.matrices o).testBit d

/-- The moves `generate_moves` yields in legal mode for the side to move. -/
def yields (b : chessboard) (o d : Nat) : Bool := generated b b.side_to_move false o d

/-- The positions reachable from the standard initial position by moves the generator
yields in legal mode, each executed by `make_move` the way `process_move` does. -/
inductive Reachable : chessboard → Prop
  | start : Reachable standard_board
  | step {b : chessboard} {o d : Nat} :
      Reachable b → yields b o d = true → Reachable (make_move_sq b o d)

/-- The three facts of mask consistency: the side masks are disjoint, their union is the
union of the type masks `1..6`, and on every square `pieces` is nonzero exactly when the
square is occupied, the side and type bits of the code matching membership in `side_sets`
and `piece_sets`. -/
def mask_consistent (b : chessboard) : Prop :=
  b.side_sets 0 &&& b.side_sets 1 = 0 ∧
  b.side_sets 0 ||| b.side_sets 1 =
    b.piece_sets 1 ||| b.piece_sets 2 ||| b.piece_sets 3 ||| b.piece_sets 4 |||
      b.piece_sets 5 ||| b.piece_sets 6 ∧
  ∀ i, i < 64 →
    ((b.pieces i ≠ 0 ↔ (b.side_sets 0 ||| b.side_sets 1).testBit i = true) ∧
     (∀ s, s < 2 → ((b.side_sets s).testBit i = true ↔
        b.pieces i ≠ 0 ∧ b.pieces i >>> side_shift = s)) ∧
     (∀ t, t < 7 → 1 ≤ t → ((b.piece_sets t).testBit i = true ↔
        b.pieces i ≠ 0 ∧ b.pieces i &&& type_mask = t)))

set_option synthInstance.maxSize 2000 in
set_option synthInstance.maxHeartbeats 400000 in
instance (b : chessboard) : Decidable (mask_consistent b) := by
  unfold mask_consistent; infer_instance

/-- Play the listed moves (origin square, destination square) with `make_move`, each only if
`generate_moves` yields it in legal mode for the side to move; `none` if one is not
yielded. -/
def play_legal : chessboard → List (Nat × Nat) → Option chessboard
  | b, [] => some b
  | b, (o, d) :: rest =>
    if yields b o d then play_legal (make_move_sq b o d) rest else none

/-- Kings on e8 and e1, a pawn of side 1 on a6 with its `has_moved` bit clear. -/
def codes_pawn_sixth : List Nat :=
  [0, 0, 0, 0, 1, 0, 0, 0,
   0, 0, 0, 0, 0, 0, 0, 0,
   14, 0, 0, 0, 0, 0, 0, 0,
   0, 0, 0, 0, 0, 0, 0, 0,
   0, 0, 0, 0, 0, 0, 0, 0,
   0, 0, 0, 0, 0, 0, 0, 0,
   0, 0, 0, 0, 0, 0, 0, 0,
   0, 0, 0, 0, 9, 0, 0, 0]

/-- King of side 0 on e8; side 1 has a rook on a1, a knight on b1 and its king on c1. -/
def codes_king_c1 : List Nat :=
  [0, 0, 0, 0, 1, 0, 0, 0,
   0, 0, 0, 0, 0, 0, 0, 0,
   0, 0, 0, 0, 0, 0, 0, 0,
   0, 0, 0, 0, 0, 0, 0, 0,
   0, 0, 0, 0, 0, 0, 0, 0,
   0, 0, 0, 0, 0, 0, 0, 0,
   0, 0, 0, 0, 0, 0, 0, 0,
   13, 12, 9, 0, 0, 0, 0, 0]

/-- King of side 0 on e8; side 1 has a rook on a1, a knight on b1 and its king on e1. -/
def codes_knight_b1 : List Nat :=
  [0, 0, 0, 0, 1, 0, 0, 0,
   0, 0, 0, 0, 0, 0, 0, 0,
   0, 0, 0, 0, 0, 0, 0, 0,
   0, 0, 0, 0, 0, 0, 0, 0,
   0, 0, 0, 0, 0, 0, 0, 0,
   0, 0, 0, 0, 0, 0, 0, 0,
   0, 0, 0, 0, 0, 0, 0, 0,
   13, 12, 0, 0, 9, 0, 0, 0]

/-- King of side 0 on a8 and its rook on f8; side 1 has its king on e1 and a rook on h1. -/
def codes_rook_f8 : List Nat :=
  [1, 0, 0, 0, 0, 5, 0, 0,
   0, 0, 0, 0, 0, 0, 0, 0,
   0, 0, 0, 0, 0, 0, 0, 0,
   0, 0, 0, 0, 0, 0, 0, 0,
   0, 0, 0, 0, 0, 0, 0, 0,
   0, 0, 0, 0, 0, 0, 0, 0,
   0, 0, 0, 0, 0, 0, 0, 0,
   0, 0, 0, 0, 9, 0, 0, 13]

/-- Kings on h8 and h1, a pawn of side 1 on b7. -/
def codes_pawn_b7 : List Nat :=
  [0, 0, 0, 0, 0, 0, 0, 1,
   0, 14, 0, 0, 0, 0, 0, 0,
   0, 0, 0, 0, 0, 0, 0, 0,
   0, 0, 0, 0, 0, 0, 0, 0,
   0, 0, 0, 0, 0, 0, 0, 0,
   0, 0, 0, 0, 0, 0, 0, 0,
   0, 0, 0, 0, 0, 0, 0, 0,
   0, 0, 0, 0, 0, 0, 0, 9]

/-- A pawn of side `s` on `o` steps one rank forward and one file sideways to `d`. -/
def pawn_diagonal (s o d : Nat) : Prop :=
  o < 64 ∧ d < 64 ∧
  (s = 1 → (d + 9 = o ∧ o % 8 ≠ 0) ∨ (d + 7 = o ∧ o % 8 ≠ 7)) ∧
  (s = 0 → (d = o + 9 ∧ o % 8 ≠ 7) ∨ (d = o + 7 ∧ o % 8 ≠ 0))

instance (s o d : Nat) : Decidable (pawn_diagonal s o d) := by
  unfold pawn_diagonal; infer_instance

/-- King of side 0 on e8; side 1 has its king on e1 and a rook on h1. -/
def codes_rook_h1 : List Nat :=
  [0, 0, 0, 0, 1, 0, 0, 0,
   0, 0, 0, 0, 0, 0, 0, 0,
   0, 0, 0, 0, 0, 0, 0, 0,
   0, 0, 0, 0, 0, 0, 0, 0,
   0, 0, 0, 0, 0, 0, 0, 0,
   0, 0, 0, 0, 0, 0, 0, 0,
   0, 0, 0, 0, 0, 0, 0, 0,
   0, 0, 0, 0, 9, 0, 0, 13]

/-- The corner from which the rook comes and the square the king steps over, for a king
move of two files on one rank. -/
def castle_corner (o d : Nat) : Nat := (if d < o then 0 else 7) + 8 * (o / 8)

/-! ## Scores (`eval.hh`) -/

/-- The constant `INT_MAX` of a 32-bit `int`. -/
def INT_MAX : Int := 2147483647

/-- The value an `int` holds after a computation whose exact result is `x` (two's
complement, 32 bit). -/
def wrap32 (x : Int) : Int := (x + 2 ^ 31) % 2 ^ 32 - 2 ^ 31

/-- The function `evaluation::to_string`.  Its third branch prints the `double` value
`val / 100.`; `fmt` stands for that formatting, which the claims do not speak about. -/
def to_string (fmt : Int → String) (val : Int) : String :=
  if val ≥ wrap32 (INT_MAX - 256) then
    "#" ++ toString ((wrap32 (wrap32 (INT_MAX - val) + 1)).tdiv 2)
  else if val ≤ wrap32 (-INT_MAX + 256) then
    "#-" ++ toString ((wrap32 (wrap32 (val + INT_MAX) + 1)).tdiv 2)
  else fmt val

/-! ## The reference evaluator (`eval_proper.cc`) -/

/-- The constant `file_A`. -/
def file_A : Nat := 0x0101010101010101

/-- The constant `rank_1`. -/
def rank_1 : Nat := 0xFF00000000000000

/-- The result of an `int` computation whose exact value is `x`: that value when it fits in
32 bits, and nothing when the computation overflows. -/
def ck (x : Int) : Option Int := if -2 ^ 31 ≤ x ∧ x ≤ 2 ^ 31 - 1 then some x else none

/-- The conversion of a 64-bit value to `int`: the low 32 bits, read as two's complement. -/
def to_int32 (v : Nat) : Int := wrap32 ((v : Nat) : Int)

/-- The conversion of an `int` to `bits` (sign extension to 64 bits). -/
def of_int (i : Int) : Nat := (i % 2 ^ 64).toNat

/-- The function `pieces_on_file`, whose result type is `int`. -/
def pieces_on_file (b : chessboard) (x : Nat) (type : Nat) : Int :=
  to_int32 (shl64 file_A x &&& b.piece_sets type)

/-- The intrinsic `__popcnt64`. -/
def popcnt64 (v : Nat) : Nat := (set_bits v).length

/-- The table of the king branch of `eval_pieces`. -/
def king_table : List Int :=
  [-65, 23, 16, -15, -56, -34, 2, 13,
   29, -1, -20, -7, -8, -4, -38, -29,
   -9, 24, 2, -16, -20, 6, 22, -22,
   -17, -20, -12, -27, -30, -25, -14, -36,
   -49, -1, -27, -39, -46, -44, -33, -51,
   -14, -14, -22, -46, -44, -30, -15, -27,
   1, 7, -8, -64, -43, -16, 9, 8,
   -15, 36, 12, -54, 8, -28, 24, 14]

/-- The product `4 * t * t` as `eval_pieces` computes it, from the left. -/
def four_sq (t : Int) : Option Int := do
  let m ← ck (4 * t)
  ck (m * t)

/-- The reach `(maskfw | maskrev) & not_friendly` of round `i` of the bishop branch. -/
def bishop_reach (ind i all_pieces not_friendly : Nat) : Nat :=
  let fw := masks_fw ind i
  let rev := masks_rev ind i
  let maskfw :=
    if fw.last &&& all_pieces != 0 then fw.steps (bsf (fw.last &&& all_pieces)) else fw.last
  let maskrev :=
    if rev.last &&& all_pieces != 0 then rev.steps (bsr (rev.last &&& all_pieces)) else rev.last
  (maskfw ||| maskrev) &&& not_friendly

/-- One round of the loop of `eval_pieces<side, type>`: the new `score` after the piece on
`ind` is counted, every `+=` and `-=` on the `int` checked for overflow. -/
def piece_step (b : chessboard) (side type : Nat) (score : Int) (ind : Nat) : Option Int :=
  let all_pieces := b.side_sets 0 ||| b.side_sets 1
  let not_friendly := b.side_sets (side ^^^ 1)
  let x : Nat := ind % 8
  let y : Nat := ind / 8
  if type = pawn then do
    let s1 ← ck (score + 80)
    let s2 ←
      if (x == 0 || (shl64 file_A (x - 1) &&& b.side_sets side) == 0) &&
          (x == 7 || (shl64 file_A (x + 1) &&& b.side_sets side) == 0) then ck (s1 - 20)
      else some s1
    let s3 ←
      if (b.side_sets side &&& (if side = 0 then ind <<< 8 else ind >>> 8)) != 0 then ck (s2 - 20)
      else some s2
    let y1 : Nat := if side ≠ 0 then y ^^^ 7 else y
    let m ← four_sq ((y1 : Int) - 1)
    let s4 ← ck (s3 + m)
    let n ← four_sq ((x : Int) - 4)
    ck (s4 - n)
  else if type = queen then ck (score + 1000)
  else if type = bishop then do
    let s1 ← ck (score + 360)
    let s2 ← ck (s1 + (popcnt64 (bishop_reach ind 0 all_pieces not_friendly) : Int))
    ck (s2 + (popcnt64 (bishop_reach ind 1 all_pieces not_friendly) : Int))
  else if type = knight then do
    let s1 ← ck (score + 320)
    ck (s1 + (-80 + 10 * (popcnt64 (capture_masks ind knight &&& not64 (b.side_sets side)) : Int)))
  else if type = rook then do
    let s1 ← ck (score + 470)
    let pawns : Nat := of_int (pieces_on_file b x pawn)
    let our_pawns : Bool := (pawns &&& b.side_sets (side ^^^ 1)) != 0
    let their_pawns : Bool := (pawns &&& b.side_sets side) != 0
    if their_pawns then ck (s1 + (if our_pawns then 10 else 30)) else some s1
  else if type = king then ck (score + king_table.getD (ind ^^^ ((1 - side) * 56)) 0)
  else some score

/-- The loop of `eval_pieces` over the remaining pieces. -/
def eval_loop (b : chessboard) (side type : Nat) : List Nat → Int → Option Int
  | [], score => some score
  | ind :: rest, score => (piece_step b side type score ind).bind (eval_loop b side type rest)

/-- The function template `eval_pieces<side, type>`. -/
def eval_pieces (b : chessboard) (side type : Nat) : Option Int :=
  eval_loop b side type (set_bits (b.piece_sets type &&& b.side_sets side)) 0

/-- The `int` sum `a + v` of two `int` results. -/
def add_int (a v : Option Int) : Option Int := a.bind fun x => v.bind fun y => ck (x + y)

/-- The `int` difference `a - v` of two `int` results. -/
def sub_int (a v : Option Int) : Option Int := a.bind fun x => v.bind fun y => ck (x - y)

/-- The `int` product `a * v` of two `int` results. -/
def mul_int (a v : Option Int) : Option Int := a.bind fun x => v.bind fun y => ck (x * y)

/-- The function `evaluation::proper` (its counter `g_total_nodes` left aside), the sum
taken from the left as the expression is written. -/
def proper (b : chessboard) (side : Int) : Option Int :=
  mul_int (sub_int (mul_int (some side) (some 2)) (some 1))
    (sub_int (add_int (sub_int (add_int (sub_int (add_int (sub_int (add_int (sub_int (add_int
      (sub_int (eval_pieces b 1 pawn) (eval_pieces b 0 pawn))
      (eval_pieces b 1 king)) (eval_pieces b 0 king))
      (eval_pieces b 1 rook)) (eval_pieces b 0 rook))
      (eval_pieces b 1 knight)) (eval_pieces b 0 knight))
      (eval_pieces b 1 bishop)) (eval_pieces b 0 bishop))
      (eval_pieces b 1 queen)) (eval_pieces b 0 queen))

/-! ## The head of `timed_negamax_search` (`search.cc`) -/

/-- The structure `transposition_entry`. -/
structure transposition_entry where
  hash : Nat
  value : Int
  depth : Int
  type : Int

/-- The constant `transposition_lower`. -/
def transposition_lower : Int := 1

/-- The constant `transposition_upper`. -/
def transposition_upper : Int := 2

/-- The constant `transposition_exact`. -/
def transposition_exact : Int := 3

/-- The loop `for (int i = 0; i < board.appended_moves; i++) board.unmake_move();` that
precedes `throw out_of_time_exception()`, entered with the counter `i`; `unmake_move` leaves
`appended_moves` alone, so the loop makes `appended_moves - i` rounds. -/
def unwind_loop : Nat → chessboard → chessboard
  | 0, b => b
  | n + 1, b => unwind_loop n (unmake_move b)

/-- The unwinding of the board before the throw. -/
def unwind (b : chessboard) : chessboard := unwind_loop b.appended_moves.toNat b

/-- How control leaves the head of `timed_negamax_search`: by one of its `return`s, by the
`throw`, or on to the evaluation and the move loop, with the board and the window as they
are then. -/
inductive search_exit where
  | returned (v : Int)
  | out_of_time (b : chessboard)
  | proceeds (b : chessboard) (alpha beta : Int) (checked : Bool)

/-- The function `timed_negamax_search` from its entry to the test for checkmate and
stalemate.  `has_move` says whether the argument `move` is non-null, `entry` is
`transpositions[z]`, and `time_up` is the value of
`high_resolution_clock::now() >= config.deadline || halt_search`. -/
def search_head (board : chessboard) (depth alpha beta : Int) (has_move : Bool)
    (entry : transposition_entry) (time_up : Bool) : search_exit :=
  let side := board.side_to_move
  let z := board.hash
  -- Threefold repetition is a draw
  if board.previous_states (z % 2 ^ 22) + 1 ≥ 3 then search_exit.returned 0
  else
    let probe : Option Int × Int × Int :=
      if !has_move && entry.type != 0 && entry.hash == z then
        if entry.depth ≥ depth then
          if entry.type = transposition_exact then
            (some (if entry.value ≥ wrap32 (INT_MAX - 256) then
                    wrap32 (entry.value - board.appended_moves)
                  else if entry.value ≤ wrap32 (-INT_MAX + 256) then
                    wrap32 (entry.value + board.appended_moves)
                  else entry.value), alpha, beta)
          else
            let alpha1 := if entry.type = transposition_lower then max alpha entry.value else alpha
            let beta1 := if entry.type = transposition_upper then min beta entry.value else beta
            if alpha1 ≥ beta1 then (some entry.value, alpha1, beta1) else (none, alpha1, beta1)
        else (none, alpha, beta)
      else (none, alpha, beta)
    match probe with
    | (some v, _, _) => search_exit.returned v
    | (none, alpha1, beta1) =>
      if depth ≥ 2 && time_up then search_exit.out_of_time (unwind board)
      else
        let checked := in_check board side
        -- Checkmate for this side or a stalemate
        let r := any_moves board side
        if !r.1 then
          search_exit.returned (if checked then wrap32 (-INT_MAX + r.2.board.appended_moves) else 0)
        else search_exit.proceeds r.2.board alpha1 beta1 checked

/-- The king of side 1 on e1, the queen of side 0 on e2 and the king of side 0 on e3. -/
def codes_mated : List Nat :=
  [0, 0, 0, 0, 0, 0, 0, 0,
   0, 0, 0, 0, 0, 0, 0, 0,
   0, 0, 0, 0, 0, 0, 0, 0,
   0, 0, 0, 0, 0, 0, 0, 0,
   0, 0, 0, 0, 0, 0, 0, 0,
   0, 0, 0, 0, 1, 0, 0, 0,
   0, 0, 0, 0, 2, 0, 0, 0,
   0, 0, 0, 0, 9, 0, 0, 0]

/-! ## Descending into a move and storing a result (`search.cc`) -/

/-- The statements `board.make_move(...); board.appended_moves++;` with which
`search_helper` enters a move. -/
def enter_move (b : chessboard) (org_x org_y dest_x dest_y : Int) : chessboard :=
  let b1 := make_move b org_x org_y dest_x dest_y
  { b1 with appended_moves := wrap32 (b1.appended_moves + 1) }

/-- The statements `board.unmake_move(); board.appended_moves--;` with which `search_helper`
leaves the move again. -/
def leave_move (b : chessboard) : chessboard :=
  let b1 := unmake_move b
  { b1 with appended_moves := wrap32 (b1.appended_moves - 1) }

/-- The conversion of an `int` to `char`. -/
def wrap8 (x : Int) : Int := (x + 2 ^ 7) % 2 ^ 8 - 2 ^ 7

/-- The entry that the end of `timed_negamax_search` writes to `transpositions[z]` for the
best value found. -/
def tt_store (z : Nat) (best_value depth orig_alpha beta : Int) : transposition_entry :=
  { hash := z, value := best_value, depth := wrap8 depth,
    type :=
      if best_value ≤ orig_alpha then transposition_upper
      else if best_value ≥ beta then transposition_lower
      else transposition_exact }

/-! ## The ordering of the moves (`search.cc`) -/

/-- The struct `rated_move`. -/
structure rated_move where
  value : Int
  move : chessmove
  board_hash : Nat := 0

/-- The element `moves[j]`. -/
def rated_at (moves : List rated_move) (j : Nat) : rated_move :=
  moves.getD j { value := -INT_MAX, move := {} }

/-- The statement `std::swap(moves[j - 1], moves[j])` for `j = k + 1`. -/
def swap_down (moves : List rated_move) (k : Nat) : List rated_move :=
  (moves.set k (rated_at moves (k + 1))).set (k + 1) (rated_at moves k)

/-- The loop `while (j > 0 && moves[j - 1].value < moves[j].value) { swap; j--; }`, entered
with the counter `j`. -/
def sift_down : Nat → List rated_move → List rated_move
  | 0, moves => moves
  | k + 1, moves =>
    if (rated_at moves k).value < (rated_at moves (k + 1)).value then
      sift_down k (swap_down moves k)
    else moves

/-- The insertion sort of `timed_negamax_search`:
`for (unsigned i = 1; i < moves.size(); i++) { unsigned j = i; while ... }`. -/
def insertion_sort (moves : List rated_move) : List rated_move :=
  (List.range' 1 (moves.length - 1)).foldl (fun l i => sift_down i l) moves

/-- What `sift_down` does to the element `x` that follows a prefix, the prefix given in
reverse (`r` starts with the element next to `x`): `x` passes the elements of smaller value
and stops at the first that is not smaller. -/
def ins_rev (x : rated_move) : List rated_move → List rated_move
  | [] => [x]
  | y :: r => if y.value < x.value then y :: ins_rev x r else x :: y :: r

/-- The entries of `matrices` in `st` that differ from the caller's array `M0` hold only
squares of `mask`. -/
def Masked (M0 : Nat → Nat) (mask : Nat) (st : gen_state) : Prop :=
  ∀ o, st.matrices o = M0 o ∨ ∀ j, (st.matrices o).testBit j = true → mask.testBit j = true

/-- Replay the listed moves (origin square, destination square) through `make_move`. -/
def replay : chessboard → List (Nat × Nat) → chessboard
  | b, [] => b
  | b, (o, d) :: rest => replay (make_move_sq b o d) rest

/-- The moves g1-f3, g8-f6, f3-g1, f6-g8, played twice. -/
def knight_dance : List (Nat × Nat) :=
  [(62, 45), (6, 21), (45, 62), (21, 6), (62, 45), (6, 21), (45, 62), (21, 6)]

/-- Whether each of the listed moves is one that `generate_moves` yields in pseudo mode for
the side to move of the board it is made on. -/
def pseudo_path : chessboard → List (Nat × Nat) → Bool
  | _, [] => true
  | b, (o, d) :: rest =>
    generated b b.side_to_move true o d && pseudo_path (make_move_sq b o d) rest

/-- The path a6-a8 (the double step into promotion), Ke8-e7, Ke1-d1, Ke7-e6, Kd1-d2. -/
def path_double : List (Nat × Nat) := [(16, 0), (4, 12), (60, 59), (12, 20), (59, 51)]

/-- The path a6-a7, Ke8-e7, a7-a8, Ke7-e6, Ke1-d2. -/
def path_single : List (Nat × Nat) := [(16, 8), (4, 12), (8, 0), (12, 20), (60, 51)]

/-- The entry `matrices[ind]` of `st` holds a square of `mask` to which the piece on `ind`
can move without leaving `side` in check. -/
def Wit (b : chessboard) (side mask ind : Nat) (st : gen_state) : Prop :=
  ∃ d, d < 64 ∧ (st.matrices ind).testBit d = true ∧ mask.testBit d = true ∧
    safe_sq b side ind d = true

/-- All entries of `matrices` are empty. -/
def AllZero (st : gen_state) : Prop := ∀ o, st.matrices o = 0

/-- The loop of `generate_moves` in legal mode for the pieces of type `t`, with the lists of
pieces read off the board `b`. -/
def run_stage (b : chessboard) (side mask : Nat) (exit_on_legal : Bool) (t : Nat)
    (st : gen_state) : Bool × gen_state :=
  if t = pawn then
    pawn_loop (last_move b) side false exit_on_legal mask (b.side_sets (side ^^^ 1))
      (not64 (b.side_sets 0 ||| b.side_sets 1)) (set_bits (b.piece_sets pawn &&& b.side_sets side)) st
  else if t = knight ∨ t = king then
    jump_loop side false exit_on_legal mask (b.side_sets side) (b.side_sets 0 ||| b.side_sets 1)
      (not64 (b.side_sets 0 ||| b.side_sets 1) ||| b.side_sets (side ^^^ 1)) t
      (set_bits (b.piece_sets t &&& b.side_sets side)) st
  else
    sliding_loop side false exit_on_legal mask (b.side_sets 0 ||| b.side_sets 1)
      (not64 (b.side_sets 0 ||| b.side_sets 1) ||| b.side_sets (side ^^^ 1)) t
      (set_bits (b.piece_sets t &&& b.side_sets side)) st

/-- The loops for the listed piece types one after the other, each left by its `return true`
if it takes it. -/
def cascade (b : chessboard) (side mask : Nat) (exit_on_legal : Bool) :
    List Nat → gen_state → Bool × gen_state
  | [], st => (false, st)
  | t :: ts, st =>
    if (run_stage b side mask exit_on_legal t st).1 then run_stage b side mask exit_on_legal t st
    else cascade b side mask exit_on_legal ts (run_stage b side mask exit_on_legal t st).2

/-- Modelled from the spec: the perft count, the number of leaf positions `depth` plies below
`b`, by recursion over the destination sets that `generate_moves` produces in legal mode for
the side to move, each move made by `make_move`; no file under `src/` holds such a
function. -/
def perft : Nat → chessboard → Nat
  | 0, _ => 1
  | depth + 1, b =>
    ((List.range 64).map (fun o =>
      ((set_bits ((generate_moves b b.side_to_move (fun _ => 0) false false
          (2 ^ 64 - 1)).2.matrices o)).map
        (fun d => perft depth (make_move_sq b o d))).sum)).sum

/-- The positions that follow `a` in a sequence of `make_move` calls, each call playing a
move that `generate_moves` produced on the position it is applied to, for either side and
in either mode. -/
inductive Plays (a : chessboard) : chessboard → Prop
  | refl : Plays a a
  | step (c : chessboard) (side o d : Nat) (pseudo : Bool) :
      Plays a c → side < 2 → generated c side pseudo o d = true → Plays a (make_move_sq c o d)

/-- Each side has at most one king on the board, and a king whose `has_moved` bit is clear
stands on the square where the standard position puts it. -/
structure KingInv (b : chessboard) : Prop where
  wf : WF b
  one_king : ∀ i j, i < 64 → j < 64 → b.pieces i % 8 = 1 → b.pieces j = b.pieces i → i = j
  king_sq : ∀ i, i < 64 → b.pieces i % 8 = 1 → b.has_moved.testBit i = false →
    i = 4 + 56 * (b.pieces i / 8)

/-- Every king of side `s` on the board has its `has_moved` bit set. -/
def KingsMoved (b : chessboard) (s : Nat) : Prop :=
  ∀ i, i < 64 → b.pieces i = 1 + 8 * s → b.has_moved.testBit i = true

/-- The square `q` does not hold a rook of side `s` whose `has_moved` bit is clear. -/
def CornerSpent (b : chessboard) (s q : Nat) : Prop :=
  b.pieces q = 5 + 8 * s → b.has_moved.testBit q = true

/-- The mask with the bits of the squares of a list. -/
def bits_of : List Nat → Nat
  | [] => 0
  | q :: r => shl64 1 q ||| bits_of r

/-- The part of a list of squares up to and including the first occupied one. -/
def cut_at (occ : Nat) : List Nat → List Nat
  | [] => []
  | q :: r => if occ.testBit q then [q] else q :: cut_at occ r

/-- The array `steps` after the loop of `init_lookups` has gone through the squares of a
list, `acc` being the value of `last` before. -/
def steps_of (acc : Nat) : List Nat → (Nat → Nat) → Nat → Nat
  | [], f => f
  | q :: r, f => steps_of (acc ||| shl64 1 q) r (setAt f q (acc ||| shl64 1 q))

/-- The walk of the specification: from the square `(x, y)` in the direction `(dx, dy)`,
square by square, adding each square until the board edge or the first occupied square
(inclusive).  A ray has at most seven squares, so the walk ends within eight steps; `fuel`
bounds the number of steps. -/
def walk (occ : Nat) (dx dy : Int) : Nat → Int → Int → List Nat
  | 0, _, _ => []
  | fuel + 1, x, y =>
    if 0 ≤ x + dx ∧ x + dx ≤ 7 ∧ 0 ≤ y + dy ∧ y + dy ≤ 7 then
      if occ.testBit (sq (x + dx) (y + dy)) then [sq (x + dx) (y + dy)]
      else sq (x + dx) (y + dy) :: walk occ dx dy fuel (x + dx) (y + dy)
    else []

/-- The ray directions of a sliding piece: the four diagonals for a bishop, the four
orthogonals for a rook, all eight for a queen. -/
def ray_dirs (type : Nat) : List (Int × Int) :=
  if type = bishop then [(-1, 1), (1, 1), (-1, -1), (1, -1)]
  else if type = rook then [(1, 0), (0, 1), (-1, 0), (0, -1)]
  else [(-1, 1), (1, 1), (-1, -1), (1, -1), (1, 0), (0, 1), (-1, 0), (0, -1)]

/-- The destination set of the specification for a sliding piece of `type` on `ind`: the
squares of the walks along the directions of the type, without the squares that the
piece's own side occupies. -/
def ray_walk (fuel type ind occ own : Nat) : List Nat :=
  ((ray_dirs type).flatMap
    (fun v => walk occ v.1 v.2 fuel ((ind % 8 : Nat) : Int) ((ind / 8 : Nat) : Int))).filter
    (fun d => !own.testBit d)

/-- The boards at the nodes of the search below the board `b0` on which it was entered:
`Descends b0 k b` says that `b` is reached from `b0` by `k` moves, each entered the way
`search_helper` does (`make_move` of a move that `generate_moves` produced in legal mode for
the side to move, under any mask, then `appended_moves++`) or the way the null-move pruning
does (`make_move(0, 0, 0, 0)`, then `appended_moves++`). -/
inductive Descends (b0 : chessboard) : Nat → chessboard → Prop
  | root : Descends b0 0 b0
  | move (k : Nat) (b : chessboard) (mask o d : Nat) :
      Descends b0 k b →
      ((generate_moves b b.side_to_move (fun _ => 0) false false mask).2.matrices o).testBit d
        = true →
      Descends b0 (k + 1)
        (enter_move b ((o &&& 7 : Nat) : Int) ((o >>> 3 : Nat) : Int) ((d &&& 7 : Nat) : Int)
          ((d >>> 3 : Nat) : Int))
  | null (k : Nat) (b : chessboard) :
      Descends b0 k b → Descends b0 (k + 1) (enter_move b 0 0 0 0)

/-- King of side 0 on e8 and its rook on c8; side 1 has a rook on a1, a knight on b1, its king
on c1 and its queen on c2. -/
def codes_queen_c2 : List Nat :=
  [0, 0, 5, 0, 1, 0, 0, 0,
   0, 0, 0, 0, 0, 0, 0, 0,
   0, 0, 0, 0, 0, 0, 0, 0,
   0, 0, 0, 0, 0, 0, 0, 0,
   0, 0, 0, 0, 0, 0, 0, 0,
   0, 0, 0, 0, 0, 0, 0, 0,
   0, 0, 10, 0, 0, 0, 0, 0,
   13, 12, 9, 0, 0, 0, 0, 0]

/-- The boards `b1` and `b0` agree on `pieces`, `side_sets` and `piece_sets`. -/
def SameSets (b1 b0 : chessboard) : Prop :=
  b1.pieces = b0.pieces ∧ b1.side_sets = b0.side_sets ∧ b1.piece_sets = b0.piece_sets

/-- Side 1 has its king on c1, a rook on a1, a bishop on b1 and a pawn on a2; side 0 has
its king on a3, rooks on d4 and e2 and knights on d5 and c2. -/
def codes_bishop_b1 : List Nat :=
  [0, 0, 0, 0, 0, 0, 0, 0,
   0, 0, 0, 0, 0, 0, 0, 0,
   0, 0, 0, 0, 0, 0, 0, 0,
   0, 0, 0, 4, 0, 0, 0, 0,
   0, 0, 0, 5, 0, 0, 0, 0,
   1, 0, 0, 0, 0, 0, 0, 0,
   14, 0, 4, 0, 5, 0, 0, 0,
   13, 11, 9, 0, 0, 0, 0, 0]

/-- Reference definition (from the specification): a pawn of `side` on the square `o`
attacks the square `k` when `k` lies one rank ahead of it, in its direction of advance
(towards rank 7 for side 0, towards rank 0 for side 1), on an adjacent file. -/
def pawn_attacks (side o k : Nat) : Bool :=
  decide ((k % 8 = o % 8 + 1 ∨ k % 8 + 1 = o % 8) ∧
    ((side = 0 ∧ k / 8 = o / 8 + 1) ∨ (side ≠ 0 ∧ k / 8 + 1 = o / 8)))

/-- Reference definition: `k` is a knight's jump away from `o`. -/
def knight_attacks (o k : Nat) : Bool :=
  decide (((k % 8 = o % 8 + 1 ∨ k % 8 + 1 = o % 8) ∧ (k / 8 = o / 8 + 2 ∨ k / 8 + 2 = o / 8)) ∨
    ((k % 8 = o % 8 + 2 ∨ k % 8 + 2 = o % 8) ∧ (k / 8 = o / 8 + 1 ∨ k / 8 + 1 = o / 8)))

/-- Reference definition: `k` is a neighbouring square of `o`. -/
def king_attacks (o k : Nat) : Bool :=
  decide (k ≠ o ∧ k % 8 ≤ o % 8 + 1 ∧ o % 8 ≤ k % 8 + 1 ∧ k / 8 ≤ o / 8 + 1 ∧ o / 8 ≤ k / 8 + 1)

/-- Reference definition: the square `k` lies on the line that leaves `o` in the direction
`(dx, dy)`, `n + 1` steps away for some `n`, and no piece stands strictly between them. -/
def clear_line (b : chessboard) (o k : Nat) (dx dy : Int) : Bool :=
  (List.range 7).any (fun n =>
    decide (0 ≤ ((o % 8 : Nat) : Int) + ((n : Int) + 1) * dx ∧
      ((o % 8 : Nat) : Int) + ((n : Int) + 1) * dx ≤ 7 ∧
      0 ≤ ((o / 8 : Nat) : Int) + ((n : Int) + 1) * dy ∧
      ((o / 8 : Nat) : Int) + ((n : Int) + 1) * dy ≤ 7) &&
    (sq (((o % 8 : Nat) : Int) + ((n : Int) + 1) * dx)
      (((o / 8 : Nat) : Int) + ((n : Int) + 1) * dy) == k) &&
    (List.range n).all (fun m =>
      b.pieces (sq (((o % 8 : Nat) : Int) + ((m : Int) + 1) * dx)
        (((o / 8 : Nat) : Int) + ((m : Int) + 1) * dy)) == 0))

/-- Reference definition: the piece on the square `o` attacks the square `k`. -/
def attacks (b : chessboard) (o k : Nat) : Bool :=
  if b.pieces o % 8 = pawn then pawn_attacks (b.pieces o / 8) o k
  else if b.pieces o % 8 = knight then knight_attacks o k
  else if b.pieces o % 8 = king then king_attacks o k
  else if b.pieces o % 8 = bishop ∨ b.pieces o % 8 = rook ∨ b.pieces o % 8 = queen then
    (ray_dirs (b.pieces o % 8)).any (fun v => clear_line b o k v.1 v.2)
  else false

/-- Reference definition: some piece of the opponent of side `s` attacks the square `k`. -/
def attacked (b : chessboard) (s k : Nat) : Bool :=
  (List.range 64).any (fun o => b.pieces o != 0 && (b.pieces o / 8 != s) && attacks b o k)

/-- The king of side 1 on b8, the king of side 0 on h8 and a pawn of side 0 on a1, the last
rank of its advance. -/
def codes_pawn_last : List Nat :=
  [0, 9, 0, 0, 0, 0, 0, 1,
   0, 0, 0, 0, 0, 0, 0, 0,
   0, 0, 0, 0, 0, 0, 0, 0,
   0, 0, 0, 0, 0, 0, 0, 0,
   0, 0, 0, 0, 0, 0, 0, 0,
   0, 0, 0, 0, 0, 0, 0, 0,
   0, 0, 0, 0, 0, 0, 0, 0,
   6, 0, 0, 0, 0, 0, 0, 0]

/-- Bit `k` is set in `S` and comes first among the set bits of `S` in the order `R`. -/
def IsFirst (R : Nat → Nat → Prop) (S k : Nat) : Prop :=
  S.testBit k = true ∧ ∀ i, i < 64 → S.testBit i = true → i = k ∨ R k i

/-- A direction of a chess line: a step of at most one file and one rank, not zero. -/
def unit_dir (dx dy : Int) : Prop :=
  (dx = -1 ∨ dx = 0 ∨ dx = 1) ∧ (dy = -1 ∨ dy = 0 ∨ dy = 1) ∧ ¬ (dx = 0 ∧ dy = 0)

/-! # Theorems -/

/-! ## Bit-level facts about the 64-bit operations -/

theorem shl64_one_eq {i : Nat} (h : i < 64) : shl64 1 i = 2 ^ i := by
  unfold shl64
  rw [Nat.mod_eq_of_lt h, Nat.one_shiftLeft]
  exact Nat.mod_eq_of_lt (Nat.pow_lt_pow_right (by decide) h)

theorem testBit_shl64_one {i : Nat} (h : i < 64) (j : Nat) :
    (shl64 1 i).testBit j = decide (j = i) := by
  rw [shl64_one_eq h, Nat.testBit_two_pow]
  by_cases hji : j = i
  · simp [hji]
  · have : ¬ i = j := fun e => hji e.symm
    simp [hji, this]

theorem testBit_not64 (x j : Nat) :
    (not64 x).testBit j = (decide (j < 64) && !x.testBit j) := by
  unfold not64
  rw [Nat.testBit_xor, Nat.testBit_two_pow_sub_one, Nat.testBit_mod_two_pow]
  cases decide (j < 64) <;> simp

theorem shl64_lt (x n : Nat) : shl64 x n < 2 ^ 64 := Nat.mod_lt _ (by decide)

theorem testBit_shl64_ge (x n : Nat) {j : Nat} (h : 64 ≤ j) : (shl64 x n).testBit j = false :=
  Nat.testBit_lt_two_pow
    (Nat.lt_of_lt_of_le (shl64_lt x n) (Nat.pow_le_pow_right (by decide) h))

theorem testBit_shl64 (x n j : Nat) :
    (shl64 x n).testBit j = (decide (j < 64) && decide (n % 64 ≤ j) && x.testBit (j - n % 64)) := by
  unfold shl64
  rw [Nat.testBit_mod_two_pow, Nat.testBit_shiftLeft]
  simp [Bool.and_assoc]

theorem testBit_shr64 (x n j : Nat) :
    (shr64 x n).testBit j = (decide (n % 64 + j < 64) && x.testBit (n % 64 + j)) := by
  unfold shr64
  rw [Nat.testBit_shiftRight, Nat.testBit_mod_two_pow]

theorem and7 (p : Nat) : p &&& 7 = p % 8 := Nat.and_pow_two_sub_one_eq_mod p 3

theorem shr3 (p : Nat) : p >>> 3 = p / 8 := Nat.shiftRight_eq_div_pow p 3

theorem or_shl3 {t : Nat} (s : Nat) (h : t < 8) : t ||| (s <<< 3) = t + 8 * s := by
  have := Nat.mul_add_lt_is_or (i := 3) (b := t) (by simpa using h) s
  rw [Nat.lor_comm, Nat.shiftLeft_eq, Nat.mul_comm s, ← this]
  omega

theorem code_split (p : Nat) : (p &&& 7) ||| ((p >>> 3) <<< 3) = p := by
  rw [and7, shr3, or_shl3 _ (Nat.mod_lt _ (by decide))]
  omega

/-- Clearing a bit that is not set changes nothing. -/
theorem and_not64_of_clear {x i : Nat} (hx : x < 2 ^ 64) (hi : i < 64)
    (h : x.testBit i = false) : x &&& not64 (shl64 1 i) = x := by
  apply Nat.eq_of_testBit_eq
  intro j
  rw [Nat.testBit_and, testBit_not64, testBit_shl64_one hi]
  by_cases hj : j = i
  · subst hj; simp [h]
  · by_cases h64 : j < 64
    · simp [hj, h64]
    · have : x.testBit j = false :=
        Nat.testBit_lt_two_pow (Nat.lt_of_lt_of_le hx (Nat.pow_le_pow_right (by decide) (by omega)))
      simp [this]

/-- Clearing a set bit and setting it again changes nothing. -/
theorem and_not64_or_of_set {x i : Nat} (hx : x < 2 ^ 64) (hi : i < 64)
    (h : x.testBit i = true) : (x &&& not64 (shl64 1 i)) ||| shl64 1 i = x := by
  apply Nat.eq_of_testBit_eq
  intro j
  rw [Nat.testBit_or, Nat.testBit_and, testBit_not64, testBit_shl64_one hi]
  by_cases hj : j = i
  · subst hj; simp [h]
  · by_cases h64 : j < 64
    · simp [hj, h64]
    · have : x.testBit j = false :=
        Nat.testBit_lt_two_pow (Nat.lt_of_lt_of_le hx (Nat.pow_le_pow_right (by decide) (by omega)))
      simp [this, hj]

theorem lt_of_testBit_imp {x : Nat} (h : ∀ i, x.testBit i = true → i < 64) : x < 2 ^ 64 := by
  apply Nat.lt_pow_two_of_testBit
  intro i hi
  by_contra hc
  have := h i (by simpa using hc)
  omega

@[simp] theorem setAt_same (f : Nat → Nat) (i v : Nat) : setAt f i v i = v := by
  simp [setAt]

theorem setAt_other (f : Nat → Nat) {i j : Nat} (v : Nat) (h : j ≠ i) : setAt f i v j = f j := by
  simp [setAt, h]

theorem setAt_apply (f : Nat → Nat) (i v j : Nat) :
    setAt f i v j = if j = i then v else f j := rfl

theorem sq_nat (x y : Nat) : sq (x : Int) (y : Int) = x + y * 8 := by
  unfold sq; omega

theorem MC.side_lt {P S T : Nat → Nat} (h : MC P S T) {s : Nat} (hs : s < 2) : S s < 2 ^ 64 :=
  lt_of_testBit_imp (fun i hi => ((h.side s i hs).1 hi).1)

theorem MC.type_lt {P S T : Nat → Nat} (h : MC P S T) {t : Nat} (h1 : 1 ≤ t) (h6 : t ≤ 6) :
    T t < 2 ^ 64 :=
  lt_of_testBit_imp (fun i hi => ((h.type t i h1 h6).1 hi).1)

/-- Two descriptions of the same array agree on the slots that are in use. -/
theorem MC.side_unique {P S T S2 T2 : Nat → Nat} (h : MC P S T) (h2 : MC P S2 T2)
    {s : Nat} (hs : s < 2) : S s = S2 s := by
  apply Nat.eq_of_testBit_eq
  intro i
  have e1 := h.side s i hs
  have e2 := h2.side s i hs
  cases hb : (S s).testBit i <;> cases hb2 : (S2 s).testBit i <;> simp_all

theorem MC.type_unique {P S T S2 T2 : Nat → Nat} (h : MC P S T) (h2 : MC P S2 T2)
    {t : Nat} (ht : t ≤ 6) : T t = T2 t := by
  by_cases h0 : t = 0
  · subst h0; rw [h.t0, h2.t0]
  · apply Nat.eq_of_testBit_eq
    intro i
    have e1 := h.type t i (by omega) ht
    have e2 := h2.type t i (by omega) ht
    cases hb : (T t).testBit i <;> cases hb2 : (T2 t).testBit i <;> simp_all

/-- Edit "clear": the capture statements of `make_move` on the square `c`. -/
theorem MC.clear {P S T : Nat → Nat} (h : MC P S T) {c : Nat} (hc : c < 64) :
    MC (setAt P c 0)
      (setAt S (P c / 8) (S (P c / 8) &&& not64 (shl64 1 c)))
      (setAt T (P c % 8) (T (P c % 8) &&& not64 (shl64 1 c))) := by
  have hv := h.codes c hc
  unfold valid_code at hv
  refine ⟨?_, ?_, ?_, ?_⟩
  · intro i hi
    by_cases hic : i = c
    · subst hic; simp [valid_code]
    · rw [setAt_other _ _ hic]; exact h.codes i hi
  · intro s i hs
    by_cases hic : i = c
    · subst hic
      by_cases hsc : s = P i / 8
      · subst hsc; simp [testBit_not64, testBit_shl64_one hc]
      · rw [setAt_other _ _ hsc]
        simp only [setAt_same]
        have := h.side s i hs
        constructor
        · intro hb; exact absurd ((this.1 hb).2.2) (fun e => hsc e.symm)
        · intro hb; exact absurd rfl hb.2.1
    · rw [setAt_other P 0 hic]
      by_cases hsc : s = P c / 8
      · subst hsc
        simp only [setAt_same, Nat.testBit_and, testBit_not64, testBit_shl64_one hc,
          Bool.and_eq_true, Bool.not_eq_true', decide_eq_true_eq, decide_eq_false_iff_not]
        have := h.side (P c / 8) i hs
        constructor
        · intro hb; exact this.1 hb.1
        · intro hb; exact ⟨this.2 hb, hb.1, hic⟩
      · rw [setAt_other _ _ hsc]; exact h.side s i hs
  · intro t i h1 h6
    by_cases hic : i = c
    · subst hic
      by_cases htc : t = P i % 8
      · subst htc; simp [testBit_not64, testBit_shl64_one hc]; omega
      · rw [setAt_other _ _ htc]
        simp only [setAt_same]
        have := h.type t i h1 h6
        constructor
        · intro hb; exact absurd ((this.1 hb).2) (fun e => htc e.symm)
        · intro hb; omega
    · rw [setAt_other P 0 hic]
      by_cases htc : t = P c % 8
      · subst htc
        simp only [setAt_same, Nat.testBit_and, testBit_not64, testBit_shl64_one hc,
          Bool.and_eq_true, Bool.not_eq_true', decide_eq_true_eq, decide_eq_false_iff_not]
        have := h.type (P c % 8) i h1 h6
        constructor
        · intro hb; exact this.1 hb.1
        · intro hb; exact ⟨this.2 hb, hb.1, hic⟩
      · rw [setAt_other _ _ htc]; exact h.type t i h1 h6
  · by_cases htc : 0 = P c % 8
    · rw [← htc]; simp [h.t0]
    · rw [setAt_other _ _ htc]; exact h.t0

theorem MC.side_empty {P S T : Nat → Nat} (h : MC P S T) {s y : Nat} (hs : s < 2)
    (hy0 : P y = 0) : (S s).testBit y = false := by
  cases hb : (S s).testBit y
  · rfl
  · exact absurd hy0 ((h.side s y hs).1 hb).2.1

theorem MC.type_empty {P S T : Nat → Nat} (h : MC P S T) {t y : Nat} (ht : t ≤ 6)
    (hy0 : P y = 0) : (T t).testBit y = false := by
  by_cases h0 : t = 0
  · subst h0; rw [h.t0]; simp
  · cases hb : (T t).testBit y
    · rfl
    · have := ((h.type t y (by omega) ht).1 hb).2
      rw [hy0] at this
      omega

theorem MC.side_at {P S T : Nat → Nat} (h : MC P S T) {s x : Nat} (hs : s < 2) (hx : x < 64)
    (hp0 : P x ≠ 0) : (S s).testBit x = decide (P x / 8 = s) := by
  by_cases e : P x / 8 = s
  · simp only [e, decide_True]; exact (h.side s x hs).2 ⟨hx, hp0, e⟩
  · simp only [e, decide_False]
    cases hb : (S s).testBit x
    · rfl
    · exact absurd ((h.side s x hs).1 hb).2.2 e

theorem MC.type_at {P S T : Nat → Nat} (h : MC P S T) {t x : Nat} (h1 : 1 ≤ t) (h6 : t ≤ 6)
    (hx : x < 64) : (T t).testBit x = decide (P x % 8 = t) := by
  by_cases e : P x % 8 = t
  · simp only [e, decide_True]; exact (h.type t x h1 h6).2 ⟨hx, e⟩
  · simp only [e, decide_False]
    cases hb : (T t).testBit x
    · rfl
    · exact absurd ((h.type t x h1 h6).1 hb).2 e

theorem valid_code_side {p : Nat} (hv : valid_code p) : p / 8 < 2 := by
  unfold valid_code at hv; omega

theorem valid_code_type {p : Nat} (hv : valid_code p) (h0 : p ≠ 0) : 1 ≤ p % 8 ∧ p % 8 ≤ 6 := by
  unfold valid_code at hv; omega

/-- Edit "move": the statements of `make_move` that place the moving piece `p` from `x` on
the empty square `y`. -/
theorem MC.move {P S T : Nat → Nat} (h : MC P S T) {x y p : Nat} (hx : x < 64) (hy : y < 64)
    (hxy : x ≠ y) (hp : P x = p) (hp0 : p ≠ 0) (hy0 : P y = 0) :
    MC (setAt (setAt P x 0) y p)
      (setAt S (p / 8) (S (p / 8) ^^^ (shl64 1 x ^^^ shl64 1 y)))
      (setAt T (p % 8) (T (p % 8) ^^^ (shl64 1 x ^^^ shl64 1 y))) := by
  have hv := h.codes x hx
  rw [hp] at hv
  have hpx : P x ≠ 0 := by rw [hp]; exact hp0
  have hvs := valid_code_side hv
  have hvt := valid_code_type hv hp0
  refine ⟨?_, ?_, ?_, ?_⟩
  · intro i hi
    simp only [setAt_apply]
    split_ifs
    · exact hv
    · simp [valid_code]
    · exact h.codes i hi
  · intro s i hs
    have hS := h.side s i hs
    have hSx := h.side_at hs hx hpx
    have hSy := h.side_empty hs hy0
    rw [hp] at hSx
    by_cases hix : i = x
    · subst hix
      by_cases hsp : s = p / 8
      · subst hsp
        simp [setAt_apply, hxy, testBit_shl64_one hx, testBit_shl64_one hy, hSx]
      · have : ¬ p / 8 = s := fun e => hsp e.symm
        simp [setAt_apply, hxy, hsp, hSx, this]
    · by_cases hiy : i = y
      · subst hiy
        by_cases hsp : s = p / 8
        · subst hsp
          simp [setAt_apply, hix, testBit_shl64_one hx, testBit_shl64_one hy, hSy, hy, hp0]
        · simp [setAt_apply, hsp, hSy]
          intro _ _ e; exact hsp e.symm
      · by_cases hsp : s = p / 8
        · subst hsp
          simpa [setAt_apply, hix, hiy, testBit_shl64_one hx, testBit_shl64_one hy] using hS
        · simpa [setAt_apply, hix, hiy, hsp] using hS
  · intro t i h1 h6
    have hS := h.type t i h1 h6
    have hSx := h.type_at h1 h6 hx
    have hSy := h.type_empty h6 hy0
    rw [hp] at hSx
    by_cases hix : i = x
    · subst hix
      by_cases hsp : t = p % 8
      · subst hsp
        simp [setAt_apply, hxy, testBit_shl64_one hx, testBit_shl64_one hy, hSx]
        omega
      · have : ¬ p % 8 = t := fun e => hsp e.symm
        simp [setAt_apply, hxy, hsp, hSx, this]
        omega
    · by_cases hiy : i = y
      · subst hiy
        by_cases hsp : t = p % 8
        · subst hsp
          simp [setAt_apply, hix, testBit_shl64_one hx, testBit_shl64_one hy, hSy, hy]
        · simp [setAt_apply, hsp, hSy]
          intro _ e; exact hsp e.symm
      · by_cases hsp : t = p % 8
        · subst hsp
          simpa [setAt_apply, hix, hiy, testBit_shl64_one hx, testBit_shl64_one hy] using hS
        · simpa [setAt_apply, hix, hiy, hsp] using hS
  · have : (0 : Nat) ≠ p % 8 := by omega
    rw [setAt_other _ _ this]; exact h.t0

/-- Edit "restore": the statements of `unmake_move` that put the captured piece `cp` back
on the empty square `c`. -/
theorem MC.restore {P S T : Nat → Nat} (h : MC P S T) {c cp : Nat} (hc : c < 64)
    (hc0 : P c = 0) (hv : valid_code cp) (hcp : cp ≠ 0) :
    MC (setAt P c cp)
      (setAt S (cp / 8) (S (cp / 8) ||| shl64 1 c))
      (setAt T (cp % 8) (T (cp % 8) ||| shl64 1 c)) := by
  have hvs := valid_code_side hv
  have hvt := valid_code_type hv hcp
  refine ⟨?_, ?_, ?_, ?_⟩
  · intro i hi
    simp only [setAt_apply]
    split_ifs
    · exact hv
    · exact h.codes i hi
  · intro s i hs
    have hS := h.side s i hs
    have hSc := h.side_empty hs hc0
    by_cases hic : i = c
    · subst hic
      by_cases hsp : s = cp / 8
      · subst hsp
        simp [setAt_apply, testBit_shl64_one hc, hc, hcp]
      · simp [setAt_apply, hsp, hSc]
        intro _ _ e; exact hsp e.symm
    · by_cases hsp : s = cp / 8
      · subst hsp
        simpa [setAt_apply, hic, testBit_shl64_one hc] using hS
      · simpa [setAt_apply, hic, hsp] using hS
  · intro t i h1 h6
    have hS := h.type t i h1 h6
    have hSc := h.type_empty h6 hc0
    by_cases hic : i = c
    · subst hic
      by_cases hsp : t = cp % 8
      · subst hsp
        simp [setAt_apply, testBit_shl64_one hc, hc]
      · simp [setAt_apply, hsp, hSc]
        intro _ e; exact hsp e.symm
    · by_cases hsp : t = cp % 8
      · subst hsp
        simpa [setAt_apply, hic, testBit_shl64_one hc] using hS
      · simpa [setAt_apply, hic, hsp] using hS
  · have : (0 : Nat) ≠ cp % 8 := by omega
    rw [setAt_other _ _ this]; exact h.t0

/-- Edit "promote": the promotion statements of `make_move` on the square `d`, which holds a
pawn; `q` is the queen code of the same side. -/
theorem MC.promote {P S T : Nat → Nat} (h : MC P S T) {d q : Nat} (hd : d < 64)
    (hp : P d % 8 = 6) (hq : q % 8 = 2) (hs : q / 8 = P d / 8) :
    MC (setAt P d q) S
      (setAt (setAt T 6 (T 6 &&& not64 (shl64 1 d))) 2
        (setAt T 6 (T 6 &&& not64 (shl64 1 d)) 2 ||| shl64 1 d)) := by
  have hv := h.codes d hd
  have hvs := valid_code_side hv
  have hq16 : valid_code q := by unfold valid_code; omega
  have hp0 : P d ≠ 0 := by intro e; rw [e] at hp; omega
  have hq0 : q ≠ 0 := by intro e; rw [e] at hq; omega
  refine ⟨?_, ?_, ?_, ?_⟩
  · intro i hi
    simp only [setAt_apply]
    split_ifs
    · exact hq16
    · exact h.codes i hi
  · intro s i hs2
    have hS := h.side s i hs2
    by_cases hid : i = d
    · subst hid
      simp only [setAt_same]
      rw [hS, hs]
      simp [hp0, hq0]
    · simpa [setAt_apply, hid] using hS
  · intro t i h1 h6
    have hS := h.type t i h1 h6
    have hTd := h.type_at h1 h6 hd
    by_cases hid : i = d
    · subst hid
      by_cases ht2 : t = 2
      · subst ht2
        simp [setAt_apply, testBit_shl64_one hd, hd, hq]
      · by_cases ht6 : t = 6
        · subst ht6
          simp [setAt_apply, testBit_not64, testBit_shl64_one hd, hq]
        · have : ¬ P i % 8 = t := by omega
          simp [setAt_apply, ht2, ht6, hTd, this]
          omega
    · by_cases ht2 : t = 2
      · subst ht2
        simpa [setAt_apply, hid, testBit_shl64_one hd] using hS
      · by_cases ht6 : t = 6
        · subst ht6
          simp only [setAt_apply, hid, if_false, ht2, if_true, Nat.testBit_and, testBit_not64,
            testBit_shl64_one hd]
          rw [← hS]
          have h64 : (T 6).testBit i = true → i < 64 := fun hb => (hS.1 hb).1
          cases hb : (T 6).testBit i
          · simp
          · simp [h64 hb, hid]
        · simpa [setAt_apply, hid, ht2, ht6] using hS
  · simp [setAt_apply, h.t0]

/-- Edit "relocate": the castling statements of `make_move` and `unmake_move`, which
exchange the contents of the squares `r1` and `r2`; one of them holds a rook `rk`, the other
one is empty. -/
theorem MC.relocate {P S T : Nat → Nat} (h : MC P S T) {r1 r2 rk : Nat} (h1 : r1 < 64)
    (h2 : r2 < 64) (hne : r1 ≠ r2) (hrk : rk % 8 = 5)
    (hP : (P r1 = rk ∧ P r2 = 0) ∨ (P r1 = 0 ∧ P r2 = rk)) :
    MC (setAt (setAt P r1 (P r2)) r2 (P r1))
      (setAt S (rk / 8) (S (rk / 8) ^^^ (shl64 1 r1 ||| shl64 1 r2)))
      (setAt T 5 (T 5 ^^^ (shl64 1 r1 ||| shl64 1 r2))) := by
  have hrk0 : rk ≠ 0 := by intro e; rw [e] at hrk; omega
  have hv : valid_code rk := by
    rcases hP with ⟨e, _⟩ | ⟨_, e⟩
    · rw [← e]; exact h.codes r1 h1
    · rw [← e]; exact h.codes r2 h2
  have hvs := valid_code_side hv
  have hne2 : r2 ≠ r1 := fun e => hne e.symm
  refine ⟨?_, ?_, ?_, ?_⟩
  · intro i hi
    simp only [setAt_apply]
    split_ifs
    · exact h.codes r1 h1
    · exact h.codes r2 h2
    · exact h.codes i hi
  · intro s i hs
    have hS := h.side s i hs
    rcases hP with ⟨e1, e2⟩ | ⟨e1, e2⟩
    · have hS1 := h.side_at hs h1 (by rw [e1]; exact hrk0)
      have hS2 := h.side_empty hs e2
      rw [e1] at hS1
      by_cases hi1 : i = r1
      · subst hi1
        by_cases hsp : s = rk / 8
        · subst hsp
          simp [setAt_apply, hne, e1, e2, testBit_shl64_one h1, testBit_shl64_one h2, hS1]
        · simp [setAt_apply, hne, e1, e2, hsp, hS1]
          intro e; exact absurd e.symm hsp
      · by_cases hi2 : i = r2
        · subst hi2
          by_cases hsp : s = rk / 8
          · subst hsp
            simp [setAt_apply, hi1, e1, e2, testBit_shl64_one h1, testBit_shl64_one h2, hS2,
              h2, hrk0]
          · simp [setAt_apply, hi1, e1, e2, hsp, hS2]
            intro _ _ e; exact hsp e.symm
        · by_cases hsp : s = rk / 8
          · subst hsp
            simpa [setAt_apply, hi1, hi2, testBit_shl64_one h1, testBit_shl64_one h2] using hS
          · simpa [setAt_apply, hi1, hi2, hsp] using hS
    · have hS2 := h.side_at hs h2 (by rw [e2]; exact hrk0)
      have hS1 := h.side_empty hs e1
      rw [e2] at hS2
      by_cases hi1 : i = r1
      · subst hi1
        by_cases hsp : s = rk / 8
        · subst hsp
          simp [setAt_apply, hne, e1, e2, testBit_shl64_one h1, testBit_shl64_one h2, hS1,
            h1, hrk0]
        · simp [setAt_apply, hne, e1, e2, hsp, hS1]
          intro _ _ e; exact hsp e.symm
      · by_cases hi2 : i = r2
        · subst hi2
          by_cases hsp : s = rk / 8
          · subst hsp
            simp [setAt_apply, hi1, e1, e2, testBit_shl64_one h1, testBit_shl64_one h2, hS2]
          · simp [setAt_apply, hi1, e1, e2, hsp, hS2]
            intro e; exact absurd e.symm hsp
        · by_cases hsp : s = rk / 8
          · subst hsp
            simpa [setAt_apply, hi1, hi2, testBit_shl64_one h1, testBit_shl64_one h2] using hS
          · simpa [setAt_apply, hi1, hi2, hsp] using hS
  · intro t i ht1 ht6
    have hS := h.type t i ht1 ht6
    rcases hP with ⟨e1, e2⟩ | ⟨e1, e2⟩
    · have hS1 := h.type_at ht1 ht6 h1
      have hS2 := h.type_empty ht6 e2
      rw [e1] at hS1
      by_cases hi1 : i = r1
      · subst hi1
        by_cases hsp : t = 5
        · subst hsp
          simp [setAt_apply, hne, e1, e2, testBit_shl64_one h1, testBit_shl64_one h2, hS1, hrk]
        · have : ¬ rk % 8 = t := by omega
          simp [setAt_apply, hne, e1, e2, hsp, hS1, this]
          omega
      · by_cases hi2 : i = r2
        · subst hi2
          by_cases hsp : t = 5
          · subst hsp
            simp [setAt_apply, hi1, e1, e2, testBit_shl64_one h1, testBit_shl64_one h2, hS2,
              h2, hrk]
          · simp [setAt_apply, hi1, e1, e2, hsp, hS2]
            omega
        · by_cases hsp : t = 5
          · subst hsp
            simpa [setAt_apply, hi1, hi2, testBit_shl64_one h1, testBit_shl64_one h2] using hS
          · simpa [setAt_apply, hi1, hi2, hsp] using hS
    · have hS2 := h.type_at ht1 ht6 h2
      have hS1 := h.type_empty ht6 e1
      rw [e2] at hS2
      by_cases hi1 : i = r1
      · subst hi1
        by_cases hsp : t = 5
        · subst hsp
          simp [setAt_apply, hne, e1, e2, testBit_shl64_one h1, testBit_shl64_one h2, hS1,
            h1, hrk]
        · simp [setAt_apply, hne, e1, e2, hsp, hS1]
          omega
      · by_cases hi2 : i = r2
        · subst hi2
          by_cases hsp : t = 5
          · subst hsp
            simp [setAt_apply, hi1, e1, e2, testBit_shl64_one h1, testBit_shl64_one h2, hS2, hrk]
          · have : ¬ rk % 8 = t := by omega
            simp [setAt_apply, hi1, e1, e2, hsp, hS2, this]
            omega
        · by_cases hsp : t = 5
          · subst hsp
            simpa [setAt_apply, hi1, hi2, testBit_shl64_one h1, testBit_shl64_one h2] using hS
          · simpa [setAt_apply, hi1, hi2, hsp] using hS
  · simp [setAt_apply, h.t0]

/-- Edit "unmove": the statements of `unmake_move` that take the piece `p` from `x` back to
the empty square `y`, where it becomes `pn` (the same piece, or the pawn it was promoted
from). -/
theorem MC.unmove {P S T : Nat → Nat} (h : MC P S T) {x y p pn : Nat} (hx : x < 64)
    (hy : y < 64) (hxy : x ≠ y) (hp : P x = p) (hp0 : p ≠ 0) (hy0 : P y = 0)
    (hn1 : 1 ≤ pn % 8) (hn6 : pn % 8 ≤ 6) (hns : pn / 8 = p / 8) :
    MC (setAt (setAt P x 0) y pn)
      (setAt S (p / 8) (S (p / 8) ^^^ (shl64 1 x ^^^ shl64 1 y)))
      (setAt (setAt T (p % 8) (T (p % 8) ^^^ shl64 1 x)) (pn % 8)
        (setAt T (p % 8) (T (p % 8) ^^^ shl64 1 x) (pn % 8) ^^^ shl64 1 y)) := by
  have hv := h.codes x hx
  rw [hp] at hv
  have hpx : P x ≠ 0 := by rw [hp]; exact hp0
  have hvs := valid_code_side hv
  have hvt := valid_code_type hv hp0
  have hvn : valid_code pn := by unfold valid_code; omega
  have hn0 : pn ≠ 0 := by intro e; rw [e] at hn1; omega
  refine ⟨?_, ?_, ?_, ?_⟩
  · intro i hi
    simp only [setAt_apply]
    split_ifs
    · exact hvn
    · simp [valid_code]
    · exact h.codes i hi
  · intro s i hs
    have hS := h.side s i hs
    have hSx := h.side_at hs hx hpx
    have hSy := h.side_empty hs hy0
    rw [hp] at hSx
    by_cases hix : i = x
    · subst hix
      by_cases hsp : s = p / 8
      · subst hsp
        simp [setAt_apply, hxy, testBit_shl64_one hx, testBit_shl64_one hy, hSx]
      · have : ¬ p / 8 = s := fun e => hsp e.symm
        simp [setAt_apply, hxy, hsp, hSx, this]
    · by_cases hiy : i = y
      · subst hiy
        by_cases hsp : s = p / 8
        · subst hsp
          simp [setAt_apply, hix, testBit_shl64_one hx, testBit_shl64_one hy, hSy, hy, hn0, hns]
        · simp [setAt_apply, hsp, hSy, hns]
          intro _ _ e; exact hsp e.symm
      · by_cases hsp : s = p / 8
        · subst hsp
          simpa [setAt_apply, hix, hiy, testBit_shl64_one hx, testBit_shl64_one hy] using hS
        · simpa [setAt_apply, hix, hiy, hsp] using hS
  · intro t i h1 h6
    have hS := h.type t i h1 h6
    have hSx := h.type_at h1 h6 hx
    have hSy := h.type_empty h6 hy0
    rw [hp] at hSx
    by_cases hix : i = x
    · subst hix
      by_cases ht1 : t = pn % 8 <;> by_cases ht2 : t = p % 8
      · have e : pn % 8 = p % 8 := by omega
        subst ht2
        simp [setAt_apply, e, hxy, testBit_shl64_one hx, testBit_shl64_one hy, hSx]
        omega
      · have : ¬ p % 8 = t := fun e => ht2 e.symm
        subst ht1
        simp [setAt_apply, ht2, hxy, testBit_shl64_one hx, testBit_shl64_one hy, hSx, this]
        omega
      · subst ht2
        simp [setAt_apply, ht1, hxy, testBit_shl64_one hx, testBit_shl64_one hy, hSx]
        omega
      · have : ¬ p % 8 = t := fun e => ht2 e.symm
        simp [setAt_apply, ht1, ht2, hxy, hSx, this]
        omega
    · by_cases hiy : i = y
      · subst hiy
        by_cases ht1 : t = pn % 8 <;> by_cases ht2 : t = p % 8
        · have e : pn % 8 = p % 8 := by omega
          subst ht2
          simp [setAt_apply, e, hix, testBit_shl64_one hx, testBit_shl64_one hy, hSy, hy]
        · subst ht1
          simp [setAt_apply, ht2, hix, testBit_shl64_one hx, testBit_shl64_one hy, hSy, hy]
        · subst ht2
          simp [setAt_apply, ht1, hix, testBit_shl64_one hx, testBit_shl64_one hy, hSy]
          intro _ e; exact ht1 e.symm
        · simp [setAt_apply, ht1, ht2, hSy]
          intro _ e; exact ht1 e.symm
      · by_cases ht1 : t = pn % 8 <;> by_cases ht2 : t = p % 8
        · have e : pn % 8 = p % 8 := by omega
          subst ht2
          simpa [setAt_apply, e, hix, hiy, testBit_shl64_one hx, testBit_shl64_one hy] using hS
        · subst ht1
          simpa [setAt_apply, ht2, hix, hiy, testBit_shl64_one hx, testBit_shl64_one hy] using hS
        · subst ht2
          simpa [setAt_apply, ht1, hix, hiy, testBit_shl64_one hx, testBit_shl64_one hy] using hS
        · simpa [setAt_apply, ht1, ht2, hix, hiy] using hS
  · have e1 : (0 : Nat) ≠ pn % 8 := by omega
    have e2 : (0 : Nat) ≠ p % 8 := by omega
    rw [setAt_other _ _ e1, setAt_other _ _ e2]; exact h.t0

theorem make_move_eq_core (b : chessboard) (org_x org_y dest_x dest_y : Int)
    (h : ¬ (org_x = 0 ∧ org_y = 0 ∧ dest_x = 0 ∧ dest_y = 0)) :
    make_move b org_x org_y dest_x dest_y =
      move_core b org_x org_y dest_x dest_y (cap_y b org_x org_y dest_x dest_y)
        (sq org_x org_y) (sq dest_x dest_y) (sq dest_x (cap_y b org_x org_y dest_x dest_y))
        (sq (if org_x - dest_x > 0 then 0 else 7) org_y)
        (sq (dest_x + (org_x - dest_x).tdiv 2) org_y)
        (b.pieces (sq org_x org_y) &&& type_mask == king && (org_x - dest_x).natAbs == 2)
        (b.pieces (sq org_x org_y) &&& type_mask == pawn
          && dest_y == (1 - ((b.pieces (sq org_x org_y) >>> side_shift : Nat) : Int)) * 7)
        ((org_y - dest_y).natAbs == 2 && b.pieces (sq org_x org_y) &&& type_mask == pawn) := by
  unfold make_move
  rw [if_neg h]
  rfl

theorem MC.relocate_side {P S T : Nat → Nat} (h : MC P S T) {r1 r2 rk s : Nat} (h1 : r1 < 64)
    (h2 : r2 < 64) (hne : r1 ≠ r2) (hrk : rk % 8 = 5) (hs : rk / 8 = s)
    (hP : (P r1 = rk ∧ P r2 = 0) ∨ (P r1 = 0 ∧ P r2 = rk)) :
    MC (setAt (setAt P r1 (P r2)) r2 (P r1))
      (setAt S s (S s ^^^ (shl64 1 r1 ||| shl64 1 r2)))
      (setAt T 5 (T 5 ^^^ (shl64 1 r1 ||| shl64 1 r2))) := by
  subst hs
  exact h.relocate h1 h2 hne hrk hP

/-- The masks of the board that `move_core` returns describe its piece array. -/
theorem move_core_MC {b : chessboard} {o d c r1 r2 : Nat} {castling promote : Bool}
    (ox oy dx dy cy : Int) (ts : Bool)
    (h : MC b.pieces b.side_sets b.piece_sets) (ok : CoreOK b o d c r1 r2 castling promote) :
    MC (move_core b ox oy dx dy cy o d c r1 r2 castling promote ts).pieces
      (move_core b ox oy dx dy cy o d c r1 r2 castling promote ts).side_sets
      (move_core b ox oy dx dy cy o d c r1 r2 castling promote ts).piece_sets := by
  obtain ⟨ho, hd, hc, hne, hp0, hco, hcd, cast, prom⟩ := ok
  have hv := h.codes o ho
  have hvt := valid_code_type hv hp0
  simp only [move_core, type_mask, side_shift, and7, shr3, rook, pawn, queen, king]
  rw [or_shl3 (b.pieces o / 8) (by decide : 2 < 8)]
  -- first stage: the rook of a castling move
  have s1 : MC
      (if castling = true then
        setAt (setAt b.pieces r1 (b.pieces r2)) r2 (b.pieces r1) else b.pieces)
      (if castling = true then
        setAt b.side_sets (b.pieces o / 8)
          (b.side_sets (b.pieces o / 8) ^^^ (shl64 1 r1 ||| shl64 1 r2)) else b.side_sets)
      (if castling = true then
        setAt b.piece_sets 5 (b.piece_sets 5 ^^^ (shl64 1 r1 ||| shl64 1 r2))
        else b.piece_sets) := by
    cases hcs : castling
    · simpa using h
    · obtain ⟨_, hr1, hr2, hr12, _, _, _, _, hrk, hr0, _, _, _⟩ := cast hcs
      simp only [if_true]
      exact h.relocate_side hr1 hr2 hr12 (by omega) (by omega) (Or.inl ⟨hrk, hr0⟩)
  -- the moving piece is still on `o`, and `d` is empty once `c` has been cleared
  have po : (if castling = true then
        setAt (setAt b.pieces r1 (b.pieces r2)) r2 (b.pieces r1) else b.pieces) o
      = b.pieces o := by
    cases hcs : castling
    · simp
    · obtain ⟨_, _, _, _, h1o, _, h2o, _, _, _, _, _, _⟩ := cast hcs
      have e1 : o ≠ r1 := fun e => h1o e.symm
      have e2 : o ≠ r2 := fun e => h2o e.symm
      simp [setAt_apply, e1, e2]
  have pd : c ≠ d → (if castling = true then
        setAt (setAt b.pieces r1 (b.pieces r2)) r2 (b.pieces r1) else b.pieces) d = 0 := by
    intro hcd2
    have hd0 : b.pieces d = 0 := by
      rcases hcd with e | e
      · exact absurd e hcd2
      · exact e
    cases hcs : castling
    · simpa using hd0
    · obtain ⟨_, _, _, _, _, _, _, _, _, _, _, e, _⟩ := cast hcs
      exact absurd e hcd2
  have s2 := s1.clear hc
  have s3 := s2.move (x := o) (y := d) (p := b.pieces o) ho hd hne
    (by rw [setAt_other _ _ (fun e => hco e.symm)]; exact po) hp0
    (by
      by_cases e : c = d
      · rw [e]; simp
      · rw [setAt_other _ _ (fun e2 => e e2.symm)]; exact pd e)
  cases hpr : promote
  · simpa using s3
  · have hp6 := prom hpr
    have s4 := s3.promote (d := d) (q := 2 + 8 * (b.pieces o / 8)) hd
      (by simp; exact hp6) (by omega) (by simp; omega)
    simpa using s4

theorem unmake_move_eq_core (b : chessboard) (move : chessmove) (rest : List chessmove)
    (hs : b.move_stack = move :: rest) (he : move.empty = false) :
    unmake_move b =
      unmake_core b move rest (sq move.org_x move.org_y) (sq move.dest_x move.dest_y)
        (sq move.captured_x move.captured_y)
        (sq (if move.org_x - move.dest_x > 0 then 0 else 7) move.org_y)
        (sq (move.dest_x + (move.org_x - move.dest_x).tdiv 2) move.org_y)
        (b.pieces (sq move.dest_x move.dest_y) &&& type_mask == king
          && (move.org_x - move.dest_x).natAbs == 2) := by
  unfold unmake_move
  rw [hs]
  simp only [he]
  rfl

theorem chessboard_eq {x y : chessboard} (h1 : x.appended_moves = y.appended_moves)
    (h2 : x.hash = y.hash) (h3 : x.previous_states = y.previous_states)
    (h4 : x.move_stack = y.move_stack) (h5 : x.pieces = y.pieces)
    (h6 : x.side_sets = y.side_sets) (h7 : x.piece_sets = y.piece_sets)
    (h8 : x.has_moved = y.has_moved) (h9 : x.move_count = y.move_count)
    (h10 : x.side_to_move = y.side_to_move) : x = y := by
  cases x; cases y; simp_all

/-- The piece array after `move_core`, square by square. -/
theorem move_core_pieces {b : chessboard} {o d c r1 r2 : Nat} {castling promote : Bool}
    (ox oy dx dy cy : Int) (ts : Bool) (ok : CoreOK b o d c r1 r2 castling promote) (j : Nat) :
    (move_core b ox oy dx dy cy o d c r1 r2 castling promote ts).pieces j =
      if j = d then (if promote then 2 + 8 * (b.pieces o / 8) else b.pieces o)
      else if j = o then 0
      else if j = c then 0
      else if castling = true ∧ j = r2 then b.pieces r1
      else if castling = true ∧ j = r1 then 0
      else b.pieces j := by
  obtain ⟨ho, hd, hc, hne, hp0, hco, hcd, cast, prom⟩ := ok
  simp only [move_core, type_mask, side_shift, and7, shr3, rook, pawn, queen, king]
  rw [or_shl3 (b.pieces o / 8) (by decide : 2 < 8)]
  cases hcs : castling
  · cases hpr : promote <;> simp [setAt_apply] <;> split_ifs <;> simp_all
  · obtain ⟨_, hr1, hr2, hr12, h1o, h1d, h2o, h2d, hrk, hr0, _, _, _⟩ := cast hcs
    cases hpr : promote <;> simp [setAt_apply] <;> split_ifs <;> simp_all

theorem MC.unmove_type {P S T : Nat → Nat} (h : MC P S T) {x y p q t : Nat} (hx : x < 64)
    (hy : y < 64) (hxy : x ≠ y) (hp : P x = p) (hp0 : p ≠ 0) (hy0 : P y = 0)
    (ht : q % 8 = t) (hn1 : 1 ≤ t) (hn6 : t ≤ 6) (hns : q / 8 = p / 8) :
    MC (setAt (setAt P x 0) y q)
      (setAt S (p / 8) (S (p / 8) ^^^ (shl64 1 x ^^^ shl64 1 y)))
      (setAt (setAt T (p % 8) (T (p % 8) ^^^ shl64 1 x)) t
        (setAt T (p % 8) (T (p % 8) ^^^ shl64 1 x) t ^^^ shl64 1 y)) := by
  subst ht
  exact h.unmove hx hy hxy hp hp0 hy0 hn1 hn6 hns

/-- The masks of the board that `unmake_core` returns describe its piece array. -/
theorem unmake_core_MC {b : chessboard} {m : chessmove} {l : List chessmove}
    {o d c r1 r2 : Nat} {castling : Bool}
    (h : MC b.pieces b.side_sets b.piece_sets) (ok : UnOK b m o d c r1 r2 castling) :
    MC (unmake_core b m l o d c r1 r2 castling).pieces
      (unmake_core b m l o d c r1 r2 castling).side_sets
      (unmake_core b m l o d c r1 r2 castling).piece_sets := by
  obtain ⟨ho, hd, hc, hne, hco, hpd, hpo, cast, cap⟩ := ok
  have hv := h.codes d hd
  have hvt := valid_code_type hv hpd
  have hvs := valid_code_side hv
  have hne2 : d ≠ o := fun e => hne e.symm
  have s1 : MC
      (if castling = true then
        setAt (setAt b.pieces r1 (b.pieces r2)) r2 (b.pieces r1) else b.pieces)
      (if castling = true then
        setAt b.side_sets (b.pieces d / 8)
          (b.side_sets (b.pieces d / 8) ^^^ (shl64 1 r1 ||| shl64 1 r2)) else b.side_sets)
      (if castling = true then
        setAt b.piece_sets 5 (b.piece_sets 5 ^^^ (shl64 1 r1 ||| shl64 1 r2))
        else b.piece_sets) := by
    cases hcs : castling
    · simpa using h
    · obtain ⟨hr1, hr2, hr12, _, _, _, _, hr0, hrk⟩ := cast hcs
      simp only [if_true]
      exact h.relocate_side hr1 hr2 hr12 (by omega) (by omega) (Or.inr ⟨hr0, hrk⟩)
  have pd : (if castling = true then
        setAt (setAt b.pieces r1 (b.pieces r2)) r2 (b.pieces r1) else b.pieces) d
      = b.pieces d := by
    cases hcs : castling
    · simp
    · obtain ⟨_, _, _, _, h1d, _, h2d, _, _⟩ := cast hcs
      have e1 : d ≠ r1 := fun e => h1d e.symm
      have e2 : d ≠ r2 := fun e => h2d e.symm
      simp [setAt_apply, e1, e2]
  have po : (if castling = true then
        setAt (setAt b.pieces r1 (b.pieces r2)) r2 (b.pieces r1) else b.pieces) o = 0 := by
    cases hcs : castling
    · simpa using hpo
    · obtain ⟨_, _, _, h1o, _, h2o, _, _, _⟩ := cast hcs
      have e1 : o ≠ r1 := fun e => h1o e.symm
      have e2 : o ≠ r2 := fun e => h2o e.symm
      simp [setAt_apply, e1, e2, hpo]
  have ht1 : (if m.promotion_type ≠ 0 then 6 else b.pieces d % 8) < 8 := by
    split_ifs <;> omega
  have s2 := s1.unmove_type (x := d) (y := o) (p := b.pieces d)
    (q := (if m.promotion_type ≠ 0 then 6 else b.pieces d % 8) + 8 * (b.pieces d / 8))
    (t := if m.promotion_type ≠ 0 then 6 else b.pieces d % 8)
    hd ho hne2 pd hpd po (by omega) (by split_ifs <;> omega) (by split_ifs <;> omega) (by omega)
  simp only [unmake_core, type_mask, side_shift, and7, shr3, rook, pawn, queen, king]
  rw [or_shl3 (b.pieces d / 8) ht1]
  by_cases hcap : m.captured_type = 0
  · simp only [hcap, ne_eq, not_true_eq_false, if_false]
    exact s2
  · obtain ⟨hvc, hcd, hcc⟩ := cap hcap
    simp only [hcap, ne_eq, not_false_eq_true, if_true]
    refine s2.restore hc ?_ hvc hcap
    rw [setAt_other _ _ hco]
    by_cases e : c = d
    · rw [e]; simp
    · rw [setAt_other _ _ e]
      have hc0 : b.pieces c = 0 := by
        rcases hcd with e2 | e2
        · exact absurd e2 e
        · exact e2
      cases hcs : castling
      · simpa using hc0
      · exact absurd (hcc hcs) e

theorem WF.hm_lt {b : chessboard} (h : WF b) : b.has_moved < 2 ^ 64 :=
  lt_of_testBit_imp (fun i hi => (h.hm_occ i hi).1)

theorem and_shl64_one_ne_zero (x : Nat) {i : Nat} (hi : i < 64) :
    ((x &&& shl64 1 i) != 0) = x.testBit i := by
  have key : x &&& shl64 1 i = if x.testBit i then 2 ^ i else 0 := by
    apply Nat.eq_of_testBit_eq
    intro j
    rw [Nat.testBit_and, testBit_shl64_one hi]
    by_cases hj : j = i
    · subst hj
      cases hb : x.testBit j <;> simp
    · have : ¬ i = j := fun e => hj e.symm
      cases hb : x.testBit i <;> simp [hj, Nat.testBit_two_pow, this]
  rw [key]
  cases hb : x.testBit i
  · simp
  · have : 2 ^ i ≠ 0 := Nat.pos_iff_ne_zero.mp (Nat.two_pow_pos i)
    simp [this]

theorem not64_not64_bit {i : Nat} (hi : i < 64) : not64 (not64 (shl64 1 i)) = shl64 1 i := by
  apply Nat.eq_of_testBit_eq
  intro j
  rw [testBit_not64, testBit_not64, testBit_shl64_one hi]
  by_cases hj : j = i
  · subst hj; simp [hi]
  · simp [hj]

theorem testBit_shl64_b2n (f : Bool) {i : Nat} (hi : i < 64) (j : Nat) :
    (shl64 (b2n f) i).testBit j = (f && decide (j = i)) := by
  cases f
  · simp [b2n, shl64]
  · simp only [b2n, if_true, Bool.true_and]
    exact testBit_shl64_one hi j

/-- The field `has_moved` after `move_core` and `unmake_core`. -/
theorem round_has_moved {H o d c : Nat} (ho : o < 64) (hd : d < 64) (hc : c < 64)
    (hne : o ≠ d) (hco : c ≠ o) (hH : ∀ i, H.testBit i = true → i < 64)
    (hd0 : c ≠ d → H.testBit d = false) :
    (((((H &&& not64 (shl64 1 o)) &&& not64 (shl64 1 c)) ||| shl64 1 d)
        &&& not64 (shl64 1 o ||| shl64 1 d)) ||| shl64 (b2n ((H &&& shl64 1 o) != 0)) o)
        &&& not64 (shl64 1 c)
      ||| shl64 (b2n (((H &&& not64 (shl64 1 o)) &&& not64 (not64 (shl64 1 c))) != 0)) c = H := by
  rw [not64_not64_bit hc, and_shl64_one_ne_zero _ ho, and_shl64_one_ne_zero _ hc]
  apply Nat.eq_of_testBit_eq
  intro j
  have h64 := hH j
  simp only [Nat.testBit_or, Nat.testBit_and, testBit_not64, testBit_shl64_one ho,
    testBit_shl64_one hd, testBit_shl64_one hc, testBit_shl64_b2n _ ho, testBit_shl64_b2n _ hc]
  by_cases hjo : j = o
  · subst hjo
    have : ¬ j = c := fun e => hco e.symm
    cases hb : H.testBit j <;> simp [hne, this, ho]
  · by_cases hjc : j = c
    · subst hjc
      cases hb : H.testBit j <;> simp [hjo, hc, hco]
    · by_cases hjd : j = d
      · subst hjd
        have := hd0 (fun e => hjc e.symm)
        simp [hjo, hjc, this]
      · cases hb : H.testBit j
        · simp [hjo, hjc, hjd]
        · simp [hjo, hjc, hjd, h64 hb]

/-- The field `has_moved` after `move_core` and `unmake_core` when nothing was captured. -/
theorem round_has_moved_nocap {H o d c : Nat} (ho : o < 64) (hd : d < 64) (hc : c < 64)
    (hne : o ≠ d) (hco : c ≠ o) (hH : ∀ i, H.testBit i = true → i < 64)
    (hd0 : H.testBit d = false) (hc0 : H.testBit c = false) :
    ((((H &&& not64 (shl64 1 o)) &&& not64 (shl64 1 c)) ||| shl64 1 d)
        &&& not64 (shl64 1 o ||| shl64 1 d)) ||| shl64 (b2n ((H &&& shl64 1 o) != 0)) o = H := by
  rw [and_shl64_one_ne_zero _ ho]
  apply Nat.eq_of_testBit_eq
  intro j
  have h64 := hH j
  simp only [Nat.testBit_or, Nat.testBit_and, testBit_not64, testBit_shl64_one ho,
    testBit_shl64_one hd, testBit_shl64_one hc, testBit_shl64_b2n _ ho]
  by_cases hjo : j = o
  · subst hjo
    have : ¬ j = c := fun e => hco e.symm
    cases hb : H.testBit j <;> simp [hne, this, ho]
  · by_cases hjc : j = c
    · subst hjc
      simp [hjo, hc0]
      intro e _; exact e
    · by_cases hjd : j = d
      · subst hjd
        simp [hjo, hjc, hd0]
      · cases hb : H.testBit j
        · simp [hjo, hjc, hjd]
        · simp [hjo, hjc, hjd, h64 hb]

theorem xor_cancel_mid (x y : Nat) : x ^^^ (x ^^^ y) = y := by
  rw [← Nat.xor_assoc, Nat.xor_self, Nat.zero_xor]

theorem xor_left_comm (x y z : Nat) : x ^^^ (y ^^^ z) = y ^^^ (x ^^^ z) := by
  rw [← Nat.xor_assoc, ← Nat.xor_assoc, Nat.xor_comm x y]

theorem move_core_stack (b : chessboard) (ox oy dx dy cy : Int) (o d c r1 r2 : Nat)
    (castling promote ts : Bool) :
    (move_core b ox oy dx dy cy o d c r1 r2 castling promote ts).move_stack =
      core_record b ox oy dx dy cy o c r1 r2 castling promote ts :: b.move_stack := rfl

theorem core_captured {b : chessboard} {o d c r1 r2 : Nat} {castling promote : Bool}
    (ok : CoreOK b o d c r1 r2 castling promote) :
    (if castling then setAt (setAt b.pieces r1 (b.pieces r2)) r2 (b.pieces r1) else b.pieces) c
      = b.pieces c := by
  cases hcs : castling
  · simp
  · obtain ⟨_, _, _, _, _, h1d, _, h2d, _, _, _, e, _⟩ := ok.cast hcs
    have e1 : c ≠ r1 := by rw [e]; exact fun h => h1d h.symm
    have e2 : c ≠ r2 := by rw [e]; exact fun h => h2d h.symm
    simp [setAt_apply, e1, e2]

/-- The piece array after `unmake_core`, square by square. -/
theorem unmake_core_pieces (b : chessboard) (m : chessmove) (rest : List chessmove)
    (o d c r1 r2 : Nat) (castling : Bool) (j : Nat) :
    (unmake_core b m rest o d c r1 r2 castling).pieces j =
      if m.captured_type ≠ 0 ∧ j = c then m.captured_type
      else if j = o then
        (if m.promotion_type ≠ 0 then pawn else b.pieces d &&& type_mask)
          ||| ((b.pieces d >>> side_shift) <<< side_shift)
      else if j = d then 0
      else if castling = true ∧ j = r2 then b.pieces r1
      else if castling = true ∧ j = r1 then b.pieces r2
      else b.pieces j := by
  simp only [unmake_core]
  by_cases hcap : m.captured_type = 0
  · cases hcs : castling <;> simp [hcap, setAt_apply]
  · cases hcs : castling <;> simp [hcap, setAt_apply]

/-- Step `pieces` of the round trip. -/
theorem round_pieces {b : chessboard} {o d c r1 r2 : Nat} {castling promote : Bool}
    (ox oy dx dy cy : Int) (ts : Bool) (mc : MC b.pieces b.side_sets b.piece_sets)
    (ok : CoreOK b o d c r1 r2 castling promote) :
    (unmake_core (move_core b ox oy dx dy cy o d c r1 r2 castling promote ts)
      (core_record b ox oy dx dy cy o c r1 r2 castling promote ts) b.move_stack
      o d c r1 r2 castling).pieces = b.pieces := by
  funext j
  rw [unmake_core_pieces]
  simp only [move_core_pieces ox oy dx dy cy ts ok]
  have hcap := core_captured ok
  obtain ⟨ho, hd, hc, hne, hp0, hco, hcd, cast, prom⟩ := ok
  have hv := mc.codes o ho
  have hvt := valid_code_type hv hp0
  unfold valid_code at hv
  simp only [core_record, hcap, type_mask, side_shift, and7, shr3, rook, pawn, queen, king]
  rw [or_shl3 (b.pieces o / 8) (by decide : 2 < 8)]
  have hne2 : d ≠ o := fun e => hne e.symm
  by_cases hjc : j = c
  · subst hjc
    by_cases hc0 : b.pieces j = 0
    · simp only [hc0, ne_eq, not_true_eq_false, false_and, if_false, hco]
      by_cases hjd : j = d
      · simp [hjd]
      · have hd0 : b.pieces d = 0 := by
          rcases hcd with e | e
          · exact absurd e hjd
          · exact e
        cases hcs : castling
        · simp [hjd, hc0]
        · obtain ⟨_, _, _, _, _, _, _, _, _, _, _, e, _⟩ := cast hcs
          exact absurd e hjd
    · simp [hc0]
  · by_cases hjo : j = o
    · subst hjo
      have hpn : ∀ q : Nat, q % 8 < 8 := fun q => Nat.mod_lt _ (by decide)
      cases hpr : promote
      · simp only [hjc, and_false, if_false, if_true, hne, Bool.false_eq_true]
        simp only [ne_eq, not_true_eq_false, if_false]
        rw [or_shl3 _ (hpn _)]
        omega
      · have hp6 := prom hpr
        have hq : 2 + 8 * (b.pieces j / 8) ≠ 0 := by omega
        simp only [hjc, and_false, if_false, if_true, hne, hq, ne_eq, not_false_eq_true]
        rw [or_shl3 _ (by decide : 6 < 8)]
        omega
    · by_cases hjd : j = d
      · subst hjd
        have hd0 : b.pieces j = 0 := by
          rcases hcd with e | e
          · exact absurd e.symm hjc
          · exact e
        simp [hjc, hjo, hd0]
      · cases hcs : castling
        · simp [hjc, hjo, hjd]
        · obtain ⟨_, hr1, hr2, hr12, h1o, h1d, h2o, h2d, hrk, hr0, _, e, _⟩ := cast hcs
          have e1 : r1 ≠ c := by rw [e]; exact h1d
          have e2 : r2 ≠ c := by rw [e]; exact h2d
          by_cases hj2 : j = r2
          · subst hj2
            simp [hjc, hjo, hjd, hr12, h1o, h1d, e1, hr0]
          · by_cases hj1 : j = r1
            · subst hj1
              simp [hjc, hjo, hjd, hj2, h2d, h2o, e2]
            · simp [hjc, hjo, hjd, hj2, hj1]

theorem core_UnOK {b : chessboard} {o d c r1 r2 : Nat} {castling promote : Bool}
    (ox oy dx dy cy : Int) (ts : Bool) (mc : MC b.pieces b.side_sets b.piece_sets)
    (ok : CoreOK b o d c r1 r2 castling promote) :
    UnOK (move_core b ox oy dx dy cy o d c r1 r2 castling promote ts)
      (core_record b ox oy dx dy cy o c r1 r2 castling promote ts) o d c r1 r2 castling := by
  have hcap := core_captured ok
  have hP := move_core_pieces ox oy dx dy cy ts ok
  obtain ⟨ho, hd, hc, hne, hp0, hco, hcd, cast, prom⟩ := ok
  have hv := mc.codes o ho
  have hvt := valid_code_type hv hp0
  unfold valid_code at hv
  have hpd : (move_core b ox oy dx dy cy o d c r1 r2 castling promote ts).pieces d =
      if promote then 2 + 8 * (b.pieces o / 8) else b.pieces o := by
    rw [hP]; simp
  refine ⟨ho, hd, hc, hne, hco, ?_, ?_, ?_, ?_⟩
  · rw [hpd]
    split_ifs
    · omega
    · exact hp0
  · rw [hP]; simp [hne]
  · intro hcs
    obtain ⟨hk, hr1, hr2, hr12, h1o, h1d, h2o, h2d, hrk, hr0, _, e, _⟩ := cast hcs
    have hpf : promote = false := by
      cases hpr : promote
      · rfl
      · have := prom hpr; omega
    refine ⟨hr1, hr2, hr12, h1o, h1d, h2o, h2d, ?_, ?_⟩
    · rw [hP]
      have e1 : r1 ≠ c := by rw [e]; exact h1d
      simp [h1d, h1o, e1, hr12, hcs]
    · rw [hP, hpd, hpf]
      have e2 : r2 ≠ c := by rw [e]; exact h2d
      simp [h2d, h2o, e2, hcs, hrk]
  · intro hc0
    simp only [core_record, hcap] at hc0 ⊢
    refine ⟨mc.codes c hc, ?_, ?_⟩
    · by_cases e : c = d
      · exact Or.inl e
      · right
        rw [hP]; simp [e, hco]
    · intro hcs
      exact (cast hcs).2.2.2.2.2.2.2.2.2.2.2.1

theorem move_core_side_frame {b : chessboard} {o d c r1 r2 : Nat} {castling promote : Bool}
    (ox oy dx dy cy : Int) (ts : Bool) (mc : MC b.pieces b.side_sets b.piece_sets)
    (ok : CoreOK b o d c r1 r2 castling promote) (j : Nat) (hj : 2 ≤ j) :
    (move_core b ox oy dx dy cy o d c r1 r2 castling promote ts).side_sets j = b.side_sets j := by
  have h1 : j ≠ b.pieces o / 8 := by
    have := valid_code_side (mc.codes o ok.ho); omega
  have h2 : j ≠ b.pieces c / 8 := by
    have := valid_code_side (mc.codes c ok.hc); omega
  simp only [move_core, type_mask, side_shift, and7, shr3, rook, pawn, queen, king]
  cases hcs : castling
  · simp [setAt_apply, h1, h2]
  · obtain ⟨_, _, _, _, _, h1d, _, h2d, _, _, _, e, _⟩ := ok.cast hcs
    have e1 : c ≠ r1 := by rw [e]; exact fun h => h1d h.symm
    have e2 : c ≠ r2 := by rw [e]; exact fun h => h2d h.symm
    simp [setAt_apply, h1, h2, e1, e2]

theorem move_core_type_frame {b : chessboard} {o d c r1 r2 : Nat} {castling promote : Bool}
    (ox oy dx dy cy : Int) (ts : Bool) (mc : MC b.pieces b.side_sets b.piece_sets)
    (ok : CoreOK b o d c r1 r2 castling promote) (j : Nat) (hj : 7 ≤ j) :
    (move_core b ox oy dx dy cy o d c r1 r2 castling promote ts).piece_sets j
      = b.piece_sets j := by
  have h1 : j ≠ b.pieces o % 8 := by
    have := mc.codes o ok.ho; unfold valid_code at this; omega
  have h2 : j ≠ b.pieces c % 8 := by
    have := mc.codes c ok.hc; unfold valid_code at this; omega
  have h5 : j ≠ 5 := by omega
  have h6 : j ≠ 6 := by omega
  have hq : j ≠ 2 := by omega
  simp only [move_core, type_mask, side_shift, and7, shr3, rook, pawn, queen, king]
  cases hcs : castling
  · cases hpr : promote <;> simp [setAt_apply, h1, h2, hq, h6]
  · obtain ⟨_, _, _, _, _, h1d, _, h2d, _, _, _, e, _⟩ := ok.cast hcs
    have e1 : c ≠ r1 := by rw [e]; exact fun h => h1d h.symm
    have e2 : c ≠ r2 := by rw [e]; exact fun h => h2d h.symm
    cases hpr : promote <;> simp [setAt_apply, h1, h2, h5, hq, h6, e1, e2]

theorem unmake_core_side_frame (b : chessboard) (m : chessmove) (rest : List chessmove)
    (o d c r1 r2 : Nat) (castling : Bool) (j : Nat) (h1 : j ≠ b.pieces d / 8)
    (h2 : j ≠ m.captured_type / 8) :
    (unmake_core b m rest o d c r1 r2 castling).side_sets j = b.side_sets j := by
  simp only [unmake_core, type_mask, side_shift, and7, shr3, rook, pawn, queen, king]
  by_cases hcap : m.captured_type = 0 <;> cases hcs : castling <;>
    simp [hcap, setAt_apply, h1, h2]

theorem unmake_core_type_frame (b : chessboard) (m : chessmove) (rest : List chessmove)
    (o d c r1 r2 : Nat) (castling : Bool) (j : Nat) (h1 : j ≠ b.pieces d % 8)
    (h2 : j ≠ m.captured_type % 8) (h5 : j ≠ 5) (h6 : j ≠ 6) :
    (unmake_core b m rest o d c r1 r2 castling).piece_sets j = b.piece_sets j := by
  simp only [unmake_core, type_mask, side_shift, and7, shr3, rook, pawn, queen, king]
  by_cases hcap : m.captured_type = 0 <;> cases hcs : castling <;>
    by_cases hpr : m.promotion_type = 0 <;>
    simp [hcap, hpr, setAt_apply, h1, h2, h5, h6]

theorem move_core_pieces_dest {b : chessboard} {o d c r1 r2 : Nat} {castling promote : Bool}
    (ox oy dx dy cy : Int) (ts : Bool) (ok : CoreOK b o d c r1 r2 castling promote) :
    (move_core b ox oy dx dy cy o d c r1 r2 castling promote ts).pieces d =
      if promote then 2 + 8 * (b.pieces o / 8) else b.pieces o := by
  rw [move_core_pieces ox oy dx dy cy ts ok]; simp

theorem move_core_hash (b : chessboard) (ox oy dx dy cy : Int) (o d c r1 r2 : Nat)
    (castling promote ts : Bool) :
    (move_core b ox oy dx dy cy o d c r1 r2 castling promote ts).hash =
      ((((((if (ts != pawn_two_squares b) = true then b.hash ^^^ zobrist_table 0 8 else b.hash)
        ^^^ (if castling = true then
              zobrist_table r1 (5 + 8 * (b.pieces o / 8)) ^^^
                zobrist_table r2 (5 + 8 * (b.pieces o / 8)) else 0))
        ^^^ (if (if castling = true then
                  setAt (setAt b.pieces r1 (b.pieces r2)) r2 (b.pieces r1) else b.pieces) c ≠ 0
              then zobrist_table c
                ((if castling = true then
                  setAt (setAt b.pieces r1 (b.pieces r2)) r2 (b.pieces r1) else b.pieces) c)
              else 0))
        ^^^ (zobrist_table o (b.pieces o) ^^^ zobrist_table d (b.pieces o)))
        ^^^ (if promote = true then
              zobrist_table d (b.pieces o) ^^^ zobrist_table d (2 + 8 * (b.pieces o / 8))
             else 0))
        ^^^ zobrist_table 1 8) := by
  simp only [move_core, type_mask, side_shift, and7, shr3, rook, pawn, queen, king]
  rw [or_shl3 (b.pieces o / 8) (by decide : 2 < 8), or_shl3 (b.pieces o / 8) (by decide : 5 < 8)]
  cases castling <;> cases promote <;> simp <;> split_ifs <;> simp

/-- Step `hash` of the round trip. -/
theorem round_hash {b : chessboard} {o d c r1 r2 : Nat} {castling promote : Bool}
    (ox oy dx dy cy : Int) (ts : Bool) (mc : MC b.pieces b.side_sets b.piece_sets)
    (ok : CoreOK b o d c r1 r2 castling promote) :
    (unmake_core (move_core b ox oy dx dy cy o d c r1 r2 castling promote ts)
      (core_record b ox oy dx dy cy o c r1 r2 castling promote ts) b.move_stack
      o d c r1 r2 castling).hash = b.hash := by
  have hcap := core_captured ok
  have hpd := move_core_pieces_dest ox oy dx dy cy ts ok
  have hv := mc.codes o ok.ho
  have hvt := valid_code_type hv ok.hp0
  unfold valid_code at hv
  have hrec1 : (core_record b ox oy dx dy cy o c r1 r2 castling promote ts).captured_type
      = b.pieces c := by simp [core_record, hcap]
  have hrec2 : (core_record b ox oy dx dy cy o c r1 r2 castling promote ts).promotion_type
      = if promote then 2 + 8 * (b.pieces o / 8) else 0 := by
    simp only [core_record, queen, side_shift, shr3]
    rw [or_shl3 (b.pieces o / 8) (by decide : 2 < 8)]
  have hrec3 : (core_record b ox oy dx dy cy o c r1 r2 castling promote ts).two_squares_flag_changed
      = b2n (ts != pawn_two_squares b) := rfl
  have hside : (if promote then 2 + 8 * (b.pieces o / 8) else b.pieces o) / 8
      = b.pieces o / 8 := by split_ifs <;> omega
  have hnew : (if (if promote then 2 + 8 * (b.pieces o / 8) else 0) ≠ 0 then 6
        else (if promote then 2 + 8 * (b.pieces o / 8) else b.pieces o) % 8)
      + 8 * (b.pieces o / 8) = b.pieces o := by
    cases hpr : promote
    · simp; omega
    · have := ok.prom hpr
      simp; omega
  have hlt : (if (if promote then 2 + 8 * (b.pieces o / 8) else 0) ≠ 0 then 6
        else (if promote then 2 + 8 * (b.pieces o / 8) else b.pieces o) % 8) < 8 := by
    split_ifs <;> omega
  simp only [unmake_core, hrec1, hrec2, hrec3, hpd, type_mask, side_shift, and7, shr3, rook,
    pawn, queen, king, hside]
  rw [or_shl3 _ hlt, hnew, or_shl3 (b.pieces o / 8) (by decide : 5 < 8), move_core_hash, hcap]
  by_cases hc0 : b.pieces c = 0 <;> cases castling <;> cases promote <;>
    cases (ts != pawn_two_squares b) <;>
    simp [hc0, b2n, Nat.xor_assoc, Nat.xor_comm, xor_left_comm, xor_cancel_mid]

theorem move_core_prev (b : chessboard) (ox oy dx dy cy : Int) (o d c r1 r2 : Nat)
    (castling promote ts : Bool) :
    (move_core b ox oy dx dy cy o d c r1 r2 castling promote ts).previous_states =
      setAt b.previous_states
        ((move_core b ox oy dx dy cy o d c r1 r2 castling promote ts).hash % 2 ^ 22)
        ((b.previous_states
          ((move_core b ox oy dx dy cy o d c r1 r2 castling promote ts).hash % 2 ^ 22) + 1)
          % 2 ^ 16) := rfl

theorem unmake_core_prev (b : chessboard) (m : chessmove) (rest : List chessmove)
    (o d c r1 r2 : Nat) (castling : Bool) :
    (unmake_core b m rest o d c r1 r2 castling).previous_states =
      setAt b.previous_states (b.hash % 2 ^ 22)
        ((b.previous_states (b.hash % 2 ^ 22) + (2 ^ 16 - 1)) % 2 ^ 16) := by
  simp only [unmake_core]; split_ifs <;> rfl

theorem round_counter (f : Nat → Nat) (k : Nat) (h : f k < 2 ^ 16) :
    setAt (setAt f k ((f k + 1) % 2 ^ 16)) k
      ((setAt f k ((f k + 1) % 2 ^ 16) k + (2 ^ 16 - 1)) % 2 ^ 16) = f := by
  funext j
  simp only [setAt_apply]
  split_ifs with hj
  · subst hj; omega
  · rfl

/-- Undoing `move_core` by `unmake_core` gives the board back, field by field. -/
theorem round_core {b : chessboard} {o d c r1 r2 : Nat} {castling promote : Bool}
    (ox oy dx dy cy : Int) (ts : Bool) (wf : WF b)
    (ok : CoreOK b o d c r1 r2 castling promote) :
    unmake_core (move_core b ox oy dx dy cy o d c r1 r2 castling promote ts)
      (core_record b ox oy dx dy cy o c r1 r2 castling promote ts) b.move_stack
      o d c r1 r2 castling = b := by
  have hcap := core_captured ok
  have hrec1 : (core_record b ox oy dx dy cy o c r1 r2 castling promote ts).captured_type
      = b.pieces c := by simp [core_record, hcap]
  have hmc := move_core_MC ox oy dx dy cy ts wf.mc ok
  have hun := core_UnOK ox oy dx dy cy ts wf.mc ok
  have hmc2 := unmake_core_MC (l := b.move_stack) hmc hun
  have hP := round_pieces ox oy dx dy cy ts wf.mc ok
  rw [hP] at hmc2
  have hvd := hmc.codes d ok.hd
  have hvc := wf.mc.codes c ok.hc
  apply chessboard_eq
  · simp only [unmake_core]; split_ifs <;> rfl
  · exact round_hash ox oy dx dy cy ts wf.mc ok
  · rw [unmake_core_prev, move_core_prev]
    exact round_counter _ _ (wf.prev_lt _)
  · simp only [unmake_core]; split_ifs <;> rfl
  · exact hP
  · funext j
    by_cases hj : j < 2
    · exact hmc2.side_unique wf.mc hj
    · rw [unmake_core_side_frame, move_core_side_frame ox oy dx dy cy ts wf.mc ok j (by omega)]
      · have := valid_code_side hvd; omega
      · rw [hrec1]
        have := valid_code_side hvc; omega
  · funext j
    by_cases hj : j ≤ 6
    · exact hmc2.type_unique wf.mc hj
    · rw [unmake_core_type_frame, move_core_type_frame ox oy dx dy cy ts wf.mc ok j (by omega)]
      · unfold valid_code at hvd; omega
      · rw [hrec1]
        unfold valid_code at hvc; omega
      · omega
      · omega
  · obtain ⟨ho, hd, hc, hne, hp0, hco, hcd, cast, prom⟩ := ok
    have hH : ∀ i, b.has_moved.testBit i = true → i < 64 := fun i hi => (wf.hm_occ i hi).1
    have hemp : ∀ i, b.pieces i = 0 → b.has_moved.testBit i = false := by
      intro i hi
      cases hb : b.has_moved.testBit i
      · rfl
      · exact absurd hi (wf.hm_occ i hb).2
    have hd0 : c ≠ d → b.has_moved.testBit d = false := by
      intro e
      rcases hcd with e2 | e2
      · exact absurd e2 e
      · exact hemp d e2
    simp only [unmake_core, hrec1]
    by_cases hc0 : b.pieces c = 0
    · simp only [hc0, ne_eq, not_true_eq_false, if_false]
      simp only [move_core, core_record]
      refine round_has_moved_nocap ho hd hc hne hco hH ?_ (hemp c hc0)
      by_cases e : c = d
      · rw [← e]; exact hemp c hc0
      · exact hd0 e
    · simp only [hc0, ne_eq, not_false_eq_true, if_true]
      simp only [move_core, core_record]
      exact round_has_moved ho hd hc hne hco hH hd0
  · simp only [unmake_core]
    split_ifs <;> simp [move_core]
  · simp only [unmake_core]
    split_ifs <;> simp [move_core, Nat.xor_assoc]

theorem sq_cast (n : Nat) : sq ((n &&& 7 : Nat) : Int) ((n >>> 3 : Nat) : Int) = n := by
  rw [and7, shr3]; unfold sq; omega

theorem sq_cast_mod (n : Nat) : sq ((n % 8 : Nat) : Int) ((n / 8 : Nat) : Int) = n := by
  unfold sq; omega

theorem make_move_sq_not_null {o d : Nat} (ho : o < 64) (hd : d < 64) (hne : o ≠ d) :
    ¬ (((o &&& 7 : Nat) : Int) = 0 ∧ ((o >>> 3 : Nat) : Int) = 0 ∧
      ((d &&& 7 : Nat) : Int) = 0 ∧ ((d >>> 3 : Nat) : Int) = 0) := by
  rw [and7, shr3, and7, shr3]; omega

theorem natAbs_file_eq (o d k : Nat) :
    (((((o % 8 : Nat) : Int) - ((d % 8 : Nat) : Int)).natAbs == k) = true) ↔
      (d % 8 + k = o % 8 ∨ o % 8 + k = d % 8) := by
  rw [beq_iff_eq]; omega

theorem natAbs_rank_eq (o d k : Nat) :
    (((((o / 8 : Nat) : Int) - ((d / 8 : Nat) : Int)).natAbs == k) = true) ↔
      (d / 8 + k = o / 8 ∨ o / 8 + k = d / 8) := by
  rw [beq_iff_eq]; omega

theorem cap_row_eq (b : chessboard) (o d : Nat) :
    cap_row b o d =
      if b.pieces d = 0 ∧ b.pieces o % 8 = 6 ∧ (d % 8 + 1 = o % 8 ∨ o % 8 + 1 = d % 8) then
        (if b.pieces o / 8 ≠ 0 then ((d / 8 : Nat) : Int) + 1 else ((d / 8 : Nat) : Int) - 1)
      else ((d / 8 : Nat) : Int) := by
  unfold cap_row cap_y
  simp only [sq_cast, type_mask, side_shift, pawn, king]
  simp only [and7, shr3]
  by_cases hp : b.pieces o % 8 = 6
  · have hk : (b.pieces o % 8 == 1) = false := by rw [hp]; rfl
    have hp1 : (b.pieces o % 8 == 6) = true := by rw [hp]; rfl
    simp only [hk, hp1, Bool.false_and, Bool.false_eq_true, if_false, Bool.and_true]
    simp only [hp, true_and]
    by_cases hd0 : b.pieces d = 0
    · have hd1 : (b.pieces d == 0) = true := by rw [hd0]; rfl
      by_cases hx : (d % 8 + 1 = o % 8 ∨ o % 8 + 1 = d % 8)
      · have hx2 := (natAbs_file_eq o d 1).2 hx
        simp [hd0, hx, hx2]
        intro h; exfalso; omega
      · have hx2 : ((((o % 8 : Nat) : Int) - ((d % 8 : Nat) : Int)).natAbs == 1) = false := by
          cases hb : ((((o % 8 : Nat) : Int) - ((d % 8 : Nat) : Int)).natAbs == 1)
          · rfl
          · exact absurd ((natAbs_file_eq o d 1).1 hb) hx
        simp [hx2, hx]
        intro _ h; exfalso; omega
    · have hd1 : (b.pieces d == 0) = false := by simpa using hd0
      simp [hd0]
  · have hp1 : (b.pieces o % 8 == 6) = false := by simpa using hp
    simp only [hp, hp1, false_and, and_false, Bool.false_and, Bool.and_false, if_false,
      Bool.false_eq_true]

theorem cap_row_sq (b : chessboard) (o d : Nat) :
    sq ((d &&& 7 : Nat) : Int) (cap_row b o d) = cap_sq b o d := by
  rw [cap_row_eq, and7]
  unfold cap_sq sq
  split_ifs <;> omega

theorem rook_from_sq (o d : Nat) :
    sq (if ((o &&& 7 : Nat) : Int) - ((d &&& 7 : Nat) : Int) > 0 then 0 else 7)
      ((o >>> 3 : Nat) : Int) = rook_from o d := by
  unfold rook_from sq
  rw [and7, and7, shr3]
  split_ifs <;> omega

theorem is_castling_eq (b : chessboard) (o d : Nat) :
    ((b.pieces o &&& type_mask == king)
      && ((((o &&& 7 : Nat) : Int) - ((d &&& 7 : Nat) : Int)).natAbs == 2)) = is_castling b o d := by
  unfold is_castling
  simp only [type_mask, king, and7]
  rw [Bool.eq_iff_iff]
  simp only [Bool.and_eq_true, beq_iff_eq, decide_eq_true_eq]
  constructor
  · rintro ⟨h1, h2⟩; exact ⟨h1, by omega⟩
  · rintro ⟨h1, h2⟩; exact ⟨h1, by omega⟩

theorem is_promotion_eq (b : chessboard) (o d : Nat) :
    ((b.pieces o &&& type_mask == pawn)
      && (((d >>> 3 : Nat) : Int) == (1 - ((b.pieces o >>> side_shift : Nat) : Int)) * 7))
      = is_promotion b o d := by
  unfold is_promotion
  simp only [type_mask, pawn, side_shift, and7, shr3]
  rw [Bool.eq_iff_iff]
  simp only [Bool.and_eq_true, beq_iff_eq, decide_eq_true_eq]

theorem is_two_squares_eq (b : chessboard) (o d : Nat) :
    (((((o >>> 3 : Nat) : Int) - ((d >>> 3 : Nat) : Int)).natAbs == 2)
      && (b.pieces o &&& type_mask == pawn)) = is_two_squares b o d := by
  unfold is_two_squares
  simp only [type_mask, pawn, and7, shr3]
  rw [Bool.eq_iff_iff]
  simp only [Bool.and_eq_true, beq_iff_eq, decide_eq_true_eq]
  constructor
  · rintro ⟨h1, h2⟩; exact ⟨by omega, h2⟩
  · rintro ⟨h1, h2⟩; exact ⟨by omega, h2⟩

/-- The move from `o` to `d` as an instance of `move_core`. -/
theorem make_move_sq_eq {b : chessboard} {o d : Nat} (ho : o < 64) (hd : d < 64) (hne : o ≠ d) :
    make_move_sq b o d =
      move_core b ((o &&& 7 : Nat) : Int) ((o >>> 3 : Nat) : Int) ((d &&& 7 : Nat) : Int)
        ((d >>> 3 : Nat) : Int) (cap_row b o d) o d (cap_sq b o d) (rook_from o d) (rook_to o d)
        (is_castling b o d) (is_promotion b o d) (is_two_squares b o d) := by
  unfold make_move_sq
  rw [make_move_eq_core _ _ _ _ _ (make_move_sq_not_null ho hd hne)]
  simp only [sq_cast, rook_from_sq, is_castling_eq, is_promotion_eq, is_two_squares_eq]
  rw [← cap_row_sq]
  rfl

theorem rook_to_left {o d : Nat} (ho : o % 8 = 4) (hd : d % 8 = 2) : rook_to o d = o - 1 := by
  unfold rook_to sq
  rw [and7, and7, shr3, ho, hd]
  have : ((4 : Nat) : Int) - ((2 : Nat) : Int) = 2 := by norm_num
  rw [this]
  have : (2 : Int).tdiv 2 = 1 := by decide
  rw [this]
  omega

theorem rook_to_right {o d : Nat} (ho : o % 8 = 4) (hd : d % 8 = 6) : rook_to o d = o + 1 := by
  unfold rook_to sq
  rw [and7, and7, shr3, ho, hd]
  have : ((4 : Nat) : Int) - ((6 : Nat) : Int) = -2 := by norm_num
  rw [this]
  have : (-2 : Int).tdiv 2 = -1 := by decide
  rw [this]
  omega

/-- A move that satisfies `MoveOK` on a well-formed board satisfies the preconditions of
`move_core`. -/
theorem MoveOK.core {b : chessboard} {o d : Nat} (wf : WF b) (ok : MoveOK b o d) :
    CoreOK b o d (cap_sq b o d) (rook_from o d) (rook_to o d) (is_castling b o d)
      (is_promotion b o d) := by
  obtain ⟨ho, hd, hne, hp0, hking, hpawn⟩ := ok
  have hv := wf.mc.codes o ho
  unfold valid_code at hv
  have hcap : cap_sq b o d < 64 ∧ cap_sq b o d ≠ o ∧ (cap_sq b o d = d ∨ b.pieces d = 0) ∧
      (b.pieces o % 8 ≠ 6 → cap_sq b o d = d) := by
    unfold cap_sq
    by_cases hep : b.pieces d = 0 ∧ b.pieces o % 8 = 6 ∧ (d % 8 + 1 = o % 8 ∨ o % 8 + 1 = d % 8)
    · rw [if_pos hep]
      obtain ⟨hd0, hp6, hx⟩ := hep
      have hr := wf.pawn_rank o ho hp6
      obtain ⟨p1, p0⟩ := hpawn hp6
      by_cases hs : b.pieces o / 8 = 0
      · have := p0 hs
        simp only [hs, ne_eq, not_true_eq_false, if_false]
        refine ⟨by omega, by omega, Or.inr hd0, fun h => absurd hp6 h⟩
      · have := p1 (by omega)
        simp only [hs, ne_eq, not_false_eq_true, if_true]
        refine ⟨by omega, by omega, Or.inr hd0, fun h => absurd hp6 h⟩
    · rw [if_neg hep]
      exact ⟨hd, fun e => hne e.symm, Or.inl rfl, fun _ => rfl⟩
  obtain ⟨hc, hco, hcd, hcnp⟩ := hcap
  refine ⟨ho, hd, hc, hne, hp0, hco, hcd, ?_, ?_⟩
  · intro hcs
    unfold is_castling at hcs
    simp only [decide_eq_true_eq] at hcs
    obtain ⟨hk, hx⟩ := hcs
    obtain ⟨h4, hd0, _, hside⟩ := hking hk hx
    have hcd2 := hcnp (by omega)
    rcases hside with ⟨e, hrk, hr0, hhm⟩ | ⟨e, hrk, hr0, hhm⟩
    · have hd2 : d % 8 = 2 := by omega
      have e1 : rook_from o d = o - 4 := by unfold rook_from; rw [hd2, h4]; simp; omega
      rw [rook_to_left h4 hd2, e1]
      refine ⟨hk, by omega, by omega, by omega, by omega, by omega, by omega, by omega,
        hrk, hr0, hd0, hcd2, hhm⟩
    · have hd2 : d % 8 = 6 := by omega
      have e1 : rook_from o d = o + 3 := by unfold rook_from; rw [hd2, h4]; simp; omega
      rw [rook_to_right h4 hd2, e1]
      refine ⟨hk, by omega, by omega, by omega, by omega, by omega, by omega, by omega,
        hrk, hr0, hd0, hcd2, hhm⟩
  · intro hpr
    unfold is_promotion at hpr
    simp only [decide_eq_true_eq] at hpr
    exact hpr.1

/-- Theorem "round trip": `unmake_move` undoes `make_move` for every move that satisfies
`MoveOK` on a well-formed board. -/
theorem unmake_make_sq {b : chessboard} {o d : Nat} (wf : WF b) (ok : MoveOK b o d) :
    unmake_move (make_move_sq b o d) = b := by
  have hco := ok.core wf
  rw [make_move_sq_eq ok.ho ok.hd ok.hne]
  have hst := move_core_stack b ((o &&& 7 : Nat) : Int) ((o >>> 3 : Nat) : Int)
    ((d &&& 7 : Nat) : Int) ((d >>> 3 : Nat) : Int) (cap_row b o d) o d (cap_sq b o d)
    (rook_from o d) (rook_to o d) (is_castling b o d) (is_promotion b o d) (is_two_squares b o d)
  have hemp : (core_record b ((o &&& 7 : Nat) : Int) ((o >>> 3 : Nat) : Int)
      ((d &&& 7 : Nat) : Int) ((d >>> 3 : Nat) : Int) (cap_row b o d) o (cap_sq b o d)
      (rook_from o d) (rook_to o d) (is_castling b o d) (is_promotion b o d)
      (is_two_squares b o d)).empty = false := by
    have := make_move_sq_not_null ok.ho ok.hd ok.hne
    simp only [chessmove.empty, core_record]
    cases h1 : (((o &&& 7 : Nat) : Int) == 0) <;> cases h2 : (((o >>> 3 : Nat) : Int) == 0) <;>
      cases h3 : (((d &&& 7 : Nat) : Int) == 0) <;> cases h4 : (((d >>> 3 : Nat) : Int) == 0) <;>
      simp_all
  rw [unmake_move_eq_core _ _ _ hst hemp]
  have hpd := move_core_pieces_dest ((o &&& 7 : Nat) : Int) ((o >>> 3 : Nat) : Int)
    ((d &&& 7 : Nat) : Int) ((d >>> 3 : Nat) : Int) (cap_row b o d) (is_two_squares b o d) hco
  have hcast : ((move_core b ((o &&& 7 : Nat) : Int) ((o >>> 3 : Nat) : Int)
      ((d &&& 7 : Nat) : Int) ((d >>> 3 : Nat) : Int) (cap_row b o d) o d (cap_sq b o d)
      (rook_from o d) (rook_to o d) (is_castling b o d) (is_promotion b o d)
      (is_two_squares b o d)).pieces d &&& type_mask == king
        && ((((o &&& 7 : Nat) : Int) - ((d &&& 7 : Nat) : Int)).natAbs == 2))
      = is_castling b o d := by
    rw [hpd, ← is_castling_eq]
    have hv := wf.mc.codes o ok.ho
    unfold valid_code at hv
    cases hpr : is_promotion b o d
    · simp
    · have hp6 := hco.prom hpr
      simp only [if_true, type_mask, king, and7]
      have e1 : ((2 + 8 * (b.pieces o / 8)) % 8 == 1) = false := by
        have : (2 + 8 * (b.pieces o / 8)) % 8 = 2 := by omega
        rw [this]; rfl
      have e2 : (b.pieces o % 8 == 1) = false := by rw [hp6]; rfl
      rw [e1, e2]
  simp only [core_record] at hcast ⊢
  simp only [sq_cast, rook_from_sq, cap_row_sq, hcast]
  exact round_core _ _ _ _ _ _ wf hco

theorem move_core_has_moved (b : chessboard) (ox oy dx dy cy : Int) {o d c : Nat} (r1 r2 : Nat)
    (castling promote ts : Bool) (ho : o < 64) (hd : d < 64) (hc : c < 64) (j : Nat) :
    (move_core b ox oy dx dy cy o d c r1 r2 castling promote ts).has_moved.testBit j =
      (decide (j = d) || (b.has_moved.testBit j && !decide (j = o) && !decide (j = c)
        && decide (j < 64))) := by
  simp only [move_core, Nat.testBit_or, Nat.testBit_and, testBit_not64, testBit_shl64_one ho,
    testBit_shl64_one hd, testBit_shl64_one hc]
  cases b.has_moved.testBit j <;> cases decide (j = d) <;> cases decide (j = o) <;>
    cases decide (j = c) <;> cases decide (j < 64) <;> rfl

theorem xor_one_le {s : Nat} (h : s ≤ 1) : s ^^^ 1 ≤ 1 := by
  have : s = 0 ∨ s = 1 := by omega
  rcases this with e | e <;> subst e <;> decide

/-- The invariant `WF` is preserved by every move that satisfies `MoveOK`. -/
theorem WF.make_move_sq {b : chessboard} {o d : Nat} (wf : WF b) (ok : MoveOK b o d) :
    WF (make_move_sq b o d) := by
  have hco := ok.core wf
  have hmc := move_core_MC ((o &&& 7 : Nat) : Int) ((o >>> 3 : Nat) : Int)
    ((d &&& 7 : Nat) : Int) ((d >>> 3 : Nat) : Int) (cap_row b o d) (is_two_squares b o d)
    wf.mc hco
  have hP := move_core_pieces ((o &&& 7 : Nat) : Int) ((o >>> 3 : Nat) : Int)
    ((d &&& 7 : Nat) : Int) ((d >>> 3 : Nat) : Int) (cap_row b o d) (is_two_squares b o d) hco
  have hH := move_core_has_moved b ((o &&& 7 : Nat) : Int) ((o >>> 3 : Nat) : Int)
    ((d &&& 7 : Nat) : Int) ((d >>> 3 : Nat) : Int) (cap_row b o d) (rook_from o d)
    (rook_to o d) (is_castling b o d) (is_promotion b o d) (is_two_squares b o d)
    hco.ho hco.hd hco.hc
  rw [make_move_sq_eq ok.ho ok.hd ok.hne]
  obtain ⟨ho, hd, hne, hp0, hking, hpawn⟩ := ok
  have hv := wf.mc.codes o ho
  unfold valid_code at hv
  have hcast := hco.cast
  -- the pieces on squares other than `o`, `d` and the capture square
  have hrest : ∀ j, j ≠ d → j ≠ o → j ≠ cap_sq b o d →
      (move_core b ((o &&& 7 : Nat) : Int) ((o >>> 3 : Nat) : Int) ((d &&& 7 : Nat) : Int)
        ((d >>> 3 : Nat) : Int) (cap_row b o d) o d (cap_sq b o d) (rook_from o d) (rook_to o d)
        (is_castling b o d) (is_promotion b o d) (is_two_squares b o d)).pieces j % 8 = 6 ∨
      (move_core b ((o &&& 7 : Nat) : Int) ((o >>> 3 : Nat) : Int) ((d &&& 7 : Nat) : Int)
        ((d >>> 3 : Nat) : Int) (cap_row b o d) o d (cap_sq b o d) (rook_from o d) (rook_to o d)
        (is_castling b o d) (is_promotion b o d) (is_two_squares b o d)).pieces j % 8 = 1 →
      (move_core b ((o &&& 7 : Nat) : Int) ((o >>> 3 : Nat) : Int) ((d &&& 7 : Nat) : Int)
        ((d >>> 3 : Nat) : Int) (cap_row b o d) o d (cap_sq b o d) (rook_from o d) (rook_to o d)
        (is_castling b o d) (is_promotion b o d) (is_two_squares b o d)).pieces j
        = b.pieces j := by
    intro j h1 h2 h3
    rw [hP]
    simp only [h1, h2, h3, if_false]
    cases hcs : is_castling b o d
    · simp
    · obtain ⟨_, _, _, h12, _, _, _, _, hrk, hr0, _, _, _⟩ := hcast hcs
      intro h
      by_cases e2 : j = rook_to o d
      · simp only [e2, and_self, if_true, hrk] at h
        omega
      · by_cases e1 : j = rook_from o d
        · simp only [e1, h12, and_false, if_false, and_self, if_true] at h
          omega
        · simp [e1, e2]
  have hPo : (move_core b ((o &&& 7 : Nat) : Int) ((o >>> 3 : Nat) : Int) ((d &&& 7 : Nat) : Int)
        ((d >>> 3 : Nat) : Int) (cap_row b o d) o d (cap_sq b o d) (rook_from o d) (rook_to o d)
        (is_castling b o d) (is_promotion b o d) (is_two_squares b o d)).pieces o = 0 := by
    rw [hP]; simp [hne]
  have hPc : ∀ i, i ≠ d → i = cap_sq b o d →
      (move_core b ((o &&& 7 : Nat) : Int) ((o >>> 3 : Nat) : Int) ((d &&& 7 : Nat) : Int)
        ((d >>> 3 : Nat) : Int) (cap_row b o d) o d (cap_sq b o d) (rook_from o d) (rook_to o d)
        (is_castling b o d) (is_promotion b o d) (is_two_squares b o d)).pieces i = 0 := by
    intro i h1 h2
    have h3 : ¬ cap_sq b o d = d := by rw [← h2]; exact h1
    have h4 : ¬ cap_sq b o d = o := hco.hco
    rw [hP, h2]; simp [h3, h4]
  refine ⟨hmc, ?_, ?_, ?_, ?_, ?_, ?_, ?_⟩
  · intro i hi
    rw [hH] at hi
    rw [hP]
    by_cases hid : i = d
    · subst hid
      refine ⟨hd, ?_⟩
      simp only [if_true]
      split_ifs
      · omega
      · exact hp0
    · simp only [hid, decide_False, Bool.false_or, Bool.and_eq_true, Bool.not_eq_true',
        decide_eq_false_iff_not, decide_eq_true_eq] at hi
      obtain ⟨⟨⟨hb, hio⟩, hic⟩, h64⟩ := hi
      refine ⟨h64, ?_⟩
      simp only [hid, hio, hic, if_false]
      have hpi := (wf.hm_occ i hb).2
      cases hcs : is_castling b o d
      · simpa using hpi
      · obtain ⟨_, _, _, h12, _, _, _, _, hrk, hr0, _, _, hhm⟩ := hcast hcs
        by_cases e2 : i = rook_to o d
        · simp only [e2, and_self, if_true, hrk]
          omega
        · by_cases e1 : i = rook_from o d
          · rw [e1, hhm] at hb; exact absurd hb (by simp)
          · simpa [e1, e2] using hpi
  · intro i hi h6
    by_cases hid : i = d
    · subst hid
      rw [hP] at h6
      simp only [if_true] at h6
      cases hpr : is_promotion b o i
      · rw [hpr] at h6
        simp only [Bool.false_eq_true, if_false] at h6
        have hr := wf.pawn_rank o ho h6
        obtain ⟨p1, p0⟩ := hpawn h6
        have hnp : ¬ (((i / 8 : Nat) : Int) = (1 - ((b.pieces o / 8 : Nat) : Int)) * 7) := by
          intro e
          have : is_promotion b o i = true := by
            unfold is_promotion; simp only [decide_eq_true_eq]; exact ⟨h6, e⟩
          rw [hpr] at this; exact absurd this (by simp)
        by_cases hs : b.pieces o / 8 = 0
        · have := p0 hs
          rw [hs] at hnp
          omega
        · have hs1 : b.pieces o / 8 = 1 := by omega
          have := p1 hs1
          rw [hs1] at hnp
          omega
      · rw [hpr] at h6
        simp only [if_true] at h6
        omega
    · by_cases hio : i = o
      · rw [hio, hPo] at h6; omega
      · by_cases hic : i = cap_sq b o d
        · rw [hPc i hid hic] at h6; omega
        · rw [hrest i hid hio hic (Or.inl h6)] at h6
          exact wf.pawn_rank i hi h6
  · intro i hi h6 hb
    rw [hH] at hb
    by_cases hid : i = d
    · simp [hid] at hb
    · by_cases hio : i = o
      · rw [hio, hPo] at h6; omega
      · by_cases hic : i = cap_sq b o d
        · rw [hPc i hid hic] at h6; omega
        · have e := hrest i hid hio hic (Or.inl h6)
          rw [e] at h6 ⊢
          refine wf.pawn_home i hi h6 ?_
          simpa [hid, hio, hic, hi] using hb
  · intro i hi h1 hb
    rw [hH] at hb
    by_cases hid : i = d
    · simp [hid] at hb
    · by_cases hio : i = o
      · rw [hio, hPo] at h1; omega
      · by_cases hic : i = cap_sq b o d
        · rw [hPc i hid hic] at h1; omega
        · have e := hrest i hid hio hic (Or.inr h1)
          rw [e] at h1
          refine wf.king_home i hi h1 ?_
          simpa [hid, hio, hic, hi] using hb
  · intro m hm
    rw [move_core_stack] at hm
    rcases List.mem_cons.1 hm with e | e
    · subst e
      simp only [chessmove.sane, core_record, and7, shr3]
      omega
    · exact wf.stack_sane m e
  · intro k
    rw [move_core_prev]
    simp only [setAt_apply]
    split_ifs
    · exact Nat.mod_lt _ (by decide)
    · exact wf.prev_lt k
  · exact xor_one_le wf.stm

/-! ## The Zobrist digest -/

theorem zobrist_table_lt (i j : Nat) : zobrist_table i j < 2 ^ 64 := by
  unfold zobrist_table mt19937_64
  exact Nat.mod_lt _ (by decide)

theorem zfold_eq (P : Nat → Nat) (l : List Nat) (h0 : Nat) :
    l.foldl (fun h i => if P i ≠ 0 then h ^^^ zobrist_table i (P i) else h) h0
      = h0 ^^^ zsum P l := by
  induction l generalizing h0 with
  | nil => simp [zsum]
  | cons x xs ih =>
    rw [List.foldl_cons, ih, zsum]
    unfold piece_key
    split_ifs
    · rw [Nat.xor_assoc]
    · simp

theorem zsum_setAt_not_mem (P : Nat → Nat) (i v : Nat) (l : List Nat) (h : i ∉ l) :
    zsum (setAt P i v) l = zsum P l := by
  induction l with
  | nil => simp [zsum]
  | cons x xs ih =>
    have hx : x ≠ i := fun e => h (by rw [e]; exact List.mem_cons_self _ _)
    have hxs : i ∉ xs := fun e => h (List.mem_cons_of_mem _ e)
    rw [zsum, zsum, ih hxs, setAt_other _ _ hx]

/-- Changing the content of one square changes the combined key by the two keys of that
square. -/
theorem zsum_setAt (P : Nat → Nat) (i v : Nat) (l : List Nat) (hn : l.Nodup) (h : i ∈ l) :
    zsum (setAt P i v) l = zsum P l ^^^ (piece_key i (P i) ^^^ piece_key i v) := by
  induction l with
  | nil => exact absurd h (List.not_mem_nil _)
  | cons x xs ih =>
    rw [zsum, zsum]
    have hn2 := List.nodup_cons.1 hn
    by_cases hx : x = i
    · subst hx
      rw [zsum_setAt_not_mem _ _ _ _ hn2.1, setAt_same]
      simp [Nat.xor_assoc, Nat.xor_comm, xor_left_comm, xor_cancel_mid]
    · have hmem : i ∈ xs := by
        rcases List.mem_cons.1 h with e | e
        · exact absurd e.symm hx
        · exact e
      rw [ih hn2.2 hmem, setAt_other _ _ hx]
      simp [Nat.xor_assoc]

theorem zobrist_eq (b : chessboard) :
    zobrist b = ((b2n (pawn_two_squares b) * zobrist_table 0 8) % 2 ^ 64)
      ^^^ ((b.side_to_move * zobrist_table 1 8) % 2 ^ 64) ^^^ zsum b.pieces (List.range 64) := by
  unfold zobrist
  exact zfold_eq _ _ _

theorem zsum_setAt64 (P : Nat → Nat) {i : Nat} (v : Nat) (hi : i < 64) :
    zsum (setAt P i v) (List.range 64)
      = zsum P (List.range 64) ^^^ (piece_key i (P i) ^^^ piece_key i v) :=
  zsum_setAt P i v _ (List.nodup_range 64) (List.mem_range.2 hi)

theorem piece_key_zero (i : Nat) : piece_key i 0 = 0 := by simp [piece_key]

theorem piece_key_pos (i : Nat) {p : Nat} (h : p ≠ 0) : piece_key i p = zobrist_table i p := by
  simp [piece_key, h]

/-- The combined key of the piece array after `move_core`. -/
theorem move_core_zsum {b : chessboard} {o d c r1 r2 : Nat} {castling promote : Bool}
    (ox oy dx dy cy : Int) (ts : Bool) (hv0 : valid_code (b.pieces o))
    (ok : CoreOK b o d c r1 r2 castling promote) :
    zsum (move_core b ox oy dx dy cy o d c r1 r2 castling promote ts).pieces (List.range 64) =
      ((((zsum b.pieces (List.range 64)
        ^^^ (if castling = true then
              zobrist_table r1 (5 + 8 * (b.pieces o / 8)) ^^^
                zobrist_table r2 (5 + 8 * (b.pieces o / 8)) else 0))
        ^^^ (if b.pieces c ≠ 0 then zobrist_table c (b.pieces c) else 0))
        ^^^ (zobrist_table o (b.pieces o) ^^^ zobrist_table d (b.pieces o)))
        ^^^ (if promote = true then
              zobrist_table d (b.pieces o) ^^^ zobrist_table d (2 + 8 * (b.pieces o / 8))
             else 0)) := by
  obtain ⟨ho, hd, hc, hne, hp0, hco, hcd, cast, prom⟩ := ok
  have hv := hv0
  unfold valid_code at hv
  have hne2 : d ≠ o := fun e => hne e.symm
  have hoc : o ≠ c := fun e => hco e.symm
  have hq0 : 2 + 8 * (b.pieces o / 8) ≠ 0 := by omega
  have hdc : ∀ (P : Nat → Nat), P d = b.pieces d → setAt P c 0 d = 0 := by
    intro P hP
    by_cases e : c = d
    · rw [e]; simp
    · rw [setAt_other _ _ (fun e2 => e e2.symm), hP]
      rcases hcd with e2 | e2
      · exact absurd e2 e
      · exact e2
  simp only [move_core, type_mask, side_shift, and7, shr3, rook, pawn, queen, king]
  rw [or_shl3 (b.pieces o / 8) (by decide : 2 < 8)]
  cases hcs : castling
  · cases hpr : promote
    · simp only [Bool.false_eq_true, if_false]
      rw [zsum_setAt64 _ _ hd, zsum_setAt64 _ _ ho, zsum_setAt64 _ _ hc]
      have h1 : setAt b.pieces c 0 o = b.pieces o := setAt_other _ _ hoc
      have h2 : setAt (setAt b.pieces c 0) o 0 d = 0 := by
        rw [setAt_other _ _ hne2]; exact hdc _ rfl
      rw [h1, h2]
      simp only [piece_key_zero, piece_key_pos _ hp0, Nat.xor_zero, Nat.zero_xor]
      unfold piece_key
      simp [Nat.xor_assoc]
    · simp only [Bool.false_eq_true, if_false, if_true]
      rw [zsum_setAt64 _ _ hd, zsum_setAt64 _ _ hd, zsum_setAt64 _ _ ho, zsum_setAt64 _ _ hc]
      have h1 : setAt b.pieces c 0 o = b.pieces o := setAt_other _ _ hoc
      have h2 : setAt b.pieces c 0 d = 0 := hdc _ rfl
      have h3 : setAt (setAt (setAt b.pieces c 0) o 0) d (b.pieces o) d = b.pieces o :=
        setAt_same _ _ _
      have h4 : setAt (setAt b.pieces c 0) o 0 d = 0 := by
        rw [setAt_other _ _ hne2]; exact h2
      rw [h3, h4, h1]
      simp only [piece_key_zero, piece_key_pos _ hp0, piece_key_pos _ hq0, Nat.xor_zero,
        Nat.zero_xor]
      unfold piece_key
      simp [Nat.xor_assoc]
  · obtain ⟨hk, hr1, hr2, hr12, h1o, h1d, h2o, h2d, hrk, hr0, hd0, e, _⟩ := cast hcs
    have hpf : promote = false := by
      cases hpr : promote
      · rfl
      · have := prom hpr; omega
    have hrk0 : 5 + 8 * (b.pieces o / 8) ≠ 0 := by omega
    have e1 : c ≠ r1 := by rw [e]; exact fun h => h1d h.symm
    have e2 : c ≠ r2 := by rw [e]; exact fun h => h2d h.symm
    have e3 : o ≠ r1 := fun h => h1o h.symm
    have e4 : o ≠ r2 := fun h => h2o h.symm
    have e5 : r2 ≠ r1 := fun h => hr12 h.symm
    subst hpf
    simp only [Bool.false_eq_true, if_false, if_true]
    rw [zsum_setAt64 _ _ hd, zsum_setAt64 _ _ ho, zsum_setAt64 _ _ hc, zsum_setAt64 _ _ hr2,
      zsum_setAt64 _ _ hr1]
    have h1 : setAt b.pieces r1 (b.pieces r2) r2 = 0 := by
      rw [setAt_other _ _ e5]; exact hr0
    have h2 : setAt (setAt b.pieces r1 (b.pieces r2)) r2 (b.pieces r1) c = 0 := by
      rw [setAt_other _ _ e2, setAt_other _ _ e1, e]; exact hd0
    have h3 : setAt (setAt (setAt b.pieces r1 (b.pieces r2)) r2 (b.pieces r1)) c 0 o
        = b.pieces o := by
      rw [setAt_other _ _ hoc, setAt_other _ _ e4, setAt_other _ _ e3]
    have h4 : setAt (setAt (setAt (setAt b.pieces r1 (b.pieces r2)) r2 (b.pieces r1)) c 0) o 0 d
        = 0 := by
      rw [setAt_other _ _ hne2, e]; simp
    rw [h1, h2, h3, h4, hr0, hrk]
    have hc0 : b.pieces c = 0 := by rw [e]; exact hd0
    rw [hc0]
    simp only [piece_key_zero, piece_key_pos _ hp0, piece_key_pos _ hrk0, Nat.xor_zero,
      Nat.zero_xor, ne_eq, not_true_eq_false, if_false]
    simp [Nat.xor_assoc]

theorem move_core_two_squares (b : chessboard) (o d : Nat) (cy : Int) (c r1 r2 : Nat)
    (castling promote ts : Bool) :
    pawn_two_squares (move_core b ((o &&& 7 : Nat) : Int) ((o >>> 3 : Nat) : Int)
        ((d &&& 7 : Nat) : Int) ((d >>> 3 : Nat) : Int) cy o d c r1 r2 castling promote ts) =
      (((move_core b ((o &&& 7 : Nat) : Int) ((o >>> 3 : Nat) : Int)
        ((d &&& 7 : Nat) : Int) ((d >>> 3 : Nat) : Int) cy o d c r1 r2 castling promote
        ts).pieces d &&& type_mask == pawn)
        && ((((o >>> 3 : Nat) : Int) - ((d >>> 3 : Nat) : Int)).natAbs == 2)) := by
  unfold pawn_two_squares
  rw [move_core_stack]
  simp only [core_record, sq_cast]

theorem flag_key (f : Bool) : (b2n f * zobrist_table 0 8) % 2 ^ 64
    = if f then zobrist_table 0 8 else 0 := by
  cases f
  · simp [b2n]
  · simp only [b2n, if_true, Nat.one_mul]
    exact Nat.mod_eq_of_lt (zobrist_table_lt 0 8)

theorem side_key {s : Nat} (h : s ≤ 1) : ((s ^^^ 1) * zobrist_table 1 8) % 2 ^ 64
    = ((s * zobrist_table 1 8) % 2 ^ 64) ^^^ zobrist_table 1 8 := by
  have hz := Nat.mod_eq_of_lt (zobrist_table_lt 1 8)
  have : s = 0 ∨ s = 1 := by omega
  rcases this with e | e <;> subst e
  · simp only [Nat.zero_xor, Nat.one_mul, Nat.zero_mul, hz, Nat.zero_mod]
  · have e1 : (1 ^^^ 1 : Nat) = 0 := rfl
    simp only [e1, Nat.one_mul, Nat.zero_mul, hz, Nat.zero_mod, Nat.xor_self]

/-- The drift of `hash` against the digest over one move: `make_move` toggles the key of the
two-square flag by the geometry of the move (`is_two_squares`), `zobrist` reads the flag off
the new position, and nothing else can differ. -/
theorem hash_drift {b : chessboard} {o d : Nat} (ho : o < 64) (hd : d < 64) (hne : o ≠ d)
    (hv : valid_code (b.pieces o)) (hstm : b.side_to_move ≤ 1)
    (hco : CoreOK b o d (cap_sq b o d) (rook_from o d) (rook_to o d) (is_castling b o d)
      (is_promotion b o d)) :
    (make_move_sq b o d).hash ^^^ zobrist (make_move_sq b o d) =
      (b.hash ^^^ zobrist b) ^^^
        (if is_two_squares b o d = pawn_two_squares (make_move_sq b o d) then 0
          else zobrist_table 0 8) := by
  have hcap := core_captured hco
  rw [zobrist_eq (make_move_sq b o d)]
  generalize pawn_two_squares (make_move_sq b o d) = f2
  rw [make_move_sq_eq ho hd hne, move_core_hash,
    move_core_zsum _ _ _ _ _ _ hv hco, hcap, zobrist_eq b]
  have hstm2 : (move_core b ((o &&& 7 : Nat) : Int) ((o >>> 3 : Nat) : Int)
      ((d &&& 7 : Nat) : Int) ((d >>> 3 : Nat) : Int) (cap_row b o d) o d (cap_sq b o d)
      (rook_from o d) (rook_to o d) (is_castling b o d) (is_promotion b o d)
      (is_two_squares b o d)).side_to_move = b.side_to_move ^^^ 1 := rfl
  rw [hstm2, side_key hstm, flag_key, flag_key]
  generalize (if is_castling b o d = true then
      zobrist_table (rook_from o d) (5 + 8 * (b.pieces o / 8)) ^^^
        zobrist_table (rook_to o d) (5 + 8 * (b.pieces o / 8)) else 0) = A
  generalize (if b.pieces (cap_sq b o d) ≠ 0 then
      zobrist_table (cap_sq b o d) (b.pieces (cap_sq b o d)) else 0) = B
  generalize (zobrist_table o (b.pieces o) ^^^ zobrist_table d (b.pieces o)) = C
  generalize (if is_promotion b o d = true then
      zobrist_table d (b.pieces o) ^^^ zobrist_table d (2 + 8 * (b.pieces o / 8)) else 0) = D
  generalize zsum b.pieces (List.range 64) = S
  generalize (b.side_to_move * zobrist_table 1 8) % 2 ^ 64 = T
  generalize zobrist_table 0 8 = F
  generalize zobrist_table 1 8 = G
  generalize b.hash = H
  cases is_two_squares b o d <;> cases pawn_two_squares b <;> cases f2 <;>
    simp [Nat.xor_assoc, Nat.xor_comm, xor_left_comm, xor_cancel_mid]

/-- The two-square flag that `zobrist` reads off the position after a move that satisfies
`MoveOK` on a well-formed board is the one `make_move` computed. -/
theorem flag_after_move {b : chessboard} {o d : Nat} (wf : WF b) (ok : MoveOK b o d) :
    pawn_two_squares (make_move_sq b o d) = is_two_squares b o d := by
  have hco := ok.core wf
  have hpd := move_core_pieces_dest ((o &&& 7 : Nat) : Int) ((o >>> 3 : Nat) : Int)
    ((d &&& 7 : Nat) : Int) ((d >>> 3 : Nat) : Int) (cap_row b o d) (is_two_squares b o d) hco
  have hv := wf.mc.codes o ok.ho
  unfold valid_code at hv
  rw [make_move_sq_eq ok.ho ok.hd ok.hne, move_core_two_squares, hpd, ← is_two_squares_eq]
  simp only [type_mask, pawn, and7, shr3]
  cases hpr : is_promotion b o d
  · simp only [Bool.false_eq_true, if_false]
    rw [Bool.and_comm]
  · have hp6 := hco.prom hpr
    unfold is_promotion at hpr
    simp only [decide_eq_true_eq] at hpr
    have hr := wf.pawn_rank o ok.ho hp6
    obtain ⟨p1, p0⟩ := ok.pawn hp6
    have e1 : ((2 + 8 * (b.pieces o / 8)) % 8 == 6) = false := by
      have : (2 + 8 * (b.pieces o / 8)) % 8 = 2 := by omega
      rw [this]; rfl
    have e2 : ((((o / 8 : Nat) : Int) - ((d / 8 : Nat) : Int)).natAbs == 2) = false := by
      cases hb : ((((o / 8 : Nat) : Int) - ((d / 8 : Nat) : Int)).natAbs == 2)
      · rfl
      · exfalso
        have h2 := (natAbs_rank_eq o d 2).1 hb
        by_cases hs : b.pieces o / 8 = 0
        · rw [hs] at hpr
          rcases p0 hs with h3 | ⟨h3, _⟩ | ⟨h3, _⟩ | ⟨h3, h4⟩
          · omega
          · omega
          · omega
          · have h5 := (wf.pawn_home o ok.ho hp6 h4).2 hs
            omega
        · have hs1 : b.pieces o / 8 = 1 := by omega
          rw [hs1] at hpr
          rcases p1 hs1 with h3 | ⟨h3, _⟩ | ⟨h3, _⟩ | ⟨h3, h4⟩
          · omega
          · omega
          · omega
          · have h5 := (wf.pawn_home o ok.ho hp6 h4).1 hs1
            omega
    simp only [if_true, e1, e2, Bool.false_and]

/-- On a well-formed board a move that satisfies `MoveOK` leaves the difference between
`hash` and the digest as it was. -/
theorem hash_drift_wf {b : chessboard} {o d : Nat} (wf : WF b) (ok : MoveOK b o d) :
    (make_move_sq b o d).hash ^^^ zobrist (make_move_sq b o d) = b.hash ^^^ zobrist b := by
  rw [hash_drift ok.ho ok.hd ok.hne (wf.mc.codes o ok.ho) wf.stm (ok.core wf),
    flag_after_move wf ok, if_pos rfl, Nat.xor_zero]

theorem eq_of_xor_eq_zero {x y : Nat} (h : x ^^^ y = 0) : x = y := by
  have : (x ^^^ y) ^^^ y = 0 ^^^ y := by rw [h]
  rwa [Nat.xor_assoc, Nat.xor_self, Nat.xor_zero, Nat.zero_xor] at this

/-- Theorem "incremental hash": on a well-formed board whose `hash` is the digest, `hash` is
again the digest after every move that satisfies `MoveOK`. -/
theorem hash_make_move_sq {b : chessboard} {o d : Nat} (wf : WF b) (ok : MoveOK b o d)
    (hh : b.hash = zobrist b) :
    (make_move_sq b o d).hash = zobrist (make_move_sq b o d) := by
  apply eq_of_xor_eq_zero
  rw [hash_drift_wf wf ok, hh, Nat.xor_self]

/-- The null move: only the side key is toggled in `hash`, while the digest of the new
position has lost the two-square flag, since the record on top of the stack is empty. -/
theorem null_move_drift (b : chessboard) (hstm : b.side_to_move ≤ 1) :
    (make_move b 0 0 0 0).hash ^^^ zobrist (make_move b 0 0 0 0) =
      (b.hash ^^^ zobrist b) ^^^ (if pawn_two_squares b = true then zobrist_table 0 8 else 0) := by
  have e1 : (make_move b 0 0 0 0).hash = b.hash ^^^ zobrist_table 1 8 := by
    unfold make_move; simp
  have e2 : (make_move b 0 0 0 0).pieces = b.pieces := by
    unfold make_move; simp
  have e3 : (make_move b 0 0 0 0).side_to_move = b.side_to_move ^^^ 1 := by
    unfold make_move; simp
  have e4 : pawn_two_squares (make_move b 0 0 0 0) = false := by
    unfold pawn_two_squares make_move; simp
  rw [zobrist_eq (make_move b 0 0 0 0), zobrist_eq b, e1, e2, e3, e4, side_key hstm, flag_key,
    flag_key]
  generalize zsum b.pieces (List.range 64) = S
  generalize (b.side_to_move * zobrist_table 1 8) % 2 ^ 64 = T
  generalize zobrist_table 0 8 = F
  generalize zobrist_table 1 8 = G
  generalize b.hash = H
  cases pawn_two_squares b <;>
    simp [Nat.xor_assoc, Nat.xor_comm, xor_left_comm, xor_cancel_mid]

theorem mem_set_bits {s i : Nat} : i ∈ set_bits s ↔ i < 64 ∧ s.testBit i = true := by
  unfold set_bits
  simp [List.mem_filter]

theorem is_move_safe_sq (b : chessboard) (side o d : Nat) :
    is_move_safe b side ((o &&& 7 : Nat) : Int) ((o >>> 3 : Nat) : Int) ((d &&& 7 : Nat) : Int)
      ((d >>> 3 : Nat) : Int) = (safe_sq b side o d, unmake_move (make_move_sq b o d)) := rfl

/-- On a well-formed board `is_move_safe` leaves the board as it found it. -/
theorem is_move_safe_wf {b : chessboard} {o d : Nat} (side : Nat) (wf : WF b)
    (ok : MoveOK b o d) :
    is_move_safe b side ((o &&& 7 : Nat) : Int) ((o >>> 3 : Nat) : Int) ((d &&& 7 : Nat) : Int)
      ((d >>> 3 : Nat) : Int) = (safe_sq b side o d, b) := by
  rw [is_move_safe_sq, unmake_make_sq wf ok]

theorem legalize_loop_spec {b : chessboard} (side i : Nat) (wf : WF b) :
    ∀ (l : List Nat) (acc : Nat), (∀ d, d ∈ l → MoveOK b i d) →
      (legalize_loop side ((i &&& 7 : Nat) : Int) ((i >>> 3 : Nat) : Int) l acc b).2 = b ∧
      ∀ j, (legalize_loop side ((i &&& 7 : Nat) : Int) ((i >>> 3 : Nat) : Int) l acc b).1.testBit j
        = (acc.testBit j || (decide (j ∈ l) && safe_sq b side i j)) := by
  intro l
  induction l with
  | nil => intro acc _; simp [legalize_loop]
  | cons x xs ih =>
    intro acc hok
    have hx := hok x (List.mem_cons_self _ _)
    have hxs : ∀ d, d ∈ xs → MoveOK b i d := fun d hd => hok d (List.mem_cons_of_mem _ hd)
    simp only [legalize_loop]
    rw [is_move_safe_wf side wf hx]
    obtain ⟨h1, h2⟩ := ih (if safe_sq b side i x = true then acc ||| shl64 1 x else acc) hxs
    refine ⟨h1, ?_⟩
    intro j
    rw [h2]
    by_cases hjx : j = x
    · subst hjx
      cases hs : safe_sq b side i j
      · simp
      · simp [testBit_shl64_one hx.hd]
    · cases hs : safe_sq b side i x
      · simp [hjx]
      · simp [hjx, testBit_shl64_one hx.hd]

/-- The result of `legalize` on a well-formed board: the board is unchanged, and the
returned set holds exactly the candidates that `is_move_safe` accepts. -/
theorem legalize_spec {b : chessboard} (side i moves : Nat) (wf : WF b)
    (hok : ∀ d, d < 64 → moves.testBit d = true → MoveOK b i d) :
    (legalize b side i moves).2 = b ∧
    ∀ j, (legalize b side i moves).1.testBit j
      = (decide (j < 64) && moves.testBit j && safe_sq b side i j) := by
  unfold legalize
  have h := legalize_loop_spec side i wf (set_bits moves) 0
    (fun d hd => hok d (mem_set_bits.1 hd).1 (mem_set_bits.1 hd).2)
  refine ⟨h.1, ?_⟩
  intro j
  rw [h.2]
  simp only [Nat.zero_testBit, Bool.false_or, mem_set_bits]
  by_cases h1 : j < 64 <;> cases h2 : moves.testBit j <;> simp [h1]

/-! ## Geometry of the generated moves -/

set_option synthInstance.maxSize 1000 in
set_option synthInstance.maxHeartbeats 200000 in
theorem capture_base_geometry1 :
    ∀ ind, ind < 64 → ∀ d, d < 64 →
      (8 ≤ ind ∧ ind < 56 ∧ (capture_base 1 ind).testBit d = true) →
        ((d + 9 = ind ∧ ind % 8 ≠ 0) ∨ (d + 7 = ind ∧ ind % 8 ≠ 7)) := by
  decide!

set_option synthInstance.maxSize 1000 in
set_option synthInstance.maxHeartbeats 200000 in
theorem capture_base_geometry0 :
    ∀ ind, ind < 64 → ∀ d, d < 64 →
      (8 ≤ ind ∧ ind < 56 ∧ (capture_base 0 ind).testBit d = true) →
        ((d = ind + 9 ∧ ind % 8 ≠ 7) ∨ (d = ind + 7 ∧ ind % 8 ≠ 0)) := by
  decide!

theorem king_mask_geometry :
    ∀ ind, ind < 64 → ∀ d, d < 64 → (capture_masks ind king).testBit d = true →
      ¬ (d % 8 + 2 = ind % 8 ∨ ind % 8 + 2 = d % 8) := by
  decide!

theorem capture_base_lt (side ind : Nat) : capture_base side ind < 2 ^ 64 := shl64_lt _ _

theorem testBit_lt64 {x d : Nat} (hx : x < 2 ^ 64) (h : x.testBit d = true) : d < 64 := by
  by_contra hc
  have := Nat.testBit_lt_two_pow
    (Nat.lt_of_lt_of_le hx (Nat.pow_le_pow_right (by decide) (Nat.le_of_not_lt hc)))
  rw [this] at h
  exact absurd h (by simp)

theorem own_of_mem_mc {b : chessboard} {side t ind : Nat}
    (mc : MC b.pieces b.side_sets b.piece_sets) (hs : side < 2)
    (h1 : 1 ≤ t) (h6 : t ≤ 6) (h : ind ∈ set_bits (b.piece_sets t &&& b.side_sets side)) :
    Own b side t ind := by
  obtain ⟨h64, hb⟩ := mem_set_bits.1 h
  rw [Nat.testBit_and, Bool.and_eq_true] at hb
  have ht := (mc.type t ind h1 h6).1 hb.1
  have hsd := (mc.side side ind hs).1 hb.2
  exact ⟨h64, ht.2, hsd.2.2, hsd.2.1⟩

theorem own_of_mem {b : chessboard} {side t ind : Nat} (wf : WF b) (hs : side < 2)
    (h1 : 1 ≤ t) (h6 : t ≤ 6) (h : ind ∈ set_bits (b.piece_sets t &&& b.side_sets side)) :
    Own b side t ind :=
  own_of_mem_mc wf.mc hs h1 h6 h

theorem xor_one_lt {s : Nat} (h : s < 2) : s ^^^ 1 < 2 ∧ s ^^^ 1 ≠ s := by
  have : s = 0 ∨ s = 1 := by omega
  rcases this with e | e <;> subst e <;> decide

theorem free_bit_mc {b : chessboard} (mc : MC b.pieces b.side_sets b.piece_sets) (d : Nat) :
    (not64 (b.side_sets 0 ||| b.side_sets 1)).testBit d = true ↔ d < 64 ∧ b.pieces d = 0 := by
  rw [testBit_not64, Nat.testBit_or]
  have h0 := mc.side 0 d (by decide)
  have h1 := mc.side 1 d (by decide)
  have hv : d < 64 → valid_code (b.pieces d) := mc.codes d
  unfold valid_code at hv
  constructor
  · intro h
    simp only [Bool.and_eq_true, decide_eq_true_eq, Bool.not_eq_true', Bool.or_eq_false_iff] at h
    obtain ⟨h64, hn0, hn1⟩ := h
    refine ⟨h64, ?_⟩
    by_contra hp
    have := hv h64
    have hs : b.pieces d / 8 = 0 ∨ b.pieces d / 8 = 1 := by omega
    rcases hs with e | e
    · rw [h0.2 ⟨h64, hp, e⟩] at hn0; exact absurd hn0 (by simp)
    · rw [h1.2 ⟨h64, hp, e⟩] at hn1; exact absurd hn1 (by simp)
  · rintro ⟨h64, hp⟩
    have e0 : (b.side_sets 0).testBit d = false := mc.side_empty (by decide) hp
    have e1 : (b.side_sets 1).testBit d = false := mc.side_empty (by decide) hp
    simp [h64, e0, e1]

theorem free_bit {b : chessboard} (wf : WF b) (d : Nat) :
    (not64 (b.side_sets 0 ||| b.side_sets 1)).testBit d = true ↔ d < 64 ∧ b.pieces d = 0 :=
  free_bit_mc wf.mc d

theorem not_friendly_bit {b : chessboard} {side d : Nat} (wf : WF b) (hs : side < 2)
    (h : (not64 (b.side_sets 0 ||| b.side_sets 1) ||| b.side_sets (side ^^^ 1)).testBit d = true) :
    d < 64 ∧ (b.pieces d = 0 ∨ b.pieces d / 8 ≠ side) := by
  rw [Nat.testBit_or, Bool.or_eq_true] at h
  rcases h with h | h
  · have := (free_bit wf d).1 h
    exact ⟨this.1, Or.inl this.2⟩
  · have hx := xor_one_lt hs
    have := (wf.mc.side (side ^^^ 1) d hx.1).1 h
    refine ⟨this.1, Or.inr ?_⟩
    rw [this.2.2]; exact hx.2

/-- A destination that is not friendly differs from the origin, which is. -/
theorem not_friendly_ne {b : chessboard} {side t ind d : Nat} (wf : WF b) (hs : side < 2)
    (ho : Own b side t ind)
    (h : (not64 (b.side_sets 0 ||| b.side_sets 1) ||| b.side_sets (side ^^^ 1)).testBit d = true) :
    d < 64 ∧ ind ≠ d := by
  obtain ⟨h64, hd⟩ := not_friendly_bit wf hs h
  refine ⟨h64, ?_⟩
  intro e
  subst e
  rcases hd with e | e
  · exact ho.2.2.2 e
  · exact e ho.2.2.1

theorem testBit_flag_mul {x y d : Nat} (hx : x ≤ 1)
    (h : ((x * y) % 2 ^ 64).testBit d = true) : x = 1 ∧ y.testBit d = true := by
  have : x = 0 ∨ x = 1 := by omega
  rcases this with e | e <;> subst e
  · simp at h
  · rw [Nat.one_mul, Nat.testBit_mod_two_pow] at h
    simp only [Bool.and_eq_true, decide_eq_true_eq] at h
    exact ⟨rfl, h.2⟩

theorem b2n_le (f : Bool) : b2n f ≤ 1 := by cases f <;> simp [b2n]

theorem b2n_eq_one {f : Bool} (h : b2n f = 1) : f = true := by
  cases f
  · simp [b2n] at h
  · rfl

theorem and_one_le (z : Nat) : z &&& 1 ≤ 1 := by
  have := Nat.and_lt_two_pow z (n := 1) (y := 1) (by decide)
  omega

theorem and_one_eq_one {z : Nat} (h : z &&& 1 = 1) : z.testBit 0 = true := by
  have h1 : (z &&& 1).testBit 0 = true := by rw [h]; rfl
  rw [Nat.testBit_and] at h1
  simp only [Bool.and_eq_true] at h1
  exact h1.1

/-- The destinations written for a pawn satisfy `MoveOK`. -/
theorem pawn_moves_ok {b : chessboard} {side ind d : Nat} (last : chessmove) (wf : WF b)
    (hs : side < 2) (ho : Own b side 6 ind)
    (h : (pawn_moves b last side ind (b.side_sets (side ^^^ 1))
      (not64 (b.side_sets 0 ||| b.side_sets 1))).testBit d = true) :
    MoveOK b ind d := by
  obtain ⟨h64, ht, hsd, hp0⟩ := ho
  have hr := wf.pawn_rank ind h64 ht
  have hcb : (capture_base side ind).testBit d = true →
      (side = 1 → (d + 9 = ind ∧ ind % 8 ≠ 0) ∨ (d + 7 = ind ∧ ind % 8 ≠ 7)) ∧
      (side = 0 → (d = ind + 9 ∧ ind % 8 ≠ 7) ∨ (d = ind + 7 ∧ ind % 8 ≠ 0)) := by
    intro hb
    have hd := testBit_lt64 (capture_base_lt side ind) hb
    constructor
    · intro e; subst e
      exact capture_base_geometry1 ind h64 d hd ⟨hr.1, hr.2, hb⟩
    · intro e; subst e
      exact capture_base_geometry0 ind h64 d hd ⟨hr.1, hr.2, hb⟩
  have hside : side = 0 ∨ side = 1 := by omega
  have hbit : ∀ j, (shl64 1 ind).testBit j = decide (j = ind) := testBit_shl64_one h64
  -- the geometry of the move
  have geo : PawnOK b ind d := by
    unfold PawnOK
    rw [hsd]
    unfold pawn_moves at h
    simp only [Nat.testBit_or, Bool.or_eq_true] at h
    rcases hside with e | e <;> subst e
    · refine ⟨fun e => absurd e (by decide), fun _ => ?_⟩
      rcases h with ((h | h) | h) | h
      · rw [Nat.testBit_and, Bool.and_eq_true] at h
        rcases (hcb h.1).2 rfl with x | x
        · exact Or.inr (Or.inl x)
        · exact Or.inr (Or.inr (Or.inl x))
      · simp only [ne_eq, not_true_eq_false, if_false, Nat.testBit_and, Bool.and_eq_true,
          testBit_shl64, hbit, decide_eq_true_eq] at h
        left; omega
      · have h2 := testBit_flag_mul (and_one_le _) h
        have h3 := and_one_eq_one h2.1
        rw [testBit_shr64, testBit_not64] at h3
        simp only [Bool.and_eq_true, decide_eq_true_eq, Bool.not_eq_true'] at h3
        have h4 := h2.2
        simp only [ne_eq, not_true_eq_false, if_false, Nat.testBit_and, Bool.and_eq_true,
          testBit_shl64, hbit, decide_eq_true_eq] at h4
        have h5 : ind % 64 + 0 = ind := by omega
        rw [h5] at h3
        right; right; right
        exact ⟨by omega, h3.2.2⟩
      · have h2 := (testBit_flag_mul (b2n_le _) h).2
        rw [Nat.testBit_and, Bool.and_eq_true] at h2
        rcases (hcb h2.2).2 rfl with x | x
        · exact Or.inr (Or.inl x)
        · exact Or.inr (Or.inr (Or.inl x))
    · refine ⟨fun _ => ?_, fun e => absurd e (by decide)⟩
      rcases h with ((h | h) | h) | h
      · rw [Nat.testBit_and, Bool.and_eq_true] at h
        rcases (hcb h.1).1 rfl with x | x
        · exact Or.inr (Or.inl x)
        · exact Or.inr (Or.inr (Or.inl x))
      · simp only [ne_eq, one_ne_zero, not_false_eq_true, if_true, Nat.testBit_and,
          Bool.and_eq_true, testBit_shr64, hbit, decide_eq_true_eq] at h
        left; omega
      · have h2 := testBit_flag_mul (and_one_le _) h
        have h3 := and_one_eq_one h2.1
        rw [testBit_shr64, testBit_not64] at h3
        simp only [Bool.and_eq_true, decide_eq_true_eq, Bool.not_eq_true'] at h3
        have h4 := h2.2
        simp only [ne_eq, one_ne_zero, not_false_eq_true, if_true, Nat.testBit_and,
          Bool.and_eq_true, testBit_shr64, hbit, decide_eq_true_eq] at h4
        have h5 : ind % 64 + 0 = ind := by omega
        rw [h5] at h3
        right; right; right
        exact ⟨by omega, h3.2.2⟩
      · have h2 := (testBit_flag_mul (b2n_le _) h).2
        rw [Nat.testBit_and, Bool.and_eq_true] at h2
        rcases (hcb h2.2).1 rfl with x | x
        · exact Or.inr (Or.inl x)
        · exact Or.inr (Or.inr (Or.inl x))
  have hgeo := geo
  unfold PawnOK at hgeo
  rw [hsd] at hgeo
  have hd : d < 64 ∧ ind ≠ d := by
    rcases hside with e | e <;> subst e
    · rcases hgeo.2 rfl with x | ⟨x, y⟩ | ⟨x, y⟩ | ⟨x, y⟩
      · omega
      · omega
      · omega
      · have := (wf.pawn_home ind h64 ht y).2 hsd
        omega
    · rcases hgeo.1 rfl with x | ⟨x, y⟩ | ⟨x, y⟩ | ⟨x, y⟩
      · omega
      · omega
      · omega
      · omega
  exact ⟨h64, hd.1, hd.2, hp0, fun hk => absurd hk (by omega), fun _ => geo⟩

theorem jump_raw_ok {b : chessboard} {side t ind d : Nat} (wf : WF b) (hs : side < 2)
    (ho : Own b side t ind) (ht : t = knight ∨ t = king)
    (h : (capture_masks ind t &&&
      (not64 (b.side_sets 0 ||| b.side_sets 1) ||| b.side_sets (side ^^^ 1))).testBit d = true) :
    MoveOK b ind d := by
  rw [Nat.testBit_and, Bool.and_eq_true] at h
  obtain ⟨hd, hne⟩ := not_friendly_ne wf hs ho h.2
  obtain ⟨h64, hty, hsd, hp0⟩ := ho
  refine ⟨h64, hd, hne, hp0, ?_, ?_⟩
  · intro hk hx
    rcases ht with e | e
    · rw [e] at hty; unfold knight at hty; omega
    · rw [e] at h
      exact absurd hx (king_mask_geometry ind h64 d hd h.1)
  · intro hp
    rcases ht with e | e <;> rw [e] at hty
    · unfold knight at hty; omega
    · unfold king at hty; omega

theorem sliding_fold_bit (ind all nf d : Nat) :
    ∀ (l : List Nat) (acc : Nat),
      (l.foldl (fun captures i =>
        captures ||| (((if (masks_fw ind i).last &&& all != 0 then
              (masks_fw ind i).steps (bsf ((masks_fw ind i).last &&& all))
            else (masks_fw ind i).last) |||
          (if (masks_rev ind i).last &&& all != 0 then
              (masks_rev ind i).steps (bsr ((masks_rev ind i).last &&& all))
            else (masks_rev ind i).last)) &&& nf)) acc).testBit d = true →
      acc.testBit d = true ∨ nf.testBit d = true := by
  intro l
  induction l with
  | nil => intro acc h; exact Or.inl h
  | cons x xs ih =>
    intro acc h
    rw [List.foldl_cons] at h
    rcases ih _ h with h2 | h2
    · rw [Nat.testBit_or, Bool.or_eq_true, Nat.testBit_and, Bool.and_eq_true] at h2
      rcases h2 with h3 | h3
      · exact Or.inl h3
      · exact Or.inr h3.2
    · exact Or.inr h2

theorem sliding_raw_ok {b : chessboard} {side t ind d : Nat} (wf : WF b) (hs : side < 2)
    (ho : Own b side t ind) (ht : t = bishop ∨ t = rook ∨ t = queen)
    (h : (sliding_moves t ind (b.side_sets 0 ||| b.side_sets 1)
      (not64 (b.side_sets 0 ||| b.side_sets 1) ||| b.side_sets (side ^^^ 1))).testBit d = true) :
    MoveOK b ind d := by
  unfold sliding_moves at h
  have h2 := sliding_fold_bit ind _ _ d _ 0 h
  rcases h2 with h3 | h3
  · simp at h3
  · obtain ⟨hd, hne⟩ := not_friendly_ne wf hs ho h3
    obtain ⟨h64, hty, hsd, hp0⟩ := ho
    refine ⟨h64, hd, hne, hp0, ?_, ?_⟩
    · intro hk
      rcases ht with e | e | e <;> rw [e] at hty
      · unfold bishop at hty; omega
      · unfold rook at hty; omega
      · unfold queen at hty; omega
    · intro hp
      rcases ht with e | e | e <;> rw [e] at hty
      · unfold bishop at hty; omega
      · unfold rook at hty; omega
      · unfold queen at hty; omega

theorem can_castle_loop_succ (side all : Nat) (x y dx : Int) (fuel : Nat) (i : Int)
    (b : chessboard) :
    can_castle_loop side all x y dx (fuel + 1) i b =
      if between (x + i * dx) 2 7 then
        if piece all x y (i * dx) 0 then (false, b)
        else if i ≠ 1 then
          if !(is_move_safe b side x y (x + i * dx) y).1
            then (false, (is_move_safe b side x y (x + i * dx) y).2)
          else can_castle_loop side all x y dx fuel (i + 1)
            (is_move_safe b side x y (x + i * dx) y).2
        else can_castle_loop side all x y dx fuel (i + 1) b
      else (true, b) := rfl

theorem can_castle_loop_left (b : chessboard) (side all : Nat) (y : Int) :
    can_castle_loop side all 4 y (-1) 8 1 b =
      if piece all 4 y (-1) 0 = true then (false, b)
      else if piece all 4 y (-2) 0 = true then (false, b)
      else if (is_move_safe b side 4 y 2 y).1 = true then (true, (is_move_safe b side 4 y 2 y).2)
      else (false, (is_move_safe b side 4 y 2 y).2) := by
  have e1 : between ((4 : Int) + 1 * (-1)) 2 7 = true := by decide
  have e2 : between ((4 : Int) + 2 * (-1)) 2 7 = true := by decide
  have e3 : between ((4 : Int) + 3 * (-1)) 2 7 = false := by decide
  have a1 : (1 : Int) * (-1) = -1 := by decide
  have a2 : (2 : Int) * (-1) = -2 := by decide
  have a3 : (4 : Int) + -2 = 2 := by decide
  have i2 : (1 : Int) + 1 = 2 := by decide
  have i3 : (2 : Int) + 1 = 3 := by decide
  have n1 : ¬ ((1 : Int) ≠ 1) := by decide
  have n2 : (2 : Int) ≠ 1 := by decide
  rw [show (8 : Nat) = 7 + 1 from rfl, can_castle_loop_succ, e1, if_pos rfl, if_neg n1,
    show (7 : Nat) = 6 + 1 from rfl, can_castle_loop_succ, i2, e2, if_pos rfl, if_pos n2,
    show (6 : Nat) = 5 + 1 from rfl, can_castle_loop_succ, i3, e3, a1, a2, a3]
  by_cases h1 : piece all 4 y (-1) 0 = true
  · rw [if_pos h1, if_pos h1]
  · rw [if_neg h1, if_neg h1]
    by_cases h2 : piece all 4 y (-2) 0 = true
    · rw [if_pos h2, if_pos h2]
    · rw [if_neg h2, if_neg h2]
      cases h3 : (is_move_safe b side 4 y 2 y).1
      · simp
      · simp

theorem can_castle_loop_right (b : chessboard) (side all : Nat) (y : Int) :
    can_castle_loop side all 4 y 1 8 1 b =
      if piece all 4 y 1 0 = true then (false, b)
      else if piece all 4 y 2 0 = true then (false, b)
      else if (is_move_safe b side 4 y 6 y).1 = true then (true, (is_move_safe b side 4 y 6 y).2)
      else (false, (is_move_safe b side 4 y 6 y).2) := by
  have e1 : between ((4 : Int) + 1 * 1) 2 7 = true := by decide
  have e2 : between ((4 : Int) + 2 * 1) 2 7 = true := by decide
  have e3 : between ((4 : Int) + 3 * 1) 2 7 = false := by decide
  have a1 : (1 : Int) * 1 = 1 := by decide
  have a2 : (2 : Int) * 1 = 2 := by decide
  have a3 : (4 : Int) + 2 = 6 := by decide
  have i2 : (1 : Int) + 1 = 2 := by decide
  have i3 : (2 : Int) + 1 = 3 := by decide
  have n1 : ¬ ((1 : Int) ≠ 1) := by decide
  have n2 : (2 : Int) ≠ 1 := by decide
  rw [show (8 : Nat) = 7 + 1 from rfl, can_castle_loop_succ, e1, if_pos rfl, if_neg n1,
    show (7 : Nat) = 6 + 1 from rfl, can_castle_loop_succ, i2, e2, if_pos rfl, if_pos n2,
    show (6 : Nat) = 5 + 1 from rfl, can_castle_loop_succ, i3, e3, a1, a2, a3]
  by_cases h1 : piece all 4 y 1 0 = true
  · rw [if_pos h1, if_pos h1]
  · rw [if_neg h1, if_neg h1]
    by_cases h2 : piece all 4 y 2 0 = true
    · rw [if_pos h2, if_pos h2]
    · rw [if_neg h2, if_neg h2]
      cases h3 : (is_move_safe b side 4 y 6 y).1
      · simp
      · simp

theorem all_bit_mc {b : chessboard} (mc : MC b.pieces b.side_sets b.piece_sets) (j : Nat) :
    (b.side_sets 0 ||| b.side_sets 1).testBit j = true ↔ j < 64 ∧ b.pieces j ≠ 0 := by
  have hf := free_bit_mc mc j
  rw [testBit_not64] at hf
  constructor
  · intro h
    have h64 : j < 64 := by
      rw [Nat.testBit_or, Bool.or_eq_true] at h
      rcases h with h | h
      · exact ((mc.side 0 j (by decide)).1 h).1
      · exact ((mc.side 1 j (by decide)).1 h).1
    refine ⟨h64, fun e => ?_⟩
    have := hf.2 ⟨h64, e⟩
    rw [h] at this
    simp at this
  · rintro ⟨h64, hp⟩
    cases hb : (b.side_sets 0 ||| b.side_sets 1).testBit j
    · have := (hf.1 (by simp [h64, hb])).2
      exact absurd this hp
    · rfl

theorem all_bit {b : chessboard} (wf : WF b) (j : Nat) :
    (b.side_sets 0 ||| b.side_sets 1).testBit j = true ↔ j < 64 ∧ b.pieces j ≠ 0 :=
  all_bit_mc wf.mc j

theorem piece_eq (all : Nat) (y : Int) (k j : Nat) (hy : 0 ≤ y ∧ y ≤ 7) (hk : k ≤ 7)
    (hj : sq (k : Int) y = j) (hj64 : j < 64) (i : Int) (hi : i + 4 = (k : Int)) :
    piece all 4 y i 0 = all.testBit j := by
  unfold piece
  have h0 : (0 : Int) + y = y := by omega
  rw [hi, h0, hj, and_shl64_one_ne_zero _ hj64]
  have : decide (0 ≤ (k : Int) ∧ (k : Int) ≤ 7 ∧ 0 ≤ y ∧ y ≤ 7) = true := by
    simp only [decide_eq_true_eq]; omega
  rw [this, Bool.true_and]

/-- The rook of `side` in the corner `r`. -/
theorem rook_of_bit_mc {b : chessboard} {side r : Nat}
    (mc : MC b.pieces b.side_sets b.piece_sets) (hs : side < 2) (hr : r < 64)
    (h : ((b.side_sets side &&& b.piece_sets rook) &&& shl64 1 r != 0) = true) :
    b.pieces r = 5 + 8 * side := by
  rw [and_shl64_one_ne_zero _ hr, Nat.testBit_and, Bool.and_eq_true] at h
  have h1 := (mc.side side r hs).1 h.1
  have h2 := (mc.type 5 r (by decide) (by decide)).1 h.2
  omega

theorem rook_of_bit {b : chessboard} {side r : Nat} (wf : WF b) (hs : side < 2) (hr : r < 64)
    (h : ((b.side_sets side &&& b.piece_sets rook) &&& shl64 1 r != 0) = true) :
    b.pieces r = 5 + 8 * side :=
  rook_of_bit_mc wf.mc hs hr h

/-- The lambda `can_castle` towards the corner on file 0 leaves the board unchanged, and it
answers `true` only for a castling move that satisfies `CastleOK`. -/
theorem can_castle_left_spec {b : chessboard} {side ind : Nat} (wf : WF b) (hs : side < 2)
    (ho : Own b side 1 ind)
    (hrook : ((b.side_sets side &&& b.piece_sets rook) &&& shl64 1 (8 * (ind >>> 3)) != 0) = true) :
    (can_castle b side (b.side_sets 0 ||| b.side_sets 1) ((ind &&& 7 : Nat) : Int)
      ((ind >>> 3 : Nat) : Int) 0 ((ind >>> 3 : Nat) : Int)).2 = b ∧
    ((can_castle b side (b.side_sets 0 ||| b.side_sets 1) ((ind &&& 7 : Nat) : Int)
      ((ind >>> 3 : Nat) : Int) 0 ((ind >>> 3 : Nat) : Int)).1 = true →
      2 ≤ ind ∧ MoveOK b ind (ind - 2) ∧ ind % 8 = 4) := by
  obtain ⟨h64, hty, hsd, hp0⟩ := ho
  have hc64 : 8 * (ind >>> 3) < 64 := by rw [shr3]; omega
  have hsq0 : sq 0 ((ind >>> 3 : Nat) : Int) = 8 * (ind >>> 3) := by unfold sq; omega
  unfold can_castle
  rw [hsq0, sq_cast, and_shl64_one_ne_zero _ hc64, and_shl64_one_ne_zero _ h64]
  by_cases hm : (b.has_moved.testBit (8 * (ind >>> 3)) || b.has_moved.testBit ind) = true
  · rw [if_pos hm]
    exact ⟨rfl, fun h => absurd h (by simp)⟩
  · rw [if_neg hm]
    simp only [Bool.or_eq_true, not_or, Bool.not_eq_true] at hm
    have h4 := wf.king_home ind h64 hty hm.2
    have hx4 : ((ind &&& 7 : Nat) : Int) = 4 := by rw [and7, h4]; rfl
    have hsg : sgn (0 - 4) = -1 := by decide
    rw [hx4, hsg, can_castle_loop_left]
    have hy : (0 : Int) ≤ ((ind >>> 3 : Nat) : Int) ∧ ((ind >>> 3 : Nat) : Int) ≤ 7 := by
      rw [shr3]; omega
    have hp1 := piece_eq (b.side_sets 0 ||| b.side_sets 1) ((ind >>> 3 : Nat) : Int) 3 (ind - 1)
      hy (by decide) (by unfold sq; rw [shr3]; omega) (by omega) (-1) (by decide)
    have hp2 := piece_eq (b.side_sets 0 ||| b.side_sets 1) ((ind >>> 3 : Nat) : Int) 2 (ind - 2)
      hy (by decide) (by unfold sq; rw [shr3]; omega) (by omega) (-2) (by decide)
    rw [hp1, hp2]
    by_cases h1 : (b.side_sets 0 ||| b.side_sets 1).testBit (ind - 1) = true
    · rw [if_pos h1]
      exact ⟨rfl, fun h => absurd h (by simp)⟩
    · rw [if_neg h1]
      by_cases h2 : (b.side_sets 0 ||| b.side_sets 1).testBit (ind - 2) = true
      · rw [if_pos h2]
        exact ⟨rfl, fun h => absurd h (by simp)⟩
      · rw [if_neg h2]
        have e1 : b.pieces (ind - 1) = 0 := by
          by_contra hc; exact h1 ((all_bit wf _).2 ⟨by omega, hc⟩)
        have e2 : b.pieces (ind - 2) = 0 := by
          by_contra hc; exact h2 ((all_bit wf _).2 ⟨by omega, hc⟩)
        have hrk := rook_of_bit wf hs hc64 hrook
        have hcorner : 8 * (ind >>> 3) = ind - 4 := by rw [shr3]; omega
        rw [hcorner] at hrk hm
        have ok : MoveOK b ind (ind - 2) := by
          refine ⟨h64, by omega, by omega, hp0, fun _ _ => ?_, fun h => absurd h (by omega)⟩
          refine ⟨h4, e2, hm.2, Or.inl ⟨by omega, ?_, e1, hm.1⟩⟩
          rw [hrk, hsd]
        have hsafe := is_move_safe_wf side wf ok
        have t1 : (((ind - 2) &&& 7 : Nat) : Int) = 2 := by
          rw [and7]; have : (ind - 2) % 8 = 2 := by omega
          rw [this]; rfl
        have t2 : (((ind - 2) >>> 3 : Nat) : Int) = ((ind >>> 3 : Nat) : Int) := by
          rw [shr3, shr3]; have : (ind - 2) / 8 = ind / 8 := by omega
          rw [this]
        rw [hx4, t1, t2] at hsafe
        rw [hsafe]
        cases hsf : safe_sq b side ind (ind - 2)
        · exact ⟨by simp, fun h => absurd h (by simp)⟩
        · exact ⟨by simp, fun _ => ⟨by omega, ok, h4⟩⟩

/-- The lambda `can_castle` towards the corner on file 7 leaves the board unchanged, and it
answers `true` only for a castling move that satisfies `CastleOK`. -/
theorem can_castle_right_spec {b : chessboard} {side ind : Nat} (wf : WF b) (hs : side < 2)
    (ho : Own b side 1 ind)
    (hrook : ((b.side_sets side &&& b.piece_sets rook) &&& shl64 1 (7 + 8 * (ind >>> 3)) != 0)
      = true) :
    (can_castle b side (b.side_sets 0 ||| b.side_sets 1) ((ind &&& 7 : Nat) : Int)
      ((ind >>> 3 : Nat) : Int) 7 ((ind >>> 3 : Nat) : Int)).2 = b ∧
    ((can_castle b side (b.side_sets 0 ||| b.side_sets 1) ((ind &&& 7 : Nat) : Int)
      ((ind >>> 3 : Nat) : Int) 7 ((ind >>> 3 : Nat) : Int)).1 = true →
      MoveOK b ind (ind + 2) ∧ ind % 8 = 4) := by
  obtain ⟨h64, hty, hsd, hp0⟩ := ho
  have hc64 : 7 + 8 * (ind >>> 3) < 64 := by rw [shr3]; omega
  have hsq0 : sq 7 ((ind >>> 3 : Nat) : Int) = 7 + 8 * (ind >>> 3) := by unfold sq; omega
  unfold can_castle
  rw [hsq0, sq_cast, and_shl64_one_ne_zero _ hc64, and_shl64_one_ne_zero _ h64]
  by_cases hm : (b.has_moved.testBit (7 + 8 * (ind >>> 3)) || b.has_moved.testBit ind) = true
  · rw [if_pos hm]
    exact ⟨rfl, fun h => absurd h (by simp)⟩
  · rw [if_neg hm]
    simp only [Bool.or_eq_true, not_or, Bool.not_eq_true] at hm
    have h4 := wf.king_home ind h64 hty hm.2
    have hx4 : ((ind &&& 7 : Nat) : Int) = 4 := by rw [and7, h4]; rfl
    have hsg : sgn (7 - 4) = 1 := by decide
    rw [hx4, hsg, can_castle_loop_right]
    have hy : (0 : Int) ≤ ((ind >>> 3 : Nat) : Int) ∧ ((ind >>> 3 : Nat) : Int) ≤ 7 := by
      rw [shr3]; omega
    have hp1 := piece_eq (b.side_sets 0 ||| b.side_sets 1) ((ind >>> 3 : Nat) : Int) 5 (ind + 1)
      hy (by decide) (by unfold sq; rw [shr3]; omega) (by omega) 1 (by decide)
    have hp2 := piece_eq (b.side_sets 0 ||| b.side_sets 1) ((ind >>> 3 : Nat) : Int) 6 (ind + 2)
      hy (by decide) (by unfold sq; rw [shr3]; omega) (by omega) 2 (by decide)
    rw [hp1, hp2]
    by_cases h1 : (b.side_sets 0 ||| b.side_sets 1).testBit (ind + 1) = true
    · rw [if_pos h1]
      exact ⟨rfl, fun h => absurd h (by simp)⟩
    · rw [if_neg h1]
      by_cases h2 : (b.side_sets 0 ||| b.side_sets 1).testBit (ind + 2) = true
      · rw [if_pos h2]
        exact ⟨rfl, fun h => absurd h (by simp)⟩
      · rw [if_neg h2]
        have e1 : b.pieces (ind + 1) = 0 := by
          by_contra hc; exact h1 ((all_bit wf _).2 ⟨by omega, hc⟩)
        have e2 : b.pieces (ind + 2) = 0 := by
          by_contra hc; exact h2 ((all_bit wf _).2 ⟨by omega, hc⟩)
        have hrk := rook_of_bit wf hs hc64 hrook
        have hcorner : 7 + 8 * (ind >>> 3) = ind + 3 := by rw [shr3]; omega
        rw [hcorner] at hrk hm
        have ok : MoveOK b ind (ind + 2) := by
          refine ⟨h64, by omega, by omega, hp0, fun _ _ => ?_, fun h => absurd h (by omega)⟩
          refine ⟨h4, e2, hm.2, Or.inr ⟨rfl, ?_, e1, hm.1⟩⟩
          rw [hrk, hsd]
        have hsafe := is_move_safe_wf side wf ok
        have t1 : (((ind + 2) &&& 7 : Nat) : Int) = 6 := by
          rw [and7]; have : (ind + 2) % 8 = 6 := by omega
          rw [this]; rfl
        have t2 : (((ind + 2) >>> 3 : Nat) : Int) = ((ind >>> 3 : Nat) : Int) := by
          rw [shr3, shr3]; have : (ind + 2) / 8 = ind / 8 := by omega
          rw [this]
        rw [hx4, t1, t2] at hsafe
        rw [hsafe]
        cases hsf : safe_sq b side ind (ind + 2)
        · exact ⟨by simp, fun h => absurd h (by simp)⟩
        · exact ⟨by simp, fun _ => ⟨ok, h4⟩⟩

theorem legalize_step_spec {b : chessboard} (wf : WF b) (pseudo exit_on_legal : Bool)
    (side mask ind t : Nat) (st : gen_state) (hb : st.board = b)
    (hok : EntryOK b side t ind (st.matrices ind)) :
    (legalize_step pseudo exit_on_legal side mask ind st).2.board = b ∧
    (∀ o, o ≠ ind →
      (legalize_step pseudo exit_on_legal side mask ind st).2.matrices o = st.matrices o) ∧
    EntryOK b side t ind ((legalize_step pseudo exit_on_legal side mask ind st).2.matrices ind) ∧
    EntrySafe b side pseudo ind
      ((legalize_step pseudo exit_on_legal side mask ind st).2.matrices ind) := by
  unfold legalize_step
  cases pseudo
  · simp only [Bool.false_eq_true, if_false]
    have hok2 : ∀ d, d < 64 → (st.matrices ind &&& mask).testBit d = true → MoveOK b ind d := by
      intro d _ hd
      rw [Nat.testBit_and, Bool.and_eq_true] at hd
      exact (hok d hd.1).1
    rw [hb]
    obtain ⟨h1, h2⟩ := legalize_spec side ind (st.matrices ind &&& mask) wf hok2
    refine ⟨h1, fun o ho => setAt_other _ _ ho, ?_, ?_⟩
    · intro d hd
      rw [setAt_same, h2] at hd
      simp only [Bool.and_eq_true, decide_eq_true_eq, Nat.testBit_and] at hd
      exact hok d hd.1.2.1
    · intro _ d hd
      rw [setAt_same, h2] at hd
      simp only [Bool.and_eq_true] at hd
      exact hd.2
  · exact ⟨hb, fun _ _ => rfl, hok, fun h => absurd h (by simp)⟩

theorem GInv.write {b : chessboard} {side : Nat} {pseudo : Bool} {M0 : Nat → Nat}
    {st st2 : gen_state} {ind t : Nat} (h : GInv b side pseudo M0 st) (hb : st2.board = b)
    (hfr : ∀ o, o ≠ ind → st2.matrices o = st.matrices o) (ho : Own b side t ind)
    (h1 : EntryOK b side t ind (st2.matrices ind))
    (h2 : EntrySafe b side pseudo ind (st2.matrices ind)) : GInv b side pseudo M0 st2 := by
  refine ⟨hb, fun o => ?_⟩
  by_cases e : o = ind
  · subst e
    exact Or.inr ⟨t, ho, h1, h2⟩
  · rw [hfr o e]
    exact h.2 o

/-- One round of the pawn, knight or sliding loops: write the candidate set, then filter. -/
theorem GInv.round {b : chessboard} {side : Nat} {pseudo : Bool} {M0 : Nat → Nat}
    {st : gen_state} {ind t : Nat} (wf : WF b) (exit_on_legal : Bool) (mask v : Nat)
    (h : GInv b side pseudo M0 st) (ho : Own b side t ind) (hv : EntryOK b side t ind v) :
    GInv b side pseudo M0
      (legalize_step pseudo exit_on_legal side mask ind
        { st with matrices := setAt st.matrices ind v }).2 := by
  have hs := legalize_step_spec wf pseudo exit_on_legal side mask ind t
    { st with matrices := setAt st.matrices ind v } h.1 (by simpa using hv)
  refine h.write hs.1 (fun o ho2 => ?_) ho hs.2.2.1 hs.2.2.2
  rw [hs.2.1 o ho2]
  exact setAt_other _ _ ho2

theorem pawn_loop_spec {b : chessboard} {side : Nat} (wf : WF b) (hs : side < 2)
    (pseudo exit_on_legal : Bool) (mask : Nat) (M0 : Nat → Nat) :
    ∀ (l : List Nat) (st : gen_state), (∀ i, i ∈ l → Own b side 6 i) →
      GInv b side pseudo M0 st →
      GInv b side pseudo M0
        (pawn_loop (last_move b) side pseudo exit_on_legal mask (b.side_sets (side ^^^ 1))
          (not64 (b.side_sets 0 ||| b.side_sets 1)) l st).2 := by
  intro l
  induction l with
  | nil => intro st _ h; exact h
  | cons ind rest ih =>
    intro st hl h
    have ho := hl ind (List.mem_cons_self _ _)
    have hv : EntryOK b side 6 ind (pawn_moves b (last_move b) side ind (b.side_sets (side ^^^ 1))
        (not64 (b.side_sets 0 ||| b.side_sets 1))) :=
      fun d hd => ⟨pawn_moves_ok (last_move b) wf hs ho hd, fun _ => hd⟩
    have hr := GInv.round wf exit_on_legal mask _ h ho hv
    simp only [pawn_loop]
    rw [h.1] at hr ⊢
    split
    · exact hr
    · exact ih _ (fun i hi => hl i (List.mem_cons_of_mem _ hi)) hr

theorem sliding_loop_spec {b : chessboard} {side t : Nat} (wf : WF b) (hs : side < 2)
    (ht : t = bishop ∨ t = rook ∨ t = queen)
    (pseudo exit_on_legal : Bool) (mask : Nat) (M0 : Nat → Nat) :
    ∀ (l : List Nat) (st : gen_state), (∀ i, i ∈ l → Own b side t i) →
      GInv b side pseudo M0 st →
      GInv b side pseudo M0
        (sliding_loop side pseudo exit_on_legal mask (b.side_sets 0 ||| b.side_sets 1)
          (not64 (b.side_sets 0 ||| b.side_sets 1) ||| b.side_sets (side ^^^ 1)) t l st).2 := by
  intro l
  induction l with
  | nil => intro st _ h; exact h
  | cons ind rest ih =>
    intro st hl h
    have ho := hl ind (List.mem_cons_self _ _)
    have h6 : t ≠ 6 := by
      rcases ht with e | e | e <;> rw [e] <;> decide
    have hv : EntryOK b side t ind (sliding_moves t ind (b.side_sets 0 ||| b.side_sets 1)
        (not64 (b.side_sets 0 ||| b.side_sets 1) ||| b.side_sets (side ^^^ 1))) :=
      fun d hd => ⟨sliding_raw_ok wf hs ho ht hd, fun e => absurd e h6⟩
    have hr := GInv.round wf exit_on_legal mask _ h ho hv
    simp only [sliding_loop]
    split
    · exact hr
    · exact ih _ (fun i hi => hl i (List.mem_cons_of_mem _ hi)) hr

theorem EntryOK.or_bit {b : chessboard} {side t o v d : Nat} (h : EntryOK b side t o v)
    (ht : t ≠ 6) (hd : MoveOK b o d) : EntryOK b side t o (v ||| shl64 1 d) := by
  intro j hj
  rw [Nat.testBit_or, Bool.or_eq_true] at hj
  rcases hj with hj | hj
  · exact h j hj
  · rw [testBit_shl64_one hd.hd] at hj
    have e : j = d := by simpa using hj
    rw [e]
    exact ⟨hd, fun e6 => absurd e6 ht⟩

/-- One castling attempt of the king branch, given what `can_castle` does on this board. -/
theorem castle_step_spec {b : chessboard} (wf : WF b) (side : Nat) (pseudo exit_on_legal : Bool)
    (mask relevant_rooks ind : Nat) (rx : Int) (corner dest : Nat) (st : gen_state)
    (hb : st.board = b) (hok : EntryOK b side 1 ind (st.matrices ind))
    (hcc : (relevant_rooks &&& corner != 0) = true →
      (can_castle b side (b.side_sets 0 ||| b.side_sets 1) ((ind &&& 7 : Nat) : Int)
        ((ind >>> 3 : Nat) : Int) rx ((ind >>> 3 : Nat) : Int)).2 = b ∧
      ((can_castle b side (b.side_sets 0 ||| b.side_sets 1) ((ind &&& 7 : Nat) : Int)
        ((ind >>> 3 : Nat) : Int) rx ((ind >>> 3 : Nat) : Int)).1 = true →
        ∃ d, dest = shl64 1 d ∧ MoveOK b ind d)) :
    (castle_step side pseudo exit_on_legal mask (b.side_sets 0 ||| b.side_sets 1) relevant_rooks
      ind rx corner dest st).2.board = b ∧
    (∀ o, o ≠ ind →
      (castle_step side pseudo exit_on_legal mask (b.side_sets 0 ||| b.side_sets 1) relevant_rooks
        ind rx corner dest st).2.matrices o = st.matrices o) ∧
    EntryOK b side 1 ind
      ((castle_step side pseudo exit_on_legal mask (b.side_sets 0 ||| b.side_sets 1)
        relevant_rooks ind rx corner dest st).2.matrices ind) ∧
    ((castle_step side pseudo exit_on_legal mask (b.side_sets 0 ||| b.side_sets 1) relevant_rooks
      ind rx corner dest st).1 = true →
      EntrySafe b side pseudo ind
        ((castle_step side pseudo exit_on_legal mask (b.side_sets 0 ||| b.side_sets 1)
          relevant_rooks ind rx corner dest st).2.matrices ind)) := by
  unfold castle_step
  by_cases hr : (relevant_rooks &&& corner != 0) = true
  · simp only [hr, if_true]
    rw [hb]
    obtain ⟨c1, c2⟩ := hcc hr
    by_cases hc : (can_castle b side (b.side_sets 0 ||| b.side_sets 1) ((ind &&& 7 : Nat) : Int)
        ((ind >>> 3 : Nat) : Int) rx ((ind >>> 3 : Nat) : Int)).1 = true
    · simp only [hc, if_true]
      rw [c1]
      obtain ⟨d, hd, hmv⟩ := c2 hc
      have hs := legalize_step_spec wf pseudo exit_on_legal side mask ind 1
        { matrices := setAt st.matrices ind (st.matrices ind ||| dest), board := b } rfl
        (by
          simp only [setAt_same]
          rw [hd]
          exact hok.or_bit (by decide) hmv)
      refine ⟨hs.1, fun o ho => ?_, hs.2.2.1, fun _ => hs.2.2.2⟩
      rw [hs.2.1 o ho]
      exact setAt_other _ _ ho
    · simp only [hc]
      exact ⟨c1, fun _ _ => rfl, hok, fun h => absurd h (by simp)⟩
  · simp only [hr]
    exact ⟨hb, fun _ _ => rfl, hok, fun h => absurd h (by simp)⟩

theorem castle_block_spec {b : chessboard} (wf : WF b) {side : Nat} (hs : side < 2)
    (pseudo exit_on_legal : Bool) (mask ind : Nat) (st : gen_state)
    (hb : st.board = b) (ho : Own b side 1 ind) (hok : EntryOK b side 1 ind (st.matrices ind)) :
    (castle_block side pseudo exit_on_legal mask (b.side_sets side)
      (b.side_sets 0 ||| b.side_sets 1) ind st).2.board = b ∧
    (∀ o, o ≠ ind →
      (castle_block side pseudo exit_on_legal mask (b.side_sets side)
        (b.side_sets 0 ||| b.side_sets 1) ind st).2.matrices o = st.matrices o) ∧
    EntryOK b side 1 ind
      ((castle_block side pseudo exit_on_legal mask (b.side_sets side)
        (b.side_sets 0 ||| b.side_sets 1) ind st).2.matrices ind) ∧
    ((castle_block side pseudo exit_on_legal mask (b.side_sets side)
      (b.side_sets 0 ||| b.side_sets 1) ind st).1 = true →
      EntrySafe b side pseudo ind
        ((castle_block side pseudo exit_on_legal mask (b.side_sets side)
          (b.side_sets 0 ||| b.side_sets 1) ind st).2.matrices ind)) := by
  unfold castle_block
  simp only [hb]
  by_cases hc : (!in_check b side) = true
  · rw [if_pos hc]
    have s1 := castle_step_spec wf side pseudo exit_on_legal mask
      (b.side_sets side &&& b.piece_sets rook) ind 0 (shl64 1 (8 * (ind >>> 3)))
      (shl64 1 ((ind + 2 ^ 32 - 2) % 2 ^ 32)) st hb hok
      (fun hr => by
        obtain ⟨c1, c2⟩ := can_castle_left_spec wf hs ho hr
        refine ⟨c1, fun h => ?_⟩
        obtain ⟨h2, hmv, _⟩ := c2 h
        refine ⟨ind - 2, ?_, hmv⟩
        have : (ind + 2 ^ 32 - 2) % 2 ^ 32 = ind - 2 := by
          have := ho.1
          omega
        rw [this])
    by_cases h1 : (castle_step side pseudo exit_on_legal mask (b.side_sets 0 ||| b.side_sets 1)
        (b.side_sets side &&& b.piece_sets rook) ind 0 (shl64 1 (8 * (ind >>> 3)))
        (shl64 1 ((ind + 2 ^ 32 - 2) % 2 ^ 32)) st).1 = true
    · rw [if_pos h1]
      exact s1
    · rw [if_neg h1]
      have s2 := castle_step_spec wf side pseudo exit_on_legal mask
        (b.side_sets side &&& b.piece_sets rook) ind 7 (shl64 1 (7 + 8 * (ind >>> 3)))
        (shl64 1 ((ind + 2) % 2 ^ 32))
        (castle_step side pseudo exit_on_legal mask (b.side_sets 0 ||| b.side_sets 1)
          (b.side_sets side &&& b.piece_sets rook) ind 0 (shl64 1 (8 * (ind >>> 3)))
          (shl64 1 ((ind + 2 ^ 32 - 2) % 2 ^ 32)) st).2 s1.1 s1.2.2.1
        (fun hr => by
          obtain ⟨c1, c2⟩ := can_castle_right_spec wf hs ho hr
          refine ⟨c1, fun h => ?_⟩
          obtain ⟨hmv, _⟩ := c2 h
          refine ⟨ind + 2, ?_, hmv⟩
          have : (ind + 2) % 2 ^ 32 = ind + 2 := by
            have := ho.1
            omega
          rw [this])
      refine ⟨s2.1, fun o ho2 => ?_, s2.2.2.1, s2.2.2.2⟩
      rw [s2.2.1 o ho2, s1.2.1 o ho2]
  · rw [if_neg hc]
    exact ⟨hb, fun _ _ => rfl, hok, fun h => absurd h (by simp)⟩

theorem jump_loop_spec {b : chessboard} {side t : Nat} (wf : WF b) (hs : side < 2)
    (ht : t = knight ∨ t = king)
    (pseudo exit_on_legal : Bool) (mask : Nat) (M0 : Nat → Nat) :
    ∀ (l : List Nat) (st : gen_state), (∀ i, i ∈ l → Own b side t i) →
      GInv b side pseudo M0 st →
      GInv b side pseudo M0
        (jump_loop side pseudo exit_on_legal mask (b.side_sets side)
          (b.side_sets 0 ||| b.side_sets 1)
          (not64 (b.side_sets 0 ||| b.side_sets 1) ||| b.side_sets (side ^^^ 1)) t l st).2 := by
  intro l
  induction l with
  | nil => intro st _ h; exact h
  | cons ind rest ih =>
    intro st hl h
    have ho := hl ind (List.mem_cons_self _ _)
    have h6 : t ≠ 6 := by
      rcases ht with e | e <;> rw [e] <;> decide
    have hv : EntryOK b side t ind (capture_masks ind t &&&
        (not64 (b.side_sets 0 ||| b.side_sets 1) ||| b.side_sets (side ^^^ 1))) :=
      fun d hd => ⟨jump_raw_ok wf hs ho ht hd, fun e => absurd e h6⟩
    -- the state after the castling attempts
    have key : ∀ r2 : Bool × gen_state, r2.2.board = b →
        (∀ o, o ≠ ind → r2.2.matrices o = st.matrices o) →
        EntryOK b side t ind (r2.2.matrices ind) →
        (r2.1 = true → EntrySafe b side pseudo ind (r2.2.matrices ind)) →
        GInv b side pseudo M0
          (if r2.1 = true then r2
            else if (legalize_step pseudo exit_on_legal side mask ind r2.2).1 = true then
              legalize_step pseudo exit_on_legal side mask ind r2.2
            else jump_loop side pseudo exit_on_legal mask (b.side_sets side)
              (b.side_sets 0 ||| b.side_sets 1)
              (not64 (b.side_sets 0 ||| b.side_sets 1) ||| b.side_sets (side ^^^ 1)) t rest
              (legalize_step pseudo exit_on_legal side mask ind r2.2).2).2 := by
      intro r2 k1 k2 k3 k4
      by_cases e1 : r2.1 = true
      · rw [if_pos e1]
        exact h.write k1 k2 ho k3 (k4 e1)
      · rw [if_neg e1]
        have hs2 := legalize_step_spec wf pseudo exit_on_legal side mask ind t r2.2 k1 k3
        have g : GInv b side pseudo M0 (legalize_step pseudo exit_on_legal side mask ind r2.2).2 :=
          h.write hs2.1 (fun o ho2 => by rw [hs2.2.1 o ho2, k2 o ho2]) ho hs2.2.2.1 hs2.2.2.2
        split
        · exact g
        · exact ih _ (fun i hi => hl i (List.mem_cons_of_mem _ hi)) g
    simp only [jump_loop]
    by_cases hk : t = king
    · subst hk
      simp only [if_true]
      have cb := castle_block_spec wf hs pseudo exit_on_legal mask ind
        { st with matrices := setAt st.matrices ind (capture_masks ind king &&&
          (not64 (b.side_sets 0 ||| b.side_sets 1) ||| b.side_sets (side ^^^ 1))) }
        h.1 ho (by simpa using hv)
      refine key _ cb.1 (fun o ho2 => ?_) cb.2.2.1 cb.2.2.2
      rw [cb.2.1 o ho2]
      exact setAt_other _ _ ho2
    · simp only [hk, if_false]
      refine key (false, _) h.1 (fun o ho2 => setAt_other _ _ ho2) (by simpa using hv)
        (fun e => absurd e (by simp))

theorem GInv.init (b : chessboard) (side : Nat) (pseudo : Bool) (M0 : Nat → Nat) :
    GInv b side pseudo M0 { matrices := M0, board := b } :=
  ⟨rfl, fun _ => Or.inl rfl⟩

/-- The run of `generate_moves` on a well-formed board hands the board back unchanged, and
every entry of `matrices` it wrote holds only moves `make_move` is prepared for; without
`pseudo` none of them leaves `side` in check. -/
theorem generate_moves_spec {b : chessboard} (wf : WF b) {side : Nat} (hs : side < 2)
    (M0 : Nat → Nat) (pseudo exit_on_legal : Bool) (mask : Nat) :
    GInv b side pseudo M0 (generate_moves b side M0 pseudo exit_on_legal mask).2 := by
  unfold generate_moves
  have own : ∀ t, 1 ≤ t → t ≤ 6 → ∀ i, i ∈ set_bits (b.piece_sets t &&& b.side_sets side) →
      Own b side t i := fun t h1 h6 i hi => own_of_mem wf hs h1 h6 hi
  have g1 := pawn_loop_spec wf hs pseudo exit_on_legal mask M0
    (set_bits (b.piece_sets pawn &&& b.side_sets side)) _ (own 6 (by decide) (by decide))
    (GInv.init b side pseudo M0)
  simp only []
  split
  · exact g1
  have g2 := jump_loop_spec wf hs (Or.inl rfl) pseudo exit_on_legal mask M0
    (set_bits (b.piece_sets knight &&& b.side_sets side)) _ (own 4 (by decide) (by decide)) g1
  rw [g1.1]
  split
  · exact g2
  have g3 := jump_loop_spec wf hs (Or.inr rfl) pseudo exit_on_legal mask M0
    (set_bits (b.piece_sets king &&& b.side_sets side)) _ (own 1 (by decide) (by decide)) g2
  rw [g2.1]
  split
  · exact g3
  have g4 := sliding_loop_spec wf hs (Or.inl rfl) pseudo exit_on_legal mask M0
    (set_bits (b.piece_sets bishop &&& b.side_sets side)) _ (own 3 (by decide) (by decide)) g3
  rw [g3.1]
  split
  · exact g4
  have g5 := sliding_loop_spec wf hs (Or.inr (Or.inl rfl)) pseudo exit_on_legal mask M0
    (set_bits (b.piece_sets rook &&& b.side_sets side)) _ (own 5 (by decide) (by decide)) g4
  rw [g4.1]
  split
  · exact g5
  rw [g5.1]
  exact sliding_loop_spec wf hs (Or.inr (Or.inr rfl)) pseudo exit_on_legal mask M0
    (set_bits (b.piece_sets queen &&& b.side_sets side)) _ (own 2 (by decide) (by decide)) g5

theorem testBit_lt_two_pow {x i : Nat} (hx : x < 2 ^ 64) (h : x.testBit i = true) : i < 64 := by
  by_contra hc
  have : x < 2 ^ i := lt_of_lt_of_le hx (Nat.pow_le_pow_right (by decide) (by omega))
  rw [Nat.testBit_lt_two_pow this] at h
  exact absurd h (by simp)

theorem WF_of_check {b : chessboard} (h : WFcheck b) (hp : ∀ k, b.previous_states k < 2 ^ 16) :
    WF b := by
  obtain ⟨c1, c2, c3, c4, c5, c6, c7, c8, c9, c10, c11⟩ := h
  refine ⟨⟨c1, ?_, ?_, c4⟩, ?_, c7, c8, c9, c10, hp, c11⟩
  · intro s i hs
    constructor
    · intro hb
      have h64 := testBit_lt_two_pow (c2 s hs).1 hb
      exact ⟨h64, ((c2 s hs).2 i h64).1 hb⟩
    · rintro ⟨h64, hh⟩
      exact ((c2 s hs).2 i h64).2 hh
  · intro t i h1 h6
    constructor
    · intro hb
      have h64 := testBit_lt_two_pow (c3 t (by omega) h1).1 hb
      exact ⟨h64, ((c3 t (by omega) h1).2 i h64).1 hb⟩
    · rintro ⟨h64, hh⟩
      exact ((c3 t (by omega) h1).2 i h64).2 hh
  · intro i hb
    have h64 := testBit_lt_two_pow c5 hb
    exact ⟨h64, c6 i h64 hb⟩

theorem place_pieces_prev (codes : List Nat) :
    ∀ (i : Nat) (b : chessboard),
      (place_pieces codes i b).previous_states = b.previous_states := by
  induction codes with
  | nil => intro i b; rfl
  | cons c rest ih =>
    intro i b
    simp only [place_pieces]
    rw [ih]
    split <;> rfl

theorem board_of_prev (codes : List Nat) (k : Nat) : (board_of codes).previous_states k = 0 := by
  unfold board_of
  simp only []
  rw [place_pieces_prev]
  rfl

theorem WF_board_of {codes : List Nat} (h : WFcheck (board_of codes)) : WF (board_of codes) :=
  WF_of_check h (fun k => by rw [board_of_prev]; decide)

theorem WF_standard : WF standard_board := WF_board_of (by decide!)

theorem generated_ok {b : chessboard} {side : Nat} {pseudo : Bool} {o d : Nat} (wf : WF b)
    (hs : side < 2) (h : generated b side pseudo o d = true) :
    ∃ t, Own b side t o ∧ MoveOK b o d ∧
      (t = 6 → (pawn_moves b (last_move b) side o (b.side_sets (side ^^^ 1))
        (not64 (b.side_sets 0 ||| b.side_sets 1))).testBit d = true) ∧
      (pseudo = false → safe_sq b side o d = true) := by
  unfold generated at h
  have g := generate_moves_spec wf hs (fun _ => 0) pseudo false (2 ^ 64 - 1)
  rcases g.2 o with e | ⟨t, ho, h1, h2⟩
  · rw [e] at h
    simp at h
  · exact ⟨t, ho, (h1 d h).1, (h1 d h).2, fun hp => h2 hp d h⟩

theorem yields_ok {b : chessboard} {o d : Nat} (wf : WF b) (h : yields b o d = true) :
    MoveOK b o d := by
  have hs : b.side_to_move < 2 := by have := wf.stm; omega
  obtain ⟨_, _, ok, _⟩ := generated_ok wf hs h
  exact ok

theorem Reachable.wf {b : chessboard} (h : Reachable b) : WF b := by
  induction h with
  | start => exact WF_standard
  | step _ hy ih => exact WF.make_move_sq ih (yields_ok ih hy)

theorem WF.mask_consistent {b : chessboard} (wf : WF b) : mask_consistent b := by
  have hS := wf.mc.side
  have hT := wf.mc.type
  refine ⟨?_, ?_, ?_⟩
  · apply Nat.eq_of_testBit_eq
    intro i
    rw [Nat.zero_testBit, Nat.testBit_and]
    cases h0 : (b.side_sets 0).testBit i
    · rfl
    · cases h1 : (b.side_sets 1).testBit i
      · rfl
      · have a := (hS 0 i (by decide)).1 h0
        have c := (hS 1 i (by decide)).1 h1
        omega
  · apply Nat.eq_of_testBit_eq
    intro i
    rw [Bool.eq_iff_iff, all_bit wf]
    simp only [Nat.testBit_or, Bool.or_eq_true]
    rw [hT 1 i (by decide) (by decide), hT 2 i (by decide) (by decide),
      hT 3 i (by decide) (by decide), hT 4 i (by decide) (by decide),
      hT 5 i (by decide) (by decide), hT 6 i (by decide) (by decide)]
    constructor
    · rintro ⟨h64, hp⟩
      have hv := wf.mc.codes i h64
      unfold valid_code at hv
      omega
    · intro h
      have h64 : i < 64 := by omega
      exact ⟨h64, by omega⟩
  · intro i h64
    refine ⟨?_, ?_, ?_⟩
    · rw [all_bit wf]
      exact ⟨fun h => ⟨h64, h⟩, fun h => h.2⟩
    · intro s hs
      rw [hS s i hs, show side_shift = 3 from rfl, shr3]
      exact ⟨fun h => ⟨h.2.1, h.2.2⟩, fun h => ⟨h64, h.1, h.2⟩⟩
    · intro t h7 h1
      rw [hT t i h1 (by omega), show type_mask = 7 from rfl, and7]
      exact ⟨fun h => ⟨by omega, h.2⟩, fun h => ⟨h64, h.2⟩⟩

theorem last_move_sane {b : chessboard} (wf : WF b) : (last_move b).sane := by
  unfold last_move
  cases h : b.move_stack with
  | nil => decide
  | cons m rest => exact wf.stack_sane m (by rw [h]; exact List.mem_cons_self _ _)

/-- A pawn destination on another file that is empty comes from the en passant mask, so it
lies at least three ranks away from the rank the pawn's side moves towards. -/
theorem pawn_sideways_empty {b : chessboard} {side ind d : Nat} (wf : WF b) (hs : side < 2)
    (ho : Own b side 6 ind)
    (h : (pawn_moves b (last_move b) side ind (b.side_sets (side ^^^ 1))
      (not64 (b.side_sets 0 ||| b.side_sets 1))).testBit d = true)
    (he : b.pieces d = 0) (hx : d % 8 ≠ ind % 8) :
    (side = 1 → 24 ≤ d) ∧ (side = 0 → d < 40) := by
  obtain ⟨h64, ht, hsd, hp0⟩ := ho
  have hsn := last_move_sane wf
  unfold chessmove.sane at hsn
  have hbit : ∀ j, (shl64 1 ind).testBit j = decide (j = ind) := testBit_shl64_one h64
  have hsq : sq (last_move b).dest_x (last_move b).dest_y < 64 := by unfold sq; omega
  have hbit2 : ∀ j, (shl64 1 (sq (last_move b).dest_x (last_move b).dest_y)).testBit j
      = decide (j = sq (last_move b).dest_x (last_move b).dest_y) := testBit_shl64_one hsq
  have hth : (b.side_sets (side ^^^ 1)).testBit d = false := by
    cases hb : (b.side_sets (side ^^^ 1)).testBit d
    · rfl
    · have := (wf.mc.side (side ^^^ 1) d (xor_one_lt hs).1).1 hb
      exact absurd he this.2.1
  have hside : side = 0 ∨ side = 1 := by omega
  unfold pawn_moves at h
  simp only [Nat.testBit_or, Bool.or_eq_true] at h
  rcases hside with e | e <;> subst e
  · refine ⟨fun e => absurd e (by decide), fun _ => ?_⟩
    rcases h with ((h | h) | h) | h
    · rw [Nat.testBit_and, Bool.and_eq_true, hth] at h
      exact absurd h.2 (by simp)
    · simp only [ne_eq, not_true_eq_false, if_false, Nat.testBit_and, Bool.and_eq_true,
        testBit_shl64, hbit, decide_eq_true_eq] at h
      omega
    · have h4 := (testBit_flag_mul (and_one_le _) h).2
      simp only [ne_eq, not_true_eq_false, if_false, Nat.testBit_and, Bool.and_eq_true,
        testBit_shl64, hbit, decide_eq_true_eq] at h4
      omega
    · have h2 := testBit_flag_mul (b2n_le _) h
      have h3 := b2n_eq_one h2.1
      have h4 := h2.2
      simp only [Bool.and_eq_true, beq_iff_eq] at h3
      simp only [ne_eq, not_true_eq_false, if_false, Nat.testBit_and, Bool.and_eq_true,
        testBit_shr64, hbit2, decide_eq_true_eq] at h4
      have h5 := h3.1
      have h6 := h4.1.2
      unfold sq at h6
      push_cast at h5
      omega
  · refine ⟨fun _ => ?_, fun e => absurd e (by decide)⟩
    rcases h with ((h | h) | h) | h
    · rw [Nat.testBit_and, Bool.and_eq_true, hth] at h
      exact absurd h.2 (by simp)
    · simp only [ne_eq, one_ne_zero, not_false_eq_true, if_true, Nat.testBit_and,
        Bool.and_eq_true, testBit_shr64, hbit, decide_eq_true_eq] at h
      omega
    · have h4 := (testBit_flag_mul (and_one_le _) h).2
      simp only [ne_eq, one_ne_zero, not_false_eq_true, if_true, Nat.testBit_and,
        Bool.and_eq_true, testBit_shr64, hbit, decide_eq_true_eq] at h4
      omega
    · have h2 := testBit_flag_mul (b2n_le _) h
      have h3 := b2n_eq_one h2.1
      have h4 := h2.2
      simp only [Bool.and_eq_true, beq_iff_eq] at h3
      simp only [ne_eq, one_ne_zero, not_false_eq_true, if_true, Nat.testBit_and,
        Bool.and_eq_true, testBit_shl64, hbit2, decide_eq_true_eq] at h4
      have h5 := h3.1
      have h6 := h4.1.2
      unfold sq at h6
      push_cast at h5
      omega

theorem board_of_hash (codes : List Nat) : (board_of codes).hash = zobrist (board_of codes) := by
  unfold board_of
  simp only [zobrist, pawn_two_squares]

theorem testBit_and_not64_self (x : Nat) {c : Nat} :
    (x &&& not64 (shl64 1 c)).testBit c = false := by
  by_cases hc : c < 64
  · rw [Nat.testBit_and, testBit_not64, testBit_shl64_one hc]
    simp
  · rw [Nat.testBit_and, testBit_not64]
    simp [hc]

/-- What `make_move` does with a pawn that steps diagonally onto an empty square short of
its last rank. -/
theorem en_passant_core {b : chessboard} {s o d : Nat} (hs : s < 2)
    (hp : b.pieces o = pawn + 8 * s) (hg : pawn_diagonal s o d) (he : b.pieces d = 0)
    (hr : (s = 1 → 8 ≤ d) ∧ (s = 0 → d < 56)) :
    make_move_sq b o d =
      move_core b ((o &&& 7 : Nat) : Int) ((o >>> 3 : Nat) : Int) ((d &&& 7 : Nat) : Int)
        ((d >>> 3 : Nat) : Int) ((o / 8 : Nat) : Int) o d (d % 8 + 8 * (o / 8)) (rook_from o d)
        (rook_to o d) false false false ∧
    CoreOK b o d (d % 8 + 8 * (o / 8)) (rook_from o d) (rook_to o d) false false := by
  obtain ⟨ho, hd, g1, g0⟩ := hg
  have hp6 : b.pieces o % 8 = 6 := by rw [hp]; unfold pawn; omega
  have hps : b.pieces o / 8 = s := by rw [hp]; unfold pawn; omega
  have hside : s = 0 ∨ s = 1 := by omega
  have hx : d % 8 + 1 = o % 8 ∨ o % 8 + 1 = d % 8 := by
    rcases hside with e | e
    · have := g0 e; omega
    · have := g1 e; omega
  have hne : o ≠ d := by
    rcases hside with e | e
    · have := g0 e; omega
    · have := g1 e; omega
  have hcap : cap_sq b o d = d % 8 + 8 * (o / 8) := by
    unfold cap_sq
    rw [if_pos ⟨he, hp6, hx⟩, hps]
    rcases hside with e | e
    · have := g0 e; subst e; simp only [ne_eq, not_true_eq_false, if_false]; omega
    · have := g1 e; subst e; simp only [ne_eq, one_ne_zero, not_false_eq_true, if_true]; omega
  have hrow : cap_row b o d = ((o / 8 : Nat) : Int) := by
    rw [cap_row_eq, if_pos ⟨he, hp6, hx⟩, hps]
    rcases hside with e | e
    · have := g0 e; subst e; simp only [ne_eq, not_true_eq_false, if_false]; omega
    · have := g1 e; subst e; simp only [ne_eq, one_ne_zero, not_false_eq_true, if_true]; omega
  have hcs : is_castling b o d = false := by
    unfold is_castling
    simp only [decide_eq_false_iff_not, not_and]
    intro h; omega
  have hpr : is_promotion b o d = false := by
    unfold is_promotion
    simp only [decide_eq_false_iff_not, not_and]
    intro _
    rw [hps]
    have hr1 := hr.1
    have hr0 := hr.2
    rcases hside with e | e <;> subst e <;> omega
  have hts : is_two_squares b o d = false := by
    unfold is_two_squares
    simp only [decide_eq_false_iff_not, not_and]
    intro h
    rcases hside with e | e
    · have := g0 e; omega
    · have := g1 e; omega
  refine ⟨?_, ?_⟩
  · rw [make_move_sq_eq ho hd hne, hcap, hrow, hcs, hpr, hts]
  · refine ⟨ho, hd, ?_, hne, ?_, ?_, Or.inr he, fun h => absurd h (by simp),
      fun h => absurd h (by simp)⟩
    · rcases hside with e | e
      · have := g0 e; omega
      · have := g1 e; omega
    · rw [hp]; unfold pawn; omega
    · rcases hside with e | e
      · have := g0 e; omega
      · have := g1 e; omega

theorem move_core_plain_sets (b : chessboard) (ox oy dx dy cy : Int) (o d c r1 r2 : Nat)
    (ts : Bool) :
    (move_core b ox oy dx dy cy o d c r1 r2 false false ts).side_sets =
      setAt (setAt b.side_sets (b.pieces c >>> side_shift)
          (b.side_sets (b.pieces c >>> side_shift) &&& not64 (shl64 1 c)))
        (b.pieces o >>> side_shift)
        ((setAt b.side_sets (b.pieces c >>> side_shift)
          (b.side_sets (b.pieces c >>> side_shift) &&& not64 (shl64 1 c)))
            (b.pieces o >>> side_shift) ^^^ (shl64 1 o ^^^ shl64 1 d)) ∧
    (move_core b ox oy dx dy cy o d c r1 r2 false false ts).piece_sets =
      setAt (setAt b.piece_sets (b.pieces c &&& type_mask)
          (b.piece_sets (b.pieces c &&& type_mask) &&& not64 (shl64 1 c)))
        (b.pieces o &&& type_mask)
        ((setAt b.piece_sets (b.pieces c &&& type_mask)
          (b.piece_sets (b.pieces c &&& type_mask) &&& not64 (shl64 1 c)))
            (b.pieces o &&& type_mask) ^^^ (shl64 1 o ^^^ shl64 1 d)) :=
  ⟨rfl, rfl⟩

theorem cleared_bit_stays (f : Nat → Nat) (k k2 o d c : Nat) (ho : o < 64) (hd : d < 64)
    (hco : c ≠ o) (hcd : c ≠ d) :
    ((setAt (setAt f k (f k &&& not64 (shl64 1 c))) k2
      ((setAt f k (f k &&& not64 (shl64 1 c))) k2 ^^^ (shl64 1 o ^^^ shl64 1 d))) k).testBit c
      = false := by
  by_cases e : k = k2
  · subst e
    rw [setAt_same, setAt_same, Nat.testBit_xor, Nat.testBit_xor, testBit_and_not64_self,
      testBit_shl64_one ho, testBit_shl64_one hd]
    simp [hco, hcd]
  · rw [setAt_other _ _ e, setAt_same, testBit_and_not64_self]

theorem play_legal_cons {b : chessboard} {o d : Nat} (h : yields b o d = true)
    (rest : List (Nat × Nat)) :
    play_legal b ((o, d) :: rest) = play_legal (make_move_sq b o d) rest := by
  simp [play_legal, h]

/-! ### The moves of the examples, ply by ply -/

set_option maxRecDepth 1000000 in
/-- Ply 1 of e2-e3 a7-a6 Ke1-e2 h7-h6 Ke2-d3 h6-h5 Kd3-d4 d7-d5 e3xd4: the generator yields the move. -/
theorem hunt_1 :
    yields standard_board
      52 44 = true := by
  decide!

set_option maxRecDepth 1000000 in
/-- Ply 2 of e2-e3 a7-a6 Ke1-e2 h7-h6 Ke2-d3 h6-h5 Kd3-d4 d7-d5 e3xd4: the generator yields the move. -/
theorem hunt_2 :
    yields (make_move_sq standard_board 52 44)
      8 16 = true := by
  decide!

set_option maxRecDepth 1000000 in
/-- Ply 3 of e2-e3 a7-a6 Ke1-e2 h7-h6 Ke2-d3 h6-h5 Kd3-d4 d7-d5 e3xd4: the generator yields the move. -/
theorem hunt_3 :
    yields (make_move_sq (make_move_sq standard_board 52 44) 8 16)
      60 52 = true := by
  decide!

set_option maxRecDepth 1000000 in
/-- Ply 4 of e2-e3 a7-a6 Ke1-e2 h7-h6 Ke2-d3 h6-h5 Kd3-d4 d7-d5 e3xd4: the generator yields the move. -/
theorem hunt_4 :
    yields (make_move_sq (make_move_sq (make_move_sq standard_board 52 44) 8 16) 60 52)
      15 23 = true := by
  decide!

set_option maxRecDepth 1000000 in
/-- Ply 5 of e2-e3 a7-a6 Ke1-e2 h7-h6 Ke2-d3 h6-h5 Kd3-d4 d7-d5 e3xd4: the generator yields the move. -/
theorem hunt_5 :
    yields (make_move_sq (make_move_sq (make_move_sq (make_move_sq standard_board 52 44) 8 16) 60 52) 15 23)
      52 43 = true := by
  decide!

set_option maxRecDepth 1000000 in
/-- Ply 6 of e2-e3 a7-a6 Ke1-e2 h7-h6 Ke2-d3 h6-h5 Kd3-d4 d7-d5 e3xd4: the generator yields the move. -/
theorem hunt_6 :
    yields (make_move_sq (make_move_sq (make_move_sq (make_move_sq (make_move_sq standard_board 52 44) 8 16) 60 52) 15 23) 52 43)
      23 31 = true := by
  decide!

set_option maxRecDepth 1000000 in
/-- Ply 7 of e2-e3 a7-a6 Ke1-e2 h7-h6 Ke2-d3 h6-h5 Kd3-d4 d7-d5 e3xd4: the generator yields the move. -/
theorem hunt_7 :
    yields (make_move_sq (make_move_sq (make_move_sq (make_move_sq (make_move_sq (make_move_sq standard_board 52 44) 8 16) 60 52) 15 23) 52 43) 23 31)
      43 35 = true := by
  decide!

set_option maxRecDepth 1000000 in
/-- Ply 8 of e2-e3 a7-a6 Ke1-e2 h7-h6 Ke2-d3 h6-h5 Kd3-d4 d7-d5 e3xd4: the generator yields the move. -/
theorem hunt_8 :
    yields (make_move_sq (make_move_sq (make_move_sq (make_move_sq (make_move_sq (make_move_sq (make_move_sq standard_board 52 44) 8 16) 60 52) 15 23) 52 43) 23 31) 43 35)
      11 27 = true := by
  decide!

set_option maxRecDepth 1000000 in
/-- Ply 9 of e2-e3 a7-a6 Ke1-e2 h7-h6 Ke2-d3 h6-h5 Kd3-d4 d7-d5 e3xd4: the generator yields the move. -/
theorem hunt_9 :
    yields (make_move_sq (make_move_sq (make_move_sq (make_move_sq (make_move_sq (make_move_sq (make_move_sq (make_move_sq standard_board 52 44) 8 16) 60 52) 15 23) 52 43) 23 31) 43 35) 11 27)
      44 35 = true := by
  decide!

set_option maxRecDepth 1000000 in
/-- After the nine plies no king of side 1 is left. -/
theorem hunt_end :
    (make_move_sq (make_move_sq (make_move_sq (make_move_sq (make_move_sq (make_move_sq (make_move_sq (make_move_sq (make_move_sq standard_board 52 44) 8 16) 60 52) 15 23) 52 43) 23 31) 43 35) 11 27) 44 35).piece_sets king &&&
      (make_move_sq (make_move_sq (make_move_sq (make_move_sq (make_move_sq (make_move_sq (make_move_sq (make_move_sq (make_move_sq standard_board 52 44) 8 16) 60 52) 15 23) 52 43) 23 31) 43 35) 11 27) 44 35).side_sets 1 = 0 := by
  decide!

set_option maxRecDepth 1000000 in
/-- Ply 1 of e2-e4 a7-a6 e4-e5 d7-d5: the generator yields the move. -/
theorem ep_1 :
    yields standard_board
      52 36 = true := by
  decide!

set_option maxRecDepth 1000000 in
/-- Ply 2 of e2-e4 a7-a6 e4-e5 d7-d5: the generator yields the move. -/
theorem ep_2 :
    yields (make_move_sq standard_board 52 36)
      8 16 = true := by
  decide!

set_option maxRecDepth 1000000 in
/-- Ply 3 of e2-e4 a7-a6 e4-e5 d7-d5: the generator yields the move. -/
theorem ep_3 :
    yields (make_move_sq (make_move_sq standard_board 52 36) 8 16)
      36 28 = true := by
  decide!

set_option maxRecDepth 1000000 in
/-- Ply 4 of e2-e4 a7-a6 e4-e5 d7-d5: the generator yields the move. -/
theorem ep_4 :
    yields (make_move_sq (make_move_sq (make_move_sq standard_board 52 36) 8 16) 36 28)
      11 27 = true := by
  decide!

set_option maxRecDepth 1000000 in
/-- After e2-e4 a7-a6 e4-e5 d7-d5: pawns on e5 and d5, d6 empty and not generated. -/
theorem ep_end :
    ((make_move_sq (make_move_sq (make_move_sq (make_move_sq standard_board 52 36) 8 16) 36 28) 11 27).pieces 28,
      (make_move_sq (make_move_sq (make_move_sq (make_move_sq standard_board 52 36) 8 16) 36 28) 11 27).pieces 27,
      (make_move_sq (make_move_sq (make_move_sq (make_move_sq standard_board 52 36) 8 16) 36 28) 11 27).pieces 19,
      generated (make_move_sq (make_move_sq (make_move_sq (make_move_sq standard_board 52 36) 8 16) 36 28) 11 27) 1 true
        28 19) = (14, 6, 0, false) := by
  decide!

/-! ## The claims -/

/-- C1. Make/unmake round trip: in every position reachable from the standard initial
position by moves that `generate_moves` yields in legal mode, `make_move` of a move the
generator yields for the side to move, followed by `unmake_move`, gives back the same board:
every field (pieces, side_sets, piece_sets, has_moved, side_to_move, hash, move_stack,
move_count, appended_moves and every previous_states counter) has its value from before. -/
theorem make_unmake_round_trip (b : chessboard) (o d : Nat) (hr : Reachable b)
    (hy : yields b o d = true) : unmake_move (make_move_sq b o d) = b :=
  unmake_make_sq hr.wf (yields_ok hr.wf hy)

set_option maxRecDepth 1000000 in
/-- The round trip of C1 at a7-a6 in the position after e2-e4. -/
theorem make_unmake_round_trip_witness :
    Reachable (make_move_sq standard_board 52 36) ∧
    yields (make_move_sq standard_board 52 36) 8 16 = true ∧
    unmake_move (make_move_sq (make_move_sq standard_board 52 36) 8 16) =
      make_move_sq standard_board 52 36 :=
  ⟨Reachable.step Reachable.start (by decide!), by decide!,
    make_unmake_round_trip (make_move_sq standard_board 52 36) 8 16
      (Reachable.step Reachable.start (by decide!)) (by decide!)⟩

set_option maxRecDepth 1000000 in
/-- C2 fails as stated: on the board with a pawn of side 1 on a6 whose `has_moved` bit is
clear (as on every board `process_move` builds), the masks are consistent, `hash` equals
`zobrist()`, the generator yields the pseudo-legal double step a6-a8, and after `make_move`
the field `hash` differs from `zobrist()`. -/
theorem hash_drift_after_double_step_promotion :
    mask_consistent (board_of codes_pawn_sixth) ∧
    (board_of codes_pawn_sixth).hash = zobrist (board_of codes_pawn_sixth) ∧
    generated (board_of codes_pawn_sixth) 1 true 16 0 = true ∧
    (make_move_sq (board_of codes_pawn_sixth) 16 0).hash ≠
      zobrist (make_move_sq (board_of codes_pawn_sixth) 16 0) := by
  have hco : CoreOK (board_of codes_pawn_sixth) 16 0 (cap_sq (board_of codes_pawn_sixth) 16 0)
      (rook_from 16 0) (rook_to 16 0) (is_castling (board_of codes_pawn_sixth) 16 0)
      (is_promotion (board_of codes_pawn_sixth) 16 0) :=
    ⟨by decide, by decide, by decide!, by decide, by decide!, by decide!, by decide!,
      by decide!, by decide!⟩
  have hd := hash_drift (b := board_of codes_pawn_sixth) (o := 16) (d := 0) (by decide)
    (by decide) (by decide) (by decide!) (by decide!) hco
  have f1 : is_two_squares (board_of codes_pawn_sixth) 16 0 = true := by decide!
  have f2 : pawn_two_squares (make_move_sq (board_of codes_pawn_sixth) 16 0) = false := by
    decide!
  have hz : zobrist_table 0 8 ≠ 0 := by decide!
  rw [board_of_hash, Nat.xor_self, f1, f2, if_neg (by decide), Nat.zero_xor] at hd
  refine ⟨by decide!, board_of_hash _, by decide!, fun h => hz ?_⟩
  rw [← hd, h, Nat.xor_self]

/-- C2, amended: on every well-formed board (`WF`: masks consistent with pieces, and the
`has_moved` bits tell unmoved pawns and kings apart from moved ones) whose `hash` equals
`zobrist()`, after `make_move` of a non-null pseudo-legal move the field `hash` again equals
`zobrist()` recomputed from scratch, and so it does after the matching `unmake_move`. -/
theorem hash_correct_after_make_unmake (b : chessboard) (side o d : Nat) (wf : WF b)
    (hs : side < 2) (hh : b.hash = zobrist b) (hg : generated b side true o d = true) :
    (make_move_sq b o d).hash = zobrist (make_move_sq b o d) ∧
    (unmake_move (make_move_sq b o d)).hash = zobrist (unmake_move (make_move_sq b o d)) := by
  obtain ⟨_, _, ok, _⟩ := generated_ok wf hs hg
  refine ⟨hash_make_move_sq wf ok hh, ?_⟩
  rw [unmake_make_sq wf ok]
  exact hh

set_option maxRecDepth 1000000 in
/-- The amended C2 at e2-e4 in the standard initial position. -/
theorem hash_correct_after_make_unmake_witness :
    (make_move_sq standard_board 52 36).hash = zobrist (make_move_sq standard_board 52 36) ∧
    (unmake_move (make_move_sq standard_board 52 36)).hash =
      zobrist (unmake_move (make_move_sq standard_board 52 36)) :=
  hash_correct_after_make_unmake standard_board 1 52 36 WF_standard (by decide)
    (board_of_hash _) (by decide!)

set_option maxRecDepth 1000000 in
/-- C3, evaluated at its own example: the standard initial position has `hash == zobrist()`
and an empty move stack; after the two-square advance e2-e4 and then the null move
`make_move(0, 0, 0, 0)` the field `hash` differs from `zobrist()`, by exactly the key
`zobrist_table[0][8]` of the two-square flag. -/
theorem null_move_after_double_step_hash :
    standard_board.hash = zobrist standard_board ∧
    standard_board.move_stack = [] ∧
    (make_move (make_move_sq standard_board 52 36) 0 0 0 0).hash ≠
      zobrist (make_move (make_move_sq standard_board 52 36) 0 0 0 0) ∧
    (make_move (make_move_sq standard_board 52 36) 0 0 0 0).hash ^^^
      zobrist (make_move (make_move_sq standard_board 52 36) 0 0 0 0) = zobrist_table 0 8 := by
  have ok := yields_ok WF_standard ep_1
  have wf1 := WF.make_move_sq WF_standard ok
  have h1 := hash_make_move_sq WF_standard ok (board_of_hash _)
  have f1 : pawn_two_squares (make_move_sq standard_board 52 36) = true := by decide!
  have hx := null_move_drift (make_move_sq standard_board 52 36) wf1.stm
  rw [h1, Nat.xor_self, f1, if_pos rfl, Nat.zero_xor] at hx
  have hz : zobrist_table 0 8 ≠ 0 := by decide!
  exact ⟨board_of_hash _, by decide!, fun h => hz (by rw [← hx, h, Nat.xor_self]), hx⟩

set_option maxRecDepth 1000000 in
/-- C4 fails as stated: on the board with the king of side 1 on c1, its rook on a1 and its
knight on b1, all `has_moved` bits clear, the masks are consistent and the generator yields
(in legal mode) the move c1-a1; after `make_move` the knight's code is still in `pieces` on
b1 while bit b1 is in neither side mask, so the masks are no longer consistent. -/
theorem masks_broken_by_castling_from_c1 :
    mask_consistent (board_of codes_king_c1) ∧
    yields (board_of codes_king_c1) 58 56 = true ∧
    ¬ mask_consistent (make_move_sq (board_of codes_king_c1) 58 56) ∧
    (make_move_sq (board_of codes_king_c1) 58 56).pieces 57 = 13 ∧
    ((make_move_sq (board_of codes_king_c1) 58 56).side_sets 0 |||
      (make_move_sq (board_of codes_king_c1) 58 56).side_sets 1).testBit 57 = false :=
  ⟨by decide!, by decide!, by decide!, by decide!, by decide!⟩

/-- C4, amended: if the board is well-formed (`WF`: the masks are consistent with `pieces`
in the three senses of the claim, and a king or pawn with a clear `has_moved` bit stands
where its side starts), then the three facts of mask consistency hold before, after
`make_move` of any move yielded by `generate_moves`, and after the matching
`unmake_move`. -/
theorem mask_consistency_preserved (b : chessboard) (side : Nat) (pseudo : Bool) (o d : Nat)
    (wf : WF b) (hs : side < 2) (hg : generated b side pseudo o d = true) :
    mask_consistent b ∧ mask_consistent (make_move_sq b o d) ∧
    mask_consistent (unmake_move (make_move_sq b o d)) := by
  obtain ⟨_, _, ok, _⟩ := generated_ok wf hs hg
  refine ⟨wf.mask_consistent, (WF.make_move_sq wf ok).mask_consistent, ?_⟩
  rw [unmake_make_sq wf ok]
  exact wf.mask_consistent

set_option maxRecDepth 1000000 in
/-- The amended C4 at the castling move e1-g1 on a board with the king on e1 and a rook on
h1. -/
theorem mask_consistency_preserved_witness :
    mask_consistent (board_of codes_rook_h1) ∧
    mask_consistent (make_move_sq (board_of codes_rook_h1) 60 62) ∧
    mask_consistent (unmake_move (make_move_sq (board_of codes_rook_h1) 60 62)) :=
  mask_consistency_preserved (board_of codes_rook_h1) 1 false 60 62
    (WF_board_of (by decide!)) (by decide) (by decide!)

/-- C5, evaluated: each move of e2-e3 a7-a6 Ke1-e2 h7-h6 Ke2-d3 h6-h5 Kd3-d4 d7-d5 e3xd4 is
yielded by `generate_moves` in legal mode for the side to move, and after the last one, in
which the pawn of side 1 takes the king of its own side on d4, no king of side 1 is on the
board. -/
theorem own_king_captured_by_pawn :
    (play_legal standard_board
      [(52, 44), (8, 16), (60, 52), (15, 23), (52, 43), (23, 31), (43, 35), (11, 27),
        (44, 35)]).map
      (fun b => b.piece_sets king &&& b.side_sets 1) = some 0 := by
  rw [play_legal_cons hunt_1, play_legal_cons hunt_2, play_legal_cons hunt_3,
    play_legal_cons hunt_4, play_legal_cons hunt_5, play_legal_cons hunt_6,
    play_legal_cons hunt_7, play_legal_cons hunt_8, play_legal_cons hunt_9]
  simp only [play_legal, Option.map_some']
  rw [hunt_end]

/-- C6, amended: on every well-formed board (`WF`: the masks are consistent with `pieces`,
`has_moved` bits lie only on occupied squares, a king or pawn with a clear `has_moved` bit
stands where its side starts, no pawn stands on the first or last rank) and for each side
`s`, `generate_moves(s, matrices, pseudo = false, exit_on_legal = false)` hands the board back
as it received it, and every destination bit `d` that it writes into `matrices[o]` (a bit
that is set afterwards and was not set in the array the caller passed) is a move after which
`in_check(s)` is false. -/
theorem legality_filter_sound (b : chessboard) (s : Nat) (M0 : Nat → Nat) (mask o d : Nat)
    (wf : WF b) (hs : s < 2) (h0 : (M0 o).testBit d = false)
    (hd : ((generate_moves b s M0 false false mask).2.matrices o).testBit d = true) :
    (generate_moves b s M0 false false mask).2.board = b ∧
    in_check (make_move_sq b o d) s = false := by
  have g := generate_moves_spec wf hs M0 false false mask
  refine ⟨g.1, ?_⟩
  rcases g.2 o with e | ⟨t, _, _, h2⟩
  · rw [e, h0] at hd
    exact absurd hd (by simp)
  · have := h2 rfl d hd
    unfold safe_sq at this
    simpa using this

set_option maxRecDepth 1000000 in
/-- The amended C6 at e2-e4 in the standard initial position. -/
theorem legality_filter_sound_witness :
    (generate_moves standard_board 1 (fun _ => 0) false false (2 ^ 64 - 1)).2.board =
      standard_board ∧
    in_check (make_move_sq standard_board 52 36) 1 = false :=
  legality_filter_sound standard_board 1 (fun _ => 0) (2 ^ 64 - 1) 52 36 WF_standard (by decide)
    (by decide) (by decide!)

/-- C7, evaluated at its own witness: after e2-e4, a7-a6, e4-e5, d7-d5 from the standard
position (each move yielded in legal mode) the pawn of side 1 stands on e5, the pawn of
side 0 that just advanced two squares stands next to it on d5, d6 is empty, and the set
`generate_moves` produces in pseudo mode for the pawn on e5 does not contain d6. -/
theorem en_passant_not_generated :
    (play_legal standard_board [(52, 36), (8, 16), (36, 28), (11, 27)]).map
      (fun b => (b.pieces 28, b.pieces 27, b.pieces 19, generated b 1 true 28 19)) =
      some (14, 6, 0, false) := by
  rw [play_legal_cons ep_1, play_legal_cons ep_2, play_legal_cons ep_3, play_legal_cons ep_4]
  simp only [play_legal, Option.map_some']
  rw [ep_end]

set_option maxRecDepth 1000000 in
/-- C8 fails as stated: the pawn of side 1 on b7 that moves one file sideways onto the
empty square a8 is promoted, so the destination holds a queen (code 10) afterwards and not
the moving pawn (code 14). -/
theorem sideways_pawn_promoted :
    (board_of codes_pawn_b7).pieces 9 = 14 ∧ (board_of codes_pawn_b7).pieces 0 = 0 ∧
    pawn_diagonal 1 9 0 ∧
    (make_move_sq (board_of codes_pawn_b7) 9 0).pieces 0 = 10 :=
  ⟨by decide!, by decide!, by decide!, by decide!⟩

/-- C8, amended: when a pawn of side `s` moves one file sideways (and one rank forward) onto
an empty destination square that is not on its last rank, `make_move` removes the piece on
the square `c` with the file of the destination and the rank of the origin from `pieces`,
from its side mask, from its type mask and from the hash (its key is toggled), leaves the
destination holding the moving pawn, and the pushed undo record holds the square `c` (not
the destination) and the code of the captured piece. -/
theorem en_passant_capture (b : chessboard) (s o d : Nat) (hs : s < 2)
    (hp : b.pieces o = pawn + 8 * s) (hg : pawn_diagonal s o d) (he : b.pieces d = 0)
    (hr : (s = 1 → 8 ≤ d) ∧ (s = 0 → d < 56)) :
    d % 8 + 8 * (o / 8) ≠ d ∧
    (make_move_sq b o d).pieces (d % 8 + 8 * (o / 8)) = 0 ∧
    ((make_move_sq b o d).side_sets (b.pieces (d % 8 + 8 * (o / 8)) >>> side_shift)).testBit
      (d % 8 + 8 * (o / 8)) = false ∧
    ((make_move_sq b o d).piece_sets (b.pieces (d % 8 + 8 * (o / 8)) &&& type_mask)).testBit
      (d % 8 + 8 * (o / 8)) = false ∧
    (make_move_sq b o d).pieces d = pawn + 8 * s ∧
    (make_move_sq b o d).hash =
      ((((if pawn_two_squares b = true then b.hash ^^^ zobrist_table 0 8 else b.hash)
        ^^^ (if b.pieces (d % 8 + 8 * (o / 8)) ≠ 0 then
              zobrist_table (d % 8 + 8 * (o / 8)) (b.pieces (d % 8 + 8 * (o / 8))) else 0))
        ^^^ (zobrist_table o (pawn + 8 * s) ^^^ zobrist_table d (pawn + 8 * s)))
        ^^^ zobrist_table 1 8) ∧
    ∃ m, (make_move_sq b o d).move_stack = m :: b.move_stack ∧
      m.captured_x = ((d % 8 : Nat) : Int) ∧ m.captured_y = ((o / 8 : Nat) : Int) ∧
      m.captured_type = b.pieces (d % 8 + 8 * (o / 8)) ∧
      m.dest_x = ((d % 8 : Nat) : Int) ∧ m.dest_y = ((d / 8 : Nat) : Int) := by
  obtain ⟨e, ok⟩ := en_passant_core hs hp hg he hr
  have hcd : d % 8 + 8 * (o / 8) ≠ d := by
    obtain ⟨ho, hd, g1, g0⟩ := hg
    have hside : s = 0 ∨ s = 1 := by omega
    rcases hside with x | x
    · have := g0 x; omega
    · have := g1 x; omega
  rw [e]
  refine ⟨hcd, ?_, ?_, ?_, ?_, ?_, ?_⟩
  · rw [move_core_pieces _ _ _ _ _ _ ok]
    simp [hcd, ok.hco]
  · rw [(move_core_plain_sets _ _ _ _ _ _ _ _ _ _ _ _).1]
    exact cleared_bit_stays _ _ _ _ _ _ ok.ho ok.hd ok.hco hcd
  · rw [(move_core_plain_sets _ _ _ _ _ _ _ _ _ _ _ _).2]
    exact cleared_bit_stays _ _ _ _ _ _ ok.ho ok.hd ok.hco hcd
  · rw [move_core_pieces_dest _ _ _ _ _ _ ok]
    simpa using hp
  · rw [move_core_hash, hp]
    simp
  · refine ⟨_, move_core_stack _ _ _ _ _ _ _ _ _ _ _ _ _ _, ?_⟩
    simp only [core_record, and7, shr3]
    exact ⟨trivial, trivial, by simp, trivial, trivial⟩

set_option maxRecDepth 1000000 in
/-- The amended C8 at the example of the specification: after e2-e4, a7-a6, e4-e5, d7-d5
the move e5-d6 removes the pawn on d5. -/
theorem en_passant_capture_witness :
    pawn_diagonal 1 28 19 ∧
    (make_move_sq (make_move_sq (make_move_sq (make_move_sq (make_move_sq standard_board 52 36)
      8 16) 36 28) 11 27) 28 19).pieces (19 % 8 + 8 * (28 / 8)) = 0 :=
  ⟨by decide, (en_passant_capture
    (make_move_sq (make_move_sq (make_move_sq (make_move_sq standard_board 52 36) 8 16) 36 28)
      11 27) 1 28 19 (by decide) (by decide!) (by decide) (by decide!) (by decide)).2.1⟩

set_option maxRecDepth 1000000 in
/-- C9, evaluated: with the king of side 1 on e1, its rook on a1 and its knight on b1 (all
`has_moved` bits clear) `generate_moves` yields the castling destination c1 for the king
although b1, a square between the king and the rook, is occupied. -/
theorem castling_past_knight_on_b1 :
    yields (board_of codes_knight_b1) 60 58 = true ∧
    (board_of codes_knight_b1).pieces 57 = 12 :=
  ⟨by decide!, by decide!⟩

set_option maxRecDepth 1000000 in
/-- C10, evaluated: with the king of side 1 on e1, its rook on h1 and a rook of side 0 on
f8, `generate_moves` in legal mode yields the castling destination g1 although the rook
attacks f1, the square the king steps over: the rook's destination set contains f1, and the
king's step e1-f1 is refused by `is_move_safe`. -/
theorem castling_through_attacked_f1 :
    yields (board_of codes_rook_f8) 60 62 = true ∧
    generated (board_of codes_rook_f8) 0 true 5 61 = true ∧
    safe_sq (board_of codes_rook_f8) 1 60 61 = false :=
  ⟨by decide!, by decide!, by decide!⟩

/-! ## Null move, promotion and castling in `make_move` -/

theorem chessmove_default_empty : (({} : chessmove).empty) = true := by decide

/-- C23. Null move frame: for every board `make_move(0, 0, 0, 0)` flips `side_to_move`, XORs
`zobrist_table[1][8]` into `hash`, pushes one record for which `empty()` is true, increments
`move_count`, and leaves `pieces`, `side_sets`, `piece_sets`, `has_moved` and every
`previous_states` counter unchanged; the following `unmake_move` restores `side_to_move`,
`hash`, `move_stack` and `move_count` and changes no `previous_states` counter either (nor
any other field: it gives back the board). -/
theorem null_move_frame (b : chessboard) :
    (make_move b 0 0 0 0).side_to_move = b.side_to_move ^^^ 1 ∧
    (make_move b 0 0 0 0).hash = b.hash ^^^ zobrist_table 1 8 ∧
    (∃ m, (make_move b 0 0 0 0).move_stack = m :: b.move_stack ∧ m.empty = true) ∧
    (make_move b 0 0 0 0).move_count = b.move_count + 1 ∧
    (make_move b 0 0 0 0).pieces = b.pieces ∧
    (make_move b 0 0 0 0).side_sets = b.side_sets ∧
    (make_move b 0 0 0 0).piece_sets = b.piece_sets ∧
    (make_move b 0 0 0 0).has_moved = b.has_moved ∧
    (make_move b 0 0 0 0).previous_states = b.previous_states ∧
    (unmake_move (make_move b 0 0 0 0)).side_to_move = b.side_to_move ∧
    (unmake_move (make_move b 0 0 0 0)).hash = b.hash ∧
    (unmake_move (make_move b 0 0 0 0)).move_stack = b.move_stack ∧
    (unmake_move (make_move b 0 0 0 0)).move_count = b.move_count ∧
    (unmake_move (make_move b 0 0 0 0)).previous_states = b.previous_states ∧
    unmake_move (make_move b 0 0 0 0) = b := by
  have hm : make_move b 0 0 0 0 =
      { b with side_to_move := b.side_to_move ^^^ 1, hash := b.hash ^^^ zobrist_table 1 8,
               move_stack := {} :: b.move_stack, move_count := b.move_count + 1 } := by
    unfold make_move; simp
  have hu : unmake_move (make_move b 0 0 0 0) = b := by
    rw [hm]
    unfold unmake_move
    simp only [chessmove_default_empty, Bool.not_true, Bool.false_eq_true, if_false, if_true]
    apply chessboard_eq <;> simp [Nat.xor_assoc]
  rw [hu, hm]
  exact ⟨rfl, rfl, ⟨_, rfl, chessmove_default_empty⟩, rfl, rfl, rfl, rfl, rfl, rfl, rfl, rfl, rfl,
    rfl, rfl, rfl⟩

theorem move_core_promote_sets (b : chessboard) (ox oy dx dy cy : Int) (o d c r1 r2 : Nat)
    (castling ts : Bool) :
    ∃ X : Nat → Nat,
      (move_core b ox oy dx dy cy o d c r1 r2 castling true ts).piece_sets =
        setAt (setAt X pawn (X pawn &&& not64 (shl64 1 d))) queen
          ((setAt X pawn (X pawn &&& not64 (shl64 1 d))) queen ||| shl64 1 d) :=
  ⟨_, rfl⟩

/-- C13. Promotion to queen: for every board, when a pawn of side `s` is moved by `make_move`
onto its last rank (rank 7 for side 0, rank 0 for side 1), the destination square holds a
queen of side `s` afterwards, the destination bit is in `piece_sets[queen]` and not in
`piece_sets[pawn]`, the pushed undo record has that queen code as `promotion_type`, and
`hash` is the old hash (with the two-square key toggled when that flag changes) XOR the key
of a captured piece, the pawn key of the origin, the queen key (not the pawn key) of the
destination and the side key. -/
theorem promotion_to_queen (b : chessboard) (s o d : Nat) (hs : s < 2) (ho : o < 64)
    (hd : d < 64) (hne : o ≠ d) (hp : b.pieces o = pawn + 8 * s)
    (hl : d / 8 = (1 - s) * 7) :
    (make_move_sq b o d).pieces d = queen + 8 * s ∧
    ((make_move_sq b o d).piece_sets queen).testBit d = true ∧
    ((make_move_sq b o d).piece_sets pawn).testBit d = false ∧
    (∃ m, (make_move_sq b o d).move_stack = m :: b.move_stack ∧
      m.promotion_type = queen + 8 * s) ∧
    (make_move_sq b o d).hash =
      ((((if (is_two_squares b o d != pawn_two_squares b) = true then
            b.hash ^^^ zobrist_table 0 8 else b.hash)
        ^^^ (if b.pieces (cap_sq b o d) ≠ 0 then
              zobrist_table (cap_sq b o d) (b.pieces (cap_sq b o d)) else 0))
        ^^^ zobrist_table o (pawn + 8 * s))
        ^^^ zobrist_table d (queen + 8 * s))
        ^^^ zobrist_table 1 8 := by
  have hp6 : b.pieces o % 8 = 6 := by rw [hp]; unfold pawn; omega
  have hps : b.pieces o / 8 = s := by rw [hp]; unfold pawn; omega
  have hside : s = 0 ∨ s = 1 := by omega
  have hcs : is_castling b o d = false := by
    unfold is_castling
    simp only [decide_eq_false_iff_not, not_and]
    intro h; omega
  have hpr : is_promotion b o d = true := by
    unfold is_promotion
    simp only [decide_eq_true_eq]
    refine ⟨hp6, ?_⟩
    rw [hps, hl]
    rcases hside with e | e <;> subst e <;> simp
  have hcap : cap_sq b o d < 64 ∧ cap_sq b o d ≠ o ∧ (cap_sq b o d = d ∨ b.pieces d = 0) := by
    unfold cap_sq
    by_cases hep : b.pieces d = 0 ∧ b.pieces o % 8 = 6 ∧ (d % 8 + 1 = o % 8 ∨ o % 8 + 1 = d % 8)
    · rw [if_pos hep, hps]
      rcases hside with e | e <;> subst e
      · simp only [ne_eq, not_true_eq_false, if_false]
        refine ⟨by omega, by omega, Or.inr hep.1⟩
      · simp only [ne_eq, one_ne_zero, not_false_eq_true, if_true]
        refine ⟨by omega, by omega, Or.inr hep.1⟩
    · rw [if_neg hep]
      exact ⟨hd, fun e => hne e.symm, Or.inl rfl⟩
  have ok : CoreOK b o d (cap_sq b o d) (rook_from o d) (rook_to o d) false true :=
    ⟨ho, hd, hcap.1, hne, by rw [hp]; unfold pawn; omega, hcap.2.1, hcap.2.2,
      fun h => absurd h (by simp), fun _ => hp6⟩
  rw [make_move_sq_eq ho hd hne, hcs, hpr]
  refine ⟨?_, ?_, ?_, ?_, ?_⟩
  · rw [move_core_pieces_dest _ _ _ _ _ _ ok, hps]
    simp [queen]
  · obtain ⟨X, hX⟩ := move_core_promote_sets b ((o &&& 7 : Nat) : Int) ((o >>> 3 : Nat) : Int)
      ((d &&& 7 : Nat) : Int) ((d >>> 3 : Nat) : Int) (cap_row b o d) o d (cap_sq b o d)
      (rook_from o d) (rook_to o d) false (is_two_squares b o d)
    rw [hX, setAt_same, Nat.testBit_or, testBit_shl64_one hd]
    simp
  · obtain ⟨X, hX⟩ := move_core_promote_sets b ((o &&& 7 : Nat) : Int) ((o >>> 3 : Nat) : Int)
      ((d &&& 7 : Nat) : Int) ((d >>> 3 : Nat) : Int) (cap_row b o d) o d (cap_sq b o d)
      (rook_from o d) (rook_to o d) false (is_two_squares b o d)
    rw [hX, setAt_other _ _ (by decide : pawn ≠ queen), setAt_same, testBit_and_not64_self]
  · refine ⟨_, move_core_stack _ _ _ _ _ _ _ _ _ _ _ _ _ _, ?_⟩
    simp only [core_record, if_true, side_shift, shr3, hps, queen]
    rw [or_shl3 _ (by decide)]
  · rw [move_core_hash, core_captured ok, hps, hp]
    simp only [Bool.false_eq_true, if_false, if_true, Nat.xor_zero]
    have e : (2 : Nat) + 8 * s = queen + 8 * s := rfl
    rw [e]
    generalize zobrist_table d (pawn + 8 * s) = P
    generalize zobrist_table d (queen + 8 * s) = Q
    generalize zobrist_table o (pawn + 8 * s) = R
    generalize (if b.pieces (cap_sq b o d) ≠ 0 then
      zobrist_table (cap_sq b o d) (b.pieces (cap_sq b o d)) else 0) = B
    generalize (if (is_two_squares b o d != pawn_two_squares b) = true then
      b.hash ^^^ zobrist_table 0 8 else b.hash) = H
    generalize zobrist_table 1 8 = G
    simp [Nat.xor_assoc, Nat.xor_comm, xor_left_comm, xor_cancel_mid]

set_option maxRecDepth 1000000 in
/-- C13 at its own witness: pawn of side 1 on b7, kings on h1 and h8, move b7-b8. -/
theorem promotion_to_queen_witness :
    (make_move_sq (board_of codes_pawn_b7) 9 1).pieces 1 = queen + 8 * 1 ∧
    ((make_move_sq (board_of codes_pawn_b7) 9 1).piece_sets queen).testBit 1 = true ∧
    ((make_move_sq (board_of codes_pawn_b7) 9 1).piece_sets pawn).testBit 1 = false :=
  ⟨(promotion_to_queen (board_of codes_pawn_b7) 1 9 1 (by decide) (by decide) (by decide)
      (by decide) (by decide!) (by decide)).1,
    (promotion_to_queen (board_of codes_pawn_b7) 1 9 1 (by decide) (by decide) (by decide)
      (by decide) (by decide!) (by decide)).2.1,
    (promotion_to_queen (board_of codes_pawn_b7) 1 9 1 (by decide) (by decide) (by decide)
      (by decide) (by decide!) (by decide)).2.2.1⟩

theorem rook_to_gen_left {o d : Nat} (h : d % 8 + 2 = o % 8) : rook_to o d = o - 1 := by
  unfold rook_to sq
  rw [and7, and7, shr3]
  have : ((o % 8 : Nat) : Int) - ((d % 8 : Nat) : Int) = 2 := by omega
  rw [this]
  have : (2 : Int).tdiv 2 = 1 := by decide
  rw [this]
  omega

theorem rook_to_gen_right {o d : Nat} (h : o % 8 + 2 = d % 8) : rook_to o d = o + 1 := by
  unfold rook_to sq
  rw [and7, and7, shr3]
  have : ((o % 8 : Nat) : Int) - ((d % 8 : Nat) : Int) = -2 := by omega
  rw [this]
  have : (-2 : Int).tdiv 2 = -1 := by decide
  rw [this]
  omega

/-- The fields of the board `move_core` returns that C12 speaks about do not depend on
`has_moved`. -/
theorem move_core_forget_has_moved (b : chessboard) (ox oy dx dy cy : Int) (o d c r1 r2 : Nat)
    (castling promote ts : Bool) :
    (move_core b ox oy dx dy cy o d c r1 r2 castling promote ts).pieces =
      (move_core { b with has_moved := 0 } ox oy dx dy cy o d c r1 r2 castling promote
        ts).pieces ∧
    (move_core b ox oy dx dy cy o d c r1 r2 castling promote ts).side_sets =
      (move_core { b with has_moved := 0 } ox oy dx dy cy o d c r1 r2 castling promote
        ts).side_sets ∧
    (move_core b ox oy dx dy cy o d c r1 r2 castling promote ts).piece_sets =
      (move_core { b with has_moved := 0 } ox oy dx dy cy o d c r1 r2 castling promote
        ts).piece_sets :=
  ⟨rfl, rfl, rfl⟩

/-- C12. Castling in `make_move`: when the moving piece is a king of side `s` and the
destination is two files from the origin on the same rank, with the rook of side `s` in the
corner on that side and the stepped-over square and the destination empty, `make_move`
moves that rook from the corner to the square the king stepped over, leaving the corner
empty, updates `pieces`, `side_sets`, `piece_sets[rook]` (and with them all masks, which
stay consistent) and XORs the two rook keys and the two king keys into `hash`; the king ends
on the destination. -/
theorem castling_moves_rook (b : chessboard) (s o d : Nat)
    (hmc : MC b.pieces b.side_sets b.piece_sets) (hs : s < 2) (ho : o < 64)
    (hk : b.pieces o = king + 8 * s)
    (hg : (d + 2 = o ∧ 2 ≤ o % 8) ∨ (d = o + 2 ∧ o % 8 ≤ 5))
    (hrook : b.pieces (castle_corner o d) = rook + 8 * s)
    (hmid : b.pieces ((o + d) / 2) = 0) (hdest : b.pieces d = 0) :
    (make_move_sq b o d).pieces (castle_corner o d) = 0 ∧
    (make_move_sq b o d).pieces ((o + d) / 2) = rook + 8 * s ∧
    (make_move_sq b o d).pieces d = king + 8 * s ∧
    (make_move_sq b o d).pieces o = 0 ∧
    ((make_move_sq b o d).side_sets s).testBit (castle_corner o d) = false ∧
    ((make_move_sq b o d).side_sets s).testBit ((o + d) / 2) = true ∧
    ((make_move_sq b o d).side_sets s).testBit d = true ∧
    ((make_move_sq b o d).side_sets s).testBit o = false ∧
    ((make_move_sq b o d).piece_sets rook).testBit (castle_corner o d) = false ∧
    ((make_move_sq b o d).piece_sets rook).testBit ((o + d) / 2) = true ∧
    MC (make_move_sq b o d).pieces (make_move_sq b o d).side_sets
      (make_move_sq b o d).piece_sets ∧
    (make_move_sq b o d).hash =
      ((((if pawn_two_squares b = true then b.hash ^^^ zobrist_table 0 8 else b.hash)
        ^^^ zobrist_table (castle_corner o d) (rook + 8 * s))
        ^^^ zobrist_table ((o + d) / 2) (rook + 8 * s))
        ^^^ zobrist_table o (king + 8 * s))
        ^^^ zobrist_table d (king + 8 * s)
        ^^^ zobrist_table 1 8 := by
  have hd : d < 64 := by rcases hg with h | h <;> omega
  have hne : o ≠ d := by rcases hg with h | h <;> omega
  have hk1 : b.pieces o % 8 = 1 := by rw [hk]; unfold king; omega
  have hks : b.pieces o / 8 = s := by rw [hk]; unfold king; omega
  have hx : d % 8 + 2 = o % 8 ∨ o % 8 + 2 = d % 8 := by rcases hg with h | h <;> omega
  have hcs : is_castling b o d = true := by
    unfold is_castling
    simp only [decide_eq_true_eq]
    exact ⟨hk1, hx⟩
  have hpr : is_promotion b o d = false := by
    unfold is_promotion
    simp only [decide_eq_false_iff_not, not_and]
    intro h; omega
  have hts : is_two_squares b o d = false := by
    unfold is_two_squares
    simp only [decide_eq_false_iff_not, not_and]
    intro _ h; omega
  have hcap : cap_sq b o d = d := by
    unfold cap_sq
    rw [if_neg]
    intro h; omega
  have hrow : cap_row b o d = ((d / 8 : Nat) : Int) := by
    rw [cap_row_eq, if_neg]
    intro h; omega
  have hr1 : rook_from o d = castle_corner o d := by
    unfold rook_from castle_corner
    rcases hg with h | h
    · rw [if_pos (by omega), if_pos (by omega)]
    · rw [if_neg (by omega), if_neg (by omega)]
  have hr2 : rook_to o d = (o + d) / 2 := by
    rcases hg with h | h
    · rw [rook_to_gen_left (by omega)]; omega
    · rw [rook_to_gen_right (by omega)]; omega
  have hc64 : castle_corner o d < 64 := by unfold castle_corner; split <;> omega
  have hm64 : (o + d) / 2 < 64 := by omega
  have hrk0 : rook + 8 * s ≠ 0 := by unfold rook; omega
  have hkn0 : king + 8 * s ≠ 0 := by unfold king; omega
  have n1 : castle_corner o d ≠ (o + d) / 2 := fun e => hrk0 (by rw [← hrook, e, hmid])
  have n2 : castle_corner o d ≠ o := fun e => by
    rw [e, hk] at hrook; unfold king rook at hrook; omega
  have n3 : castle_corner o d ≠ d := fun e => hrk0 (by rw [← hrook, e, hdest])
  have n4 : (o + d) / 2 ≠ o := by rcases hg with h | h <;> omega
  have n5 : (o + d) / 2 ≠ d := by rcases hg with h | h <;> omega
  have ok : CoreOK { b with has_moved := 0 } o d d (castle_corner o d) ((o + d) / 2) true
      false := by
    refine ⟨ho, hd, hd, hne, by rw [hk]; exact hkn0, fun e => hne e.symm, Or.inl rfl, ?_,
      fun h => absurd h (by simp)⟩
    intro _
    refine ⟨hk1, hc64, hm64, n1, n2, n3, n4, n5, ?_, hmid, hdest, rfl, by simp⟩
    show b.pieces (castle_corner o d) = 5 + 8 * (b.pieces o / 8)
    rw [hrook, hks]; rfl
  have hmc0 : MC ({ b with has_moved := 0 } : chessboard).pieces
      ({ b with has_moved := 0 } : chessboard).side_sets
      ({ b with has_moved := 0 } : chessboard).piece_sets := hmc
  have epieces := move_core_pieces ((o &&& 7 : Nat) : Int) ((o >>> 3 : Nat) : Int)
    ((d &&& 7 : Nat) : Int) ((d >>> 3 : Nat) : Int) ((d / 8 : Nat) : Int) false ok
  have emc := move_core_MC ((o &&& 7 : Nat) : Int) ((o >>> 3 : Nat) : Int)
    ((d &&& 7 : Nat) : Int) ((d >>> 3 : Nat) : Int) ((d / 8 : Nat) : Int) false hmc0 ok
  obtain ⟨f1, f2, f3⟩ := move_core_forget_has_moved b ((o &&& 7 : Nat) : Int)
    ((o >>> 3 : Nat) : Int) ((d &&& 7 : Nat) : Int) ((d >>> 3 : Nat) : Int)
    ((d / 8 : Nat) : Int) o d d (castle_corner o d) ((o + d) / 2) true false false
  rw [← f1] at epieces
  rw [← f1, ← f2, ← f3] at emc
  rw [make_move_sq_eq ho hd hne, hcs, hpr, hts, hcap, hrow, hr1, hr2]
  have p1 := epieces (castle_corner o d)
  have p2 := epieces ((o + d) / 2)
  have p3 := epieces d
  have p4 := epieces o
  simp only [n3, n2, n1, n1.symm, n5, n4, hne, if_true, if_false, true_and, ite_true,
    Bool.false_eq_true] at p1 p2 p3 p4
  have q1 : (move_core b ((o &&& 7 : Nat) : Int) ((o >>> 3 : Nat) : Int)
      ((d &&& 7 : Nat) : Int) ((d >>> 3 : Nat) : Int) ((d / 8 : Nat) : Int) o d d
      (castle_corner o d) ((o + d) / 2) true false false).pieces (castle_corner o d) = 0 := by
    rw [p1]
  have q2 : (move_core b ((o &&& 7 : Nat) : Int) ((o >>> 3 : Nat) : Int)
      ((d &&& 7 : Nat) : Int) ((d >>> 3 : Nat) : Int) ((d / 8 : Nat) : Int) o d d
      (castle_corner o d) ((o + d) / 2) true false false).pieces ((o + d) / 2) =
        rook + 8 * s := by
    rw [p2]; simp [hrook]
  have q3 : (move_core b ((o &&& 7 : Nat) : Int) ((o >>> 3 : Nat) : Int)
      ((d &&& 7 : Nat) : Int) ((d >>> 3 : Nat) : Int) ((d / 8 : Nat) : Int) o d d
      (castle_corner o d) ((o + d) / 2) true false false).pieces d = king + 8 * s := by
    rw [p3]; simp [hk]
  have q4 : (move_core b ((o &&& 7 : Nat) : Int) ((o >>> 3 : Nat) : Int)
      ((d &&& 7 : Nat) : Int) ((d >>> 3 : Nat) : Int) ((d / 8 : Nat) : Int) o d d
      (castle_corner o d) ((o + d) / 2) true false false).pieces o = 0 := by
    rw [p4]
  have hrs : (rook + 8 * s) / 8 = s ∧ (rook + 8 * s) % 8 = 5 := by unfold rook; omega
  have hkk : (king + 8 * s) / 8 = s := by unfold king; omega
  refine ⟨q1, q2, q3, q4, ?_, ?_, ?_, ?_, ?_, ?_, emc, ?_⟩
  · cases hb : (_ : Nat).testBit (castle_corner o d)
    · rfl
    · have := ((emc.side s _ hs).1 hb).2.1
      exact absurd q1 this
  · exact (emc.side s _ hs).2 ⟨hm64, by rw [q2]; exact hrk0, by rw [q2]; exact hrs.1⟩
  · exact (emc.side s _ hs).2 ⟨hd, by rw [q3]; exact hkn0, by rw [q3]; exact hkk⟩
  · cases hb : (_ : Nat).testBit o
    · rfl
    · have := ((emc.side s _ hs).1 hb).2.1
      exact absurd q4 this
  · cases hb : (_ : Nat).testBit (castle_corner o d)
    · rfl
    · have := ((emc.type 5 _ (by decide) (by decide)).1 hb).2
      rw [q1] at this
      exact absurd this (by decide)
  · exact (emc.type 5 _ (by decide) (by decide)).2 ⟨hm64, by rw [q2]; exact hrs.2⟩
  · rw [move_core_hash]
    have e0 : (setAt (setAt b.pieces (castle_corner o d) (b.pieces ((o + d) / 2))) ((o + d) / 2)
        (b.pieces (castle_corner o d))) d = 0 := by
      rw [setAt_other _ _ n5.symm, setAt_other _ _ n3.symm, hdest]
    simp only [if_true, Bool.false_eq_true, if_false, e0, ne_eq, not_true_eq_false,
      Nat.xor_zero, Bool.false_bne, hk, hkk]
    have e5 : 5 + 8 * s = rook + 8 * s := rfl
    rw [e5]
    simp [Nat.xor_assoc]

set_option maxRecDepth 1000000 in
/-- C12 at the castling move e1-g1 with the rook on h1. -/
theorem castling_moves_rook_witness :
    (make_move_sq (board_of codes_rook_h1) 60 62).pieces (castle_corner 60 62) = 0 ∧
    (make_move_sq (board_of codes_rook_h1) 60 62).pieces ((60 + 62) / 2) = rook + 8 * 1 :=
  ⟨(castling_moves_rook (board_of codes_rook_h1) 1 60 62 (WF_board_of (by decide!)).mc
      (by decide) (by decide) (by decide!) (by decide) (by decide!) (by decide!)
      (by decide!)).1,
    (castling_moves_rook (board_of codes_rook_h1) 1 60 62 (WF_board_of (by decide!)).mc
      (by decide) (by decide) (by decide!) (by decide) (by decide!) (by decide!)
      (by decide!)).2.1⟩

/-! ## Scores and the head of the search -/

theorem wrap32_id {x : Int} (h1 : -2 ^ 31 ≤ x) (h2 : x ≤ 2 ^ 31 - 1) : wrap32 x = x := by
  unfold wrap32; omega

theorem ceil_half (n : Int) : ⌈((n : Int) : ℚ) / 2⌉ = (n + 1) / 2 := by
  rw [Int.ceil_eq_iff]
  have h1 : 2 * ((n + 1) / 2) - 2 < n := by omega
  have h2 : n ≤ 2 * ((n + 1) / 2) := by omega
  have h1q : (2 : ℚ) * (((n + 1) / 2 : Int) : ℚ) - 2 < (n : ℚ) := by exact_mod_cast h1
  have h2q : (n : ℚ) ≤ 2 * (((n + 1) / 2 : Int) : ℚ) := by exact_mod_cast h2
  constructor <;> linarith

/-- C19. Mate score presentation: for every `int` value `val ≥ INT_MAX - 256` the string
`evaluation::to_string(val)` is "#" followed by the decimal of `ceil((INT_MAX - val) / 2)`,
and for every `val ≤ -INT_MAX + 256` it is "#-" followed by the decimal of
`ceil((val + INT_MAX) / 2)`; the differences, sums and increments computed on the way are
exact in 32-bit arithmetic. -/
theorem mate_score_string (fmt : Int → String) (val : Int) (hlo : -2 ^ 31 ≤ val)
    (hhi : val ≤ 2 ^ 31 - 1) :
    (val ≥ INT_MAX - 256 →
      to_string fmt val = "#" ++ toString ⌈((INT_MAX - val : Int) : ℚ) / 2⌉ ∧
      wrap32 (INT_MAX - val) = INT_MAX - val ∧
      wrap32 (INT_MAX - val + 1) = INT_MAX - val + 1) ∧
    (val ≤ -INT_MAX + 256 →
      to_string fmt val = "#-" ++ toString ⌈((val + INT_MAX : Int) : ℚ) / 2⌉ ∧
      wrap32 (val + INT_MAX) = val + INT_MAX ∧
      wrap32 (val + INT_MAX + 1) = val + INT_MAX + 1) := by
  have c1 : wrap32 (INT_MAX - 256) = INT_MAX - 256 := by decide
  have c2 : wrap32 (-INT_MAX + 256) = -INT_MAX + 256 := by decide
  constructor
  · intro h
    have hI : INT_MAX = 2147483647 := rfl
    have w1 : wrap32 (INT_MAX - val) = INT_MAX - val := wrap32_id (by omega) (by omega)
    have w2 : wrap32 (INT_MAX - val + 1) = INT_MAX - val + 1 := wrap32_id (by omega) (by omega)
    refine ⟨?_, w1, w2⟩
    unfold to_string
    rw [c1, if_pos h, w1, w2, ceil_half]
    congr 2
    rw [Int.tdiv_eq_ediv (by omega) (by decide)]
  · intro h
    have hI : INT_MAX = 2147483647 := rfl
    have w1 : wrap32 (val + INT_MAX) = val + INT_MAX := wrap32_id (by omega) (by omega)
    have w2 : wrap32 (val + INT_MAX + 1) = val + INT_MAX + 1 := wrap32_id (by omega) (by omega)
    refine ⟨?_, w1, w2⟩
    unfold to_string
    rw [c1, c2, if_neg (by omega), if_pos h, w1, w2, ceil_half]
    congr 2
    rw [Int.tdiv_eq_ediv (by omega) (by decide)]

/-- C19 at the score of a mate in three plies, with a formatting of the centipawn scores
that prints nothing. -/
theorem mate_score_string_witness :
    to_string (fun _ => "") (INT_MAX - 3) =
      "#" ++ toString ⌈((INT_MAX - (INT_MAX - 3) : Int) : ℚ) / 2⌉ :=
  ((mate_score_string (fun _ => "") (INT_MAX - 3) (by decide) (by decide)).1 (by decide)).1

/-- C18. Terminal scores: at a node of `timed_negamax_search` that is not cut short by the
repetition test, by the transposition table or by the deadline, if the side to move has no
legal move (`any_moves` is false) the function returns `-INT_MAX + appended_moves` when that
side is in check and 0 when it is not.  The table does not cut the node short when no entry
matches, when the matching entry is too shallow, or when it is a bound that leaves the
window open (`alpha < beta` after the update); the terminal score does not depend on the
window. -/
theorem terminal_scores (board : chessboard) (depth alpha beta : Int) (has_move : Bool)
    (entry : transposition_entry) (time_up : Bool)
    (hrep : ¬ board.previous_states (board.hash % 2 ^ 22) + 1 ≥ 3)
    (htt : (!has_move && entry.type != 0 && entry.hash == board.hash) = true →
      entry.depth ≥ depth →
      entry.type ≠ transposition_exact ∧
      (if entry.type = transposition_lower then max alpha entry.value else alpha) <
        (if entry.type = transposition_upper then min beta entry.value else beta))
    (htime : (decide (depth ≥ 2) && time_up) = false)
    (hnone : (any_moves board board.side_to_move).1 = false) :
    search_head board depth alpha beta has_move entry time_up =
      search_exit.returned
        (if in_check board board.side_to_move = true then
          wrap32 (-INT_MAX + (any_moves board board.side_to_move).2.board.appended_moves)
        else 0) := by
  unfold search_head
  simp only [if_neg hrep]
  by_cases h1 : (!has_move && entry.type != 0 && entry.hash == board.hash) = true
  · by_cases h2 : entry.depth ≥ depth
    · obtain ⟨h3, h4⟩ := htt h1 h2
      simp only [h1, if_true, if_pos h2, if_neg h3, if_neg (not_le.2 h4), htime,
        Bool.false_eq_true, if_false, hnone, Bool.not_false]
    · simp only [h1, if_true, if_neg h2, htime, Bool.false_eq_true, if_false, hnone,
        Bool.not_false]
  · simp only [if_neg h1, htime, Bool.false_eq_true, if_false, hnone, Bool.not_false, if_true]

set_option maxRecDepth 1000000 in
/-- C18 on a checkmate: the king of side 1 on e1, the queen of side 0 on e2 guarded by its king
on e3; the table holds a matching entry, a lower bound 0 of depth 5, which raises `alpha`
and leaves the window open. -/
theorem terminal_scores_witness :
    (any_moves (board_of codes_mated) 1).1 = false ∧
    search_head (board_of codes_mated) 1 (-INT_MAX) INT_MAX false
        ⟨(board_of codes_mated).hash, 0, 5, transposition_lower⟩ false =
      search_exit.returned
        (if in_check (board_of codes_mated) (board_of codes_mated).side_to_move = true then
          wrap32 (-INT_MAX +
            (any_moves (board_of codes_mated) (board_of codes_mated).side_to_move).2.board.appended_moves)
        else 0) :=
  ⟨by decide!,
   terminal_scores (board_of codes_mated) 1 (-INT_MAX) INT_MAX false
    ⟨(board_of codes_mated).hash, 0, 5, transposition_lower⟩ false
    (by rw [board_of_prev]; decide) (fun _ _ => by decide) (by decide) (by decide!)⟩

/-! ## The evaluator -/

theorem ck_some {x : Int} (h1 : -2 ^ 31 ≤ x) (h2 : x ≤ 2 ^ 31 - 1) : ck x = some x := by
  unfold ck; rw [if_pos ⟨h1, h2⟩]

theorem ck_bind {x : Int} (h1 : -2 ^ 31 ≤ x) (h2 : x ≤ 2 ^ 31 - 1) (f : Int → Option Int) :
    (ck x).bind f = f x := by
  rw [ck_some h1 h2, Option.some_bind]

theorem cond_ck_bind (c : Prop) [Decidable c] {s : Int} (h1 : -2 ^ 30 ≤ s) (h2 : s ≤ 2 ^ 30)
    (f : Int → Option Int) :
    (if c then (ck (s - 20)).bind f else (some s).bind f) = f (s - if c then 20 else 0) := by
  split_ifs
  · exact ck_bind (by omega) (by omega) f
  · rw [Option.some_bind, sub_zero]

theorem exists_diff (E score : Int) (h1 : -1000 ≤ E - score) (h2 : E - score ≤ 1000) :
    ∃ d : Int, some E = some (score + d) ∧ -1000 ≤ d ∧ d ≤ 1000 :=
  ⟨E - score, by rw [add_sub_cancel], h1, h2⟩

theorem four_sq_spec {t : Int} (h1 : -8 ≤ t) (h2 : t ≤ 8) :
    four_sq t = some (4 * t * t) ∧ 0 ≤ 4 * t * t ∧ 4 * t * t ≤ 256 := by
  have hb : 0 ≤ 4 * t * t ∧ 4 * t * t ≤ 256 := by
    have q1 := mul_self_nonneg t
    have q2 := mul_nonneg (sub_nonneg.2 h2) (by linarith : (0 : Int) ≤ t + 8)
    constructor <;> nlinarith
  refine ⟨?_, hb⟩
  unfold four_sq
  rw [Option.bind_eq_bind, ck_bind (by omega) (by omega)]
  exact ck_some (by omega) (by omega)

theorem popcnt64_le (v : Nat) : popcnt64 v ≤ 64 := by
  unfold popcnt64 set_bits
  exact (List.length_filter_le _ _).trans (by simp)

theorem king_table_bound (k : Nat) : -65 ≤ king_table.getD k 0 ∧ king_table.getD k 0 ≤ 36 := by
  by_cases h : k < 64
  · revert k; decide
  · rw [List.getD_eq_default _ _ (by simpa [king_table] using h)]; omega

/-- What one round of `eval_pieces` does to a score that is not huge: it adds an amount
between -1000 and 1000, and no step overflows. -/
theorem piece_step_spec (b : chessboard) (side type : Nat) {s : Int} {ind : Nat}
    (hi : ind < 64) (h1 : -100000 ≤ s) (h2 : s ≤ 100000) :
    ∃ d : Int, piece_step b side type s ind = some (s + d) ∧ -1000 ≤ d ∧ d ≤ 1000 := by
  unfold piece_step
  simp only [Option.bind_eq_bind]
  by_cases hp : type = pawn
  · rw [if_pos hp]
    have hx : ind % 8 < 8 := Nat.mod_lt _ (by decide)
    have hy : ind / 8 < 8 := by omega
    have hy1 : (if side ≠ 0 then (ind / 8) ^^^ 7 else ind / 8) < 8 := by
      split_ifs
      · exact Nat.xor_lt_two_pow (n := 3) hy (by decide)
      · exact hy
    obtain ⟨e1, m0, m1⟩ := four_sq_spec
      (t := (((if side ≠ 0 then (ind / 8) ^^^ 7 else ind / 8 : Nat) : Int) - 1)) (by omega) (by omega)
    obtain ⟨e2, n0, n1⟩ := four_sq_spec (t := (((ind % 8 : Nat) : Int) - 4)) (by omega) (by omega)
    rw [ck_bind (by omega) (by omega), cond_ck_bind _ (by omega) (by omega)]
    generalize hc1 : (if ((ind % 8 == 0 || shl64 file_A (ind % 8 - 1) &&& b.side_sets side == 0) &&
      (ind % 8 == 7 || shl64 file_A (ind % 8 + 1) &&& b.side_sets side == 0)) = true
        then (20 : Int) else 0) = i1
    have hi1 : 0 ≤ i1 ∧ i1 ≤ 20 := by rw [← hc1]; split_ifs <;> omega
    rw [cond_ck_bind _ (by omega) (by omega)]
    generalize hc2 : (if (b.side_sets side &&& (if side = 0 then ind <<< 8 else ind >>> 8) != 0) = true
        then (20 : Int) else 0) = i2
    have hi2 : 0 ≤ i2 ∧ i2 ≤ 20 := by rw [← hc2]; split_ifs <;> omega
    rw [e1, Option.some_bind, ck_bind (by omega) (by omega), e2, Option.some_bind,
      ck_some (by omega) (by omega)]
    apply exists_diff <;> omega
  rw [if_neg hp]
  by_cases hq : type = queen
  · rw [if_pos hq]
    exact ⟨1000, ck_some (by omega) (by omega), by omega, by omega⟩
  rw [if_neg hq]
  by_cases hb : type = bishop
  · rw [if_pos hb]
    have p0 := popcnt64_le
      (bishop_reach ind 0 (b.side_sets 0 ||| b.side_sets 1) (b.side_sets (side ^^^ 1)))
    have p1 := popcnt64_le
      (bishop_reach ind 1 (b.side_sets 0 ||| b.side_sets 1) (b.side_sets (side ^^^ 1)))
    rw [ck_bind (by omega) (by omega), ck_bind (by omega) (by omega),
      ck_some (by omega) (by omega)]
    apply exists_diff <;> omega
  rw [if_neg hb]
  by_cases hn : type = knight
  · rw [if_pos hn]
    have p0 := popcnt64_le (capture_masks ind knight &&& not64 (b.side_sets side))
    rw [ck_bind (by omega) (by omega), ck_some (by omega) (by omega)]
    apply exists_diff <;> omega
  rw [if_neg hn]
  by_cases hr : type = rook
  · rw [if_pos hr, ck_bind (by omega) (by omega)]
    split_ifs with c1 c2
    · rw [ck_some (by omega) (by omega)]
      apply exists_diff <;> omega
    · rw [ck_some (by omega) (by omega)]
      apply exists_diff <;> omega
    · apply exists_diff <;> omega
  rw [if_neg hr]
  by_cases hk : type = king
  · rw [if_pos hk]
    have hk := king_table_bound (ind ^^^ ((1 - side) * 56))
    exact ⟨_, ck_some (by omega) (by omega), by omega, by omega⟩
  rw [if_neg hk]
  exact ⟨0, by rw [add_zero], by omega, by omega⟩

theorem eval_loop_spec (b : chessboard) (side type : Nat) :
    ∀ (l : List Nat) (n : Nat) (score : Int), (∀ i ∈ l, i < 64) → n + l.length ≤ 64 →
      -1000 * (n : Int) ≤ score → score ≤ 1000 * (n : Int) →
      ∃ r : Int, eval_loop b side type l score = some r ∧ -64000 ≤ r ∧ r ≤ 64000 := by
  intro l
  induction l with
  | nil =>
    intro n score _ hn h1 h2
    simp only [List.length_nil] at hn
    exact ⟨score, rfl, by omega, by omega⟩
  | cons ind rest ih =>
    intro n score hm hn h1 h2
    simp only [List.length_cons] at hn
    obtain ⟨d, hd, d1, d2⟩ := piece_step_spec b side type (s := score)
      (hm ind (List.mem_cons_self _ _)) (by omega) (by omega)
    obtain ⟨r, hr, r1, r2⟩ := ih (n + 1) (score + d)
      (fun i hi => hm i (List.mem_cons_of_mem _ hi)) (by omega) (by push_cast; omega)
      (by push_cast; omega)
    refine ⟨r, ?_, r1, r2⟩
    unfold eval_loop
    rw [hd]
    exact hr

theorem eval_pieces_spec (b : chessboard) (side type : Nat) :
    ∃ r : Int, eval_pieces b side type = some r ∧ -64000 ≤ r ∧ r ≤ 64000 := by
  unfold eval_pieces
  refine eval_loop_spec b side type _ 0 0 (fun i hi => (mem_set_bits.1 hi).1) ?_ (by simp) (by simp)
  unfold set_bits
  have := List.length_filter_le
    (fun i => (b.piece_sets type &&& b.side_sets side).testBit i) (List.range 64)
  simp only [List.length_range] at this
  omega

/-- The value of `proper` in terms of the twelve totals. -/
theorem proper_spec (b : chessboard) (side : Int) (hs : side = 0 ∨ side = 1) :
    ∃ e : Nat → Nat → Int,
      (∀ s t, eval_pieces b s t = some (e s t) ∧ -64000 ≤ e s t ∧ e s t ≤ 64000) ∧
      proper b side = some ((side * 2 - 1) *
        (e 1 pawn - e 0 pawn + e 1 king - e 0 king + e 1 rook - e 0 rook +
         e 1 knight - e 0 knight + e 1 bishop - e 0 bishop + e 1 queen - e 0 queen)) := by
  choose e he using fun s t => eval_pieces_spec b s t
  refine ⟨e, he, ?_⟩
  have a1 := he 1 pawn
  have a0 := he 0 pawn
  have b1 := he 1 king
  have b0 := he 0 king
  have c1 := he 1 rook
  have c0 := he 0 rook
  have d1 := he 1 knight
  have d0 := he 0 knight
  have f1 := he 1 bishop
  have f0 := he 0 bishop
  have g1 := he 1 queen
  have g0 := he 0 queen
  have hadd : ∀ x y : Int, -1000000 ≤ x + y → x + y ≤ 1000000 →
      add_int (some x) (some y) = some (x + y) := fun x y h1 h2 => by
    simp only [add_int, Option.some_bind]; exact ck_some (by omega) (by omega)
  have hsub : ∀ x y : Int, -1000000 ≤ x - y → x - y ≤ 1000000 →
      sub_int (some x) (some y) = some (x - y) := fun x y h1 h2 => by
    simp only [sub_int, Option.some_bind]; exact ck_some (by omega) (by omega)
  unfold proper
  rw [a1.1, a0.1, b1.1, b0.1, c1.1, c0.1, d1.1, d0.1, f1.1, f0.1, g1.1, g0.1]
  rw [hsub _ _ (by omega) (by omega), hadd _ _ (by omega) (by omega),
    hsub _ _ (by omega) (by omega), hadd _ _ (by omega) (by omega),
    hsub _ _ (by omega) (by omega), hadd _ _ (by omega) (by omega),
    hsub _ _ (by omega) (by omega), hadd _ _ (by omega) (by omega),
    hsub _ _ (by omega) (by omega), hadd _ _ (by omega) (by omega),
    hsub _ _ (by omega) (by omega)]
  rcases hs with hs | hs <;> subst hs <;>
    simp only [mul_int, sub_int, Option.some_bind] <;>
    rw [ck_some (by omega) (by omega)] <;> simp only [Option.some_bind] <;>
    rw [ck_some (by omega) (by omega)] <;> simp only [Option.some_bind] <;>
    exact ck_some (by omega) (by omega)

/-- C20. Evaluator perspective: for every board, `proper(board, 0)` is the negation of
`proper(board, 1)`, and the value for a side is the sum over the six piece kinds of that
side's `eval_pieces` total minus the opponent's total of the kind; every total and both
values are computed without overflow. -/
theorem evaluator_perspective (b : chessboard) :
    ∃ e : Nat → Nat → Int,
      (∀ s t, eval_pieces b s t = some (e s t)) ∧
      proper b 1 = some ((e 1 pawn - e 0 pawn) + (e 1 king - e 0 king) + (e 1 rook - e 0 rook) +
        (e 1 knight - e 0 knight) + (e 1 bishop - e 0 bishop) + (e 1 queen - e 0 queen)) ∧
      proper b 0 = some ((e 0 pawn - e 1 pawn) + (e 0 king - e 1 king) + (e 0 rook - e 1 rook) +
        (e 0 knight - e 1 knight) + (e 0 bishop - e 1 bishop) + (e 0 queen - e 1 queen)) ∧
      ∃ v : Int, proper b 1 = some v ∧ proper b 0 = some (-v) := by
  obtain ⟨e, he, h1⟩ := proper_spec b 1 (Or.inr rfl)
  obtain ⟨e0, he0, h0⟩ := proper_spec b 0 (Or.inl rfl)
  have hee : ∀ s t, e0 s t = e s t := fun s t =>
    Option.some.inj ((he0 s t).1.symm.trans (he s t).1)
  simp only [hee] at h0
  refine ⟨e, fun s t => (he s t).1, ?_, ?_, _, h1, ?_⟩
  · rw [h1]; congr 1; ring
  · rw [h0]; congr 1; ring
  · rw [h0]; congr 1; ring

/-- C21. The evaluator stays out of the mate bands: for every board, whatever its masks
hold, and either side, `proper` computes its value with no overflow in any of the `int`
operations on the way, and the value lies strictly between `-INT_MAX + 256` and
`INT_MAX - 256`. -/
theorem evaluator_in_range (b : chessboard) (side : Int) (hs : side = 0 ∨ side = 1) :
    (∀ s t, ∃ r : Int, eval_pieces b s t = some r) ∧
    ∃ v : Int, proper b side = some v ∧ -INT_MAX + 256 < v ∧ v < INT_MAX - 256 := by
  obtain ⟨e, he, h⟩ := proper_spec b side hs
  refine ⟨fun s t => ⟨_, (he s t).1⟩, _, h, ?_⟩
  have a1 := he 1 pawn
  have a0 := he 0 pawn
  have b1 := he 1 king
  have b0 := he 0 king
  have c1 := he 1 rook
  have c0 := he 0 rook
  have d1 := he 1 knight
  have d0 := he 0 knight
  have f1 := he 1 bishop
  have f0 := he 0 bishop
  have g1 := he 1 queen
  have g0 := he 0 queen
  have hI : INT_MAX = 2147483647 := rfl
  rcases hs with hs | hs <;> subst hs <;> constructor <;> omega

/-- C21 on the standard initial position, for side 1. -/
theorem evaluator_in_range_witness :
    ((1 : Int) = 0 ∨ (1 : Int) = 1) ∧
    ∃ v : Int, proper standard_board 1 = some v ∧ -INT_MAX + 256 < v ∧ v < INT_MAX - 256 :=
  ⟨Or.inr rfl, (evaluator_in_range standard_board 1 (Or.inr rfl)).2⟩

set_option maxRecDepth 1000000 in
/-- C30. In the standard initial position the rook of side 0 on a8, with a pawn of its own
side on a7 in front of it, is counted as 470 + 30; and the rook of side 1 on h1 of a board
with no pawn at all is counted as 470, with no bonus. -/
theorem rook_bonus_with_own_pawn :
    standard_board.pieces 0 = rook ∧ standard_board.pieces 8 = pawn ∧
    piece_step standard_board 0 rook 0 0 = some (470 + 30) ∧
    (board_of codes_rook_h1).pieces 63 = rook + 8 * 1 ∧
    (board_of codes_rook_h1).piece_sets pawn = 0 ∧
    piece_step (board_of codes_rook_h1) 1 rook 0 63 = some 470 := by
  decide!

/-! ## The attack test and the purity of the generator -/

theorem and_and_eq_zero (X cb target : Nat) (h : cb &&& target = 0) : X &&& cb &&& target = 0 := by
  rw [Nat.and_assoc, h, Nat.and_zero]

/-- The pawn test of `any_pseudo_captures` with its en-passant term is the plain test. -/
theorem pawn_test_plain (c : Bool) (X cb target : Nat) :
    ((cb &&& target != 0) || (c && (X &&& cb &&& target != 0))) = (cb &&& target != 0) := by
  by_cases h : cb &&& target = 0
  · rw [and_and_eq_zero X cb target h, h]; simp
  · have : (cb &&& target != 0) = true := by simpa using h
    rw [this, Bool.true_or]

theorem any_pseudo_captures_eq (b : chessboard) (side target : Nat) :
    any_pseudo_captures b side target =
      ((set_bits (b.piece_sets pawn &&& b.side_sets side)).any
          (fun ind => capture_base side ind &&& target != 0)
        ||
        (set_bits ((b.piece_sets knight ||| b.piece_sets king) &&& b.side_sets side)).any
          (fun ind => capture_masks ind (b.pieces ind &&& type_mask) &&& target != 0)
        ||
        [bishop, rook, queen].any (fun type =>
          (set_bits (b.piece_sets type &&& b.side_sets side)).any (fun ind =>
            (List.range' (if type = rook then 2 else 0)
                ((if type = bishop then 2 else 4) - (if type = rook then 2 else 0))).any
              (fun i =>
                ((masks_fw ind i).last &&& (b.side_sets 0 ||| b.side_sets 1) &&&
                    neg64 ((masks_fw ind i).last &&& (b.side_sets 0 ||| b.side_sets 1)) &&&
                    target != 0) ||
                ((masks_rev ind i).last &&& (b.side_sets 0 ||| b.side_sets 1) != 0 &&
                  (shl64 1 (bsr ((masks_rev ind i).last &&& (b.side_sets 0 ||| b.side_sets 1)))
                    &&& target != 0)))))) := by
  unfold any_pseudo_captures
  simp only [pawn_test_plain]

/-- C33. The attack test ignores the move history: two boards that agree on `pieces`,
`side_sets` and `piece_sets` give the same result of `any_pseudo_captures` for every side and
target, whatever their move stacks hold; and on any board the result is the one obtained
with an empty move stack, for which the en-passant branch is off, so that branch never turns
a false result into true. -/
theorem attack_test_ignores_history (b b2 : chessboard) (side target : Nat)
    (hp : b.pieces = b2.pieces) (hs : b.side_sets = b2.side_sets)
    (ht : b.piece_sets = b2.piece_sets) :
    any_pseudo_captures b side target = any_pseudo_captures b2 side target ∧
    any_pseudo_captures b side target =
      any_pseudo_captures { b with move_stack := [] } side target := by
  constructor
  · rw [any_pseudo_captures_eq, any_pseudo_captures_eq, hp, hs, ht]
  · rw [any_pseudo_captures_eq, any_pseudo_captures_eq]

/-- C33 on the standard initial position and the same placement with the record of a
two-square advance of the e-pawn of side 0 on the move stack. -/
theorem attack_test_ignores_history_witness :
    any_pseudo_captures standard_board 1 (2 ^ 64 - 1) =
      any_pseudo_captures
        { standard_board with move_stack := [{ org_x := 4, org_y := 1, dest_x := 4, dest_y := 3 }] }
        1 (2 ^ 64 - 1) :=
  (attack_test_ignores_history standard_board
    { standard_board with move_stack := [{ org_x := 4, org_y := 1, dest_x := 4, dest_y := 3 }] }
    1 (2 ^ 64 - 1) rfl rfl rfl).1

/-- C34. Move generation is observationally pure: on every position reachable from the
standard initial position by generated moves, for each side, mask, caller's array and
combination of the options, the board that `generate_moves` leaves behind, and so the one
`any_moves` leaves behind, equals the board before the call in every field; `in_check` and
`any_pseudo_captures` assign to no field at all, which is why they are functions to `Bool`
here. -/
theorem generation_pure (b : chessboard) (side : Nat) (M0 : Nat → Nat)
    (pseudo exit_on_legal : Bool) (mask : Nat) (hr : Reachable b) (hs : side < 2) :
    (generate_moves b side M0 pseudo exit_on_legal mask).2.board = b ∧
    (any_moves b side).2.board = b :=
  ⟨(generate_moves_spec hr.wf hs M0 pseudo exit_on_legal mask).1,
   (generate_moves_spec hr.wf hs (fun _ => 0) false true (2 ^ 64 - 1)).1⟩

/-- C34 on the standard initial position, for side 1 in legal mode. -/
theorem generation_pure_witness :
    (generate_moves standard_board 1 (fun _ => 0) false false (2 ^ 64 - 1)).2.board =
      standard_board ∧
    (any_moves standard_board 1).2.board = standard_board :=
  generation_pure standard_board 1 (fun _ => 0) false false (2 ^ 64 - 1) Reachable.start
    (by decide)

set_option maxRecDepth 1000000 in
/-- After e2-e3 a7-a6 Ke1-e2 h7-h6 Ke2-d3 h6-h5 Kd3-d4 d7-d5 the pawn of side 1 stands on e3
and the king of side 1 on d4. -/
theorem hunt_pieces :
    (make_move_sq (make_move_sq (make_move_sq (make_move_sq (make_move_sq (make_move_sq (make_move_sq (make_move_sq standard_board 52 44) 8 16) 60 52) 15 23) 52 43) 23 31) 43 35) 11 27).pieces 44 = pawn + 8 * 1 ∧
    (make_move_sq (make_move_sq (make_move_sq (make_move_sq (make_move_sq (make_move_sq (make_move_sq (make_move_sq standard_board 52 44) 8 16) 60 52) 15 23) 52 43) 23 31) 43 35) 11 27).pieces 35 = king + 8 * 1 := by
  decide!

/-- C32, evaluated: after e2-e3 a7-a6 Ke1-e2 h7-h6 Ke2-d3 h6-h5 Kd3-d4 d7-d5, each move
yielded by `generate_moves` in legal mode for the side to move, the destination set that
`generate_moves` produces in legal mode for the pawn of side 1 on e3 contains d4, the square
on which the king of side 1 stands. -/
theorem destination_on_own_king :
    (play_legal standard_board
      [(52, 44), (8, 16), (60, 52), (15, 23), (52, 43), (23, 31), (43, 35), (11, 27)]).map
      (fun b => (generated b 1 false 44 35, b.pieces 44, b.pieces 35)) =
      some (true, pawn + 8 * 1, king + 8 * 1) := by
  rw [play_legal_cons hunt_1, play_legal_cons hunt_2, play_legal_cons hunt_3,
    play_legal_cons hunt_4, play_legal_cons hunt_5, play_legal_cons hunt_6,
    play_legal_cons hunt_7, play_legal_cons hunt_8]
  simp only [play_legal, Option.map_some']
  have h9 := hunt_9
  unfold yields at h9
  rw [show (make_move_sq (make_move_sq (make_move_sq (make_move_sq (make_move_sq (make_move_sq (make_move_sq (make_move_sq standard_board 52 44) 8 16) 60 52) 15 23) 52 43) 23 31) 43 35) 11 27).side_to_move = 1 from by decide!] at h9
  rw [h9, hunt_pieces.1, hunt_pieces.2]

/-! ## The lookup masks -/

set_option maxRecDepth 1000000 in
/-- C27. Knight and king lookup masks: for every square `I = x + 8y`, a square `d` of the
board is in `capture_masks[I][knight]` exactly if its file and rank differ from those of `I`
by 1 and 2 or by 2 and 1, and in `capture_masks[I][king]` exactly if the larger of the two
differences is 1; neither mask has a bit beyond the 64 squares. -/
theorem lookup_masks_exact :
    ∀ I : Fin 64, capture_masks I knight < 2 ^ 64 ∧ capture_masks I king < 2 ^ 64 ∧
      ∀ d : Fin 64,
        ((capture_masks I knight).testBit d = true ↔
          (Int.natAbs ((d % 8 : Nat) - (I % 8 : Nat) : Int) = 1 ∧
            Int.natAbs ((d / 8 : Nat) - (I / 8 : Nat) : Int) = 2) ∨
          (Int.natAbs ((d % 8 : Nat) - (I % 8 : Nat) : Int) = 2 ∧
            Int.natAbs ((d / 8 : Nat) - (I / 8 : Nat) : Int) = 1)) ∧
        ((capture_masks I king).testBit d = true ↔
          max (Int.natAbs ((d % 8 : Nat) - (I % 8 : Nat) : Int))
            (Int.natAbs ((d / 8 : Nat) - (I / 8 : Nat) : Int)) = 1) := by
  decide!

/-! ## The insertion sort -/

theorem rated_at_cons_succ (a : rated_move) (l : List rated_move) (n : Nat) :
    rated_at (a :: l) (n + 1) = rated_at l n := by
  simp [rated_at]

theorem rated_at_prefix (p : List rated_move) (y : rated_move) (t : List rated_move) :
    rated_at (p ++ y :: t) p.length = y := by
  induction p with
  | nil => simp [rated_at]
  | cons a p ih => rw [List.cons_append, List.length_cons, rated_at_cons_succ, ih]

theorem rated_at_prefix_succ (p : List rated_move) (y x : rated_move) (t : List rated_move) :
    rated_at (p ++ y :: x :: t) (p.length + 1) = x := by
  induction p with
  | nil => simp [rated_at]
  | cons a p ih => rw [List.cons_append, List.length_cons, rated_at_cons_succ, ih]

theorem swap_down_cons (a : rated_move) (l : List rated_move) (n : Nat) :
    swap_down (a :: l) (n + 1) = a :: swap_down l n := by
  simp [swap_down, rated_at_cons_succ]

theorem swap_down_prefix (p : List rated_move) (y x : rated_move) (t : List rated_move) :
    swap_down (p ++ y :: x :: t) p.length = p ++ x :: y :: t := by
  induction p with
  | nil => simp [swap_down, rated_at]
  | cons a p ih => rw [List.cons_append, List.length_cons, swap_down_cons, ih, List.cons_append]

theorem sift_down_spec (x : rated_move) :
    ∀ (r s : List rated_move),
      sift_down r.length (r.reverse ++ x :: s) = (ins_rev x r).reverse ++ s := by
  intro r
  induction r with
  | nil => intro s; simp [sift_down, ins_rev]
  | cons y r ih =>
    intro s
    have hl : r.length = r.reverse.length := (List.length_reverse r).symm
    have e : (y :: r).reverse ++ x :: s = r.reverse ++ y :: x :: s := by
      rw [List.reverse_cons, List.append_assoc]; rfl
    rw [e, List.length_cons]
    unfold sift_down
    have a1 : rated_at (r.reverse ++ y :: x :: s) r.length = y := by
      rw [hl]; exact rated_at_prefix _ _ _
    have a2 : rated_at (r.reverse ++ y :: x :: s) (r.length + 1) = x := by
      rw [hl]; exact rated_at_prefix_succ _ _ _ _
    rw [a1, a2]
    unfold ins_rev
    split_ifs with h
    · have a3 : swap_down (r.reverse ++ y :: x :: s) r.length = r.reverse ++ x :: y :: s := by
        rw [hl]; exact swap_down_prefix _ _ _ _
      rw [a3, ih (y :: s), List.reverse_cons, List.append_assoc]; rfl
    · rw [List.reverse_cons, List.reverse_cons, List.append_assoc, List.append_assoc]; rfl

theorem ins_rev_length (x : rated_move) (r : List rated_move) :
    (ins_rev x r).length = r.length + 1 := by
  induction r with
  | nil => rfl
  | cons y r ih => unfold ins_rev; split_ifs <;> simp [ih]

theorem sort_loop_spec :
    ∀ (s r : List rated_move),
      (List.range' r.length s.length).foldl (fun l i => sift_down i l) (r.reverse ++ s) =
        (s.foldl (fun R x => ins_rev x R) r).reverse := by
  intro s
  induction s with
  | nil => intro r; simp
  | cons x s ih =>
    intro r
    rw [List.length_cons, List.range'_succ, List.foldl_cons, List.foldl_cons, sift_down_spec]
    have := ih (ins_rev x r)
    rw [ins_rev_length] at this
    exact this

theorem insertion_sort_eq (moves : List rated_move) :
    insertion_sort moves = (moves.foldl (fun R x => ins_rev x R) []).reverse := by
  unfold insertion_sort
  cases moves with
  | nil => rfl
  | cons x s =>
    have := sort_loop_spec s [x]
    simpa [ins_rev] using this

theorem ins_rev_perm (x : rated_move) (r : List rated_move) : (ins_rev x r).Perm (x :: r) := by
  induction r with
  | nil => exact List.Perm.refl _
  | cons y r ih =>
    unfold ins_rev
    split_ifs
    · exact (List.Perm.cons y ih).trans (List.Perm.swap x y r)
    · exact List.Perm.refl _

theorem ins_rev_sorted (x : rated_move) (r : List rated_move)
    (h : r.Pairwise (fun a b => a.value ≤ b.value)) :
    (ins_rev x r).Pairwise (fun a b => a.value ≤ b.value) := by
  induction r with
  | nil => simp [ins_rev]
  | cons y r ih =>
    rw [List.pairwise_cons] at h
    unfold ins_rev
    split_ifs with hlt
    · rw [List.pairwise_cons]
      refine ⟨fun a ha => ?_, ih h.2⟩
      rcases (List.mem_cons.1 ((ins_rev_perm x r).subset ha)) with e | e
      · rw [e]; omega
      · exact h.1 a e
    · rw [List.pairwise_cons]
      refine ⟨fun a ha => ?_, List.pairwise_cons.2 h⟩
      rcases List.mem_cons.1 ha with e | e
      · rw [e]; omega
      · have := h.1 a e; omega

theorem ins_rev_filter (v : Int) (x : rated_move) (r : List rated_move) :
    (ins_rev x r).filter (fun m => decide (m.value = v)) =
      (x :: r).filter (fun m => decide (m.value = v)) := by
  induction r with
  | nil => rfl
  | cons y r ih =>
    unfold ins_rev
    split_ifs with hlt
    · rw [List.filter_cons, ih]
      by_cases hy : y.value = v
      · have hx : ¬ x.value = v := by omega
        simp [List.filter_cons, hy, hx]
      · simp [List.filter_cons, hy]
    · rfl

theorem fold_ins_perm (s : List rated_move) :
    ∀ r, (s.foldl (fun R x => ins_rev x R) r).Perm (s.reverse ++ r) := by
  induction s with
  | nil => intro r; simp
  | cons x s ih =>
    intro r
    rw [List.foldl_cons, List.reverse_cons, List.append_assoc]
    exact (ih _).trans (List.Perm.append_left _ (ins_rev_perm x r))

theorem fold_ins_sorted (s : List rated_move) :
    ∀ r, r.Pairwise (fun a b => a.value ≤ b.value) →
      (s.foldl (fun R x => ins_rev x R) r).Pairwise (fun a b => a.value ≤ b.value) := by
  induction s with
  | nil => intro r h; exact h
  | cons x s ih => intro r h; exact ih _ (ins_rev_sorted x r h)

theorem fold_ins_filter (v : Int) (s : List rated_move) :
    ∀ r, (s.foldl (fun R x => ins_rev x R) r).filter (fun m => decide (m.value = v)) =
      (s.reverse ++ r).filter (fun m => decide (m.value = v)) := by
  induction s with
  | nil => intro r; simp
  | cons x s ih =>
    intro r
    rw [List.foldl_cons, ih, List.reverse_cons, List.append_assoc, List.filter_append,
      List.filter_append, ins_rev_filter]
    rfl

/-- C31. The move ordering sort: for every list of rated moves the insertion sort of
`timed_negamax_search` produces a permutation of the list, the values of the result are in
non-increasing order, and for each value the moves of that value appear in the result in the
order in which they appear in the input. -/
theorem insertion_sort_spec (moves : List rated_move) :
    (insertion_sort moves).Perm moves ∧
    (insertion_sort moves).Pairwise (fun a b => a.value ≥ b.value) ∧
    ∀ v : Int, (insertion_sort moves).filter (fun m => decide (m.value = v)) =
      moves.filter (fun m => decide (m.value = v)) := by
  rw [insertion_sort_eq]
  refine ⟨?_, ?_, fun v => ?_⟩
  · have := fold_ins_perm moves []
    rw [List.append_nil] at this
    exact (List.reverse_perm _).trans (this.trans (List.reverse_perm _))
  · rw [List.pairwise_reverse]
    exact fold_ins_sorted moves [] List.Pairwise.nil
  · rw [List.filter_reverse, fold_ins_filter, List.append_nil, List.filter_reverse,
      List.reverse_reverse]

/-! ## The destination mask -/

theorem legalize_loop_sub (side : Nat) (ox oy : Int) (mask : Nat) :
    ∀ (l : List Nat) (acc : Nat) (b : chessboard),
      (∀ ind ∈ l, ind < 64 ∧ mask.testBit ind = true) →
      (∀ j, acc.testBit j = true → mask.testBit j = true) →
      ∀ j, (legalize_loop side ox oy l acc b).1.testBit j = true → mask.testBit j = true := by
  intro l
  induction l with
  | nil => intro acc b _ ha j hj; exact ha j hj
  | cons x xs ih =>
    intro acc b hl ha
    simp only [legalize_loop]
    apply ih _ _ (fun ind hi => hl ind (List.mem_cons_of_mem _ hi))
    intro j hj
    split_ifs at hj
    · rw [Nat.testBit_or, Bool.or_eq_true] at hj
      rcases hj with hj | hj
      · exact ha j hj
      · have hx := hl x (List.mem_cons_self _ _)
        rw [testBit_shl64_one hx.1] at hj
        have : j = x := by simpa using hj
        rw [this]; exact hx.2
    · exact ha j hj

theorem legalize_sub (b : chessboard) (side i m mask : Nat) :
    ∀ j, (legalize b side i (m &&& mask)).1.testBit j = true → mask.testBit j = true := by
  unfold legalize
  apply legalize_loop_sub
  · intro ind hi
    have := mem_set_bits.1 hi
    rw [Nat.testBit_and, Bool.and_eq_true] at this
    exact ⟨this.1, this.2.2⟩
  · intro j hj; simp at hj

theorem legalize_step_masked (exit_on_legal : Bool) (side mask ind : Nat) (st : gen_state) :
    (∀ o, o ≠ ind →
      (legalize_step false exit_on_legal side mask ind st).2.matrices o = st.matrices o) ∧
    ∀ j, ((legalize_step false exit_on_legal side mask ind st).2.matrices ind).testBit j = true →
      mask.testBit j = true := by
  unfold legalize_step
  simp only [Bool.false_eq_true, if_false]
  refine ⟨fun o ho => setAt_other _ _ ho, ?_⟩
  intro j hj
  rw [setAt_same] at hj
  exact legalize_sub _ _ _ _ _ j hj

theorem Masked.of_round {M0 : Nat → Nat} {mask ind : Nat} {st r : gen_state}
    (h : Masked M0 mask st) (h1 : ∀ o, o ≠ ind → r.matrices o = st.matrices o)
    (h2 : ∀ j, (r.matrices ind).testBit j = true → mask.testBit j = true) : Masked M0 mask r := by
  intro o
  by_cases ho : o = ind
  · rw [ho]; exact Or.inr h2
  · rw [h1 o ho]; exact h o

theorem pawn_loop_masked (last : chessmove) (side : Nat) (exit_on_legal : Bool)
    (mask theirs free : Nat) (M0 : Nat → Nat) :
    ∀ (l : List Nat) (st : gen_state), Masked M0 mask st →
      Masked M0 mask (pawn_loop last side false exit_on_legal mask theirs free l st).2 := by
  intro l
  induction l with
  | nil => intro st h; exact h
  | cons ind rest ih =>
    intro st h
    simp only [pawn_loop]
    obtain ⟨h1, h2⟩ := legalize_step_masked exit_on_legal side mask ind
      { st with matrices := setAt st.matrices ind (pawn_moves st.board last side ind theirs free) }
    have hm := Masked.of_round h (fun o ho => (h1 o ho).trans (setAt_other _ _ ho)) h2
    split_ifs
    · exact hm
    · exact ih _ hm

theorem sliding_loop_masked (side : Nat) (exit_on_legal : Bool)
    (mask all_pieces not_friendly type : Nat) (M0 : Nat → Nat) :
    ∀ (l : List Nat) (st : gen_state), Masked M0 mask st →
      Masked M0 mask
        (sliding_loop side false exit_on_legal mask all_pieces not_friendly type l st).2 := by
  intro l
  induction l with
  | nil => intro st h; exact h
  | cons ind rest ih =>
    intro st h
    simp only [sliding_loop]
    obtain ⟨h1, h2⟩ := legalize_step_masked exit_on_legal side mask ind
      { st with matrices := setAt st.matrices ind (sliding_moves type ind all_pieces not_friendly) }
    have hm := Masked.of_round h (fun o ho => (h1 o ho).trans (setAt_other _ _ ho)) h2
    split_ifs
    · exact hm
    · exact ih _ hm

theorem castle_step_masked (side : Nat) (exit_on_legal : Bool)
    (mask all_pieces relevant_rooks ind : Nat) (rx : Int) (corner dest : Nat) (st : gen_state) :
    (∀ o, o ≠ ind →
      (castle_step side false exit_on_legal mask all_pieces relevant_rooks ind rx corner dest
        st).2.matrices o = st.matrices o) ∧
    ((castle_step side false exit_on_legal mask all_pieces relevant_rooks ind rx corner dest
        st).1 = true →
      ∀ j, ((castle_step side false exit_on_legal mask all_pieces relevant_rooks ind rx corner
        dest st).2.matrices ind).testBit j = true → mask.testBit j = true) := by
  unfold castle_step
  simp only []
  split_ifs with c1 c2
  · obtain ⟨h1, h2⟩ := legalize_step_masked exit_on_legal side mask ind
      { matrices := setAt st.matrices ind (st.matrices ind ||| dest),
        board := (can_castle st.board side all_pieces ((ind &&& 7 : Nat) : Int)
          ((ind >>> 3 : Nat) : Int) rx ((ind >>> 3 : Nat) : Int)).2 }
    exact ⟨fun o ho => (h1 o ho).trans (setAt_other _ _ ho), fun _ => h2⟩
  · exact ⟨fun _ _ => rfl, fun h => absurd h (by simp)⟩
  · exact ⟨fun _ _ => rfl, fun h => absurd h (by simp)⟩

theorem castle_block_masked (side : Nat) (exit_on_legal : Bool)
    (mask our all_pieces ind : Nat) (st : gen_state) :
    (∀ o, o ≠ ind →
      (castle_block side false exit_on_legal mask our all_pieces ind st).2.matrices o =
        st.matrices o) ∧
    ((castle_block side false exit_on_legal mask our all_pieces ind st).1 = true →
      ∀ j, ((castle_block side false exit_on_legal mask our all_pieces ind st).2.matrices
        ind).testBit j = true → mask.testBit j = true) := by
  unfold castle_block
  simp only []
  split_ifs with c1 c2
  · exact castle_step_masked _ _ _ _ _ _ _ _ _ _
  · obtain ⟨h1, _⟩ := castle_step_masked side exit_on_legal mask all_pieces
      (our &&& st.board.piece_sets rook) ind 0 (shl64 1 (8 * (ind >>> 3)))
      (shl64 1 ((ind + 2 ^ 32 - 2) % 2 ^ 32)) st
    obtain ⟨k1, k2⟩ := castle_step_masked side exit_on_legal mask all_pieces
      (our &&& st.board.piece_sets rook) ind 7 (shl64 1 (7 + 8 * (ind >>> 3)))
      (shl64 1 ((ind + 2) % 2 ^ 32))
      (castle_step side false exit_on_legal mask all_pieces (our &&& st.board.piece_sets rook)
        ind 0 (shl64 1 (8 * (ind >>> 3))) (shl64 1 ((ind + 2 ^ 32 - 2) % 2 ^ 32)) st).2
    exact ⟨fun o ho => (k1 o ho).trans (h1 o ho), k2⟩
  · exact ⟨fun _ _ => rfl, fun h => absurd h (by simp)⟩

theorem jump_loop_masked (side : Nat) (exit_on_legal : Bool)
    (mask our all_pieces not_friendly type : Nat) (M0 : Nat → Nat) :
    ∀ (l : List Nat) (st : gen_state), Masked M0 mask st →
      Masked M0 mask
        (jump_loop side false exit_on_legal mask our all_pieces not_friendly type l st).2 := by
  intro l
  induction l with
  | nil => intro st h; exact h
  | cons ind rest ih =>
    intro st h
    simp only [jump_loop]
    generalize hst1 : ({ st with
      matrices := setAt st.matrices ind (capture_masks ind type &&& not_friendly) } : gen_state) = st1
    have e1 : ∀ o, o ≠ ind → st1.matrices o = st.matrices o := by
      intro o ho; rw [← hst1]; exact setAt_other _ _ ho
    generalize hr2 : (if type = king then
      castle_block side false exit_on_legal mask our all_pieces ind st1 else (false, st1)) = r2
    have e2 : (∀ o, o ≠ ind → r2.2.matrices o = st.matrices o) ∧
        (r2.1 = true → ∀ j, (r2.2.matrices ind).testBit j = true → mask.testBit j = true) := by
      rw [← hr2]
      split_ifs
      · obtain ⟨c1, c2⟩ := castle_block_masked side exit_on_legal mask our all_pieces ind st1
        exact ⟨fun o ho => (c1 o ho).trans (e1 o ho), c2⟩
      · exact ⟨e1, fun h => absurd h (by simp)⟩
    obtain ⟨h1, h2⟩ := legalize_step_masked exit_on_legal side mask ind r2.2
    have hm := Masked.of_round h (fun o ho => (h1 o ho).trans (e2.1 o ho)) h2
    split_ifs with c1 c2
    · exact Masked.of_round h e2.1 (e2.2 c1)
    · exact hm
    · exact ih _ hm

/-- In legal mode every entry of `matrices` that `generate_moves` leaves different from the
caller's array is a subset of `mask`. -/
theorem generate_moves_masked (b : chessboard) (side : Nat) (M0 : Nat → Nat)
    (exit_on_legal : Bool) (mask : Nat) :
    Masked M0 mask (generate_moves b side M0 false exit_on_legal mask).2 := by
  unfold generate_moves
  simp only []
  have g0 : Masked M0 mask { matrices := M0, board := b } := fun _ => Or.inl rfl
  have g1 := pawn_loop_masked (last_move b) side exit_on_legal mask (b.side_sets (side ^^^ 1))
    (not64 (b.side_sets 0 ||| b.side_sets 1)) M0
    (set_bits (b.piece_sets pawn &&& b.side_sets side)) _ g0
  split_ifs
  · exact g1
  · exact jump_loop_masked _ _ _ _ _ _ _ _ _ _ g1
  · exact jump_loop_masked _ _ _ _ _ _ _ _ _ _ (jump_loop_masked _ _ _ _ _ _ _ _ _ _ g1)
  · exact sliding_loop_masked _ _ _ _ _ _ _ _ _
      (jump_loop_masked _ _ _ _ _ _ _ _ _ _ (jump_loop_masked _ _ _ _ _ _ _ _ _ _ g1))
  · exact sliding_loop_masked _ _ _ _ _ _ _ _ _ (sliding_loop_masked _ _ _ _ _ _ _ _ _
      (jump_loop_masked _ _ _ _ _ _ _ _ _ _ (jump_loop_masked _ _ _ _ _ _ _ _ _ _ g1)))
  · exact sliding_loop_masked _ _ _ _ _ _ _ _ _ (sliding_loop_masked _ _ _ _ _ _ _ _ _
      (sliding_loop_masked _ _ _ _ _ _ _ _ _
      (jump_loop_masked _ _ _ _ _ _ _ _ _ _ (jump_loop_masked _ _ _ _ _ _ _ _ _ _ g1))))

set_option maxRecDepth 1000000 in
/-- C28, the claim as stated fails: in pseudo mode `generate_moves` does not apply `mask`;
run on the standard initial position for side 1 with the empty mask it writes the set of the
pawn on e2, which holds e3, into `matrices[52]`. -/
theorem pseudo_mode_ignores_mask :
    ((generate_moves standard_board 1 (fun _ => 0) true false 0).2.matrices 52).testBit 44 = true ∧
    Nat.testBit 0 44 = false := by
  decide!

/-- C28, amended. The destination mask in legal mode: for every board, side, mask, caller's
array and value of `exit_on_legal`, each entry of `matrices` that `generate_moves` with
`pseudo = false` leaves different from the caller's entry holds only squares of `mask`. -/
theorem legal_mode_within_mask (b : chessboard) (side : Nat) (M0 : Nat → Nat)
    (exit_on_legal : Bool) (mask o d : Nat) :
    (generate_moves b side M0 false exit_on_legal mask).2.matrices o = M0 o ∨
    (((generate_moves b side M0 false exit_on_legal mask).2.matrices o).testBit d = true →
      mask.testBit d = true) := by
  rcases generate_moves_masked b side M0 exit_on_legal mask o with h | h
  · exact Or.inl h
  · exact Or.inr (h d)

/-! ## The unwinding at the deadline and the stored mate scores -/

set_option maxRecDepth 1000000 in
/-- C22 fails as stated.  The search entered on the standard initial position
(`appended_moves` 0), one move deep after `search_helper` has made e2-e4 (`appended_moves`
1): the unwinding loop before the throw retracts the move but leaves `appended_moves` at 1,
while `search_helper` itself would have counted it down to 0; so the unwound board differs
from the board of the entry in the field `appended_moves`.  And on the board with the king
of side 1 on c1, its rook on a1 and its knight on b1 (consistent masks, all `has_moved` bits
clear), after the generated move c1-a1 the unwinding does not even give back `pieces`. -/
theorem unwind_keeps_appended_moves :
    standard_board.appended_moves = 0 ∧
    (enter_move standard_board 4 6 4 4).appended_moves = 1 ∧
    (unwind (enter_move standard_board 4 6 4 4)).move_stack = standard_board.move_stack ∧
    (unwind (enter_move standard_board 4 6 4 4)).appended_moves = 1 ∧
    (leave_move (enter_move standard_board 4 6 4 4)).appended_moves = 0 ∧
    yields (board_of codes_king_c1) 58 56 = true ∧
    (board_of codes_king_c1).pieces 56 = 13 ∧
    (unwind (enter_move (board_of codes_king_c1) 2 7 0 7)).pieces 56 = 12 := by
  decide!

/-- A probe that hits an exact entry with a value in the upper mate band returns the value
less `appended_moves`. -/
theorem probe_exact_high (board : chessboard) (depth alpha beta : Int)
    (e : transposition_entry) (time_up : Bool)
    (hrep : board.previous_states (board.hash % 2 ^ 22) + 1 < 3) (hh : e.hash = board.hash)
    (ht : e.type = transposition_exact) (hd : e.depth ≥ depth)
    (hv : e.value ≥ wrap32 (INT_MAX - 256)) :
    search_head board depth alpha beta false e time_up =
      search_exit.returned (wrap32 (e.value - board.appended_moves)) := by
  unfold search_head
  have h1 : ¬ board.previous_states (board.hash % 2 ^ 22) + 1 ≥ 3 := by omega
  have h2 : (!false && e.type != 0 && e.hash == board.hash) = true := by
    rw [ht, hh]; simp [transposition_exact]
  simp only [if_neg h1, h2, if_true, if_pos hd, if_pos ht, if_pos hv]

theorem enter_move_prev (b : chessboard) (ox oy dx dy : Int) :
    (enter_move b ox oy dx dy).previous_states = (make_move b ox oy dx dy).previous_states := rfl

theorem enter_move_hash (b : chessboard) (ox oy dx dy : Int) :
    (enter_move b ox oy dx dy).hash = (make_move b ox oy dx dy).hash := rfl

theorem make_move_e2e4 (b : chessboard) : make_move b 4 6 4 4 = make_move_sq b 52 36 := rfl

theorem enter_move_prev_standard :
    (enter_move standard_board 4 6 4 4).previous_states
      ((enter_move standard_board 4 6 4 4).hash % 2 ^ 22) = 1 := by
  rw [enter_move_prev, enter_move_hash, make_move_e2e4,
    make_move_sq_eq (by decide) (by decide) (by decide), move_core_prev, setAt_same]
  unfold standard_board
  rw [board_of_prev]
  rfl

theorem tt_store_mate (z : Nat) :
    tt_store z (INT_MAX - 1 - 1) 1 (-INT_MAX) INT_MAX =
      { hash := z, value := INT_MAX - 2, depth := 1, type := transposition_exact } := rfl

theorem enter_move_appended (b : chessboard) (ox oy dx dy : Int) :
    (enter_move b ox oy dx dy).appended_moves =
      wrap32 ((make_move b ox oy dx dy).appended_moves + 1) := rfl

set_option maxRecDepth 1000000 in
theorem enter_move_appended_standard : (enter_move standard_board 4 6 4 4).appended_moves = 1 := by
  decide!

/-- The probe, at a node with `appended_moves = 1`, of the exact entry stored for the value
`INT_MAX - 1 - 1` under the hash of the node. -/
theorem probe_stored_mate (board : chessboard)
    (hrep : board.previous_states (board.hash % 2 ^ 22) + 1 < 3)
    (ha : board.appended_moves = 1) :
    search_head board 1 (-INT_MAX) INT_MAX false
      (tt_store board.hash (INT_MAX - 1 - 1) 1 (-INT_MAX) INT_MAX) false =
      search_exit.returned (INT_MAX - 3) := by
  rw [tt_store_mate, probe_exact_high board 1 (-INT_MAX) INT_MAX _ false hrep rfl rfl
    (show (1 : Int) ≥ 1 from le_refl 1)
    (show INT_MAX - 2 ≥ wrap32 (INT_MAX - 256) from by decide), ha]
  rfl

/-- C29, evaluated: a node at root distance 1 that has found a mate one ply below stores the
exact value `INT_MAX - 1 - 1`; a probe of that entry from a node of the same position at root
distance 1 (the standard initial position after e2-e4, entered by `search_helper`) returns
`INT_MAX - 3`, which is not the score `INT_MAX - 1 - 1` of that mate at the probing node. -/
theorem mate_score_shifted_twice :
    (tt_store (enter_move standard_board 4 6 4 4).hash (INT_MAX - 1 - 1) 1
      (-INT_MAX) INT_MAX).type = transposition_exact ∧
    (enter_move standard_board 4 6 4 4).appended_moves = 1 ∧
    search_head (enter_move standard_board 4 6 4 4) 1 (-INT_MAX) INT_MAX false
      (tt_store (enter_move standard_board 4 6 4 4).hash (INT_MAX - 1 - 1) 1 (-INT_MAX) INT_MAX)
      false = search_exit.returned (INT_MAX - 3) ∧
    INT_MAX - 3 ≠ INT_MAX - 1 - 1 := by
  have hrep : (enter_move standard_board 4 6 4 4).previous_states
      ((enter_move standard_board 4 6 4 4).hash % 2 ^ 22) + 1 < 3 := by
    rw [enter_move_prev_standard]; decide
  refine ⟨?_, enter_move_appended_standard,
    probe_stored_mate _ hrep enter_move_appended_standard, by decide⟩
  rw [tt_store_mate]

/-! ## Repetition -/

theorem zsum_congr (P Q : Nat → Nat) (l : List Nat) (h : ∀ i, i ∈ l → P i = Q i) :
    zsum P l = zsum Q l := by
  induction l with
  | nil => rfl
  | cons x xs ih =>
    unfold zsum
    rw [h x (List.mem_cons_self _ _), ih (fun i hi => h i (List.mem_cons_of_mem _ hi))]

/-- The digest `zobrist()` reads the placement, the side to move and the two-square flag, and
nothing else. -/
theorem zobrist_congr {b b2 : chessboard} (hp : ∀ i, i < 64 → b.pieces i = b2.pieces i)
    (hs : b.side_to_move = b2.side_to_move) (hf : pawn_two_squares b = pawn_two_squares b2) :
    zobrist b = zobrist b2 := by
  rw [zobrist_eq, zobrist_eq, hs, hf,
    zsum_congr b.pieces b2.pieces _ (fun i hi => hp i (List.mem_range.1 hi))]

theorem prev_after_move (b : chessboard) {o d : Nat} (ho : o < 64) (hd : d < 64) (hne : o ≠ d) :
    (make_move_sq b o d).previous_states =
      setAt b.previous_states ((make_move_sq b o d).hash % 2 ^ 22)
        ((b.previous_states ((make_move_sq b o d).hash % 2 ^ 22) + 1) % 2 ^ 16) := by
  rw [make_move_sq_eq ho hd hne]
  exact move_core_prev _ _ _ _ _ _ _ _ _ _ _ _ _ _

/-- One non-null `make_move` raises the counter of the slot of the new hash by one and
leaves the other counters, as long as no counter is near the end of its 16 bits. -/
theorem counter_step (b : chessboard) {o d n : Nat} (ho : o < 64) (hd : d < 64) (hne : o ≠ d)
    (hn : n + 1 < 2 ^ 16) (hb : ∀ k, b.previous_states k ≤ n) :
    (∀ k, b.previous_states k ≤ (make_move_sq b o d).previous_states k ∧
      (make_move_sq b o d).previous_states k ≤ n + 1) ∧
    (make_move_sq b o d).previous_states ((make_move_sq b o d).hash % 2 ^ 22) =
      b.previous_states ((make_move_sq b o d).hash % 2 ^ 22) + 1 := by
  rw [prev_after_move b ho hd hne]
  have hm : ∀ k, (b.previous_states k + 1) % 2 ^ 16 = b.previous_states k + 1 := fun k =>
    Nat.mod_eq_of_lt (by have := hb k; omega)
  refine ⟨fun k => ?_, by rw [setAt_same, hm]⟩
  rw [setAt_apply]
  split_ifs with h
  · rw [hm, h]; have := hb ((make_move_sq b o d).hash % 2 ^ 22); omega
  · have := hb k; omega

/-- A move of a knight from `o` to `d` is a move `make_move` is prepared for. -/
theorem MoveOK.of_knight {b : chessboard} {o d : Nat} (ho : o < 64) (hd : d < 64) (hne : o ≠ d)
    (hk : b.pieces o % 8 = 4) : MoveOK b o d :=
  ⟨ho, hd, hne, fun h => by rw [h] at hk; exact absurd hk (by decide),
    fun h => by rw [h] at hk; exact absurd hk (by decide),
    fun h => by rw [h] at hk; exact absurd hk (by decide)⟩

set_option maxRecDepth 1000000 in
/-- Before ply 1 of the knight moves a knight stands on the origin square. -/
theorem dance_1 :
    standard_board.pieces 62 % 8 = 4 := by
  decide!

set_option maxRecDepth 1000000 in
/-- Before ply 2 of the knight moves a knight stands on the origin square. -/
theorem dance_2 :
    (make_move_sq standard_board 62 45).pieces 6 % 8 = 4 := by
  decide!

set_option maxRecDepth 1000000 in
/-- Before ply 3 of the knight moves a knight stands on the origin square. -/
theorem dance_3 :
    (make_move_sq (make_move_sq standard_board 62 45) 6 21).pieces 45 % 8 = 4 := by
  decide!

set_option maxRecDepth 1000000 in
/-- Before ply 4 of the knight moves a knight stands on the origin square. -/
theorem dance_4 :
    (make_move_sq (make_move_sq (make_move_sq standard_board 62 45) 6 21) 45 62).pieces 21 % 8 = 4 := by
  decide!

set_option maxRecDepth 1000000 in
/-- Before ply 5 of the knight moves a knight stands on the origin square. -/
theorem dance_5 :
    (make_move_sq (make_move_sq (make_move_sq (make_move_sq standard_board 62 45) 6 21) 45 62) 21 6).pieces 62 % 8 = 4 := by
  decide!

set_option maxRecDepth 1000000 in
/-- Before ply 6 of the knight moves a knight stands on the origin square. -/
theorem dance_6 :
    (make_move_sq (make_move_sq (make_move_sq (make_move_sq (make_move_sq standard_board 62 45) 6 21) 45 62) 21 6) 62 45).pieces 6 % 8 = 4 := by
  decide!

set_option maxRecDepth 1000000 in
/-- Before ply 7 of the knight moves a knight stands on the origin square. -/
theorem dance_7 :
    (make_move_sq (make_move_sq (make_move_sq (make_move_sq (make_move_sq (make_move_sq standard_board 62 45) 6 21) 45 62) 21 6) 62 45) 6 21).pieces 45 % 8 = 4 := by
  decide!

set_option maxRecDepth 1000000 in
/-- Before ply 8 of the knight moves a knight stands on the origin square. -/
theorem dance_8 :
    (make_move_sq (make_move_sq (make_move_sq (make_move_sq (make_move_sq (make_move_sq (make_move_sq standard_board 62 45) 6 21) 45 62) 21 6) 62 45) 6 21) 45 62).pieces 21 % 8 = 4 := by
  decide!

set_option maxRecDepth 1000000 in
/-- After 4 plies of the knight moves the placement, the side to move and the two-square
flag are those of the standard initial position. -/
theorem dance_back_4 :
    (∀ i : Fin 64, (make_move_sq (make_move_sq (make_move_sq (make_move_sq standard_board 62 45) 6 21) 45 62) 21 6).pieces i = standard_board.pieces i) ∧
    (make_move_sq (make_move_sq (make_move_sq (make_move_sq standard_board 62 45) 6 21) 45 62) 21 6).side_to_move = standard_board.side_to_move ∧
    pawn_two_squares (make_move_sq (make_move_sq (make_move_sq (make_move_sq standard_board 62 45) 6 21) 45 62) 21 6) = pawn_two_squares standard_board := by
  decide!

set_option maxRecDepth 1000000 in
/-- After 8 plies of the knight moves the placement, the side to move and the two-square
flag are those of the standard initial position. -/
theorem dance_back_8 :
    (∀ i : Fin 64, (make_move_sq (make_move_sq (make_move_sq (make_move_sq (make_move_sq (make_move_sq (make_move_sq (make_move_sq standard_board 62 45) 6 21) 45 62) 21 6) 62 45) 6 21) 45 62) 21 6).pieces i = standard_board.pieces i) ∧
    (make_move_sq (make_move_sq (make_move_sq (make_move_sq (make_move_sq (make_move_sq (make_move_sq (make_move_sq standard_board 62 45) 6 21) 45 62) 21 6) 62 45) 6 21) 45 62) 21 6).side_to_move = standard_board.side_to_move ∧
    pawn_two_squares (make_move_sq (make_move_sq (make_move_sq (make_move_sq (make_move_sq (make_move_sq (make_move_sq (make_move_sq standard_board 62 45) 6 21) 45 62) 21 6) 62 45) 6 21) 45 62) 21 6) = pawn_two_squares standard_board := by
  decide!

/-- C17. Threefold repetition: from the standard initial position, with `hash` set to
`zobrist()` and all repetition counters zero, after g1-f3, g8-f6, f3-g1, f6-g8, g1-f3, g8-f6,
f3-g1, f6-g8 replayed through `make_move` the field `hash` equals the initial hash and
`previous_states[hash] + 1 >= 3`, and so `timed_negamax_search` returns 0 on this position
for every depth, window and other argument. -/
theorem threefold_repetition_draw :
    (replay standard_board knight_dance).hash = standard_board.hash ∧
    (replay standard_board knight_dance).previous_states
      ((replay standard_board knight_dance).hash % 2 ^ 22) + 1 ≥ 3 ∧
    ∀ (depth alpha beta : Int) (has_move : Bool) (entry : transposition_entry) (time_up : Bool),
      search_head (replay standard_board knight_dance) depth alpha beta has_move entry time_up =
        search_exit.returned 0 := by
  have er : replay standard_board knight_dance =
      (make_move_sq (make_move_sq (make_move_sq (make_move_sq (make_move_sq (make_move_sq (make_move_sq (make_move_sq standard_board 62 45) 6 21) 45 62) 21 6) 62 45) 6 21) 45 62) 21 6) := rfl
  rw [er]
  have h0 : standard_board.hash = zobrist standard_board := board_of_hash _
  have c0 : ∀ k, standard_board.previous_states k ≤ 0 := fun k => by
    unfold standard_board; rw [board_of_prev]
  have ok1 : MoveOK standard_board 62 45 :=
    MoveOK.of_knight (by decide) (by decide) (by decide) dance_1
  have wf1 := WF.make_move_sq WF_standard ok1
  have h1 := hash_make_move_sq WF_standard ok1 h0
  have s1 := counter_step standard_board (o := 62) (d := 45) (n := 0)
    (by decide) (by decide) (by decide) (by decide) c0
  have c1 := fun k => (s1.1 k).2
  have ok2 : MoveOK (make_move_sq standard_board 62 45) 6 21 :=
    MoveOK.of_knight (by decide) (by decide) (by decide) dance_2
  have wf2 := WF.make_move_sq wf1 ok2
  have h2 := hash_make_move_sq wf1 ok2 h1
  have s2 := counter_step (make_move_sq standard_board 62 45) (o := 6) (d := 21) (n := 1)
    (by decide) (by decide) (by decide) (by decide) c1
  have c2 := fun k => (s2.1 k).2
  have ok3 : MoveOK (make_move_sq (make_move_sq standard_board 62 45) 6 21) 45 62 :=
    MoveOK.of_knight (by decide) (by decide) (by decide) dance_3
  have wf3 := WF.make_move_sq wf2 ok3
  have h3 := hash_make_move_sq wf2 ok3 h2
  have s3 := counter_step (make_move_sq (make_move_sq standard_board 62 45) 6 21) (o := 45) (d := 62) (n := 2)
    (by decide) (by decide) (by decide) (by decide) c2
  have c3 := fun k => (s3.1 k).2
  have ok4 : MoveOK (make_move_sq (make_move_sq (make_move_sq standard_board 62 45) 6 21) 45 62) 21 6 :=
    MoveOK.of_knight (by decide) (by decide) (by decide) dance_4
  have wf4 := WF.make_move_sq wf3 ok4
  have h4 := hash_make_move_sq wf3 ok4 h3
  have s4 := counter_step (make_move_sq (make_move_sq (make_move_sq standard_board 62 45) 6 21) 45 62) (o := 21) (d := 6) (n := 3)
    (by decide) (by decide) (by decide) (by decide) c3
  have c4 := fun k => (s4.1 k).2
  have ok5 : MoveOK (make_move_sq (make_move_sq (make_move_sq (make_move_sq standard_board 62 45) 6 21) 45 62) 21 6) 62 45 :=
    MoveOK.of_knight (by decide) (by decide) (by decide) dance_5
  have wf5 := WF.make_move_sq wf4 ok5
  have h5 := hash_make_move_sq wf4 ok5 h4
  have s5 := counter_step (make_move_sq (make_move_sq (make_move_sq (make_move_sq standard_board 62 45) 6 21) 45 62) 21 6) (o := 62) (d := 45) (n := 4)
    (by decide) (by decide) (by decide) (by decide) c4
  have c5 := fun k => (s5.1 k).2
  have ok6 : MoveOK (make_move_sq (make_move_sq (make_move_sq (make_move_sq (make_move_sq standard_board 62 45) 6 21) 45 62) 21 6) 62 45) 6 21 :=
    MoveOK.of_knight (by decide) (by decide) (by decide) dance_6
  have wf6 := WF.make_move_sq wf5 ok6
  have h6 := hash_make_move_sq wf5 ok6 h5
  have s6 := counter_step (make_move_sq (make_move_sq (make_move_sq (make_move_sq (make_move_sq standard_board 62 45) 6 21) 45 62) 21 6) 62 45) (o := 6) (d := 21) (n := 5)
    (by decide) (by decide) (by decide) (by decide) c5
  have c6 := fun k => (s6.1 k).2
  have ok7 : MoveOK (make_move_sq (make_move_sq (make_move_sq (make_move_sq (make_move_sq (make_move_sq standard_board 62 45) 6 21) 45 62) 21 6) 62 45) 6 21) 45 62 :=
    MoveOK.of_knight (by decide) (by decide) (by decide) dance_7
  have wf7 := WF.make_move_sq wf6 ok7
  have h7 := hash_make_move_sq wf6 ok7 h6
  have s7 := counter_step (make_move_sq (make_move_sq (make_move_sq (make_move_sq (make_move_sq (make_move_sq standard_board 62 45) 6 21) 45 62) 21 6) 62 45) 6 21) (o := 45) (d := 62) (n := 6)
    (by decide) (by decide) (by decide) (by decide) c6
  have c7 := fun k => (s7.1 k).2
  have ok8 : MoveOK (make_move_sq (make_move_sq (make_move_sq (make_move_sq (make_move_sq (make_move_sq (make_move_sq standard_board 62 45) 6 21) 45 62) 21 6) 62 45) 6 21) 45 62) 21 6 :=
    MoveOK.of_knight (by decide) (by decide) (by decide) dance_8
  have wf8 := WF.make_move_sq wf7 ok8
  have h8 := hash_make_move_sq wf7 ok8 h7
  have s8 := counter_step (make_move_sq (make_move_sq (make_move_sq (make_move_sq (make_move_sq (make_move_sq (make_move_sq standard_board 62 45) 6 21) 45 62) 21 6) 62 45) 6 21) 45 62) (o := 21) (d := 6) (n := 7)
    (by decide) (by decide) (by decide) (by decide) c7
  have c8 := fun k => (s8.1 k).2
  have z4 : (make_move_sq (make_move_sq (make_move_sq (make_move_sq standard_board 62 45) 6 21) 45 62) 21 6).hash = standard_board.hash := by
    rw [h4, h0]
    exact zobrist_congr (fun i hi => dance_back_4.1 ⟨i, hi⟩) dance_back_4.2.1 dance_back_4.2.2
  have z8 : (make_move_sq (make_move_sq (make_move_sq (make_move_sq (make_move_sq (make_move_sq (make_move_sq (make_move_sq standard_board 62 45) 6 21) 45 62) 21 6) 62 45) 6 21) 45 62) 21 6).hash = standard_board.hash := by
    rw [h8, h0]
    exact zobrist_congr (fun i hi => dance_back_8.1 ⟨i, hi⟩) dance_back_8.2.1 dance_back_8.2.2
  have e4 := s4.2
  have e8 := s8.2
  rw [z4] at e4
  rw [z8] at e8
  have m5 := (s5.1 (standard_board.hash % 2 ^ 22)).1
  have m6 := (s6.1 (standard_board.hash % 2 ^ 22)).1
  have m7 := (s7.1 (standard_board.hash % 2 ^ 22)).1
  have hc : (make_move_sq (make_move_sq (make_move_sq (make_move_sq (make_move_sq (make_move_sq (make_move_sq (make_move_sq standard_board 62 45) 6 21) 45 62) 21 6) 62 45) 6 21) 45 62) 21 6).previous_states
      ((make_move_sq (make_move_sq (make_move_sq (make_move_sq (make_move_sq (make_move_sq (make_move_sq (make_move_sq standard_board 62 45) 6 21) 45 62) 21 6) 62 45) 6 21) 45 62) 21 6).hash % 2 ^ 22) + 1 ≥ 3 := by
    rw [z8]; omega
  refine ⟨z8, hc, ?_⟩
  intro depth alpha beta has_move entry time_up
  unfold search_head
  simp only [if_pos hc]

/-! ## Two paths to one placement -/

theorem flag_key_ne_zero : zobrist_table 0 8 ≠ 0 := by decide!

/-- The drift of `hash` against `zobrist()` over a move that `make_move` is prepared for. -/
theorem drift_step {b : chessboard} {o d : Nat} {D : Nat} (f1 f2 : Bool)
    (hco : CoreOK b o d (cap_sq b o d) (rook_from o d) (rook_to o d) (is_castling b o d)
      (is_promotion b o d))
    (hv : valid_code (b.pieces o)) (hstm : b.side_to_move ≤ 1)
    (h1 : is_two_squares b o d = f1) (h2 : pawn_two_squares (make_move_sq b o d) = f2)
    (hD : b.hash ^^^ zobrist b = D) :
    (make_move_sq b o d).hash ^^^ zobrist (make_move_sq b o d) =
      D ^^^ (if f1 = f2 then 0 else zobrist_table 0 8) := by
  rw [hash_drift hco.ho hco.hd hco.hne hv hstm hco, h1, h2, hD]

set_option maxRecDepth 1000000 in
/-- Ply 1 of the path `path_double`: the move is one `make_move` is prepared for, with its
two-square flags. -/
theorem path_double_1 :
    CoreOK (board_of codes_pawn_sixth) 16 0
      (cap_sq (board_of codes_pawn_sixth) 16 0) (rook_from 16 0) (rook_to 16 0)
      (is_castling (board_of codes_pawn_sixth) 16 0)
      (is_promotion (board_of codes_pawn_sixth) 16 0) ∧
    valid_code ((board_of codes_pawn_sixth).pieces 16) ∧
    (board_of codes_pawn_sixth).side_to_move ≤ 1 ∧
    is_two_squares (board_of codes_pawn_sixth) 16 0 = true ∧
    pawn_two_squares (make_move_sq (board_of codes_pawn_sixth) 16 0) = false :=
  ⟨⟨by decide, by decide, by decide!, by decide, by decide!, by decide!, by decide!,
      by decide!, by decide!⟩, by decide!, by decide!, by decide!, by decide!⟩

set_option maxRecDepth 1000000 in
/-- Ply 2 of the path `path_double`: the move is one `make_move` is prepared for, with its
two-square flags. -/
theorem path_double_2 :
    CoreOK (make_move_sq (board_of codes_pawn_sixth) 16 0) 4 12
      (cap_sq (make_move_sq (board_of codes_pawn_sixth) 16 0) 4 12) (rook_from 4 12) (rook_to 4 12)
      (is_castling (make_move_sq (board_of codes_pawn_sixth) 16 0) 4 12)
      (is_promotion (make_move_sq (board_of codes_pawn_sixth) 16 0) 4 12) ∧
    valid_code ((make_move_sq (board_of codes_pawn_sixth) 16 0).pieces 4) ∧
    (make_move_sq (board_of codes_pawn_sixth) 16 0).side_to_move ≤ 1 ∧
    is_two_squares (make_move_sq (board_of codes_pawn_sixth) 16 0) 4 12 = false ∧
    pawn_two_squares (make_move_sq (make_move_sq (board_of codes_pawn_sixth) 16 0) 4 12) = false :=
  ⟨⟨by decide, by decide, by decide!, by decide, by decide!, by decide!, by decide!,
      by decide!, by decide!⟩, by decide!, by decide!, by decide!, by decide!⟩

set_option maxRecDepth 1000000 in
/-- Ply 3 of the path `path_double`: the move is one `make_move` is prepared for, with its
two-square flags. -/
theorem path_double_3 :
    CoreOK (make_move_sq (make_move_sq (board_of codes_pawn_sixth) 16 0) 4 12) 60 59
      (cap_sq (make_move_sq (make_move_sq (board_of codes_pawn_sixth) 16 0) 4 12) 60 59) (rook_from 60 59) (rook_to 60 59)
      (is_castling (make_move_sq (make_move_sq (board_of codes_pawn_sixth) 16 0) 4 12) 60 59)
      (is_promotion (make_move_sq (make_move_sq (board_of codes_pawn_sixth) 16 0) 4 12) 60 59) ∧
    valid_code ((make_move_sq (make_move_sq (board_of codes_pawn_sixth) 16 0) 4 12).pieces 60) ∧
    (make_move_sq (make_move_sq (board_of codes_pawn_sixth) 16 0) 4 12).side_to_move ≤ 1 ∧
    is_two_squares (make_move_sq (make_move_sq (board_of codes_pawn_sixth) 16 0) 4 12) 60 59 = false ∧
    pawn_two_squares (make_move_sq (make_move_sq (make_move_sq (board_of codes_pawn_sixth) 16 0) 4 12) 60 59) = false :=
  ⟨⟨by decide, by decide, by decide!, by decide, by decide!, by decide!, by decide!,
      by decide!, by decide!⟩, by decide!, by decide!, by decide!, by decide!⟩

set_option maxRecDepth 1000000 in
/-- Ply 4 of the path `path_double`: the move is one `make_move` is prepared for, with its
two-square flags. -/
theorem path_double_4 :
    CoreOK (make_move_sq (make_move_sq (make_move_sq (board_of codes_pawn_sixth) 16 0) 4 12) 60 59) 12 20
      (cap_sq (make_move_sq (make_move_sq (make_move_sq (board_of codes_pawn_sixth) 16 0) 4 12) 60 59) 12 20) (rook_from 12 20) (rook_to 12 20)
      (is_castling (make_move_sq (make_move_sq (make_move_sq (board_of codes_pawn_sixth) 16 0) 4 12) 60 59) 12 20)
      (is_promotion (make_move_sq (make_move_sq (make_move_sq (board_of codes_pawn_sixth) 16 0) 4 12) 60 59) 12 20) ∧
    valid_code ((make_move_sq (make_move_sq (make_move_sq (board_of codes_pawn_sixth) 16 0) 4 12) 60 59).pieces 12) ∧
    (make_move_sq (make_move_sq (make_move_sq (board_of codes_pawn_sixth) 16 0) 4 12) 60 59).side_to_move ≤ 1 ∧
    is_two_squares (make_move_sq (make_move_sq (make_move_sq (board_of codes_pawn_sixth) 16 0) 4 12) 60 59) 12 20 = false ∧
    pawn_two_squares (make_move_sq (make_move_sq (make_move_sq (make_move_sq (board_of codes_pawn_sixth) 16 0) 4 12) 60 59) 12 20) = false :=
  ⟨⟨by decide, by decide, by decide!, by decide, by decide!, by decide!, by decide!,
      by decide!, by decide!⟩, by decide!, by decide!, by decide!, by decide!⟩

set_option maxRecDepth 1000000 in
/-- Ply 5 of the path `path_double`: the move is one `make_move` is prepared for, with its
two-square flags. -/
theorem path_double_5 :
    CoreOK (make_move_sq (make_move_sq (make_move_sq (make_move_sq (board_of codes_pawn_sixth) 16 0) 4 12) 60 59) 12 20) 59 51
      (cap_sq (make_move_sq (make_move_sq (make_move_sq (make_move_sq (board_of codes_pawn_sixth) 16 0) 4 12) 60 59) 12 20) 59 51) (rook_from 59 51) (rook_to 59 51)
      (is_castling (make_move_sq (make_move_sq (make_move_sq (make_move_sq (board_of codes_pawn_sixth) 16 0) 4 12) 60 59) 12 20) 59 51)
      (is_promotion (make_move_sq (make_move_sq (make_move_sq (make_move_sq (board_of codes_pawn_sixth) 16 0) 4 12) 60 59) 12 20) 59 51) ∧
    valid_code ((make_move_sq (make_move_sq (make_move_sq (make_move_sq (board_of codes_pawn_sixth) 16 0) 4 12) 60 59) 12 20).pieces 59) ∧
    (make_move_sq (make_move_sq (make_move_sq (make_move_sq (board_of codes_pawn_sixth) 16 0) 4 12) 60 59) 12 20).side_to_move ≤ 1 ∧
    is_two_squares (make_move_sq (make_move_sq (make_move_sq (make_move_sq (board_of codes_pawn_sixth) 16 0) 4 12) 60 59) 12 20) 59 51 = false ∧
    pawn_two_squares (make_move_sq (make_move_sq (make_move_sq (make_move_sq (make_move_sq (board_of codes_pawn_sixth) 16 0) 4 12) 60 59) 12 20) 59 51) = false :=
  ⟨⟨by decide, by decide, by decide!, by decide, by decide!, by decide!, by decide!,
      by decide!, by decide!⟩, by decide!, by decide!, by decide!, by decide!⟩

set_option maxRecDepth 1000000 in
/-- Ply 1 of the path `path_single`: the move is one `make_move` is prepared for, with its
two-square flags. -/
theorem path_single_1 :
    CoreOK (board_of codes_pawn_sixth) 16 8
      (cap_sq (board_of codes_pawn_sixth) 16 8) (rook_from 16 8) (rook_to 16 8)
      (is_castling (board_of codes_pawn_sixth) 16 8)
      (is_promotion (board_of codes_pawn_sixth) 16 8) ∧
    valid_code ((board_of codes_pawn_sixth).pieces 16) ∧
    (board_of codes_pawn_sixth).side_to_move ≤ 1 ∧
    is_two_squares (board_of codes_pawn_sixth) 16 8 = false ∧
    pawn_two_squares (make_move_sq (board_of codes_pawn_sixth) 16 8) = false :=
  ⟨⟨by decide, by decide, by decide!, by decide, by decide!, by decide!, by decide!,
      by decide!, by decide!⟩, by decide!, by decide!, by decide!, by decide!⟩

set_option maxRecDepth 1000000 in
/-- Ply 2 of the path `path_single`: the move is one `make_move` is prepared for, with its
two-square flags. -/
theorem path_single_2 :
    CoreOK (make_move_sq (board_of codes_pawn_sixth) 16 8) 4 12
      (cap_sq (make_move_sq (board_of codes_pawn_sixth) 16 8) 4 12) (rook_from 4 12) (rook_to 4 12)
      (is_castling (make_move_sq (board_of codes_pawn_sixth) 16 8) 4 12)
      (is_promotion (make_move_sq (board_of codes_pawn_sixth) 16 8) 4 12) ∧
    valid_code ((make_move_sq (board_of codes_pawn_sixth) 16 8).pieces 4) ∧
    (make_move_sq (board_of codes_pawn_sixth) 16 8).side_to_move ≤ 1 ∧
    is_two_squares (make_move_sq (board_of codes_pawn_sixth) 16 8) 4 12 = false ∧
    pawn_two_squares (make_move_sq (make_move_sq (board_of codes_pawn_sixth) 16 8) 4 12) = false :=
  ⟨⟨by decide, by decide, by decide!, by decide, by decide!, by decide!, by decide!,
      by decide!, by decide!⟩, by decide!, by decide!, by decide!, by decide!⟩

set_option maxRecDepth 1000000 in
/-- Ply 3 of the path `path_single`: the move is one `make_move` is prepared for, with its
two-square flags. -/
theorem path_single_3 :
    CoreOK (make_move_sq (make_move_sq (board_of codes_pawn_sixth) 16 8) 4 12) 8 0
      (cap_sq (make_move_sq (make_move_sq (board_of codes_pawn_sixth) 16 8) 4 12) 8 0) (rook_from 8 0) (rook_to 8 0)
      (is_castling (make_move_sq (make_move_sq (board_of codes_pawn_sixth) 16 8) 4 12) 8 0)
      (is_promotion (make_move_sq (make_move_sq (board_of codes_pawn_sixth) 16 8) 4 12) 8 0) ∧
    valid_code ((make_move_sq (make_move_sq (board_of codes_pawn_sixth) 16 8) 4 12).pieces 8) ∧
    (make_move_sq (make_move_sq (board_of codes_pawn_sixth) 16 8) 4 12).side_to_move ≤ 1 ∧
    is_two_squares (make_move_sq (make_move_sq (board_of codes_pawn_sixth) 16 8) 4 12) 8 0 = false ∧
    pawn_two_squares (make_move_sq (make_move_sq (make_move_sq (board_of codes_pawn_sixth) 16 8) 4 12) 8 0) = false :=
  ⟨⟨by decide, by decide, by decide!, by decide, by decide!, by decide!, by decide!,
      by decide!, by decide!⟩, by decide!, by decide!, by decide!, by decide!⟩

set_option maxRecDepth 1000000 in
/-- Ply 4 of the path `path_single`: the move is one `make_move` is prepared for, with its
two-square flags. -/
theorem path_single_4 :
    CoreOK (make_move_sq (make_move_sq (make_move_sq (board_of codes_pawn_sixth) 16 8) 4 12) 8 0) 12 20
      (cap_sq (make_move_sq (make_move_sq (make_move_sq (board_of codes_pawn_sixth) 16 8) 4 12) 8 0) 12 20) (rook_from 12 20) (rook_to 12 20)
      (is_castling (make_move_sq (make_move_sq (make_move_sq (board_of codes_pawn_sixth) 16 8) 4 12) 8 0) 12 20)
      (is_promotion (make_move_sq (make_move_sq (make_move_sq (board_of codes_pawn_sixth) 16 8) 4 12) 8 0) 12 20) ∧
    valid_code ((make_move_sq (make_move_sq (make_move_sq (board_of codes_pawn_sixth) 16 8) 4 12) 8 0).pieces 12) ∧
    (make_move_sq (make_move_sq (make_move_sq (board_of codes_pawn_sixth) 16 8) 4 12) 8 0).side_to_move ≤ 1 ∧
    is_two_squares (make_move_sq (make_move_sq (make_move_sq (board_of codes_pawn_sixth) 16 8) 4 12) 8 0) 12 20 = false ∧
    pawn_two_squares (make_move_sq (make_move_sq (make_move_sq (make_move_sq (board_of codes_pawn_sixth) 16 8) 4 12) 8 0) 12 20) = false :=
  ⟨⟨by decide, by decide, by decide!, by decide, by decide!, by decide!, by decide!,
      by decide!, by decide!⟩, by decide!, by decide!, by decide!, by decide!⟩

set_option maxRecDepth 1000000 in
/-- Ply 5 of the path `path_single`: the move is one `make_move` is prepared for, with its
two-square flags. -/
theorem path_single_5 :
    CoreOK (make_move_sq (make_move_sq (make_move_sq (make_move_sq (board_of codes_pawn_sixth) 16 8) 4 12) 8 0) 12 20) 60 51
      (cap_sq (make_move_sq (make_move_sq (make_move_sq (make_move_sq (board_of codes_pawn_sixth) 16 8) 4 12) 8 0) 12 20) 60 51) (rook_from 60 51) (rook_to 60 51)
      (is_castling (make_move_sq (make_move_sq (make_move_sq (make_move_sq (board_of codes_pawn_sixth) 16 8) 4 12) 8 0) 12 20) 60 51)
      (is_promotion (make_move_sq (make_move_sq (make_move_sq (make_move_sq (board_of codes_pawn_sixth) 16 8) 4 12) 8 0) 12 20) 60 51) ∧
    valid_code ((make_move_sq (make_move_sq (make_move_sq (make_move_sq (board_of codes_pawn_sixth) 16 8) 4 12) 8 0) 12 20).pieces 60) ∧
    (make_move_sq (make_move_sq (make_move_sq (make_move_sq (board_of codes_pawn_sixth) 16 8) 4 12) 8 0) 12 20).side_to_move ≤ 1 ∧
    is_two_squares (make_move_sq (make_move_sq (make_move_sq (make_move_sq (board_of codes_pawn_sixth) 16 8) 4 12) 8 0) 12 20) 60 51 = false ∧
    pawn_two_squares (make_move_sq (make_move_sq (make_move_sq (make_move_sq (make_move_sq (board_of codes_pawn_sixth) 16 8) 4 12) 8 0) 12 20) 60 51) = false :=
  ⟨⟨by decide, by decide, by decide!, by decide, by decide!, by decide!, by decide!,
      by decide!, by decide!⟩, by decide!, by decide!, by decide!, by decide!⟩

set_option maxRecDepth 1000000 in
/-- Along the path with the double step the field `hash` ends one key away from
`zobrist()`. -/
theorem path_double_drift :
    (make_move_sq (make_move_sq (make_move_sq (make_move_sq (make_move_sq (board_of codes_pawn_sixth) 16 0) 4 12) 60 59) 12 20) 59 51).hash ^^^
      zobrist (make_move_sq (make_move_sq (make_move_sq (make_move_sq (make_move_sq (board_of codes_pawn_sixth) 16 0) 4 12) 60 59) 12 20) 59 51) = zobrist_table 0 8 := by
  have a0 : (board_of codes_pawn_sixth).hash ^^^ zobrist (board_of codes_pawn_sixth) = 0 := by
    rw [board_of_hash, Nat.xor_self]
  have a1 := drift_step true false path_double_1.1 path_double_1.2.1 path_double_1.2.2.1
    path_double_1.2.2.2.1 path_double_1.2.2.2.2 a0
  have a2 := drift_step false false path_double_2.1 path_double_2.2.1 path_double_2.2.2.1
    path_double_2.2.2.2.1 path_double_2.2.2.2.2 a1
  have a3 := drift_step false false path_double_3.1 path_double_3.2.1 path_double_3.2.2.1
    path_double_3.2.2.2.1 path_double_3.2.2.2.2 a2
  have a4 := drift_step false false path_double_4.1 path_double_4.2.1 path_double_4.2.2.1
    path_double_4.2.2.2.1 path_double_4.2.2.2.2 a3
  have a5 := drift_step false false path_double_5.1 path_double_5.2.1 path_double_5.2.2.1
    path_double_5.2.2.2.1 path_double_5.2.2.2.2 a4
  rw [a5]
  simp

/-- Along the path with the single steps the field `hash` ends equal to `zobrist()`. -/
theorem path_single_drift :
    (make_move_sq (make_move_sq (make_move_sq (make_move_sq (make_move_sq (board_of codes_pawn_sixth) 16 8) 4 12) 8 0) 12 20) 60 51).hash ^^^
      zobrist (make_move_sq (make_move_sq (make_move_sq (make_move_sq (make_move_sq (board_of codes_pawn_sixth) 16 8) 4 12) 8 0) 12 20) 60 51) = 0 := by
  have a0 : (board_of codes_pawn_sixth).hash ^^^ zobrist (board_of codes_pawn_sixth) = 0 := by
    rw [board_of_hash, Nat.xor_self]
  have a1 := drift_step false false path_single_1.1 path_single_1.2.1 path_single_1.2.2.1
    path_single_1.2.2.2.1 path_single_1.2.2.2.2 a0
  have a2 := drift_step false false path_single_2.1 path_single_2.2.1 path_single_2.2.2.1
    path_single_2.2.2.2.1 path_single_2.2.2.2.2 a1
  have a3 := drift_step false false path_single_3.1 path_single_3.2.1 path_single_3.2.2.1
    path_single_3.2.2.2.1 path_single_3.2.2.2.2 a2
  have a4 := drift_step false false path_single_4.1 path_single_4.2.1 path_single_4.2.2.1
    path_single_4.2.2.2.1 path_single_4.2.2.2.2 a3
  have a5 := drift_step false false path_single_5.1 path_single_5.2.1 path_single_5.2.2.1
    path_single_5.2.2.2.1 path_single_5.2.2.2.2 a4
  rw [a5]
  simp

set_option maxRecDepth 1000000 in
/-- The two paths end in the same placement with the same side to move and two-square flag,
and both are paths of moves that `generate_moves` yields in pseudo mode. -/
theorem paths_meet :
    (∀ i : Fin 64, (make_move_sq (make_move_sq (make_move_sq (make_move_sq (make_move_sq (board_of codes_pawn_sixth) 16 0) 4 12) 60 59) 12 20) 59 51).pieces i =
      (make_move_sq (make_move_sq (make_move_sq (make_move_sq (make_move_sq (board_of codes_pawn_sixth) 16 8) 4 12) 8 0) 12 20) 60 51).pieces i) ∧
    (make_move_sq (make_move_sq (make_move_sq (make_move_sq (make_move_sq (board_of codes_pawn_sixth) 16 0) 4 12) 60 59) 12 20) 59 51).side_to_move =
      (make_move_sq (make_move_sq (make_move_sq (make_move_sq (make_move_sq (board_of codes_pawn_sixth) 16 8) 4 12) 8 0) 12 20) 60 51).side_to_move ∧
    pawn_two_squares (make_move_sq (make_move_sq (make_move_sq (make_move_sq (make_move_sq (board_of codes_pawn_sixth) 16 0) 4 12) 60 59) 12 20) 59 51) =
      pawn_two_squares (make_move_sq (make_move_sq (make_move_sq (make_move_sq (make_move_sq (board_of codes_pawn_sixth) 16 8) 4 12) 8 0) 12 20) 60 51) := by
  decide!

theorem xor_eq_iff {x y k : Nat} (h : x ^^^ y = k) : x = y ^^^ k := by
  rw [← h, ← Nat.xor_assoc, Nat.xor_comm y x, Nat.xor_assoc, Nat.xor_self, Nat.xor_zero]

/-- C15 fails as stated: from the board with kings on e8 and e1 and a pawn of side 1 on a6
whose `has_moved` bit is clear, which has `hash == zobrist()` and an empty move stack, the
paths a6-a8, Ke8-e7, Ke1-d1, Ke7-e6, Kd1-d2 and a6-a7, Ke8-e7, a7-a8, Ke7-e6, Ke1-d2 end in
boards with the same `pieces`, the same `side_to_move` and the same two-square flag, but with
different `hash` fields. -/
theorem two_paths_hash_differs :
    (board_of codes_pawn_sixth).hash = zobrist (board_of codes_pawn_sixth) ∧
    (board_of codes_pawn_sixth).move_stack = [] ∧
    (∀ i : Fin 64, (replay (board_of codes_pawn_sixth) path_double).pieces i =
      (replay (board_of codes_pawn_sixth) path_single).pieces i) ∧
    (replay (board_of codes_pawn_sixth) path_double).side_to_move =
      (replay (board_of codes_pawn_sixth) path_single).side_to_move ∧
    pawn_two_squares (replay (board_of codes_pawn_sixth) path_double) =
      pawn_two_squares (replay (board_of codes_pawn_sixth) path_single) ∧
    (replay (board_of codes_pawn_sixth) path_double).hash ≠
      (replay (board_of codes_pawn_sixth) path_single).hash := by
  have e1 : replay (board_of codes_pawn_sixth) path_double =
      (make_move_sq (make_move_sq (make_move_sq (make_move_sq (make_move_sq (board_of codes_pawn_sixth) 16 0) 4 12) 60 59) 12 20) 59 51) := rfl
  have e2 : replay (board_of codes_pawn_sixth) path_single =
      (make_move_sq (make_move_sq (make_move_sq (make_move_sq (make_move_sq (board_of codes_pawn_sixth) 16 8) 4 12) 8 0) 12 20) 60 51) := rfl
  rw [e1, e2]
  refine ⟨board_of_hash _, rfl, paths_meet.1, paths_meet.2.1, paths_meet.2.2, fun h => ?_⟩
  have d1 := xor_eq_iff path_double_drift
  have d2 := xor_eq_iff path_single_drift
  have hz := zobrist_congr (fun i hi => paths_meet.1 ⟨i, hi⟩) paths_meet.2.1 paths_meet.2.2
  rw [d1, d2, hz, Nat.xor_zero] at h
  apply flag_key_ne_zero
  have := congrArg (fun t => zobrist (make_move_sq (make_move_sq (make_move_sq (make_move_sq (make_move_sq (board_of codes_pawn_sixth) 16 8) 4 12) 8 0) 12 20) 60 51) ^^^ t) h
  simpa [← Nat.xor_assoc] using this

/-- Along a path of moves that `generate_moves` yields in pseudo mode, a well-formed board
stays well formed and its `hash` stays equal to `zobrist()`. -/
theorem pseudo_path_ok :
    ∀ (p : List (Nat × Nat)) (b : chessboard), WF b → b.hash = zobrist b →
      pseudo_path b p = true →
      WF (replay b p) ∧ (replay b p).hash = zobrist (replay b p) := by
  intro p
  induction p with
  | nil => intro b wf hh _; exact ⟨wf, hh⟩
  | cons m rest ih =>
    intro b wf hh hp
    obtain ⟨o, d⟩ := m
    simp only [pseudo_path, Bool.and_eq_true] at hp
    have hs : b.side_to_move < 2 := by have := wf.stm; omega
    obtain ⟨_, _, ok, _⟩ := generated_ok wf hs hp.1
    exact ih _ (WF.make_move_sq wf ok) (hash_make_move_sq wf ok hh) hp.2

/-- C15, amended. Two-path hash equivalence on well-formed boards: for every well-formed
initial board (`WF`: the masks agree with `pieces` and the `has_moved` bits tell unmoved
pawns and kings from moved ones) with `hash == zobrist()`, if two sequences of moves, each
move yielded by `generate_moves` in pseudo mode for the side to move and made by
`make_move`, end in boards with identical `pieces`, identical `side_to_move` and the same
two-square flag, then the two resulting `hash` fields are equal. -/
theorem two_paths_same_hash (b : chessboard) (p q : List (Nat × Nat)) (wf : WF b)
    (hh : b.hash = zobrist b) (hp : pseudo_path b p = true) (hq : pseudo_path b q = true)
    (hpieces : ∀ i : Fin 64, (replay b p).pieces i = (replay b q).pieces i)
    (hside : (replay b p).side_to_move = (replay b q).side_to_move)
    (hflag : pawn_two_squares (replay b p) = pawn_two_squares (replay b q)) :
    (replay b p).hash = (replay b q).hash := by
  rw [(pseudo_path_ok p b wf hh hp).2, (pseudo_path_ok q b wf hh hq).2]
  exact zobrist_congr (fun i hi => hpieces ⟨i, hi⟩) hside hflag

set_option maxRecDepth 1000000 in
/-- The amended C15 on the standard initial position: g1-f3, g8-f6, f3-g1, f6-g8 against
g1-h3, g8-h6, h3-g1, h6-g8. -/
theorem two_paths_same_hash_witness :
    (replay standard_board [(62, 45), (6, 21), (45, 62), (21, 6)]).hash =
      (replay standard_board [(62, 47), (6, 23), (47, 62), (23, 6)]).hash :=
  two_paths_same_hash standard_board [(62, 45), (6, 21), (45, 62), (21, 6)]
    [(62, 47), (6, 23), (47, 62), (23, 6)] WF_standard (board_of_hash _) (by decide!)
    (by decide!) (by decide!) (by decide!) (by decide!)

/-! ## Frames of the generator loops -/

theorem legalize_step_pseudo (exit_on_legal : Bool) (side mask ind : Nat) (st : gen_state) :
    legalize_step true exit_on_legal side mask ind st = (false, st) := by
  unfold legalize_step
  rw [if_pos rfl]

theorem legalize_step_frame (pseudo exit_on_legal : Bool) (side mask ind : Nat) (st : gen_state)
    {o : Nat} (h : o ≠ ind) :
    (legalize_step pseudo exit_on_legal side mask ind st).2.matrices o = st.matrices o := by
  cases pseudo
  · unfold legalize_step
    simp only [Bool.false_eq_true, if_false]
    exact setAt_other _ _ h
  · rw [legalize_step_pseudo]

theorem pawn_loop_frame (last : chessmove) (side : Nat) (pseudo exit_on_legal : Bool)
    (mask theirs free : Nat) {o : Nat} :
    ∀ (l : List Nat) (st : gen_state), o ∉ l →
      (pawn_loop last side pseudo exit_on_legal mask theirs free l st).2.matrices o =
        st.matrices o := by
  intro l
  induction l with
  | nil => intro st _; rfl
  | cons ind rest ih =>
    intro st h
    have h1 : o ≠ ind := fun e => h (e ▸ List.mem_cons_self _ _)
    have h2 : o ∉ rest := fun e => h (List.mem_cons_of_mem _ e)
    have hf := legalize_step_frame pseudo exit_on_legal side mask ind
      { st with matrices := setAt st.matrices ind (pawn_moves st.board last side ind theirs free) } h1
    simp only [pawn_loop]
    split_ifs
    · exact hf.trans (setAt_other _ _ h1)
    · exact (ih _ h2).trans (hf.trans (setAt_other _ _ h1))

theorem sliding_loop_frame (side : Nat) (pseudo exit_on_legal : Bool)
    (mask all_pieces not_friendly type : Nat) {o : Nat} :
    ∀ (l : List Nat) (st : gen_state), o ∉ l →
      (sliding_loop side pseudo exit_on_legal mask all_pieces not_friendly type l st).2.matrices o =
        st.matrices o := by
  intro l
  induction l with
  | nil => intro st _; rfl
  | cons ind rest ih =>
    intro st h
    have h1 : o ≠ ind := fun e => h (e ▸ List.mem_cons_self _ _)
    have h2 : o ∉ rest := fun e => h (List.mem_cons_of_mem _ e)
    have hf := legalize_step_frame pseudo exit_on_legal side mask ind
      { st with matrices := setAt st.matrices ind (sliding_moves type ind all_pieces not_friendly) } h1
    simp only [sliding_loop]
    split_ifs
    · exact hf.trans (setAt_other _ _ h1)
    · exact (ih _ h2).trans (hf.trans (setAt_other _ _ h1))

theorem castle_step_frame (side : Nat) (pseudo exit_on_legal : Bool)
    (mask all_pieces relevant_rooks ind : Nat) (rx : Int) (corner dest : Nat) (st : gen_state)
    {o : Nat} (h : o ≠ ind) :
    (castle_step side pseudo exit_on_legal mask all_pieces relevant_rooks ind rx corner dest
      st).2.matrices o = st.matrices o := by
  unfold castle_step
  simp only []
  split_ifs
  · exact (legalize_step_frame pseudo exit_on_legal side mask ind _ h).trans (setAt_other _ _ h)
  · rfl
  · rfl

theorem castle_block_frame (side : Nat) (pseudo exit_on_legal : Bool)
    (mask our all_pieces ind : Nat) (st : gen_state) {o : Nat} (h : o ≠ ind) :
    (castle_block side pseudo exit_on_legal mask our all_pieces ind st).2.matrices o =
      st.matrices o := by
  unfold castle_block
  simp only []
  split_ifs
  · exact castle_step_frame _ _ _ _ _ _ _ _ _ _ _ h
  · exact (castle_step_frame _ _ _ _ _ _ _ _ _ _ _ h).trans
      (castle_step_frame _ _ _ _ _ _ _ _ _ _ _ h)
  · rfl

theorem jump_loop_frame (side : Nat) (pseudo exit_on_legal : Bool)
    (mask our all_pieces not_friendly type : Nat) {o : Nat} :
    ∀ (l : List Nat) (st : gen_state), o ∉ l →
      (jump_loop side pseudo exit_on_legal mask our all_pieces not_friendly type l st).2.matrices o =
        st.matrices o := by
  intro l
  induction l with
  | nil => intro st _; rfl
  | cons ind rest ih =>
    intro st h
    have h1 : o ≠ ind := fun e => h (e ▸ List.mem_cons_self _ _)
    have h2 : o ∉ rest := fun e => h (List.mem_cons_of_mem _ e)
    simp only [jump_loop]
    generalize hst1 : ({ st with
      matrices := setAt st.matrices ind (capture_masks ind type &&& not_friendly) } : gen_state) = st1
    have e1 : st1.matrices o = st.matrices o := by
      rw [← hst1]; exact setAt_other _ _ h1
    generalize hr2 : (if type = king then
      castle_block side pseudo exit_on_legal mask our all_pieces ind st1 else (false, st1)) = r2
    have e2 : r2.2.matrices o = st.matrices o := by
      rw [← hr2]
      split_ifs
      · exact (castle_block_frame _ _ _ _ _ _ _ _ h1).trans e1
      · exact e1
    have e3 := (legalize_step_frame pseudo exit_on_legal side mask ind r2.2 h1).trans e2
    split_ifs
    · exact e2
    · exact e3
    · exact (ih _ h2).trans e3

/-- In pseudo mode the pawn loop leaves the board alone and writes `pawn_moves` for each pawn
of its list. -/
theorem pawn_loop_pseudo (last : chessmove) (side : Nat) (exit_on_legal : Bool)
    (mask theirs free : Nat) :
    ∀ (l : List Nat) (st : gen_state),
      (pawn_loop last side true exit_on_legal mask theirs free l st).2.board = st.board ∧
      ∀ o, o ∈ l →
        (pawn_loop last side true exit_on_legal mask theirs free l st).2.matrices o =
          pawn_moves st.board last side o theirs free := by
  intro l
  induction l with
  | nil => intro st; exact ⟨rfl, fun o ho => absurd ho (List.not_mem_nil o)⟩
  | cons ind rest ih =>
    intro st
    obtain ⟨i1, i2⟩ := ih
      { st with matrices := setAt st.matrices ind (pawn_moves st.board last side ind theirs free) }
    have hfr := pawn_loop_frame last side true exit_on_legal mask theirs free (o := ind) rest
      { st with matrices := setAt st.matrices ind (pawn_moves st.board last side ind theirs free) }
    simp only [pawn_loop, legalize_step_pseudo, Bool.false_eq_true, if_false]
    refine ⟨i1, fun o ho => ?_⟩
    by_cases hr : o ∈ rest
    · exact i2 o hr
    · have : o = ind := by
        rcases List.mem_cons.1 ho with e | e
        · exact e
        · exact absurd e hr
      subst this
      rw [hfr hr]
      exact setAt_same _ _ _

theorem mem_of_own_mc {b : chessboard} {side t o : Nat}
    (mc : MC b.pieces b.side_sets b.piece_sets) (hs : side < 2)
    (h1 : 1 ≤ t) (h6 : t ≤ 6) (h : Own b side t o) :
    o ∈ set_bits (b.piece_sets t &&& b.side_sets side) := by
  obtain ⟨h64, ht, hsd, hp0⟩ := h
  rw [mem_set_bits, Nat.testBit_and, Bool.and_eq_true]
  exact ⟨h64, (mc.type t o h1 h6).2 ⟨h64, ht⟩, (mc.side side o hs).2 ⟨h64, hp0, hsd⟩⟩

theorem mem_of_own {b : chessboard} {side t o : Nat} (wf : WF b) (hs : side < 2)
    (h1 : 1 ≤ t) (h6 : t ≤ 6) (h : Own b side t o) :
    o ∈ set_bits (b.piece_sets t &&& b.side_sets side) :=
  mem_of_own_mc wf.mc hs h1 h6 h

/-! ## `any_moves` against the full generation -/

theorem legalize_step_state (exit_on_legal : Bool) (side mask ind : Nat) (st : gen_state) :
    (legalize_step false exit_on_legal side mask ind st).2 =
      (legalize_step false false side mask ind st).2 := by
  unfold legalize_step
  simp only [Bool.false_eq_true, if_false]

theorem legalize_step_noexit (side mask ind : Nat) (st : gen_state) :
    (legalize_step false false side mask ind st).1 = false := by
  unfold legalize_step
  simp only [Bool.false_eq_true, if_false, Bool.and_false]

theorem legalize_step_zero (side mask ind : Nat) (st : gen_state)
    (h : (legalize_step false true side mask ind st).1 = false) :
    (legalize_step false true side mask ind st).2.matrices ind = 0 := by
  unfold legalize_step at h ⊢
  simp only [Bool.false_eq_true, if_false, Bool.and_true, bne_eq_false_iff_eq] at h
  simp only [Bool.false_eq_true, if_false, setAt_same]
  exact h

theorem legalize_step_nonzero (side mask ind : Nat) (st : gen_state)
    (h : (legalize_step false true side mask ind st).1 = true) :
    (legalize_step false false side mask ind st).2.matrices ind ≠ 0 := by
  unfold legalize_step at h ⊢
  simp only [Bool.false_eq_true, if_false, Bool.and_true, bne_iff_ne, ne_eq] at h
  simp only [Bool.false_eq_true, if_false, setAt_same]
  exact h

/-- The bits that the legality filter leaves in an entry, on a well-formed board. -/
theorem legalize_step_exact {b : chessboard} (wf : WF b) (exit_on_legal : Bool)
    (side mask ind t : Nat) (st : gen_state) (hb : st.board = b)
    (hok : EntryOK b side t ind (st.matrices ind)) (j : Nat) :
    ((legalize_step false exit_on_legal side mask ind st).2.matrices ind).testBit j =
      (decide (j < 64) && (st.matrices ind &&& mask).testBit j && safe_sq b side ind j) := by
  unfold legalize_step
  simp only [Bool.false_eq_true, if_false, setAt_same]
  rw [hb]
  have hok2 : ∀ d, d < 64 → (st.matrices ind &&& mask).testBit d = true → MoveOK b ind d := by
    intro d _ hd
    rw [Nat.testBit_and, Bool.and_eq_true] at hd
    exact (hok d hd.1).1
  exact (legalize_spec side ind (st.matrices ind &&& mask) wf hok2).2 j

theorem Wit.filter {b : chessboard} (wf : WF b) (exit_on_legal : Bool)
    {side mask ind : Nat} (t : Nat) (st : gen_state) (hb : st.board = b)
    (hok : EntryOK b side t ind (st.matrices ind)) (h : Wit b side mask ind st) :
    Wit b side mask ind (legalize_step false exit_on_legal side mask ind st).2 := by
  obtain ⟨d, hd, h1, h2, h3⟩ := h
  refine ⟨d, hd, ?_, h2, h3⟩
  rw [legalize_step_exact wf exit_on_legal side mask ind t st hb hok, Nat.testBit_and, h1, h2, h3]
  simp [hd]

theorem Wit.of_exit {b : chessboard} (wf : WF b) {side mask ind : Nat} (t : Nat)
    (st : gen_state) (hb : st.board = b) (hok : EntryOK b side t ind (st.matrices ind))
    (h : (legalize_step false true side mask ind st).1 = true) :
    Wit b side mask ind (legalize_step false false side mask ind st).2 := by
  have hne := legalize_step_nonzero side mask ind st h
  obtain ⟨d, hd⟩ := Nat.ne_zero_implies_bit_true hne
  have he := legalize_step_exact wf false side mask ind t st hb hok d
  rw [hd] at he
  have he2 := he.symm
  simp only [Bool.and_eq_true, decide_eq_true_eq, Nat.testBit_and] at he2
  exact ⟨d, he2.1.1, hd, he2.1.2.2, he2.2⟩

theorem Wit.ne_zero {b : chessboard} {side mask ind : Nat} {st : gen_state}
    (h : Wit b side mask ind st) : st.matrices ind ≠ 0 := by
  obtain ⟨d, _, h1, _⟩ := h
  intro e
  rw [e] at h1
  simp at h1

theorem Wit.frame {b : chessboard} {side mask ind : Nat} {st st2 : gen_state}
    (h : Wit b side mask ind st) (e : st2.matrices ind = st.matrices ind) :
    Wit b side mask ind st2 := by
  obtain ⟨d, hd, h1, h2, h3⟩ := h
  exact ⟨d, hd, by rw [e]; exact h1, h2, h3⟩

/-! ### The runs with and without the early exit -/

theorem pawn_loop_noexit (last : chessmove) (side mask theirs free : Nat) :
    ∀ (l : List Nat) (st : gen_state),
      (pawn_loop last side false false mask theirs free l st).1 = false := by
  intro l
  induction l with
  | nil => intro st; rfl
  | cons ind rest ih =>
    intro st
    simp only [pawn_loop, legalize_step_noexit, Bool.false_eq_true, if_false]
    exact ih _

theorem sliding_loop_noexit (side mask all_pieces not_friendly type : Nat) :
    ∀ (l : List Nat) (st : gen_state),
      (sliding_loop side false false mask all_pieces not_friendly type l st).1 = false := by
  intro l
  induction l with
  | nil => intro st; rfl
  | cons ind rest ih =>
    intro st
    simp only [sliding_loop, legalize_step_noexit, Bool.false_eq_true, if_false]
    exact ih _

theorem castle_step_noexit (side mask all_pieces relevant_rooks ind : Nat) (rx : Int)
    (corner dest : Nat) (st : gen_state) :
    (castle_step side false false mask all_pieces relevant_rooks ind rx corner dest st).1 =
      false := by
  unfold castle_step
  simp only []
  split_ifs
  · exact legalize_step_noexit _ _ _ _
  · rfl
  · rfl

theorem castle_step_state (exit_on_legal : Bool) (side mask all_pieces relevant_rooks ind : Nat)
    (rx : Int) (corner dest : Nat) (st : gen_state) :
    (castle_step side false exit_on_legal mask all_pieces relevant_rooks ind rx corner dest st).2 =
      (castle_step side false false mask all_pieces relevant_rooks ind rx corner dest st).2 := by
  unfold castle_step
  simp only []
  split_ifs
  · exact legalize_step_state _ _ _ _ _
  · rfl
  · rfl

theorem castle_block_noexit (side mask our all_pieces ind : Nat) (st : gen_state) :
    (castle_block side false false mask our all_pieces ind st).1 = false := by
  unfold castle_block
  simp only [castle_step_noexit, Bool.false_eq_true, if_false]
  split_ifs
  · exact castle_step_noexit _ _ _ _ _ _ _ _ _
  · rfl

theorem castle_block_same (side mask our all_pieces ind : Nat) (st : gen_state)
    (h : (castle_block side false true mask our all_pieces ind st).1 = false) :
    (castle_block side false true mask our all_pieces ind st).2 =
      (castle_block side false false mask our all_pieces ind st).2 := by
  unfold castle_block at h ⊢
  simp only [castle_step_noexit, Bool.false_eq_true, if_false] at h ⊢
  split_ifs at h ⊢ with c1 c2
  · rw [c2] at h; exact absurd h (by simp)
  · rw [castle_step_state true, castle_step_state true side mask all_pieces _ ind 0]
  · rfl

/-- A loop of the generator run with the early exit that does not take it ends in the state
of the run without the early exit, and leaves an empty array empty. -/
theorem pawn_loop_same (last : chessmove) (side mask theirs free : Nat) :
    ∀ (l : List Nat) (st : gen_state),
      (pawn_loop last side false true mask theirs free l st).1 = false →
      (pawn_loop last side false true mask theirs free l st).2 =
        (pawn_loop last side false false mask theirs free l st).2 ∧
      (AllZero st → AllZero (pawn_loop last side false true mask theirs free l st).2) := by
  intro l
  induction l with
  | nil => intro st _; exact ⟨rfl, fun h => h⟩
  | cons ind rest ih =>
    intro st h
    simp only [pawn_loop, legalize_step_noexit, Bool.false_eq_true, if_false] at h ⊢
    generalize hst1 : ({ st with
      matrices := setAt st.matrices ind (pawn_moves st.board last side ind theirs free) }
        : gen_state) = st1 at h ⊢
    by_cases hf : (legalize_step false true side mask ind st1).1 = true
    · rw [if_pos hf] at h; exact absurd h (by simp)
    · rw [if_neg hf] at h ⊢
      rw [← legalize_step_state true]
      obtain ⟨i1, i2⟩ := ih _ h
      refine ⟨i1, fun hz => i2 (fun o => ?_)⟩
      by_cases e : o = ind
      · rw [e]; exact legalize_step_zero side mask ind st1 (by simpa using hf)
      · rw [legalize_step_frame false true side mask ind st1 e, ← hst1]
        exact (setAt_other _ _ e).trans (hz o)

theorem sliding_loop_same (side mask all_pieces not_friendly type : Nat) :
    ∀ (l : List Nat) (st : gen_state),
      (sliding_loop side false true mask all_pieces not_friendly type l st).1 = false →
      (sliding_loop side false true mask all_pieces not_friendly type l st).2 =
        (sliding_loop side false false mask all_pieces not_friendly type l st).2 ∧
      (AllZero st →
        AllZero (sliding_loop side false true mask all_pieces not_friendly type l st).2) := by
  intro l
  induction l with
  | nil => intro st _; exact ⟨rfl, fun h => h⟩
  | cons ind rest ih =>
    intro st h
    simp only [sliding_loop, legalize_step_noexit, Bool.false_eq_true, if_false] at h ⊢
    generalize hst1 : ({ st with
      matrices := setAt st.matrices ind (sliding_moves type ind all_pieces not_friendly) }
        : gen_state) = st1 at h ⊢
    by_cases hf : (legalize_step false true side mask ind st1).1 = true
    · rw [if_pos hf] at h; exact absurd h (by simp)
    · rw [if_neg hf] at h ⊢
      rw [← legalize_step_state true]
      obtain ⟨i1, i2⟩ := ih _ h
      refine ⟨i1, fun hz => i2 (fun o => ?_)⟩
      by_cases e : o = ind
      · rw [e]; exact legalize_step_zero side mask ind st1 (by simpa using hf)
      · rw [legalize_step_frame false true side mask ind st1 e, ← hst1]
        exact (setAt_other _ _ e).trans (hz o)

theorem jump_loop_false_cons (side mask our all_pieces not_friendly type ind : Nat)
    (rest : List Nat) (st : gen_state) :
    jump_loop side false false mask our all_pieces not_friendly type (ind :: rest) st =
      jump_loop side false false mask our all_pieces not_friendly type rest
        (legalize_step false false side mask ind
          (if type = king then
            castle_block side false false mask our all_pieces ind
              { st with matrices := setAt st.matrices ind (capture_masks ind type &&& not_friendly) }
          else
            (false, { st with
              matrices := setAt st.matrices ind (capture_masks ind type &&& not_friendly) })).2).2 := by
  simp only [jump_loop]
  have e : (if type = king then
      castle_block side false false mask our all_pieces ind
        { st with matrices := setAt st.matrices ind (capture_masks ind type &&& not_friendly) }
      else
        (false, { st with
          matrices := setAt st.matrices ind (capture_masks ind type &&& not_friendly) })).1 =
      false := by
    split_ifs
    · exact castle_block_noexit _ _ _ _ _ _
    · rfl
  rw [if_neg (by rw [e]; simp), if_neg (by rw [legalize_step_noexit]; simp)]

theorem jump_loop_noexit (side mask our all_pieces not_friendly type : Nat) :
    ∀ (l : List Nat) (st : gen_state),
      (jump_loop side false false mask our all_pieces not_friendly type l st).1 = false := by
  intro l
  induction l with
  | nil => intro st; rfl
  | cons ind rest ih =>
    intro st
    rw [jump_loop_false_cons]
    exact ih _

theorem jump_loop_same (side mask our all_pieces not_friendly type : Nat) :
    ∀ (l : List Nat) (st : gen_state),
      (jump_loop side false true mask our all_pieces not_friendly type l st).1 = false →
      (jump_loop side false true mask our all_pieces not_friendly type l st).2 =
        (jump_loop side false false mask our all_pieces not_friendly type l st).2 ∧
      (AllZero st →
        AllZero (jump_loop side false true mask our all_pieces not_friendly type l st).2) := by
  intro l
  induction l with
  | nil => intro st _; exact ⟨rfl, fun h => h⟩
  | cons ind rest ih =>
    intro st h
    rw [jump_loop_false_cons]
    simp only [jump_loop] at h ⊢
    generalize hst1 : ({ st with
      matrices := setAt st.matrices ind (capture_masks ind type &&& not_friendly) }
        : gen_state) = st1 at h ⊢
    generalize hr2 : (if type = king then
      castle_block side false true mask our all_pieces ind st1 else (false, st1)) = r2 at h ⊢
    by_cases h2 : r2.1 = true
    · rw [if_pos h2] at h; exact absurd (h2.symm.trans h) (by simp)
    have e2 : (if type = king then
        castle_block side false false mask our all_pieces ind st1 else (false, st1)).2 = r2.2 := by
      rw [← hr2] at h2 ⊢
      split_ifs at h2 ⊢
      · exact (castle_block_same _ _ _ _ _ _ (by simpa using h2)).symm
      · rfl
    have f2 : ∀ o, o ≠ ind → r2.2.matrices o = st.matrices o := by
      intro o ho
      rw [← hr2]
      split_ifs
      · rw [castle_block_frame _ _ _ _ _ _ _ _ ho, ← hst1]; exact setAt_other _ _ ho
      · rw [← hst1]; exact setAt_other _ _ ho
    rw [if_neg h2] at h
    rw [if_neg h2, e2]
    by_cases hf : (legalize_step false true side mask ind r2.2).1 = true
    · rw [if_pos hf] at h; exact absurd (hf.symm.trans h) (by simp)
    · rw [if_neg hf] at h ⊢
      rw [← legalize_step_state true]
      obtain ⟨i1, i2⟩ := ih _ h
      refine ⟨i1, fun hz => i2 (fun o => ?_)⟩
      by_cases e : o = ind
      · rw [e]; exact legalize_step_zero side mask ind r2.2 (by simpa using hf)
      · rw [legalize_step_frame false true side mask ind r2.2 e, f2 o e]
        exact hz o

/-! ### A move found by the run with the early exit is in the full run -/

theorem pawn_loop_wit {b : chessboard} {side : Nat} (wf : WF b) (hs : side < 2)
    (mask : Nat) (M0 : Nat → Nat) :
    ∀ (l : List Nat) (st : gen_state), l.Nodup → (∀ i, i ∈ l → Own b side 6 i) →
      GInv b side false M0 st →
      (pawn_loop (last_move b) side false true mask (b.side_sets (side ^^^ 1))
        (not64 (b.side_sets 0 ||| b.side_sets 1)) l st).1 = true →
      ∃ o, o ∈ l ∧ Wit b side mask o
        (pawn_loop (last_move b) side false false mask (b.side_sets (side ^^^ 1))
          (not64 (b.side_sets 0 ||| b.side_sets 1)) l st).2 := by
  intro l
  induction l with
  | nil => intro st _ _ _ h; exact absurd h (by simp [pawn_loop])
  | cons ind rest ih =>
    intro st hn hl h hT
    have ho := hl ind (List.mem_cons_self _ _)
    obtain ⟨hni, hnr⟩ := List.nodup_cons.1 hn
    have hv : EntryOK b side 6 ind (pawn_moves b (last_move b) side ind (b.side_sets (side ^^^ 1))
        (not64 (b.side_sets 0 ||| b.side_sets 1))) :=
      fun d hd => ⟨pawn_moves_ok (last_move b) wf hs ho hd, fun _ => hd⟩
    have hrF := GInv.round wf false mask _ h ho hv
    simp only [pawn_loop, legalize_step_noexit, Bool.false_eq_true, if_false] at hT ⊢
    rw [h.1] at hT ⊢
    by_cases hf : (legalize_step false true side mask ind
        { matrices := setAt st.matrices ind (pawn_moves b (last_move b) side ind
            (b.side_sets (side ^^^ 1)) (not64 (b.side_sets 0 ||| b.side_sets 1))),
          board := b }).1 = true
    · have w := Wit.of_exit wf 6 ({ matrices := setAt st.matrices ind (pawn_moves b
          (last_move b) side ind (b.side_sets (side ^^^ 1))
            (not64 (b.side_sets 0 ||| b.side_sets 1))), board := b }) rfl
        (by simpa using hv) hf
      exact ⟨ind, List.mem_cons_self _ _, w.frame (pawn_loop_frame _ _ _ _ _ _ _ rest _ hni)⟩
    · rw [if_neg hf, legalize_step_state true] at hT
      rw [h.1] at hrF
      obtain ⟨o, ho2, w⟩ := ih _ hnr (fun i hi => hl i (List.mem_cons_of_mem _ hi)) hrF hT
      exact ⟨o, List.mem_cons_of_mem _ ho2, w⟩

theorem sliding_loop_wit {b : chessboard} {side t : Nat} (wf : WF b) (hs : side < 2)
    (ht : t = bishop ∨ t = rook ∨ t = queen) (mask : Nat) (M0 : Nat → Nat) :
    ∀ (l : List Nat) (st : gen_state), l.Nodup → (∀ i, i ∈ l → Own b side t i) →
      GInv b side false M0 st →
      (sliding_loop side false true mask (b.side_sets 0 ||| b.side_sets 1)
        (not64 (b.side_sets 0 ||| b.side_sets 1) ||| b.side_sets (side ^^^ 1)) t l st).1 = true →
      ∃ o, o ∈ l ∧ Wit b side mask o
        (sliding_loop side false false mask (b.side_sets 0 ||| b.side_sets 1)
          (not64 (b.side_sets 0 ||| b.side_sets 1) ||| b.side_sets (side ^^^ 1)) t l st).2 := by
  intro l
  induction l with
  | nil => intro st _ _ _ h; exact absurd h (by simp [sliding_loop])
  | cons ind rest ih =>
    intro st hn hl h hT
    have ho := hl ind (List.mem_cons_self _ _)
    obtain ⟨hni, hnr⟩ := List.nodup_cons.1 hn
    have h6 : t ≠ 6 := by
      rcases ht with e | e | e <;> rw [e] <;> decide
    have hv : EntryOK b side t ind (sliding_moves t ind (b.side_sets 0 ||| b.side_sets 1)
        (not64 (b.side_sets 0 ||| b.side_sets 1) ||| b.side_sets (side ^^^ 1))) :=
      fun d hd => ⟨sliding_raw_ok wf hs ho ht hd, fun e => absurd e h6⟩
    have hrF := GInv.round wf false mask _ h ho hv
    simp only [sliding_loop, legalize_step_noexit, Bool.false_eq_true, if_false] at hT ⊢
    by_cases hf : (legalize_step false true side mask ind
        { st with matrices := setAt st.matrices ind (sliding_moves t ind
            (b.side_sets 0 ||| b.side_sets 1)
            (not64 (b.side_sets 0 ||| b.side_sets 1) ||| b.side_sets (side ^^^ 1))) }).1 = true
    · have w := Wit.of_exit wf t ({ st with matrices := setAt st.matrices ind (sliding_moves
          t ind (b.side_sets 0 ||| b.side_sets 1)
            (not64 (b.side_sets 0 ||| b.side_sets 1) ||| b.side_sets (side ^^^ 1))) }) h.1
        (by simpa using hv) hf
      exact ⟨ind, List.mem_cons_self _ _, w.frame (sliding_loop_frame _ _ _ _ _ _ _ rest _ hni)⟩
    · rw [if_neg hf, legalize_step_state true] at hT
      obtain ⟨o, ho2, w⟩ := ih _ hnr (fun i hi => hl i (List.mem_cons_of_mem _ hi)) hrF hT
      exact ⟨o, List.mem_cons_of_mem _ ho2, w⟩

theorem castle_step_wit {b : chessboard} (wf : WF b) (side : Nat)
    (mask relevant_rooks ind : Nat) (rx : Int) (corner dest : Nat) (st : gen_state)
    (hb : st.board = b) (hok : EntryOK b side 1 ind (st.matrices ind))
    (hcc : (relevant_rooks &&& corner != 0) = true →
      (can_castle b side (b.side_sets 0 ||| b.side_sets 1) ((ind &&& 7 : Nat) : Int)
        ((ind >>> 3 : Nat) : Int) rx ((ind >>> 3 : Nat) : Int)).2 = b ∧
      ((can_castle b side (b.side_sets 0 ||| b.side_sets 1) ((ind &&& 7 : Nat) : Int)
        ((ind >>> 3 : Nat) : Int) rx ((ind >>> 3 : Nat) : Int)).1 = true →
        ∃ d, dest = shl64 1 d ∧ MoveOK b ind d)) :
    ((castle_step side false true mask (b.side_sets 0 ||| b.side_sets 1) relevant_rooks
        ind rx corner dest st).1 = true →
      Wit b side mask ind
        (castle_step side false false mask (b.side_sets 0 ||| b.side_sets 1) relevant_rooks
          ind rx corner dest st).2) ∧
    (Wit b side mask ind st →
      Wit b side mask ind
        (castle_step side false false mask (b.side_sets 0 ||| b.side_sets 1) relevant_rooks
          ind rx corner dest st).2) := by
  unfold castle_step
  by_cases hr : (relevant_rooks &&& corner != 0) = true
  · simp only [hr, if_true]
    rw [hb]
    obtain ⟨c1, c2⟩ := hcc hr
    by_cases hc : (can_castle b side (b.side_sets 0 ||| b.side_sets 1) ((ind &&& 7 : Nat) : Int)
        ((ind >>> 3 : Nat) : Int) rx ((ind >>> 3 : Nat) : Int)).1 = true
    · simp only [hc, if_true]
      rw [c1]
      obtain ⟨d, hd, hmv⟩ := c2 hc
      have hok2 : EntryOK b side 1 ind
          (({ matrices := setAt st.matrices ind (st.matrices ind ||| dest), board := b }
            : gen_state).matrices ind) := by
        simp only [setAt_same]
        rw [hd]
        exact hok.or_bit (by decide) hmv
      refine ⟨fun hf => Wit.of_exit wf 1 _ rfl hok2 hf, fun w => ?_⟩
      refine Wit.filter wf false 1 _ rfl hok2 ?_
      obtain ⟨j, hj, h1, h2, h3⟩ := w
      refine ⟨j, hj, ?_, h2, h3⟩
      simp only [setAt_same, Nat.testBit_or, h1, Bool.true_or]
    · simp only [hc]
      exact ⟨fun h => absurd h (by simp), fun w => w.frame rfl⟩
  · simp only [hr]
    exact ⟨fun h => absurd h (by simp), fun w => w⟩

theorem castle_block_wit {b : chessboard} (wf : WF b) {side : Nat} (hs : side < 2)
    (mask ind : Nat) (st : gen_state)
    (hb : st.board = b) (ho : Own b side 1 ind) (hok : EntryOK b side 1 ind (st.matrices ind))
    (hT : (castle_block side false true mask (b.side_sets side)
      (b.side_sets 0 ||| b.side_sets 1) ind st).1 = true) :
    Wit b side mask ind
      (castle_block side false false mask (b.side_sets side)
        (b.side_sets 0 ||| b.side_sets 1) ind st).2 := by
  unfold castle_block at hT ⊢
  simp only [hb, castle_step_noexit, Bool.false_eq_true, if_false] at hT ⊢
  by_cases hc : (!in_check b side) = true
  · simp only [if_pos hc] at hT ⊢
    have hl : (b.side_sets side &&& b.piece_sets rook &&& shl64 1 (8 * (ind >>> 3)) != 0) = true →
        (can_castle b side (b.side_sets 0 ||| b.side_sets 1) ((ind &&& 7 : Nat) : Int)
          ((ind >>> 3 : Nat) : Int) 0 ((ind >>> 3 : Nat) : Int)).2 = b ∧
        ((can_castle b side (b.side_sets 0 ||| b.side_sets 1) ((ind &&& 7 : Nat) : Int)
          ((ind >>> 3 : Nat) : Int) 0 ((ind >>> 3 : Nat) : Int)).1 = true →
          ∃ d, shl64 1 ((ind + 2 ^ 32 - 2) % 2 ^ 32) = shl64 1 d ∧ MoveOK b ind d) := fun hr => by
      obtain ⟨c1, c2⟩ := can_castle_left_spec wf hs ho hr
      refine ⟨c1, fun h => ?_⟩
      obtain ⟨h2, hmv, _⟩ := c2 h
      refine ⟨ind - 2, ?_, hmv⟩
      have : (ind + 2 ^ 32 - 2) % 2 ^ 32 = ind - 2 := by
        have := ho.1
        omega
      rw [this]
    have hrt : (b.side_sets side &&& b.piece_sets rook &&& shl64 1 (7 + 8 * (ind >>> 3)) != 0) = true →
        (can_castle b side (b.side_sets 0 ||| b.side_sets 1) ((ind &&& 7 : Nat) : Int)
          ((ind >>> 3 : Nat) : Int) 7 ((ind >>> 3 : Nat) : Int)).2 = b ∧
        ((can_castle b side (b.side_sets 0 ||| b.side_sets 1) ((ind &&& 7 : Nat) : Int)
          ((ind >>> 3 : Nat) : Int) 7 ((ind >>> 3 : Nat) : Int)).1 = true →
          ∃ d, shl64 1 ((ind + 2) % 2 ^ 32) = shl64 1 d ∧ MoveOK b ind d) := fun hr => by
      obtain ⟨c1, c2⟩ := can_castle_right_spec wf hs ho hr
      refine ⟨c1, fun h => ?_⟩
      obtain ⟨hmv, _⟩ := c2 h
      refine ⟨ind + 2, ?_, hmv⟩
      have : (ind + 2) % 2 ^ 32 = ind + 2 := by
        have := ho.1
        omega
      rw [this]
    have s1 := castle_step_spec wf side false false mask
      (b.side_sets side &&& b.piece_sets rook) ind 0 (shl64 1 (8 * (ind >>> 3)))
      (shl64 1 ((ind + 2 ^ 32 - 2) % 2 ^ 32)) st hb hok hl
    have w1 := castle_step_wit wf side mask
      (b.side_sets side &&& b.piece_sets rook) ind 0 (shl64 1 (8 * (ind >>> 3)))
      (shl64 1 ((ind + 2 ^ 32 - 2) % 2 ^ 32)) st hb hok hl
    have w2 := castle_step_wit wf side mask
      (b.side_sets side &&& b.piece_sets rook) ind 7 (shl64 1 (7 + 8 * (ind >>> 3)))
      (shl64 1 ((ind + 2) % 2 ^ 32)) _ s1.1 s1.2.2.1 hrt
    by_cases h1 : (castle_step side false true mask (b.side_sets 0 ||| b.side_sets 1)
        (b.side_sets side &&& b.piece_sets rook) ind 0 (shl64 1 (8 * (ind >>> 3)))
        (shl64 1 ((ind + 2 ^ 32 - 2) % 2 ^ 32)) st).1 = true
    · exact w2.2 (w1.1 h1)
    · rw [if_neg h1, castle_step_state true] at hT
      exact w2.1 hT
  · simp only [if_neg hc] at hT
    exact absurd hT (by simp)

theorem jump_loop_wit {b : chessboard} {side t : Nat} (wf : WF b) (hs : side < 2)
    (ht : t = knight ∨ t = king) (mask : Nat) (M0 : Nat → Nat) :
    ∀ (l : List Nat) (st : gen_state), l.Nodup → (∀ i, i ∈ l → Own b side t i) →
      GInv b side false M0 st →
      (jump_loop side false true mask (b.side_sets side) (b.side_sets 0 ||| b.side_sets 1)
        (not64 (b.side_sets 0 ||| b.side_sets 1) ||| b.side_sets (side ^^^ 1)) t l st).1 = true →
      ∃ o, o ∈ l ∧ Wit b side mask o
        (jump_loop side false false mask (b.side_sets side) (b.side_sets 0 ||| b.side_sets 1)
          (not64 (b.side_sets 0 ||| b.side_sets 1) ||| b.side_sets (side ^^^ 1)) t l st).2 := by
  intro l
  induction l with
  | nil => intro st _ _ _ h; exact absurd h (by simp [jump_loop])
  | cons ind rest ih =>
    intro st hn hl h hT
    have ho := hl ind (List.mem_cons_self _ _)
    obtain ⟨hni, hnr⟩ := List.nodup_cons.1 hn
    have hlr : ∀ i, i ∈ rest → Own b side t i := fun i hi => hl i (List.mem_cons_of_mem _ hi)
    have h6 : t ≠ 6 := by
      rcases ht with e | e <;> rw [e] <;> decide
    have hv : EntryOK b side t ind (capture_masks ind t &&&
        (not64 (b.side_sets 0 ||| b.side_sets 1) ||| b.side_sets (side ^^^ 1))) :=
      fun d hd => ⟨jump_raw_ok wf hs ho ht hd, fun e => absurd e h6⟩
    rw [jump_loop_false_cons]
    simp only [jump_loop] at hT
    -- what is left to do once the castling block is through
    have key : ∀ rT rF : Bool × gen_state, rF.2.board = b →
        (∀ o, o ≠ ind → rF.2.matrices o = st.matrices o) →
        EntryOK b side t ind (rF.2.matrices ind) →
        (rT.1 = true → Wit b side mask ind rF.2) → (rT.1 = false → rT.2 = rF.2) →
        (if rT.1 = true then rT
          else if (legalize_step false true side mask ind rT.2).1 = true then
            legalize_step false true side mask ind rT.2
          else jump_loop side false true mask (b.side_sets side)
            (b.side_sets 0 ||| b.side_sets 1)
            (not64 (b.side_sets 0 ||| b.side_sets 1) ||| b.side_sets (side ^^^ 1)) t rest
            (legalize_step false true side mask ind rT.2).2).1 = true →
        ∃ o, o ∈ ind :: rest ∧ Wit b side mask o
          (jump_loop side false false mask (b.side_sets side) (b.side_sets 0 ||| b.side_sets 1)
            (not64 (b.side_sets 0 ||| b.side_sets 1) ||| b.side_sets (side ^^^ 1)) t rest
            (legalize_step false false side mask ind rF.2).2).2 := by
      intro rT rF k1 k2 k3 k4 k5 hT2
      have hs2 := legalize_step_spec wf false false side mask ind t rF.2 k1 k3
      have g : GInv b side false M0 (legalize_step false false side mask ind rF.2).2 :=
        h.write hs2.1 (fun o ho2 => by rw [hs2.2.1 o ho2, k2 o ho2]) ho hs2.2.2.1 hs2.2.2.2
      by_cases e1 : rT.1 = true
      · have w := Wit.filter wf false t rF.2 k1 k3 (k4 e1)
        exact ⟨ind, List.mem_cons_self _ _, w.frame (jump_loop_frame _ _ _ _ _ _ _ _ rest _ hni)⟩
      · rw [if_neg e1, k5 (by simpa using e1)] at hT2
        by_cases hf : (legalize_step false true side mask ind rF.2).1 = true
        · have w := Wit.of_exit wf t rF.2 k1 k3 hf
          exact ⟨ind, List.mem_cons_self _ _,
            w.frame (jump_loop_frame _ _ _ _ _ _ _ _ rest _ hni)⟩
        · rw [if_neg hf, legalize_step_state true] at hT2
          obtain ⟨o, ho2, w⟩ := ih _ hnr hlr g hT2
          exact ⟨o, List.mem_cons_of_mem _ ho2, w⟩
    by_cases hk : t = king
    · subst hk
      simp only [if_true] at hT ⊢
      have hv2 : EntryOK b side king ind (({ st with matrices := setAt st.matrices ind (capture_masks
          ind king &&& (not64 (b.side_sets 0 ||| b.side_sets 1) ||| b.side_sets (side ^^^ 1))) }
            : gen_state).matrices ind) := by simpa using hv
      have cb := castle_block_spec wf hs false false mask ind
        { st with matrices := setAt st.matrices ind (capture_masks ind king &&&
          (not64 (b.side_sets 0 ||| b.side_sets 1) ||| b.side_sets (side ^^^ 1))) }
        h.1 ho hv2
      refine key _ _ cb.1 (fun o ho2 => ?_) cb.2.2.1
        (fun hf => castle_block_wit wf hs mask ind _ h.1 ho hv2 hf)
        (fun hf => castle_block_same _ _ _ _ _ _ hf) hT
      rw [cb.2.1 o ho2]
      exact setAt_other _ _ ho2
    · simp only [hk, if_false] at hT ⊢
      exact key (false, _) (false, _) h.1 (fun o ho2 => setAt_other _ _ ho2) (by simpa using hv)
        (fun hf => absurd hf (by simp)) (fun _ => rfl) hT

/-! ### The six loops in a row -/

theorem set_bits_nodup (s : Nat) : (set_bits s).Nodup := by
  unfold set_bits
  exact (List.nodup_range 64).filter _

theorem run_stage_spec {b : chessboard} {side : Nat} (wf : WF b) (hs : side < 2)
    (mask : Nat) (exit_on_legal : Bool) (M0 : Nat → Nat) {t : Nat} (h1 : 1 ≤ t) (h6 : t ≤ 6)
    {st : gen_state} (h : GInv b side false M0 st) :
    GInv b side false M0 (run_stage b side mask exit_on_legal t st).2 := by
  have own : ∀ i, i ∈ set_bits (b.piece_sets t &&& b.side_sets side) → Own b side t i :=
    fun i hi => own_of_mem wf hs h1 h6 hi
  unfold run_stage
  split_ifs with c1 c2
  · subst c1
    exact pawn_loop_spec wf hs false exit_on_legal mask M0 _ _ own h
  · exact jump_loop_spec wf hs c2 false exit_on_legal mask M0 _ _ own h
  · have ht : t = bishop ∨ t = rook ∨ t = queen := by
      have p : pawn = 6 := rfl
      have n : knight = 4 := rfl
      have k : king = 1 := rfl
      have bi : bishop = 3 := rfl
      have r : rook = 5 := rfl
      have q : queen = 2 := rfl
      omega
    exact sliding_loop_spec wf hs ht false exit_on_legal mask M0 _ _ own h

theorem run_stage_noexit (b : chessboard) (side mask t : Nat) (st : gen_state) :
    (run_stage b side mask false t st).1 = false := by
  unfold run_stage
  split_ifs
  · exact pawn_loop_noexit _ _ _ _ _ _ _
  · exact jump_loop_noexit _ _ _ _ _ _ _ _
  · exact sliding_loop_noexit _ _ _ _ _ _ _

theorem run_stage_same (b : chessboard) (side mask t : Nat) (st : gen_state)
    (h : (run_stage b side mask true t st).1 = false) :
    (run_stage b side mask true t st).2 = (run_stage b side mask false t st).2 ∧
    (AllZero st → AllZero (run_stage b side mask true t st).2) := by
  unfold run_stage at h ⊢
  split_ifs at h ⊢
  · exact pawn_loop_same _ _ _ _ _ _ _ h
  · exact jump_loop_same _ _ _ _ _ _ _ _ h
  · exact sliding_loop_same _ _ _ _ _ _ _ h

theorem run_stage_frame {b : chessboard} {side : Nat} (wf : WF b) (hs : side < 2)
    (mask : Nat) (exit_on_legal : Bool) {t u o : Nat} (h1 : 1 ≤ t) (h6 : t ≤ 6)
    (ho : Own b side u o) (hne : u ≠ t) (st : gen_state) :
    (run_stage b side mask exit_on_legal t st).2.matrices o = st.matrices o := by
  have nm : o ∉ set_bits (b.piece_sets t &&& b.side_sets side) :=
    fun hm => hne (ho.2.1.symm.trans (own_of_mem wf hs h1 h6 hm).2.1)
  unfold run_stage
  split_ifs with c1
  · subst c1
    exact pawn_loop_frame _ _ _ _ _ _ _ _ _ nm
  · exact jump_loop_frame _ _ _ _ _ _ _ _ _ _ nm
  · exact sliding_loop_frame _ _ _ _ _ _ _ _ _ nm

theorem run_stage_wit {b : chessboard} {side : Nat} (wf : WF b) (hs : side < 2)
    (mask : Nat) (M0 : Nat → Nat) {t : Nat} (h1 : 1 ≤ t) (h6 : t ≤ 6)
    {st : gen_state} (h : GInv b side false M0 st)
    (hT : (run_stage b side mask true t st).1 = true) :
    ∃ o, Own b side t o ∧ Wit b side mask o (run_stage b side mask false t st).2 := by
  have own : ∀ i, i ∈ set_bits (b.piece_sets t &&& b.side_sets side) → Own b side t i :=
    fun i hi => own_of_mem wf hs h1 h6 hi
  unfold run_stage at hT ⊢
  split_ifs at hT ⊢ with c1 c2
  · subst c1
    obtain ⟨o, ho, w⟩ := pawn_loop_wit wf hs mask M0 _ _ (set_bits_nodup _) own h hT
    exact ⟨o, own o ho, w⟩
  · obtain ⟨o, ho, w⟩ := jump_loop_wit wf hs c2 mask M0 _ _ (set_bits_nodup _) own h hT
    exact ⟨o, own o ho, w⟩
  · have ht : t = bishop ∨ t = rook ∨ t = queen := by
      have p : pawn = 6 := rfl
      have n : knight = 4 := rfl
      have k : king = 1 := rfl
      have bi : bishop = 3 := rfl
      have r : rook = 5 := rfl
      have q : queen = 2 := rfl
      omega
    obtain ⟨o, ho, w⟩ := sliding_loop_wit wf hs ht mask M0 _ _ (set_bits_nodup _) own h hT
    exact ⟨o, own o ho, w⟩

theorem cascade_noexit (b : chessboard) (side mask : Nat) :
    ∀ (ts : List Nat) (st : gen_state), (cascade b side mask false ts st).1 = false := by
  intro ts
  induction ts with
  | nil => intro st; rfl
  | cons t ts ih =>
    intro st
    simp only [cascade, run_stage_noexit, Bool.false_eq_true, if_false]
    exact ih _

theorem cascade_false_cons (b : chessboard) (side mask t : Nat) (ts : List Nat)
    (st : gen_state) :
    cascade b side mask false (t :: ts) st =
      cascade b side mask false ts (run_stage b side mask false t st).2 := by
  simp only [cascade, run_stage_noexit, Bool.false_eq_true, if_false]

theorem cascade_same (b : chessboard) (side mask : Nat) :
    ∀ (ts : List Nat) (st : gen_state), (cascade b side mask true ts st).1 = false →
      (cascade b side mask true ts st).2 = (cascade b side mask false ts st).2 ∧
      (AllZero st → AllZero (cascade b side mask true ts st).2) := by
  intro ts
  induction ts with
  | nil => intro st _; exact ⟨rfl, fun h => h⟩
  | cons t ts ih =>
    intro st h
    rw [cascade_false_cons]
    simp only [cascade] at h ⊢
    by_cases hf : (run_stage b side mask true t st).1 = true
    · rw [if_pos hf] at h; exact absurd (hf.symm.trans h) (by simp)
    · rw [if_neg hf] at h ⊢
      obtain ⟨s1, s2⟩ := run_stage_same b side mask t st (by simpa using hf)
      rw [← s1]
      obtain ⟨i1, i2⟩ := ih _ h
      exact ⟨i1, fun hz => i2 (s2 hz)⟩

theorem cascade_frame {b : chessboard} {side : Nat} (wf : WF b) (hs : side < 2)
    (mask : Nat) {u o : Nat} (ho : Own b side u o) :
    ∀ (ts : List Nat) (st : gen_state), (∀ t, t ∈ ts → 1 ≤ t ∧ t ≤ 6 ∧ u ≠ t) →
      (cascade b side mask false ts st).2.matrices o = st.matrices o := by
  intro ts
  induction ts with
  | nil => intro st _; rfl
  | cons t ts ih =>
    intro st h
    obtain ⟨h1, h6, hne⟩ := h t (List.mem_cons_self _ _)
    rw [cascade_false_cons, ih _ (fun t2 ht2 => h t2 (List.mem_cons_of_mem _ ht2))]
    exact run_stage_frame wf hs mask false h1 h6 ho hne st

theorem cascade_wit {b : chessboard} {side : Nat} (wf : WF b) (hs : side < 2)
    (mask : Nat) (M0 : Nat → Nat) :
    ∀ (ts : List Nat) (st : gen_state), ts.Nodup → (∀ t, t ∈ ts → 1 ≤ t ∧ t ≤ 6) →
      GInv b side false M0 st → (cascade b side mask true ts st).1 = true →
      ∃ o, o < 64 ∧ (cascade b side mask false ts st).2.matrices o ≠ 0 := by
  intro ts
  induction ts with
  | nil => intro st _ _ _ h; exact absurd h (by simp [cascade])
  | cons t ts ih =>
    intro st hn hr h hT
    obtain ⟨hnt, hns⟩ := List.nodup_cons.1 hn
    obtain ⟨h1, h6⟩ := hr t (List.mem_cons_self _ _)
    have hrs : ∀ t2, t2 ∈ ts → 1 ≤ t2 ∧ t2 ≤ 6 := fun t2 ht2 => hr t2 (List.mem_cons_of_mem _ ht2)
    rw [cascade_false_cons]
    simp only [cascade] at hT
    by_cases hf : (run_stage b side mask true t st).1 = true
    · obtain ⟨o, ho, w⟩ := run_stage_wit wf hs mask M0 h1 h6 h hf
      refine ⟨o, ho.1, ?_⟩
      rw [cascade_frame wf hs mask ho ts _ (fun t2 ht2 =>
        ⟨(hrs t2 ht2).1, (hrs t2 ht2).2, fun e => hnt (e ▸ ht2)⟩)]
      exact w.ne_zero
    · rw [if_neg hf] at hT
      rw [(run_stage_same b side mask t st (by simpa using hf)).1] at hT
      exact ih _ hns hrs (run_stage_spec wf hs mask false M0 h1 h6 h) hT

/-- On a well-formed board `generate_moves` in legal mode is the six loops in a row. -/
theorem generate_moves_cascade {b : chessboard} (wf : WF b) {side : Nat} (hs : side < 2)
    (M0 : Nat → Nat) (exit_on_legal : Bool) (mask : Nat) :
    generate_moves b side M0 false exit_on_legal mask =
      cascade b side mask exit_on_legal [pawn, knight, king, bishop, rook, queen]
        { matrices := M0, board := b } := by
  have g0 := GInv.init b side false M0
  have g1 := run_stage_spec wf hs mask exit_on_legal M0 (t := pawn) (by decide) (by decide) g0
  have g2 := run_stage_spec wf hs mask exit_on_legal M0 (t := knight) (by decide) (by decide) g1
  have g3 := run_stage_spec wf hs mask exit_on_legal M0 (t := king) (by decide) (by decide) g2
  have g4 := run_stage_spec wf hs mask exit_on_legal M0 (t := bishop) (by decide) (by decide) g3
  have g5 := run_stage_spec wf hs mask exit_on_legal M0 (t := rook) (by decide) (by decide) g4
  have e1 : ∀ st, run_stage b side mask exit_on_legal pawn st =
      pawn_loop (last_move b) side false exit_on_legal mask (b.side_sets (side ^^^ 1))
        (not64 (b.side_sets 0 ||| b.side_sets 1))
        (set_bits (b.piece_sets pawn &&& b.side_sets side)) st := fun st => by
    unfold run_stage; rw [if_pos rfl]
  have e2 : ∀ t, t = knight ∨ t = king → ∀ st, run_stage b side mask exit_on_legal t st =
      jump_loop side false exit_on_legal mask (b.side_sets side) (b.side_sets 0 ||| b.side_sets 1)
        (not64 (b.side_sets 0 ||| b.side_sets 1) ||| b.side_sets (side ^^^ 1)) t
        (set_bits (b.piece_sets t &&& b.side_sets side)) st := fun t ht st => by
    unfold run_stage
    rw [if_neg (by rcases ht with e | e <;> rw [e] <;> decide), if_pos ht]
  have e3 : ∀ t, t = bishop ∨ t = rook ∨ t = queen → ∀ st,
      run_stage b side mask exit_on_legal t st =
      sliding_loop side false exit_on_legal mask (b.side_sets 0 ||| b.side_sets 1)
        (not64 (b.side_sets 0 ||| b.side_sets 1) ||| b.side_sets (side ^^^ 1)) t
        (set_bits (b.piece_sets t &&& b.side_sets side)) st := fun t ht st => by
    unfold run_stage
    rw [if_neg (by rcases ht with e | e | e <;> rw [e] <;> decide),
      if_neg (by rcases ht with e | e | e <;> rw [e] <;> decide)]
  rw [e1] at g1
  rw [e1, e2 knight (Or.inl rfl)] at g2
  rw [e1, e2 knight (Or.inl rfl), e2 king (Or.inr rfl)] at g3
  rw [e1, e2 knight (Or.inl rfl), e2 king (Or.inr rfl), e3 bishop (Or.inl rfl)] at g4
  rw [e1, e2 knight (Or.inl rfl), e2 king (Or.inr rfl), e3 bishop (Or.inl rfl),
    e3 rook (Or.inr (Or.inl rfl))] at g5
  unfold generate_moves
  simp only [cascade, e1, e2 knight (Or.inl rfl), e2 king (Or.inr rfl), e3 bishop (Or.inl rfl),
    e3 rook (Or.inr (Or.inl rfl)), e3 queen (Or.inr (Or.inr rfl))]
  split
  · rfl
  rw [g1.1]
  split
  · rfl
  rw [g2.1]
  split
  · rfl
  rw [g3.1]
  split
  · rfl
  rw [g4.1]
  split
  · rfl
  rw [g5.1]
  split
  · rfl
  · next h => exact Prod.ext (by simpa using h) rfl

/-- C14, amended: `any_moves` agrees with the full generation on every well-formed board
(`WF`: the masks are consistent with `pieces`, `has_moved` bits lie only on occupied squares,
a king or pawn with a clear `has_moved` bit stands where its side starts, no pawn stands on
the first or last rank): for each side `s`, `any_moves(s)` returns false if and only if
`generate_moves(s, matrices, pseudo = false, exit_on_legal = false)` on a zero-initialised
array leaves every one of the 64 destination sets empty. -/
theorem any_moves_agrees (b : chessboard) (s : Nat) (wf : WF b) (hs : s < 2) :
    (any_moves b s).1 = false ↔
      ∀ i, i < 64 →
        (generate_moves b s (fun _ => 0) false false (2 ^ 64 - 1)).2.matrices i = 0 := by
  unfold any_moves
  rw [generate_moves_cascade wf hs, generate_moves_cascade wf hs]
  have hn : [pawn, knight, king, bishop, rook, queen].Nodup := by decide
  have hr : ∀ t, t ∈ [pawn, knight, king, bishop, rook, queen] → 1 ≤ t ∧ t ≤ 6 := by decide
  constructor
  · intro h i _
    obtain ⟨e, z⟩ := cascade_same b s (2 ^ 64 - 1) _ _ h
    rw [← e]
    exact z (fun _ => rfl) i
  · intro h
    by_contra hf
    obtain ⟨o, ho, hne⟩ := cascade_wit wf hs (2 ^ 64 - 1) (fun _ => 0) _ _ hn hr
      (GInv.init b s false (fun _ => 0)) (by simpa using hf)
    exact hne (h o ho)

set_option maxRecDepth 1000000 in
/-- The amended C14 on the checkmate with the king of side 1 on e1. -/
theorem any_moves_agrees_witness :
    (any_moves (board_of codes_mated) 1).1 = false ↔
      ∀ i, i < 64 →
        (generate_moves (board_of codes_mated) 1 (fun _ => 0) false false
          (2 ^ 64 - 1)).2.matrices i = 0 :=
  any_moves_agrees (board_of codes_mated) 1 (WF_board_of (by decide!)) (by decide)

/-! ## Perft -/

set_option maxRecDepth 1000000 in
/-- Ply 1 of b2-b3 c7-c5 b3-c4: the generator yields the move. -/
theorem stray_1 :
    yields standard_board
      49 41 = true := by
  decide!

set_option maxRecDepth 1000000 in
/-- Ply 2 of b2-b3 c7-c5 b3-c4: the generator yields the move. -/
theorem stray_2 :
    yields (make_move_sq standard_board 49 41)
      10 26 = true := by
  decide!

set_option maxRecDepth 1000000 in
/-- Ply 3 of b2-b3 c7-c5 b3-c4: the generator yields the move. -/
theorem stray_3 :
    yields (make_move_sq (make_move_sq standard_board 49 41) 10 26)
      41 34 = true := by
  decide!

set_option maxRecDepth 1000000 in
/-- After b2-b3 c7-c5 the pawn of side 1 stands on b3, the pawn of side 0 on c5, and c4 and
c6 are empty. -/
theorem stray_pieces :
    (make_move_sq (make_move_sq standard_board 49 41) 10 26).pieces 41 = pawn + 8 * 1 ∧
    (make_move_sq (make_move_sq standard_board 49 41) 10 26).pieces 26 = pawn ∧
    (make_move_sq (make_move_sq standard_board 49 41) 10 26).pieces 34 = 0 ∧
    (make_move_sq (make_move_sq standard_board 49 41) 10 26).pieces 18 = 0 := by
  decide!

set_option maxRecDepth 1000000 in
/-- C16, evaluated: the count at depth 1 is 20, and at depth 3 the count includes a leaf that
is no position of chess: after b2-b3 c7-c5, both yielded by `generate_moves` in legal mode,
the generator yields for the pawn on b3 the diagonal step to the empty square c4, next to the
pawn that has just advanced two squares to c5. -/
theorem perft_counts_stray_capture :
    perft 1 standard_board = 20 ∧
    (play_legal standard_board [(49, 41), (10, 26)]).map
      (fun b => (yields b 41 34, b.pieces 41, b.pieces 26, b.pieces 34)) =
      some (true, pawn + 8 * 1, pawn, 0) := by
  refine ⟨by decide!, ?_⟩
  rw [play_legal_cons stray_1, play_legal_cons stray_2]
  simp only [play_legal, Option.map_some']
  rw [stray_3, stray_pieces.1, stray_pieces.2.1, stray_pieces.2.2.1]

/-- The piece array after a move that satisfies `MoveOK`, square by square. -/
theorem make_move_sq_pieces {b : chessboard} {o d : Nat} (wf : WF b) (ok : MoveOK b o d)
    (j : Nat) :
    (make_move_sq b o d).pieces j =
      if j = d then (if is_promotion b o d then 2 + 8 * (b.pieces o / 8) else b.pieces o)
      else if j = o then 0
      else if j = cap_sq b o d then 0
      else if is_castling b o d = true ∧ j = rook_to o d then b.pieces (rook_from o d)
      else if is_castling b o d = true ∧ j = rook_from o d then 0
      else b.pieces j := by
  rw [make_move_sq_eq ok.ho ok.hd ok.hne]
  exact move_core_pieces _ _ _ _ _ _ (ok.core wf) j

/-- The `has_moved` bits after a move that satisfies `MoveOK`. -/
theorem make_move_sq_has_moved {b : chessboard} {o d : Nat} (wf : WF b) (ok : MoveOK b o d)
    (j : Nat) :
    (make_move_sq b o d).has_moved.testBit j =
      (decide (j = d) || (b.has_moved.testBit j && !decide (j = o) &&
        !decide (j = cap_sq b o d) && decide (j < 64))) := by
  rw [make_move_sq_eq ok.ho ok.hd ok.hne]
  exact move_core_has_moved b _ _ _ _ _ _ _ _ _ _ (ok.core wf).ho (ok.core wf).hd
    (ok.core wf).hc j

/-- A king on the board after a move either is the piece that moved, or stood there before
with the same `has_moved` bit. -/
theorem king_after {b : chessboard} {o d : Nat} (wf : WF b) (ok : MoveOK b o d) {j : Nat}
    (hj : j < 64) (hk : (make_move_sq b o d).pieces j % 8 = 1) :
    (j = d ∧ b.pieces o = (make_move_sq b o d).pieces j ∧
      (make_move_sq b o d).has_moved.testBit j = true) ∨
    (j ≠ d ∧ j ≠ o ∧ b.pieces j = (make_move_sq b o d).pieces j ∧
      (make_move_sq b o d).has_moved.testBit j = b.has_moved.testBit j) := by
  have hP := make_move_sq_pieces wf ok j
  have hH := make_move_sq_has_moved wf ok j
  have hco := ok.core wf
  by_cases e1 : j = d
  · left
    rw [if_pos e1] at hP
    refine ⟨e1, ?_, by rw [hH]; simp [e1]⟩
    cases hpr : is_promotion b o d
    · rw [hpr] at hP; simpa using hP.symm
    · rw [hpr] at hP
      simp only [if_true] at hP
      rw [hP] at hk
      omega
  · right
    rw [if_neg e1] at hP
    by_cases e2 : j = o
    · rw [if_pos e2] at hP; rw [hP] at hk; omega
    rw [if_neg e2] at hP
    by_cases e3 : j = cap_sq b o d
    · rw [if_pos e3] at hP; rw [hP] at hk; omega
    rw [if_neg e3] at hP
    by_cases e4 : is_castling b o d = true ∧ j = rook_to o d
    · rw [if_pos e4] at hP
      obtain ⟨_, _, _, _, _, _, _, _, hrk, _⟩ := hco.cast e4.1
      rw [hP, hrk] at hk
      omega
    rw [if_neg e4] at hP
    by_cases e5 : is_castling b o d = true ∧ j = rook_from o d
    · rw [if_pos e5] at hP; rw [hP] at hk; omega
    rw [if_neg e5] at hP
    refine ⟨e1, e2, hP.symm, ?_⟩
    rw [hH]
    simp [e1, e2, e3, hj]

/-- A rook with a clear `has_moved` bit in a corner file after a move stood there before the
move, with its bit clear, and is not the piece that moved. -/
theorem corner_after {b : chessboard} {o d : Nat} (wf : WF b) (ok : MoveOK b o d) {q s : Nat}
    (hq : q < 64) (hf : q % 8 = 0 ∨ q % 8 = 7)
    (hr : (make_move_sq b o d).pieces q = 5 + 8 * s)
    (hm : (make_move_sq b o d).has_moved.testBit q = false) :
    q ≠ o ∧ b.pieces q = 5 + 8 * s ∧ b.has_moved.testBit q = false := by
  have hP := make_move_sq_pieces wf ok q
  have hH := make_move_sq_has_moved wf ok q
  have hco := ok.core wf
  rw [hm] at hH
  by_cases e1 : q = d
  · simp [e1] at hH
  rw [if_neg e1] at hP
  by_cases e2 : q = o
  · rw [if_pos e2] at hP; rw [hP] at hr; omega
  rw [if_neg e2] at hP
  by_cases e3 : q = cap_sq b o d
  · rw [if_pos e3] at hP; rw [hP] at hr; omega
  rw [if_neg e3] at hP
  by_cases e4 : is_castling b o d = true ∧ q = rook_to o d
  · exfalso
    have hcs := e4.1
    unfold is_castling at hcs
    simp only [decide_eq_true_eq] at hcs
    obtain ⟨h4, _, _, hside⟩ := ok.king hcs.1 hcs.2
    rcases hside with ⟨e, _⟩ | ⟨e, _⟩
    · have hd2 : d % 8 = 2 := by omega
      have := rook_to_left h4 hd2
      omega
    · have hd2 : d % 8 = 6 := by omega
      have := rook_to_right h4 hd2
      omega
  rw [if_neg e4] at hP
  by_cases e5 : is_castling b o d = true ∧ q = rook_from o d
  · rw [if_pos e5] at hP; rw [hP] at hr; omega
  rw [if_neg e5] at hP
  refine ⟨e2, by rw [← hP]; exact hr, ?_⟩
  cases hb : b.has_moved.testBit q
  · rfl
  · rw [hb] at hH
    simp [e1, e2, e3, hq] at hH

set_option maxRecDepth 1000000 in
theorem standard_kings :
    ∀ i, i < 64 → standard_board.pieces i % 8 = 1 →
      i = 4 + 56 * (standard_board.pieces i / 8) := by
  decide!

theorem KingInv.standard : KingInv standard_board := by
  refine ⟨WF_standard, ?_, ?_⟩
  · intro i j hi hj hk he
    have h1 := standard_kings i hi hk
    have h2 := standard_kings j hj (by rw [he]; exact hk)
    rw [he] at h2
    omega
  · intro i hi hk _
    exact standard_kings i hi hk

theorem KingInv.step_inv {b : chessboard} {o d : Nat} (h : KingInv b) (ok : MoveOK b o d) :
    KingInv (make_move_sq b o d) := by
  have wf := h.wf
  refine ⟨WF.make_move_sq wf ok, ?_, ?_⟩
  · intro i j hi hj hk he
    have hkj : (make_move_sq b o d).pieces j % 8 = 1 := by rw [he]; exact hk
    rcases king_after wf ok hi hk with ⟨e1, p1, _⟩ | ⟨_, m1, p1, _⟩ <;>
      rcases king_after wf ok hj hkj with ⟨e2, p2, _⟩ | ⟨_, m2, p2, _⟩
    · rw [e1, e2]
    · exfalso
      exact m2 (h.one_king o j ok.ho hj (by rw [p1]; exact hk) (by rw [p2, he, p1])).symm
    · exfalso
      exact m1 (h.one_king i o hi ok.ho (by rw [p1]; exact hk) (by rw [p2, he, p1]))
    · exact h.one_king i j hi hj (by rw [p1]; exact hk) (by rw [p2, he, p1])
  · intro i hi hk hm
    rcases king_after wf ok hi hk with ⟨_, _, hb⟩ | ⟨_, _, p1, hb⟩
    · rw [hb] at hm
      exact absurd hm (by simp)
    · rw [← p1]
      exact h.king_sq i hi (by rw [p1]; exact hk) (by rw [← hb]; exact hm)

theorem Plays.king_inv {a c : chessboard} (ha : KingInv a) (h : Plays a c) : KingInv c := by
  induction h with
  | refl => exact ha
  | step c side o d pseudo _ hs hg ih =>
    obtain ⟨_, _, ok, _⟩ := generated_ok ih.wf hs hg
    exact ih.step_inv ok

theorem KingsMoved.step_kings {b : chessboard} {o d s : Nat} (wf : WF b) (ok : MoveOK b o d)
    (h : KingsMoved b s) : KingsMoved (make_move_sq b o d) s := by
  intro i hi hp
  rcases king_after wf ok hi (by rw [hp]; omega) with ⟨_, _, hb⟩ | ⟨_, _, p1, hb⟩
  · exact hb
  · rw [hb]
    exact h i hi (by rw [p1]; exact hp)

/-- After the king of side `s` has moved, every king of side `s` has its bit set. -/
theorem KingsMoved.of_king_move {b : chessboard} {o d s : Nat} (h : KingInv b) (ok : MoveOK b o d)
    (hp : b.pieces o = 1 + 8 * s) : KingsMoved (make_move_sq b o d) s := by
  intro i hi hpi
  rcases king_after h.wf ok hi (by rw [hpi]; omega) with ⟨_, _, hb⟩ | ⟨_, m, p1, _⟩
  · exact hb
  · exfalso
    exact m (h.one_king o i ok.ho hi (by rw [hp]; omega) (by rw [p1, hpi, hp])).symm

theorem CornerSpent.step_corner {b : chessboard} {o d s q : Nat} (wf : WF b) (ok : MoveOK b o d)
    (hq : q < 64) (hf : q % 8 = 0 ∨ q % 8 = 7) (h : CornerSpent b s q) :
    CornerSpent (make_move_sq b o d) s q := by
  intro hr
  by_contra hm
  obtain ⟨_, p, m⟩ := corner_after wf ok hq hf hr (by simpa using hm)
  rw [h p] at m
  exact absurd m (by simp)

/-- After a piece has left the corner `o`, no rook with a clear bit stands there. -/
theorem CornerSpent.of_rook_move {b : chessboard} {o d s : Nat} (wf : WF b) (ok : MoveOK b o d)
    (hf : o % 8 = 0 ∨ o % 8 = 7) : CornerSpent (make_move_sq b o d) s o := by
  intro hr
  by_contra hm
  exact (corner_after wf ok ok.ho hf hr (by simpa using hm)).1 rfl

theorem Plays.kings_moved {a c : chessboard} {s : Nat} (wa : WF a) (ha : KingsMoved a s)
    (h : Plays a c) : WF c ∧ KingsMoved c s := by
  induction h with
  | refl => exact ⟨wa, ha⟩
  | step c side o d pseudo _ hs hg ih =>
    obtain ⟨_, _, ok, _⟩ := generated_ok ih.1 hs hg
    exact ⟨WF.make_move_sq ih.1 ok, ih.2.step_kings ih.1 ok⟩

theorem Plays.corner_spent {a c : chessboard} {s q : Nat} (wa : WF a) (hq : q < 64)
    (hf : q % 8 = 0 ∨ q % 8 = 7) (ha : CornerSpent a s q) (h : Plays a c) :
    WF c ∧ CornerSpent c s q := by
  induction h with
  | refl => exact ⟨wa, ha⟩
  | step c side o d pseudo _ hs hg ih =>
    obtain ⟨_, _, ok, _⟩ := generated_ok ih.1 hs hg
    exact ⟨WF.make_move_sq ih.1 ok, ih.2.step_corner ih.1 ok hq hf⟩

/-- A move of a king by two files that `generate_moves` produces is a castling move of a king
whose `has_moved` bit is clear, with a rook in the corner whose bit is clear. -/
theorem generated_castle {c : chessboard} {side ind dst : Nat} {pseudo : Bool} (wf : WF c)
    (hs : side < 2) (hk : c.pieces ind % 8 = 1)
    (hx : dst % 8 + 2 = ind % 8 ∨ ind % 8 + 2 = dst % 8)
    (hg : generated c side pseudo ind dst = true) : ind < 64 ∧ CastleOK c ind dst := by
  obtain ⟨_, _, ok, _⟩ := generated_ok wf hs hg
  exact ⟨ok.ho, ok.king hk hx⟩

theorem Reachable.plays {b : chessboard} (h : Reachable b) : Plays standard_board b := by
  induction h with
  | start => exact Plays.refl
  | step hr hy ih =>
    exact Plays.step _ _ _ _ false ih (by have := hr.wf.stm; omega) hy

/-- C11: in a sequence of `make_move` calls from the standard initial position, each playing
a move that `generate_moves` produced (for either side, in either mode), let the call on the
position `b` move the piece on `o`, and let `c` be any later position of the sequence, with
a king of side `s` on `ind`.  If the piece moved was the king of side `s`, `generate_moves`
on `c` gives that king no destination two files away, in either direction; if it was a rook
of side `s` leaving the corner of side `s` on file 0 (`o = 56 * s`), it gives the king no
destination two files towards file 0; if it was a rook of side `s` leaving the corner on
file 7 (`o = 7 + 56 * s`), none two files towards file 7.  This holds for every side and
mode passed to `generate_moves` on `c`. -/
theorem castling_rights_lost_for_good {b c : chessboard} {o d side : Nat} {pseudo : Bool}
    (hb : Plays standard_board b) (hside : side < 2)
    (hg : generated b side pseudo o d = true) (hc : Plays (make_move_sq b o d) c)
    (s side2 ind dst : Nat) (pseudo2 : Bool) (hs2 : side2 < 2)
    (hk : c.pieces ind = 1 + 8 * s) :
    (b.pieces o = 1 + 8 * s → (dst % 8 + 2 = ind % 8 ∨ ind % 8 + 2 = dst % 8) →
      generated c side2 pseudo2 ind dst = false) ∧
    (b.pieces o = 5 + 8 * s → o = 56 * s → dst % 8 + 2 = ind % 8 →
      generated c side2 pseudo2 ind dst = false) ∧
    (b.pieces o = 5 + 8 * s → o = 7 + 56 * s → ind % 8 + 2 = dst % 8 →
      generated c side2 pseudo2 ind dst = false) := by
  have ki := hb.king_inv KingInv.standard
  obtain ⟨_, _, ok, _⟩ := generated_ok ki.wf hside hg
  have ki1 := ki.step_inv ok
  have kic := hc.king_inv ki1
  have hk1 : c.pieces ind % 8 = 1 := by rw [hk]; omega
  have hks : c.pieces ind / 8 = s := by rw [hk]; omega
  refine ⟨fun hp hx => ?_, fun hp ho hx => ?_, fun hp ho hx => ?_⟩
  · by_contra hgen
    obtain ⟨h64, _, _, hm, _⟩ := generated_castle kic.wf hs2 hk1 hx (by simpa using hgen)
    have := (hc.kings_moved ki1.wf (KingsMoved.of_king_move ki ok hp)).2 ind h64 hk
    rw [this] at hm
    exact absurd hm (by simp)
  · by_contra hgen
    obtain ⟨h64, h4, _, hm, hsd⟩ :=
      generated_castle kic.wf hs2 hk1 (Or.inl hx) (by simpa using hgen)
    have hsq := kic.king_sq ind h64 hk1 hm
    rw [hks] at hsq
    have ho64 := ok.ho
    have hsp : CornerSpent (make_move_sq b o d) s o :=
      CornerSpent.of_rook_move ki.wf ok (by omega)
    have hcs := (hc.corner_spent ki1.wf ho64 (by omega) hsp).2
    rcases hsd with ⟨_, hrk, _, hrm⟩ | ⟨e, _⟩
    · have e4 : ind - 4 = o := by omega
      rw [e4, hks] at hrk
      rw [e4, hcs hrk] at hrm
      exact absurd hrm (by simp)
    · omega
  · by_contra hgen
    obtain ⟨h64, h4, _, hm, hsd⟩ :=
      generated_castle kic.wf hs2 hk1 (Or.inr hx) (by simpa using hgen)
    have hsq := kic.king_sq ind h64 hk1 hm
    rw [hks] at hsq
    have ho64 := ok.ho
    have hsp : CornerSpent (make_move_sq b o d) s o :=
      CornerSpent.of_rook_move ki.wf ok (by omega)
    have hcs := (hc.corner_spent ki1.wf ho64 (by omega) hsp).2
    rcases hsd with ⟨e, _⟩ | ⟨_, hrk, _, hrm⟩
    · omega
    · have e4 : ind + 3 = o := by omega
      rw [e4, hks] at hrk
      rw [e4, hcs hrk] at hrm
      exact absurd hrm (by simp)

set_option maxRecDepth 1000000 in
/-- C11 at a concrete sequence: after e2-e3, a7-a6 and the king move Ke1-e2 the generator, in
legal mode for side 1, does not give the king on e2 the square c2 two files away. -/
theorem castling_rights_lost_for_good_witness :
    generated (make_move_sq (make_move_sq (make_move_sq standard_board 52 44) 8 16) 60 52)
      1 false 52 50 = false :=
  (castling_rights_lost_for_good
    (Reachable.plays (Reachable.step (Reachable.step Reachable.start hunt_1) hunt_2))
    (by decide!) hunt_3 Plays.refl 1 1 52 50 false (by decide) (by decide!)).1
    (by decide!) (by decide)

/-! ## The sliding lookups and the ray walk -/

theorem testBit_bits_of {l : List Nat} (h : ∀ e, e ∈ l → e < 64) (d : Nat) :
    (bits_of l).testBit d = decide (d ∈ l) := by
  induction l with
  | nil => simp [bits_of]
  | cons q r ih =>
    have hq := h q (List.mem_cons_self _ _)
    have hr := ih (fun e he => h e (List.mem_cons_of_mem _ he))
    simp only [bits_of, Nat.testBit_or, testBit_shl64_one hq, hr, List.mem_cons]
    by_cases e1 : d = q <;> by_cases e2 : d ∈ r <;> simp [e1, e2]

theorem bits_of_append (l r : List Nat) : bits_of (l ++ r) = bits_of l ||| bits_of r := by
  induction l with
  | nil => simp [bits_of]
  | cons q l ih => simp [bits_of, ih, Nat.lor_assoc]

theorem steps_of_not_mem {q : Nat} : ∀ (l : List Nat) (acc : Nat) (f : Nat → Nat), q ∉ l →
    steps_of acc l f q = f q := by
  intro l
  induction l with
  | nil => intro acc f _; rfl
  | cons e r ih =>
    intro acc f h
    have h1 : q ≠ e := fun c => h (c ▸ List.mem_cons_self _ _)
    have h2 : q ∉ r := fun c => h (List.mem_cons_of_mem _ c)
    simp only [steps_of]
    rw [ih _ _ h2, setAt_other _ _ h1]

theorem sq_lt {x y : Int} (h : 0 ≤ x ∧ x ≤ 7 ∧ 0 ≤ y ∧ y ≤ 7) : sq x y < 64 := by
  unfold sq; omega

theorem shl64_one_ne_zero {i : Nat} (h : i < 64) : shl64 1 i ≠ 0 := by
  rw [shl64_one_eq h]
  exact Nat.ne_of_gt (Nat.two_pow_pos i)

/-- The loop of `init_lookups` along a ray writes the masks of the prefixes of the walk on
the empty board. -/
theorem ray_from_eq (x y dx dy : Int) : ∀ (fuel : Nat) (k : Int) (m : sliding_mask),
    ray_from x y dx dy fuel k m =
      { steps := steps_of m.last (walk 0 dx dy fuel (x + (k - 1) * dx) (y + (k - 1) * dy)) m.steps,
        last := m.last ||| bits_of (walk 0 dx dy fuel (x + (k - 1) * dx) (y + (k - 1) * dy)) } := by
  intro fuel
  induction fuel with
  | zero => intro k m; cases m; simp [ray_from, walk, steps_of, bits_of]
  | succ fuel ih =>
    intro k m
    have e1 : x + (k - 1) * dx + dx = k * dx + x := by ring
    have e2 : y + (k - 1) * dy + dy = k * dy + y := by ring
    have e3 : x + k * dx = k * dx + x := by ring
    have e4 : y + k * dy = k * dy + y := by ring
    have e5 : x + (k + 1 - 1) * dx = k * dx + x := by ring
    have e6 : y + (k + 1 - 1) * dy = k * dy + y := by ring
    simp only [ray_from, walk, a, e1, e2, e3, e4, Nat.zero_testBit, Bool.false_eq_true, if_false]
    by_cases hc : 0 ≤ k * dx + x ∧ k * dx + x ≤ 7 ∧ 0 ≤ k * dy + y ∧ k * dy + y ≤ 7
    · rw [if_pos hc, if_neg (shl64_one_ne_zero (sq_lt hc)), if_pos hc, ih, e5, e6]
      simp only [steps_of, bits_of, Nat.lor_assoc]
    · rw [if_neg hc, if_pos rfl, if_neg hc]
      cases m; simp [steps_of, bits_of]

theorem walk_cut (occ : Nat) (dx dy : Int) : ∀ (fuel : Nat) (x y : Int),
    walk occ dx dy fuel x y = cut_at occ (walk 0 dx dy fuel x y) := by
  intro fuel
  induction fuel with
  | zero => intro x y; rfl
  | succ fuel ih =>
    intro x y
    simp only [walk, Nat.zero_testBit, Bool.false_eq_true, if_false]
    by_cases hc : 0 ≤ x + dx ∧ x + dx ≤ 7 ∧ 0 ≤ y + dy ∧ y + dy ≤ 7
    · rw [if_pos hc, if_pos hc]
      simp only [cut_at]
      rw [ih]
    · rw [if_neg hc, if_neg hc]
      rfl

theorem walk_lt (occ : Nat) (dx dy : Int) : ∀ (fuel : Nat) (x y : Int) (e : Nat),
    e ∈ walk occ dx dy fuel x y → e < 64 := by
  intro fuel
  induction fuel with
  | zero => intro x y e h; simp [walk] at h
  | succ fuel ih =>
    intro x y e h
    simp only [walk] at h
    by_cases hc : 0 ≤ x + dx ∧ x + dx ≤ 7 ∧ 0 ≤ y + dy ∧ y + dy ≤ 7
    · rw [if_pos hc] at h
      by_cases ho : occ.testBit (sq (x + dx) (y + dy)) = true
      · rw [if_pos ho] at h
        rw [List.mem_singleton.1 h]
        exact sq_lt hc
      · rw [if_neg ho] at h
        rcases List.mem_cons.1 h with e1 | e1
        · rw [e1]; exact sq_lt hc
        · exact ih _ _ _ e1
    · rw [if_neg hc] at h
      simp at h

/-- Along a direction on which the square index grows the walk on the empty board lists its
squares in increasing order. -/
theorem walk_increasing (dx dy : Int) (hd : 0 < dx + 8 * dy) : ∀ (fuel : Nat) (x y : Int),
    0 ≤ x ∧ x ≤ 7 ∧ 0 ≤ y ∧ y ≤ 7 →
    (∀ e, e ∈ walk 0 dx dy fuel x y → sq x y < e) ∧
      (walk 0 dx dy fuel x y).Pairwise (fun u v => u < v) := by
  intro fuel
  induction fuel with
  | zero => intro x y _; simp [walk]
  | succ fuel ih =>
    intro x y hb
    simp only [walk, Nat.zero_testBit, Bool.false_eq_true, if_false]
    by_cases hc : 0 ≤ x + dx ∧ x + dx ≤ 7 ∧ 0 ≤ y + dy ∧ y + dy ≤ 7
    · rw [if_pos hc]
      obtain ⟨i1, i2⟩ := ih (x + dx) (y + dy) hc
      have hlt : sq x y < sq (x + dx) (y + dy) := by unfold sq; omega
      refine ⟨fun e he => ?_, List.pairwise_cons.2 ⟨i1, i2⟩⟩
      rcases List.mem_cons.1 he with e1 | e1
      · rw [e1]; exact hlt
      · exact lt_trans hlt (i1 e e1)
    · rw [if_neg hc]
      simp

/-- Along a direction on which the square index falls the walk on the empty board lists its
squares in decreasing order. -/
theorem walk_decreasing (dx dy : Int) (hd : dx + 8 * dy < 0) : ∀ (fuel : Nat) (x y : Int),
    0 ≤ x ∧ x ≤ 7 ∧ 0 ≤ y ∧ y ≤ 7 →
    (∀ e, e ∈ walk 0 dx dy fuel x y → e < sq x y) ∧
      (walk 0 dx dy fuel x y).Pairwise (fun u v => v < u) := by
  intro fuel
  induction fuel with
  | zero => intro x y _; simp [walk]
  | succ fuel ih =>
    intro x y hb
    simp only [walk, Nat.zero_testBit, Bool.false_eq_true, if_false]
    by_cases hc : 0 ≤ x + dx ∧ x + dx ≤ 7 ∧ 0 ≤ y + dy ∧ y + dy ≤ 7
    · rw [if_pos hc]
      obtain ⟨i1, i2⟩ := ih (x + dx) (y + dy) hc
      have hlt : sq (x + dx) (y + dy) < sq x y := by unfold sq; omega
      refine ⟨fun e he => ?_, List.pairwise_cons.2 ⟨i1, i2⟩⟩
      rcases List.mem_cons.1 he with e1 | e1
      · rw [e1]; exact hlt
      · exact lt_trans (i1 e e1) hlt
    · rw [if_neg hc]
      simp

/-- The walk needs no more than eight steps: more fuel does not change it. -/
theorem walk_fuel (occ : Nat) (dx dy : Int) : ∀ (fuel n : Nat) (x y : Int),
    ((dx = 1 ∧ 8 ≤ x + (fuel : Int)) ∨ (dx = -1 ∧ x + 1 ≤ (fuel : Int)) ∨
      (dy = 1 ∧ 8 ≤ y + (fuel : Int)) ∨ (dy = -1 ∧ y + 1 ≤ (fuel : Int))) →
    walk occ dx dy (fuel + n) x y = walk occ dx dy fuel x y := by
  intro fuel
  induction fuel with
  | zero =>
    intro n x y h
    cases n with
    | zero => rfl
    | succ n =>
      have hc : ¬ (0 ≤ x + dx ∧ x + dx ≤ 7 ∧ 0 ≤ y + dy ∧ y + dy ≤ 7) := by
        simp only [Nat.cast_zero] at h
        omega
      simp only [Nat.zero_add, walk]
      rw [if_neg hc]
  | succ fuel ih =>
    intro n x y h
    rw [Nat.add_right_comm]
    simp only [walk]
    by_cases hc : 0 ≤ x + dx ∧ x + dx ≤ 7 ∧ 0 ≤ y + dy ∧ y + dy ≤ 7
    · rw [if_pos hc, if_pos hc, ih n (x + dx) (y + dy) (by push_cast at h; omega)]
    · rw [if_neg hc, if_neg hc]

theorem find_pairwise {R : Nat → Nat → Prop} {p : Nat → Bool} {q : Nat}
    (hasym : ∀ u v, R u v → R v u → False) : ∀ (l : List Nat), l.Pairwise R → q ∈ l →
    p q = true → (∀ u, u ∈ l → p u = true → u = q ∨ R q u) → l.find? p = some q := by
  intro l
  induction l with
  | nil => intro _ h; simp at h
  | cons u r ih =>
    intro hp hq pq hmin
    obtain ⟨h1, h2⟩ := List.pairwise_cons.1 hp
    by_cases pu : p u = true
    · rw [List.find?_cons_of_pos _ pu]
      rcases hmin u (List.mem_cons_self _ _) pu with e | e
      · rw [e]
      · rcases List.mem_cons.1 hq with e1 | e1
        · rw [e1]
        · exact absurd (h1 q e1) (fun c => hasym _ _ c e)
    · rw [List.find?_cons_of_neg _ pu]
      have hqr : q ∈ r := by
        rcases List.mem_cons.1 hq with e1 | e1
        · rw [e1] at pq; exact absurd pq pu
        · exact e1
      exact ih h2 hqr pq (fun v hv pv => hmin v (List.mem_cons_of_mem _ hv) pv)

/-- The scan `_BitScanForward64` finds the lowest set bit. -/
theorem bsf_eq (S q : Nat) (hq : q < 64) (hS : S.testBit q = true)
    (hmin : ∀ i, i < 64 → S.testBit i = true → i = q ∨ q < i) : bsf S = q := by
  unfold bsf
  rw [find_pairwise (fun u v h1 h2 => absurd h1 (by omega)) (List.range 64)
    (List.pairwise_lt_range 64) (List.mem_range.2 hq) hS
    (fun u hu pu => hmin u (List.mem_range.1 hu) pu)]
  rfl

/-- The scan `_BitScanReverse64` finds the highest set bit. -/
theorem bsr_eq (S q : Nat) (hq : q < 64) (hS : S.testBit q = true)
    (hmin : ∀ i, i < 64 → S.testBit i = true → i = q ∨ i < q) : bsr S = q := by
  unfold bsr
  rw [find_pairwise (R := fun u v => v < u) (fun u v h1 h2 => absurd h1 (by omega))
    (List.range 64).reverse
    (List.pairwise_reverse.2 (List.pairwise_lt_range 64))
    (List.mem_reverse.2 (List.mem_range.2 hq)) hS
    (fun u hu pu => hmin u (List.mem_range.1 (List.mem_reverse.1 hu)) pu)]
  rfl

theorem and_eq_zero_testBit {u v : Nat} (h : u &&& v = 0) (i : Nat) :
    (u.testBit i && v.testBit i) = false := by
  rw [← Nat.testBit_and, h, Nat.zero_testBit]

/-- The lookup of a ray whose squares are listed in scan order: if the ray meets the
occupancy, the entry of `steps` at the first occupied square, else `last`; both are the
mask of the squares up to and including the first occupied one. -/
theorem scan_eq {R : Nat → Nat → Prop} {sc : Nat → Nat}
    (hasym : ∀ u v, R u v → R v u → False)
    (hsc : ∀ S q, q < 64 → S.testBit q = true →
      (∀ i, i < 64 → S.testBit i = true → i = q ∨ R q i) → sc S = q) (occ : Nat) :
    ∀ (l : List Nat) (acc : Nat) (f : Nat → Nat), acc &&& occ = 0 → l.Pairwise R →
      (∀ e, e ∈ l → e < 64) →
      (if ((acc ||| bits_of l) &&& occ != 0) = true
        then steps_of acc l f (sc ((acc ||| bits_of l) &&& occ))
        else acc ||| bits_of l) = acc ||| bits_of (cut_at occ l) := by
  intro l
  induction l with
  | nil =>
    intro acc f h _ _
    simp [bits_of, cut_at, h]
  | cons q r ih =>
    intro acc f h hp hl
    obtain ⟨h1, h2⟩ := List.pairwise_cons.1 hp
    have hq := hl q (List.mem_cons_self _ _)
    have hr : ∀ e, e ∈ r → e < 64 := fun e he => hl e (List.mem_cons_of_mem _ he)
    have hqr : q ∉ r := fun c => hasym _ _ (h1 q c) (h1 q c)
    by_cases ho : occ.testBit q = true
    · have hS : ((acc ||| bits_of (q :: r)) &&& occ).testBit q = true := by
        simp [bits_of, Nat.testBit_and, Nat.testBit_or, testBit_shl64_one hq, ho]
      have hne : ((acc ||| bits_of (q :: r)) &&& occ != 0) = true := by
        rw [bne_iff_ne]
        intro c
        rw [c, Nat.zero_testBit] at hS
        exact absurd hS (by simp)
      have hscan : sc ((acc ||| bits_of (q :: r)) &&& occ) = q := by
        apply hsc _ _ hq hS
        intro i hi hb
        have hz := and_eq_zero_testBit h i
        simp only [bits_of, Nat.testBit_and, Nat.testBit_or, testBit_shl64_one hq,
          testBit_bits_of hr, Bool.and_eq_true, Bool.or_eq_true, decide_eq_true_eq] at hb
        obtain ⟨hb1, hoc⟩ := hb
        rcases hb1 with hb2 | hb2
        · rw [hb2, hoc] at hz
          exact absurd hz (by decide)
        · rcases hb2 with hb3 | hb3
          · exact Or.inl hb3
          · exact Or.inr (h1 i hb3)
      rw [if_pos hne, hscan]
      simp only [steps_of, cut_at, if_pos ho, bits_of, Nat.or_zero]
      rw [steps_of_not_mem _ _ _ hqr, setAt_same]
    · have hz : (acc ||| shl64 1 q) &&& occ = 0 := by
        apply Nat.eq_of_testBit_eq
        intro i
        have hz := and_eq_zero_testBit h i
        rw [Nat.zero_testBit, Nat.testBit_and, Nat.testBit_or, testBit_shl64_one hq]
        by_cases e : i = q
        · rw [e]
          simp only [Bool.not_eq_true] at ho
          rw [ho]
          simp
        · simp only [e, decide_False, Bool.or_false]
          exact hz
      have := ih (acc ||| shl64 1 q) (setAt f q (acc ||| shl64 1 q)) hz h2 hr
      simp only [steps_of, cut_at, if_neg ho, bits_of, ← Nat.lor_assoc]
      exact this

theorem ray_eq (I : Nat) (dx dy : Int) :
    ray I dx dy =
      { steps := steps_of 0 (walk 0 dx dy 8 ((I % 8 : Nat) : Int) ((I / 8 : Nat) : Int))
          (fun _ => 0),
        last := bits_of (walk 0 dx dy 8 ((I % 8 : Nat) : Int) ((I / 8 : Nat) : Int)) } := by
  unfold ray
  rw [ray_from_eq]
  simp

theorem square_on_board (I : Nat) (h : I < 64) :
    (0 : Int) ≤ ((I % 8 : Nat) : Int) ∧ ((I % 8 : Nat) : Int) ≤ 7 ∧
      (0 : Int) ≤ ((I / 8 : Nat) : Int) ∧ ((I / 8 : Nat) : Int) ≤ 7 := by
  omega

/-- A forward ray: the lookup with `_BitScanForward64` gives the mask of the walk. -/
theorem lookup_fw (I occ : Nat) (h : I < 64) (dx dy : Int) (hd : 0 < dx + 8 * dy) :
    (if ((ray I dx dy).last &&& occ != 0) = true
      then (ray I dx dy).steps (bsf ((ray I dx dy).last &&& occ))
      else (ray I dx dy).last) =
      bits_of (walk occ dx dy 8 ((I % 8 : Nat) : Int) ((I / 8 : Nat) : Int)) := by
  have hw := walk_increasing dx dy hd 8 _ _ (square_on_board I h)
  have := scan_eq (R := fun u v => u < v) (fun u v h1 h2 => absurd h1 (by omega))
    (fun S q hq hS hmin => bsf_eq S q hq hS hmin) occ
    (walk 0 dx dy 8 ((I % 8 : Nat) : Int) ((I / 8 : Nat) : Int)) 0 (fun _ => 0)
    (Nat.zero_and _) hw.2 (walk_lt 0 dx dy 8 _ _)
  rw [ray_eq, walk_cut occ]
  simpa using this

/-- A reverse ray: the lookup with `_BitScanReverse64` gives the mask of the walk. -/
theorem lookup_rev (I occ : Nat) (h : I < 64) (dx dy : Int) (hd : dx + 8 * dy < 0) :
    (if ((ray I dx dy).last &&& occ != 0) = true
      then (ray I dx dy).steps (bsr ((ray I dx dy).last &&& occ))
      else (ray I dx dy).last) =
      bits_of (walk occ dx dy 8 ((I % 8 : Nat) : Int) ((I / 8 : Nat) : Int)) := by
  have hw := walk_decreasing dx dy hd 8 _ _ (square_on_board I h)
  have := scan_eq (R := fun u v => v < u) (fun u v h1 h2 => absurd h1 (by omega))
    (fun S q hq hS hmin => bsr_eq S q hq hS hmin) occ
    (walk 0 dx dy 8 ((I % 8 : Nat) : Int) ((I / 8 : Nat) : Int)) 0 (fun _ => 0)
    (Nat.zero_and _) hw.2 (walk_lt 0 dx dy 8 _ _)
  rw [ray_eq, walk_cut occ]
  simpa using this

theorem masks_fw_0 (I : Nat) : masks_fw I 0 = ray I (-1) 1 := rfl

theorem masks_fw_1 (I : Nat) : masks_fw I 1 = ray I 1 1 := rfl

theorem masks_fw_2 (I : Nat) : masks_fw I 2 = ray I 1 0 := rfl

theorem masks_fw_3 (I : Nat) : masks_fw I 3 = ray I 0 1 := rfl

theorem masks_rev_0 (I : Nat) : masks_rev I 0 = ray I (-1) (-1) := rfl

theorem masks_rev_1 (I : Nat) : masks_rev I 1 = ray I 1 (-1) := rfl

theorem masks_rev_2 (I : Nat) : masks_rev I 2 = ray I (-1) 0 := rfl

theorem masks_rev_3 (I : Nat) : masks_rev I 3 = ray I 0 (-1) := rfl

/-- Round `i` of the loop over the rays of a sliding piece: the squares of the walks along
the forward and the reverse direction of the round, within `not_friendly`. -/
theorem reach_of (I occ nf i : Nat) (h : I < 64) (fx fy rx ry : Int)
    (h1 : masks_fw I i = ray I fx fy) (h2 : masks_rev I i = ray I rx ry)
    (hf : 0 < fx + 8 * fy) (hr : rx + 8 * ry < 0) (d : Nat) :
    (bishop_reach I i occ nf).testBit d =
      ((decide (d ∈ walk occ fx fy 8 ((I % 8 : Nat) : Int) ((I / 8 : Nat) : Int)) ||
        decide (d ∈ walk occ rx ry 8 ((I % 8 : Nat) : Int) ((I / 8 : Nat) : Int))) &&
        nf.testBit d) := by
  unfold bishop_reach
  simp only []
  rw [h1, h2, lookup_fw I occ h fx fy hf, lookup_rev I occ h rx ry hr, Nat.testBit_and,
    Nat.testBit_or, testBit_bits_of (walk_lt occ fx fy 8 _ _),
    testBit_bits_of (walk_lt occ rx ry 8 _ _)]

theorem sliding_moves_bishop (I occ nf : Nat) :
    sliding_moves bishop I occ nf =
      (0 ||| bishop_reach I 0 occ nf) ||| bishop_reach I 1 occ nf := rfl

theorem sliding_moves_rook (I occ nf : Nat) :
    sliding_moves rook I occ nf =
      (0 ||| bishop_reach I 2 occ nf) ||| bishop_reach I 3 occ nf := rfl

theorem sliding_moves_queen (I occ nf : Nat) :
    sliding_moves queen I occ nf =
      (((0 ||| bishop_reach I 0 occ nf) ||| bishop_reach I 1 occ nf) |||
        bishop_reach I 2 occ nf) ||| bishop_reach I 3 occ nf := rfl

/-- The set `captures` that the loop over the sliding pieces computes from the lookups is
the set of the ray walk, within `not_friendly`. -/
theorem sliding_moves_walk (type I occ nf : Nat) (ht : type = bishop ∨ type = rook ∨ type = queen)
    (h : I < 64) (d : Nat) :
    (sliding_moves type I occ nf).testBit d =
      (decide (d ∈ (ray_dirs type).flatMap
        (fun v => walk occ v.1 v.2 8 ((I % 8 : Nat) : Int) ((I / 8 : Nat) : Int))) &&
        nf.testBit d) := by
  have r0 := reach_of I occ nf 0 h (-1) 1 (-1) (-1) (masks_fw_0 I) (masks_rev_0 I)
    (by decide) (by decide) d
  have r1 := reach_of I occ nf 1 h 1 1 1 (-1) (masks_fw_1 I) (masks_rev_1 I)
    (by decide) (by decide) d
  have r2 := reach_of I occ nf 2 h 1 0 (-1) 0 (masks_fw_2 I) (masks_rev_2 I)
    (by decide) (by decide) d
  have r3 := reach_of I occ nf 3 h 0 1 0 (-1) (masks_fw_3 I) (masks_rev_3 I)
    (by decide) (by decide) d
  rcases ht with e | e | e
  · subst e
    rw [sliding_moves_bishop, Nat.testBit_or, Nat.testBit_or, Nat.zero_testBit, r0, r1]
    simp only [ray_dirs, if_pos, List.flatMap_cons, List.flatMap_nil, List.mem_append,
      List.append_nil]
    cases nf.testBit d <;> simp <;> ac_rfl
  · subst e
    rw [sliding_moves_rook, Nat.testBit_or, Nat.testBit_or, Nat.zero_testBit, r2, r3]
    simp only [ray_dirs, if_pos, List.flatMap_cons, List.flatMap_nil, List.mem_append,
      List.append_nil, show ¬ (rook = bishop) from by decide, if_false]
    cases nf.testBit d <;> simp <;> ac_rfl
  · subst e
    rw [sliding_moves_queen, Nat.testBit_or, Nat.testBit_or, Nat.testBit_or, Nat.testBit_or,
      Nat.zero_testBit, r0, r1, r2, r3]
    simp only [ray_dirs, List.flatMap_cons, List.flatMap_nil, List.mem_append,
      List.append_nil, show ¬ (queen = bishop) from by decide,
      show ¬ (queen = rook) from by decide, if_false]
    cases nf.testBit d <;> simp <;> ac_rfl

/-! ## The generator in pseudo mode -/

theorem pawn_loop_pseudo_flag (last : chessmove) (side : Nat) (exit_on_legal : Bool)
    (mask theirs free : Nat) :
    ∀ (l : List Nat) (st : gen_state),
      (pawn_loop last side true exit_on_legal mask theirs free l st).1 = false := by
  intro l
  induction l with
  | nil => intro st; rfl
  | cons ind rest ih =>
    intro st
    simp only [pawn_loop, legalize_step_pseudo, Bool.false_eq_true, if_false]
    exact ih _

theorem castle_step_pseudo_flag (side : Nat) (exit_on_legal : Bool)
    (mask all_pieces relevant_rooks ind : Nat) (rx : Int) (corner dest : Nat) (st : gen_state) :
    (castle_step side true exit_on_legal mask all_pieces relevant_rooks ind rx corner dest st).1 =
      false := by
  unfold castle_step
  simp only [legalize_step_pseudo]
  split_ifs <;> rfl

theorem castle_block_pseudo_flag (side : Nat) (exit_on_legal : Bool) (mask our all_pieces ind : Nat)
    (st : gen_state) :
    (castle_block side true exit_on_legal mask our all_pieces ind st).1 = false := by
  unfold castle_block
  simp only [castle_step_pseudo_flag, Bool.false_eq_true, if_false]
  split_ifs
  · exact castle_step_pseudo_flag _ _ _ _ _ _ _ _ _ _
  · rfl

theorem jump_loop_pseudo_flag (side : Nat) (exit_on_legal : Bool)
    (mask our all_pieces not_friendly type : Nat) :
    ∀ (l : List Nat) (st : gen_state),
      (jump_loop side true exit_on_legal mask our all_pieces not_friendly type l st).1 =
        false := by
  intro l
  induction l with
  | nil => intro st; rfl
  | cons ind rest ih =>
    intro st
    simp only [jump_loop, legalize_step_pseudo, Bool.false_eq_true, if_false]
    by_cases hk : type = king
    · simp only [hk, if_true, castle_block_pseudo_flag, Bool.false_eq_true, if_false]
      have := ih
      rw [hk] at this
      exact this _
    · simp only [hk, if_false, Bool.false_eq_true]
      exact ih _

/-- In pseudo mode the loop over the sliding pieces of one type never returns early, leaves
the board alone and writes `sliding_moves` for each piece of its list. -/
theorem sliding_loop_pseudo (side : Nat) (exit_on_legal : Bool)
    (mask all_pieces not_friendly type : Nat) :
    ∀ (l : List Nat) (st : gen_state),
      (sliding_loop side true exit_on_legal mask all_pieces not_friendly type l st).1 = false ∧
      (sliding_loop side true exit_on_legal mask all_pieces not_friendly type l st).2.board =
        st.board ∧
      ∀ o, o ∈ l →
        (sliding_loop side true exit_on_legal mask all_pieces not_friendly type l st).2.matrices o =
          sliding_moves type o all_pieces not_friendly := by
  intro l
  induction l with
  | nil => intro st; exact ⟨rfl, rfl, fun o ho => absurd ho (List.not_mem_nil o)⟩
  | cons ind rest ih =>
    intro st
    obtain ⟨i0, i1, i2⟩ := ih
      { st with matrices := setAt st.matrices ind (sliding_moves type ind all_pieces not_friendly) }
    have hfr := sliding_loop_frame side true exit_on_legal mask all_pieces not_friendly type
      (o := ind) rest
      { st with matrices := setAt st.matrices ind (sliding_moves type ind all_pieces not_friendly) }
    simp only [sliding_loop, legalize_step_pseudo, Bool.false_eq_true, if_false]
    refine ⟨i0, i1, fun o ho => ?_⟩
    by_cases hr : o ∈ rest
    · exact i2 o hr
    · have : o = ind := by
        rcases List.mem_cons.1 ho with e | e
        · exact e
        · exact absurd e hr
      subst this
      rw [hfr hr]
      exact setAt_same _ _ _

/-- In pseudo mode the entry of a sliding piece of `side` is `sliding_moves`. -/
theorem generate_pseudo_sliding {b : chessboard} (wf : WF b) {side : Nat} (hs : side < 2)
    (M0 : Nat → Nat) (exit_on_legal : Bool) (mask : Nat) {t o : Nat}
    (ht : t = bishop ∨ t = rook ∨ t = queen) (ho : Own b side t o) :
    (generate_moves b side M0 true exit_on_legal mask).2.matrices o =
      sliding_moves t o (b.side_sets 0 ||| b.side_sets 1)
        (not64 (b.side_sets 0 ||| b.side_sets 1) ||| b.side_sets (side ^^^ 1)) := by
  unfold generate_moves
  have own : ∀ t, 1 ≤ t → t ≤ 6 → ∀ i, i ∈ set_bits (b.piece_sets t &&& b.side_sets side) →
      Own b side t i := fun t h1 h6 i hi => own_of_mem wf hs h1 h6 hi
  have nm : ∀ u, 1 ≤ u → u ≤ 6 → u ≠ t → o ∉ set_bits (b.piece_sets u &&& b.side_sets side) :=
    fun u h1 h6 hne hm => hne ((own u h1 h6 o hm).2.1.symm.trans ho.2.1)
  have t16 : 1 ≤ t ∧ t ≤ 6 := by rcases ht with e | e | e <;> subst e <;> decide
  have hmem := mem_of_own wf hs t16.1 t16.2 ho
  have g1 := pawn_loop_spec wf hs true exit_on_legal mask M0
    (set_bits (b.piece_sets pawn &&& b.side_sets side)) _ (own 6 (by decide) (by decide))
    (GInv.init b side true M0)
  simp only []
  split
  · rename_i hx
    rw [pawn_loop_pseudo_flag] at hx
    exact absurd hx (by simp)
  have g2 := jump_loop_spec wf hs (Or.inl rfl) true exit_on_legal mask M0
    (set_bits (b.piece_sets knight &&& b.side_sets side)) _ (own 4 (by decide) (by decide)) g1
  rw [g1.1]
  split
  · rename_i hx
    rw [jump_loop_pseudo_flag] at hx
    exact absurd hx (by simp)
  have g3 := jump_loop_spec wf hs (Or.inr rfl) true exit_on_legal mask M0
    (set_bits (b.piece_sets king &&& b.side_sets side)) _ (own 1 (by decide) (by decide)) g2
  rw [g2.1]
  split
  · rename_i hx
    rw [jump_loop_pseudo_flag] at hx
    exact absurd hx (by simp)
  have g4 := sliding_loop_spec wf hs (Or.inl rfl) true exit_on_legal mask M0
    (set_bits (b.piece_sets bishop &&& b.side_sets side)) _ (own 3 (by decide) (by decide)) g3
  rw [g3.1]
  split
  · rename_i hx
    rw [(sliding_loop_pseudo _ _ _ _ _ _ _ _).1] at hx
    exact absurd hx (by simp)
  have g5 := sliding_loop_spec wf hs (Or.inr (Or.inl rfl)) true exit_on_legal mask M0
    (set_bits (b.piece_sets rook &&& b.side_sets side)) _ (own 5 (by decide) (by decide)) g4
  rw [g4.1]
  split
  · rename_i hx
    rw [(sliding_loop_pseudo _ _ _ _ _ _ _ _).1] at hx
    exact absurd hx (by simp)
  rw [g5.1]
  rcases ht with e | e | e
  · subst e
    rw [sliding_loop_frame _ _ _ _ _ _ _ _ _ (nm queen (by decide) (by decide) (by decide)),
      sliding_loop_frame _ _ _ _ _ _ _ _ _ (nm rook (by decide) (by decide) (by decide))]
    exact (sliding_loop_pseudo _ _ _ _ _ _ _ _).2.2 o hmem
  · subst e
    rw [sliding_loop_frame _ _ _ _ _ _ _ _ _ (nm queen (by decide) (by decide) (by decide))]
    exact (sliding_loop_pseudo _ _ _ _ _ _ _ _).2.2 o hmem
  · subst e
    exact (sliding_loop_pseudo _ _ _ _ _ _ _ _).2.2 o hmem

theorem mem_dirs_lt (type ind occ d fuel : Nat)
    (h : d ∈ (ray_dirs type).flatMap
      (fun v => walk occ v.1 v.2 fuel ((ind % 8 : Nat) : Int) ((ind / 8 : Nat) : Int))) :
    d < 64 := by
  obtain ⟨v, _, hv⟩ := List.mem_flatMap.1 h
  exact walk_lt occ v.1 v.2 fuel _ _ d hv

theorem ray_walk_fuel (n type ind occ own : Nat) (hi : ind < 64) :
    ray_walk (8 + n) type ind occ own = ray_walk 8 type ind occ own := by
  have hb := square_on_board ind hi
  have w : ∀ dx dy : Int, (dx = 1 ∨ dx = -1 ∨ dy = 1 ∨ dy = -1) →
      walk occ dx dy (8 + n) ((ind % 8 : Nat) : Int) ((ind / 8 : Nat) : Int) =
        walk occ dx dy 8 ((ind % 8 : Nat) : Int) ((ind / 8 : Nat) : Int) :=
    fun dx dy h => walk_fuel occ dx dy 8 n _ _ (by push_cast; omega)
  unfold ray_walk ray_dirs
  split_ifs <;>
    simp only [List.flatMap_cons, List.flatMap_nil, w (-1) 1 (by decide), w 1 1 (by decide),
      w (-1) (-1) (by decide), w 1 (-1) (by decide), w 1 0 (by decide), w 0 1 (by decide),
      w (-1) 0 (by decide), w 0 (-1) (by decide)]

/-- On a well-formed board the mask `not_friendly` of `generate_moves` holds the squares of
the board that the side does not occupy itself. -/
theorem not_friendly_testBit {b : chessboard} (wf : WF b) {side : Nat} (hs : side < 2) (d : Nat) :
    (not64 (b.side_sets 0 ||| b.side_sets 1) ||| b.side_sets (side ^^^ 1)).testBit d =
      (decide (d < 64) && !(b.side_sets side).testBit d) := by
  have h0 := wf.mc.side 0 d (by decide)
  have h1 := wf.mc.side 1 d (by decide)
  rw [Nat.testBit_or, testBit_not64, Nat.testBit_or]
  have hside : side = 0 ∨ side = 1 := by omega
  rcases hside with e | e <;> subst e
  · rw [show (0 ^^^ 1 : Nat) = 1 from rfl]
    cases hA : (b.side_sets 0).testBit d <;> cases hB : (b.side_sets 1).testBit d <;>
      by_cases hd : d < 64 <;> simp [hd]
    · exact absurd (h1.1 hB).1 hd
    · have := (h0.1 hA).2.2
      have := (h1.1 hB).2.2
      omega
    · exact absurd (h1.1 hB).1 hd
  · rw [show (1 ^^^ 1 : Nat) = 0 from rfl]
    cases hA : (b.side_sets 0).testBit d <;> cases hB : (b.side_sets 1).testBit d <;>
      by_cases hd : d < 64 <;> simp [hd]
    · exact absurd (h0.1 hA).1 hd
    · have := (h0.1 hA).2.2
      have := (h1.1 hB).2.2
      omega
    · exact absurd (h0.1 hA).1 hd

theorem walk_bit (type ind occ own nf n d : Nat)
    (ht : type = bishop ∨ type = rook ∨ type = queen) (hi : ind < 64)
    (hnf : nf.testBit d = (decide (d < 64) && !own.testBit d)) :
    (sliding_moves type ind occ nf).testBit d =
      decide (d ∈ ray_walk (8 + n) type ind occ own) := by
  rw [sliding_moves_walk type ind occ nf ht hi d, ray_walk_fuel n type ind occ own hi, hnf]
  unfold ray_walk
  have hlt := mem_dirs_lt type ind occ d 8
  generalize (ray_dirs type).flatMap
    (fun v => walk occ v.1 v.2 8 ((ind % 8 : Nat) : Int) ((ind / 8 : Nat) : Int)) = F at hlt ⊢
  by_cases hm : d ∈ F
  · have hd := hlt hm
    simp [List.mem_filter, hm, hd]
  · simp [List.mem_filter, hm]

/-- C24. Sliding attacks via lookup equal a ray walk.  For every square `ind`, every piece
type among bishop, rook and queen, every occupancy `occ` and every set `own` of squares of
the piece's own side, the set `captures` that the sliding branch of `generate_moves`
computes from the lookup tables (with `not_friendly` the complement of `own`) has exactly the
squares of `ray_walk`: those reached by walking each ray direction of the type square by
square up to the board edge or the first occupied square (inclusive), without the squares
in `own`; the walk may be given any fuel from 8 on.  And on every well-formed board, for
a piece of `side` of that type on `ind`, this is the entry `matrices[ind]` that
`generate_moves` leaves in pseudo mode, with the board's occupancy and the squares of
`side`. -/
theorem sliding_lookup_is_ray_walk (type ind : Nat)
    (ht : type = bishop ∨ type = rook ∨ type = queen) (hi : ind < 64) :
    (∀ occ own n d : Nat, (sliding_moves type ind occ (not64 own)).testBit d =
      decide (d ∈ ray_walk (8 + n) type ind occ own)) ∧
    (∀ (b : chessboard) (side : Nat) (M0 : Nat → Nat) (exit_on_legal : Bool) (mask : Nat),
      WF b → side < 2 → Own b side type ind → ∀ n d : Nat,
        ((generate_moves b side M0 true exit_on_legal mask).2.matrices ind).testBit d =
          decide (d ∈ ray_walk (8 + n) type ind (b.side_sets 0 ||| b.side_sets 1)
            (b.side_sets side))) := by
  refine ⟨fun occ own n d => walk_bit type ind occ own _ n d ht hi (testBit_not64 own d), ?_⟩
  intro b side M0 exit_on_legal mask wf hs ho n d
  rw [generate_pseudo_sliding wf hs M0 exit_on_legal mask ht ho]
  exact walk_bit type ind _ _ _ n d ht hi (not_friendly_testBit wf hs d)

set_option maxRecDepth 1000000 in
/-- C24 at concrete inputs: a rook on a1 (square 56) with the occupancy a3 (bit 40) and
nothing of its own side, at the square a3; and the rook of side 1 on a1 in the standard
position, at the square a2. -/
theorem sliding_lookup_is_ray_walk_witness :
    (sliding_moves rook 56 (2 ^ 40) (not64 0)).testBit 40 =
      decide (40 ∈ ray_walk (8 + 0) rook 56 (2 ^ 40) 0) ∧
    ((generate_moves standard_board 1 (fun _ => 0) true false (2 ^ 64 - 1)).2.matrices 56).testBit
        48 =
      decide (48 ∈ ray_walk (8 + 0) rook 56
        (standard_board.side_sets 0 ||| standard_board.side_sets 1)
        (standard_board.side_sets 1)) :=
  ⟨(sliding_lookup_is_ray_walk rook 56 (Or.inr (Or.inl rfl)) (by decide)).1 (2 ^ 40) 0 0 40,
    (sliding_lookup_is_ray_walk rook 56 (Or.inr (Or.inl rfl)) (by decide)).2 standard_board 1
      (fun _ => 0) false (2 ^ 64 - 1) WF_standard (by decide)
      ⟨by decide, by decide!, by decide!, by decide!⟩ 0 48⟩

set_option maxRecDepth 1000000 in
/-- C12 fails as stated: on the board with the king of side 1 on c1, its rook on a1 and its
knight on b1 the generator yields (in legal mode) the king move c1-a1, two files on one rank
towards the corner a1 that holds the rook of side 1; after `make_move` the corner is not
empty (the king stands on it), and the rook stands on b1 while bit b1 is missing from
`side_sets[1]`. -/
theorem castling_from_c1_fills_corner :
    yields (board_of codes_king_c1) 58 56 = true ∧
    (board_of codes_king_c1).pieces 58 = king + 8 * 1 ∧
    castle_corner 58 56 = 56 ∧
    (board_of codes_king_c1).pieces (castle_corner 58 56) = rook + 8 * 1 ∧
    (make_move_sq (board_of codes_king_c1) 58 56).pieces (castle_corner 58 56) = king + 8 * 1 ∧
    (make_move_sq (board_of codes_king_c1) 58 56).pieces ((58 + 56) / 2) = rook + 8 * 1 ∧
    ((make_move_sq (board_of codes_king_c1) 58 56).side_sets 1).testBit ((58 + 56) / 2) = false :=
  ⟨by decide!, by decide!, by decide!, by decide!, by decide!, by decide!, by decide!⟩

/-! ## The unwinding of a search path -/

theorem unmake_move_counter (b : chessboard) (a : Int) :
    unmake_move { b with appended_moves := a } =
      { unmake_move b with appended_moves := a } := by
  unfold unmake_move
  simp only []
  split
  · rfl
  · split_ifs <;> rfl

theorem unwind_loop_counter (a : Int) : ∀ (k : Nat) (b : chessboard),
    unwind_loop k { b with appended_moves := a } =
      { unwind_loop k b with appended_moves := a } := by
  intro k
  induction k with
  | zero => intro b; rfl
  | succ k ih =>
    intro b
    simp only [unwind_loop]
    rw [unmake_move_counter, ih]

theorem make_move_null (b : chessboard) :
    make_move b 0 0 0 0 =
      { b with side_to_move := b.side_to_move ^^^ 1, hash := b.hash ^^^ zobrist_table 1 8,
               move_stack := {} :: b.move_stack, move_count := b.move_count + 1 } := by
  unfold make_move; simp

theorem unmake_null_move (b : chessboard) : unmake_move (make_move b 0 0 0 0) = b := by
  rw [make_move_null]
  unfold unmake_move
  simp only [chessmove_default_empty, Bool.not_true, Bool.false_eq_true, if_false, if_true]
  apply chessboard_eq <;> simp [Nat.xor_assoc]

theorem WF.null_move {b : chessboard} (wf : WF b) : WF (make_move b 0 0 0 0) := by
  rw [make_move_null]
  refine ⟨wf.mc, wf.hm_occ, wf.pawn_rank, wf.pawn_home, wf.king_home, ?_, wf.prev_lt,
    xor_one_le wf.stm⟩
  intro m hm
  rcases List.mem_cons.1 hm with e | e
  · rw [e]; unfold chessmove.sane; decide
  · exact wf.stack_sane m e

theorem WF.with_counter {b : chessboard} (wf : WF b) (a : Int) :
    WF { b with appended_moves := a } :=
  ⟨wf.mc, wf.hm_occ, wf.pawn_rank, wf.pawn_home, wf.king_home, wf.stack_sane, wf.prev_lt,
    wf.stm⟩

/-- A destination that `generate_moves` wrote in legal mode into a zero-initialised array,
under any mask, is a move `make_move` is prepared for. -/
theorem written_ok {b : chessboard} (wf : WF b) {side : Nat} (hs : side < 2) {mask o d : Nat}
    (h : ((generate_moves b side (fun _ => 0) false false mask).2.matrices o).testBit d = true) :
    MoveOK b o d := by
  have g := generate_moves_spec wf hs (fun _ => 0) false false mask
  rcases g.2 o with e | ⟨t, _, h1, _⟩
  · rw [e] at h
    simp at h
  · exact (h1 d h).1

/-- Along a search path every board is well-formed, and retracting its `k` moves gives the
board of the entry with the counter `appended_moves` of the node. -/
theorem Descends.unwound {b0 b : chessboard} {k : Nat} (wf : WF b0) (h : Descends b0 k b) :
    WF b ∧ unwind_loop k b = { b0 with appended_moves := b.appended_moves } := by
  induction h with
  | root => exact ⟨wf, rfl⟩
  | move k b mask o d _ hg ih =>
    obtain ⟨w, e⟩ := ih
    have ok := written_ok w (by have := w.stm; omega) hg
    have w2 := WF.make_move_sq w ok
    refine ⟨(w2.with_counter _ : WF (enter_move b _ _ _ _)), ?_⟩
    have hu : unmake_move (make_move_sq b o d) = b := unmake_make_sq w ok
    show unwind_loop k (unmake_move { make_move_sq b o d with
      appended_moves := wrap32 ((make_move_sq b o d).appended_moves + 1) }) = _
    rw [unmake_move_counter, hu, unwind_loop_counter, e]
    rfl
  | null k b _ ih =>
    obtain ⟨w, e⟩ := ih
    refine ⟨(w.null_move.with_counter _ : WF (enter_move b 0 0 0 0)), ?_⟩
    show unwind_loop k (unmake_move { make_move b 0 0 0 0 with
      appended_moves := wrap32 ((make_move b 0 0 0 0).appended_moves + 1) }) = _
    rw [unmake_move_counter, unmake_null_move, unwind_loop_counter, e]
    rfl

/-- C22, amended: when the deadline or halt flag fires at a node reached from a well-formed
board `b0` (the board on which the search was entered; every position reachable from the
standard initial position is well-formed) by `k` moves entered by `search_helper` or by the
null-move pruning, with `appended_moves == k` at the node, the unwinding loop that precedes
the throw leaves the board identical to `b0` in every field except `appended_moves`, which
keeps the value `k`. -/
theorem unwind_restores_but_counter {b0 b : chessboard} {k : Nat} (wf : WF b0)
    (h : Descends b0 k b) (hk : b.appended_moves = (k : Int)) :
    unwind b = { b0 with appended_moves := (k : Int) } := by
  unfold unwind
  rw [hk, Int.toNat_ofNat, (h.unwound wf).2, hk]

set_option maxRecDepth 1000000 in
/-- The amended C22 one move deep in the standard initial position, after e2-e4. -/
theorem unwind_restores_but_counter_witness :
    unwind (enter_move standard_board ((52 &&& 7 : Nat) : Int) ((52 >>> 3 : Nat) : Int)
        ((36 &&& 7 : Nat) : Int) ((36 >>> 3 : Nat) : Int)) =
      { standard_board with appended_moves := ((1 : Nat) : Int) } :=
  unwind_restores_but_counter WF_standard
    (Descends.move 0 standard_board (2 ^ 64 - 1) 52 36 Descends.root (by decide!)) (by decide!)

set_option maxRecDepth 1000000 in
/-- C6 fails as stated.  On the board with the king of side 1 on c1, its rook on a1, its
knight on b1 and its queen on c2, against the king on e8 and the rook on c8 of side 0, the
masks are consistent (all `has_moved` bits are clear), each side has one king, neither king
is attacked, and
`generate_moves(1, matrices, pseudo = false, exit_on_legal = false)` writes c3 into the set of
b1.  While it filters the king's moves it tries c1-a1 as a castling move, and `unmake_move`
does not give the board back: when the call returns b1 holds the code of a king.  After
`make_move(b1 -> c3)` on the board as `generate_moves` has left it, `in_check(1)` is true. -/
theorem legal_filter_spoils_board :
    mask_consistent (board_of codes_queen_c2) ∧
    set_bits ((board_of codes_queen_c2).piece_sets king &&&
      (board_of codes_queen_c2).side_sets 0) = [4] ∧
    set_bits ((board_of codes_queen_c2).piece_sets king &&&
      (board_of codes_queen_c2).side_sets 1) = [58] ∧
    in_check (board_of codes_queen_c2) 0 = false ∧
    in_check (board_of codes_queen_c2) 1 = false ∧
    ((generate_moves (board_of codes_queen_c2) 1 (fun _ => 0) false false
      (2 ^ 64 - 1)).2.matrices 57).testBit 42 = true ∧
    (board_of codes_queen_c2).pieces 57 = 12 ∧
    (generate_moves (board_of codes_queen_c2) 1 (fun _ => 0) false false
      (2 ^ 64 - 1)).2.board.pieces 57 = 9 ∧
    in_check (make_move_sq (generate_moves (board_of codes_queen_c2) 1 (fun _ => 0) false false
      (2 ^ 64 - 1)).2.board 57 42) 1 = true :=
  ⟨by decide!, by decide!, by decide!, by decide!, by decide!, by decide!, by decide!,
    by decide!, by decide!⟩

/-! ## Pseudo mode on a board whose masks are consistent -/

theorem SameSets.mc {b1 b0 : chessboard} (h : SameSets b1 b0)
    (mc : MC b0.pieces b0.side_sets b0.piece_sets) :
    MC b1.pieces b1.side_sets b1.piece_sets := by
  obtain ⟨h1, h2, h3⟩ := h
  rw [h1, h2, h3]
  exact mc

theorem SameSets.trans {b2 b1 b0 : chessboard} (h : SameSets b2 b1) (g : SameSets b1 b0) :
    SameSets b2 b0 :=
  ⟨h.1.trans g.1, h.2.1.trans g.2.1, h.2.2.trans g.2.2⟩

/-- Undoing `move_core` by `unmake_core` gives back `pieces` and the masks, whatever the
`has_moved` bits are. -/
theorem round_sets {b : chessboard} {o d c r1 r2 : Nat} {castling promote : Bool}
    (ox oy dx dy cy : Int) (ts : Bool) (mc : MC b.pieces b.side_sets b.piece_sets)
    (ok : CoreOK b o d c r1 r2 castling promote) :
    SameSets (unmake_core (move_core b ox oy dx dy cy o d c r1 r2 castling promote ts)
      (core_record b ox oy dx dy cy o c r1 r2 castling promote ts) b.move_stack
      o d c r1 r2 castling) b := by
  have hcap := core_captured ok
  have hrec1 : (core_record b ox oy dx dy cy o c r1 r2 castling promote ts).captured_type
      = b.pieces c := by simp [core_record, hcap]
  have hmc := move_core_MC ox oy dx dy cy ts mc ok
  have hun := core_UnOK ox oy dx dy cy ts mc ok
  have hmc2 := unmake_core_MC (l := b.move_stack) hmc hun
  have hP := round_pieces ox oy dx dy cy ts mc ok
  rw [hP] at hmc2
  have hvd := hmc.codes d ok.hd
  have hvc := mc.codes c ok.hc
  refine ⟨hP, ?_, ?_⟩
  · funext j
    by_cases hj : j < 2
    · exact hmc2.side_unique mc hj
    · rw [unmake_core_side_frame, move_core_side_frame ox oy dx dy cy ts mc ok j (by omega)]
      · have := valid_code_side hvd; omega
      · rw [hrec1]
        have := valid_code_side hvc; omega
  · funext j
    by_cases hj : j ≤ 6
    · exact hmc2.type_unique mc hj
    · rw [unmake_core_type_frame, move_core_type_frame ox oy dx dy cy ts mc ok j (by omega)]
      · unfold valid_code at hvd; omega
      · rw [hrec1]
        unfold valid_code at hvc; omega
      · omega
      · omega

/-- Theorem "round trip" for `pieces` and the masks: they are as before after `make_move`
and `unmake_move`, for every move that meets the preconditions of `move_core`. -/
theorem unmake_make_sets {b : chessboard} {o d : Nat}
    (mc : MC b.pieces b.side_sets b.piece_sets)
    (hco : CoreOK b o d (cap_sq b o d) (rook_from o d) (rook_to o d) (is_castling b o d)
      (is_promotion b o d)) :
    SameSets (unmake_move (make_move_sq b o d)) b := by
  rw [make_move_sq_eq hco.ho hco.hd hco.hne]
  have hst := move_core_stack b ((o &&& 7 : Nat) : Int) ((o >>> 3 : Nat) : Int)
    ((d &&& 7 : Nat) : Int) ((d >>> 3 : Nat) : Int) (cap_row b o d) o d (cap_sq b o d)
    (rook_from o d) (rook_to o d) (is_castling b o d) (is_promotion b o d) (is_two_squares b o d)
  have hemp : (core_record b ((o &&& 7 : Nat) : Int) ((o >>> 3 : Nat) : Int)
      ((d &&& 7 : Nat) : Int) ((d >>> 3 : Nat) : Int) (cap_row b o d) o (cap_sq b o d)
      (rook_from o d) (rook_to o d) (is_castling b o d) (is_promotion b o d)
      (is_two_squares b o d)).empty = false := by
    have := make_move_sq_not_null hco.ho hco.hd hco.hne
    simp only [chessmove.empty, core_record]
    cases h1 : (((o &&& 7 : Nat) : Int) == 0) <;> cases h2 : (((o >>> 3 : Nat) : Int) == 0) <;>
      cases h3 : (((d &&& 7 : Nat) : Int) == 0) <;> cases h4 : (((d >>> 3 : Nat) : Int) == 0) <;>
      simp_all
  rw [unmake_move_eq_core _ _ _ hst hemp]
  have hpd := move_core_pieces_dest ((o &&& 7 : Nat) : Int) ((o >>> 3 : Nat) : Int)
    ((d &&& 7 : Nat) : Int) ((d >>> 3 : Nat) : Int) (cap_row b o d) (is_two_squares b o d) hco
  have hcast : ((move_core b ((o &&& 7 : Nat) : Int) ((o >>> 3 : Nat) : Int)
      ((d &&& 7 : Nat) : Int) ((d >>> 3 : Nat) : Int) (cap_row b o d) o d (cap_sq b o d)
      (rook_from o d) (rook_to o d) (is_castling b o d) (is_promotion b o d)
      (is_two_squares b o d)).pieces d &&& type_mask == king
        && ((((o &&& 7 : Nat) : Int) - ((d &&& 7 : Nat) : Int)).natAbs == 2))
      = is_castling b o d := by
    rw [hpd, ← is_castling_eq]
    have hv := mc.codes o hco.ho
    unfold valid_code at hv
    cases hpr : is_promotion b o d
    · simp
    · have hp6 := hco.prom hpr
      simp only [if_true, type_mask, king, and7]
      have e1 : ((2 + 8 * (b.pieces o / 8)) % 8 == 1) = false := by
        have : (2 + 8 * (b.pieces o / 8)) % 8 = 2 := by omega
        rw [this]; rfl
      have e2 : (b.pieces o % 8 == 1) = false := by rw [hp6]; rfl
      rw [e1, e2]
  simp only [core_record] at hcast ⊢
  simp only [sq_cast, rook_from_sq, cap_row_sq, hcast]
  exact round_sets _ _ _ _ _ _ mc hco

/-- A king that moves along its rank to an empty square meets the preconditions of
`move_core`, provided that, when the move is two files long, the rook of its side stands in
the corner on that side with its `has_moved` bit clear and the square in between is empty. -/
theorem king_slide_core {b : chessboard} {o d : Nat} (ho : o < 64) (hd : d < 64)
    (hk : b.pieces o % 8 = 1) (hrow : d / 8 = o / 8) (hne : o ≠ d) (hd0 : b.pieces d = 0)
    (hcast : (d % 8 + 2 = o % 8 ∨ o % 8 + 2 = d % 8) →
      b.pieces ((o + d) / 2) = 0 ∧
      b.pieces (rook_from o d) = 5 + 8 * (b.pieces o / 8) ∧
      b.has_moved.testBit (rook_from o d) = false) :
    CoreOK b o d (cap_sq b o d) (rook_from o d) (rook_to o d) (is_castling b o d)
      (is_promotion b o d) := by
  have hp0 : b.pieces o ≠ 0 := fun e => by rw [e] at hk; omega
  have hc : cap_sq b o d = d := by
    unfold cap_sq
    rw [if_neg]
    rintro ⟨_, h6, _⟩
    omega
  rw [hc]
  refine ⟨ho, hd, hd, hne, hp0, fun e => hne e.symm, Or.inl rfl, ?_, ?_⟩
  · intro hcs
    unfold is_castling at hcs
    simp only [decide_eq_true_eq] at hcs
    obtain ⟨_, hx⟩ := hcs
    obtain ⟨hmid, hrk, hhm⟩ := hcast hx
    have hr64 : rook_from o d < 64 := by unfold rook_from; split_ifs <;> omega
    have hto : rook_to o d = (o + d) / 2 := by
      rcases hx with h | h
      · rw [rook_to_gen_left h]; omega
      · rw [rook_to_gen_right h]; omega
    rw [hto]
    have hm64 : (o + d) / 2 < 64 := by omega
    have n1 : rook_from o d ≠ (o + d) / 2 := fun e => by rw [e, hmid] at hrk; omega
    have n2 : rook_from o d ≠ o := fun e => by rw [e] at hrk; omega
    have n3 : rook_from o d ≠ d := fun e => by rw [e, hd0] at hrk; omega
    refine ⟨hk, hr64, hm64, n1, n2, n3, by omega, by omega, hrk, hmid, hd0, rfl, hhm⟩
  · intro hpr
    unfold is_promotion at hpr
    simp only [decide_eq_true_eq] at hpr
    exact hpr.1

theorem sq_coords {X y : Int} (hX : 0 ≤ X ∧ X ≤ 7) (hy : 0 ≤ y ∧ y ≤ 7) :
    sq X y < 64 ∧ ((sq X y % 8 : Nat) : Int) = X ∧ ((sq X y / 8 : Nat) : Int) = y := by
  unfold sq
  omega

theorem piece_at (all : Nat) (x y i : Int) (hX : 0 ≤ i + x ∧ i + x ≤ 7) (hy : 0 ≤ y ∧ y ≤ 7) :
    piece all x y i 0 = all.testBit (sq (i + x) y) := by
  unfold piece
  have h0 : (0 : Int) + y = y := by omega
  have h64 : sq (i + x) y < 64 := (sq_coords hX hy).1
  rw [h0, and_shl64_one_ne_zero _ h64]
  have : decide (0 ≤ i + x ∧ i + x ≤ 7 ∧ 0 ≤ y ∧ y ≤ 7) = true := by
    simp only [decide_eq_true_eq]; omega
  rw [this, Bool.true_and]

/-- The loop of `can_castle` leaves `pieces` and the masks as they were: the king moves it
tries go to squares that the loop has found empty, and the one that `make_move` takes for
castling (the second step) finds the rook in the corner, unmoved. -/
theorem can_castle_loop_sets {b0 : chessboard} {side ind corner : Nat} {x y dx : Int}
    (mc : MC b0.pieces b0.side_sets b0.piece_sets) (h64 : ind < 64)
    (hx : x = ((ind % 8 : Nat) : Int)) (hy : y = ((ind / 8 : Nat) : Int))
    (hk : b0.pieces ind % 8 = 1) (hdx : dx = -1 ∨ dx = 1)
    (hcorner : (dx = -1 → corner = 8 * (ind / 8)) ∧ (dx = 1 → corner = 7 + 8 * (ind / 8)))
    (hrook : b0.pieces corner = 5 + 8 * (b0.pieces ind / 8)) :
    ∀ (fuel : Nat) (i : Int) (b : chessboard), 1 ≤ i → SameSets b b0 →
      (i ≤ 2 → b.has_moved.testBit corner = false) →
      (∀ j : Int, 1 ≤ j → j < i →
        0 ≤ x + j * dx ∧ x + j * dx ≤ 7 ∧ b0.pieces (sq (x + j * dx) y) = 0) →
      SameSets (can_castle_loop side (b0.side_sets 0 ||| b0.side_sets 1) x y dx fuel i b).2
        b0 := by
  intro fuel
  induction fuel with
  | zero => intro i b _ hS _ _; exact hS
  | succ n ih =>
    intro i b hi hS hhm hemp
    rw [can_castle_loop_succ]
    by_cases hb : between (x + i * dx) 2 7 = true
    · rw [if_pos hb]
      unfold between at hb
      simp only [Bool.and_eq_true, decide_eq_true_eq] at hb
      have hX : 0 ≤ i * dx + x ∧ i * dx + x ≤ 7 := by omega
      have hyb : 0 ≤ y ∧ y ≤ 7 := by omega
      by_cases hp : piece (b0.side_sets 0 ||| b0.side_sets 1) x y (i * dx) 0 = true
      · rw [if_pos hp]; exact hS
      · rw [if_neg hp]
        rw [piece_at _ _ _ _ hX hyb] at hp
        have hsq : i * dx + x = x + i * dx := by omega
        rw [hsq] at hp
        have hd64 := sq_coords (X := x + i * dx) ⟨by omega, by omega⟩ hyb
        have hd0 : b0.pieces (sq (x + i * dx) y) = 0 := by
          by_contra hc
          exact hp ((all_bit_mc mc _).2 ⟨hd64.1, hc⟩)
        have hemp2 : ∀ j : Int, 1 ≤ j → j < i + 1 →
            0 ≤ x + j * dx ∧ x + j * dx ≤ 7 ∧ b0.pieces (sq (x + j * dx) y) = 0 := by
          intro j h1 h2
          by_cases e : j = i
          · subst e; exact ⟨by omega, by omega, hd0⟩
          · exact hemp j h1 (by omega)
        by_cases h1 : i ≠ 1
        · rw [if_pos h1]
          have hsafe : is_move_safe b side x y (x + i * dx) y =
              (safe_sq b side ind (sq (x + i * dx) y),
                unmake_move (make_move_sq b ind (sq (x + i * dx) y))) := by
            have := is_move_safe_sq b side ind (sq (x + i * dx) y)
            rw [and7, shr3, and7, shr3, hd64.2.1, hd64.2.2, ← hx, ← hy] at this
            exact this
          have hmcb := hS.mc mc
          have hrow : sq (x + i * dx) y / 8 = ind / 8 := by
            have := hd64.2.2
            omega
          have hne : ind ≠ sq (x + i * dx) y := by
            have := hd64.2.1
            rcases hdx with e | e <;> subst e <;> omega
          have hco : CoreOK b ind (sq (x + i * dx) y) (cap_sq b ind (sq (x + i * dx) y))
              (rook_from ind (sq (x + i * dx) y)) (rook_to ind (sq (x + i * dx) y))
              (is_castling b ind (sq (x + i * dx) y))
              (is_promotion b ind (sq (x + i * dx) y)) := by
            refine king_slide_core h64 hd64.1 (by rw [hS.1]; exact hk) hrow hne
              (by rw [hS.1]; exact hd0) (fun hx2 => ?_)
            have hi2 : i = 2 := by
              have := hd64.2.1
              rcases hdx with e | e <;> subst e <;> omega
            have hm := (hemp 1 (le_refl 1) (by omega)).2.2
            have hmid : sq (x + 1 * dx) y = (ind + sq (x + i * dx) y) / 2 := by
              have := hd64.2.1
              have := hd64.2.2
              have h3 := hemp 1 (le_refl 1) (by omega)
              have h4 := sq_coords (X := x + 1 * dx) ⟨h3.1, h3.2.1⟩ hyb
              rcases hdx with e | e <;> subst e <;> omega
            have hrf : rook_from ind (sq (x + i * dx) y) = corner := by
              unfold rook_from
              have := hd64.2.1
              rcases hdx with e | e
              · rw [hcorner.1 e, if_pos (by subst e; omega)]; omega
              · rw [hcorner.2 e, if_neg (by subst e; omega)]
            rw [hS.1, hrf, ← hmid]
            exact ⟨hm, hrook, hhm (by omega)⟩
          have hS2 := (unmake_make_sets hmcb hco).trans hS
          rw [hsafe]
          by_cases hsf : (!safe_sq b side ind (sq (x + i * dx) y)) = true
          · rw [if_pos hsf]; exact hS2
          · rw [if_neg hsf]
            exact ih (i + 1) _ (by omega) hS2 (fun h => absurd h (by omega)) hemp2
        · rw [if_neg h1]
          have e1 : i = 1 := by
            by_contra hc; exact h1 hc
          exact ih (i + 1) b (by omega) hS (fun _ => hhm (by omega)) hemp2
    · rw [if_neg hb]; exact hS

theorem sgn_neg {v : Int} (h : v < 0) : sgn v = -1 := by
  unfold sgn b2n
  rw [if_neg (by simp only [decide_eq_true_eq]; omega), if_pos (by simp only [decide_eq_true_eq]; omega)]
  rfl

theorem sgn_pos {v : Int} (h : 0 < v) : sgn v = 1 := by
  unfold sgn b2n
  rw [if_pos (by simp only [decide_eq_true_eq]; omega), if_neg (by simp only [decide_eq_true_eq]; omega)]
  rfl

/-- The lambda `can_castle`, called for the king on `ind` towards a corner that holds the
rook of its side, leaves `pieces` and the masks as they were. -/
theorem can_castle_sets {b0 b : chessboard} {side ind : Nat}
    (mc : MC b0.pieces b0.side_sets b0.piece_sets) (h64 : ind < 64)
    (hk : b0.pieces ind % 8 = 1) (hS : SameSets b b0) (rx : Int)
    (hrx : (rx = 0 ∧ b0.pieces (8 * (ind / 8)) = 5 + 8 * (b0.pieces ind / 8)) ∨
      (rx = 7 ∧ b0.pieces (7 + 8 * (ind / 8)) = 5 + 8 * (b0.pieces ind / 8))) :
    SameSets (can_castle b side (b0.side_sets 0 ||| b0.side_sets 1) ((ind &&& 7 : Nat) : Int)
      ((ind >>> 3 : Nat) : Int) rx ((ind >>> 3 : Nat) : Int)).2 b0 := by
  rw [and7, shr3]
  unfold can_castle
  have hsqo : sq ((ind % 8 : Nat) : Int) ((ind / 8 : Nat) : Int) = ind := sq_cast_mod ind
  rw [hsqo, and_shl64_one_ne_zero _ h64]
  rcases hrx with ⟨e, hrook⟩ | ⟨e, hrook⟩
  · subst e
    have hsqc : sq 0 ((ind / 8 : Nat) : Int) = 8 * (ind / 8) := by unfold sq; omega
    have hc64 : 8 * (ind / 8) < 64 := by omega
    rw [hsqc, and_shl64_one_ne_zero _ hc64]
    by_cases hm : (b.has_moved.testBit (8 * (ind / 8)) || b.has_moved.testBit ind) = true
    · rw [if_pos hm]; exact hS
    · rw [if_neg hm]
      simp only [Bool.or_eq_true, not_or, Bool.not_eq_true] at hm
      have hx0 : ind % 8 ≠ 0 := by
        intro h0
        have : 8 * (ind / 8) = ind := by omega
        rw [this] at hrook
        omega
      rw [sgn_neg (by omega)]
      exact can_castle_loop_sets mc h64 rfl rfl hk (Or.inl rfl)
        ⟨fun _ => rfl, fun h => absurd h (by decide)⟩ hrook 8 1 b (le_refl 1) hS
        (fun _ => hm.1) (fun j h1 h2 => absurd h2 (by omega))
  · subst e
    have hsqc : sq 7 ((ind / 8 : Nat) : Int) = 7 + 8 * (ind / 8) := by unfold sq; omega
    have hc64 : 7 + 8 * (ind / 8) < 64 := by omega
    rw [hsqc, and_shl64_one_ne_zero _ hc64]
    by_cases hm : (b.has_moved.testBit (7 + 8 * (ind / 8)) || b.has_moved.testBit ind) = true
    · rw [if_pos hm]; exact hS
    · rw [if_neg hm]
      simp only [Bool.or_eq_true, not_or, Bool.not_eq_true] at hm
      have hx0 : ind % 8 ≠ 7 := by
        intro h0
        have : 7 + 8 * (ind / 8) = ind := by omega
        rw [this] at hrook
        omega
      rw [sgn_pos (by omega)]
      exact can_castle_loop_sets mc h64 rfl rfl hk (Or.inr rfl)
        ⟨fun h => absurd h (by decide), fun _ => rfl⟩ hrook 8 1 b (le_refl 1) hS
        (fun _ => hm.1) (fun j h1 h2 => absurd h2 (by omega))

/-- In pseudo mode one castling attempt leaves `pieces` and the masks as they were. -/
theorem castle_step_sets {b0 : chessboard} {side ind : Nat} (exit_on_legal : Bool)
    (mask relevant_rooks : Nat) (rx : Int) (corner dest : Nat) (st : gen_state)
    (mc : MC b0.pieces b0.side_sets b0.piece_sets) (h64 : ind < 64)
    (hk : b0.pieces ind % 8 = 1) (hS : SameSets st.board b0)
    (hr : (relevant_rooks &&& corner != 0) = true →
      (rx = 0 ∧ b0.pieces (8 * (ind / 8)) = 5 + 8 * (b0.pieces ind / 8)) ∨
      (rx = 7 ∧ b0.pieces (7 + 8 * (ind / 8)) = 5 + 8 * (b0.pieces ind / 8))) :
    SameSets (castle_step side true exit_on_legal mask (b0.side_sets 0 ||| b0.side_sets 1)
      relevant_rooks ind rx corner dest st).2.board b0 := by
  unfold castle_step
  simp only [legalize_step_pseudo]
  by_cases h : (relevant_rooks &&& corner != 0) = true
  · rw [if_pos h]
    have := @can_castle_sets b0 st.board side ind mc h64 hk hS rx (hr h)
    split_ifs
    · exact this
    · exact this
  · rw [if_neg h]
    exact hS

/-- In pseudo mode the castling block of the king on `ind` leaves `pieces` and the masks as
they were. -/
theorem castle_block_sets {b0 : chessboard} {side ind : Nat} (exit_on_legal : Bool)
    (mask : Nat) (st : gen_state) (mc : MC b0.pieces b0.side_sets b0.piece_sets)
    (hs : side < 2) (ho : Own b0 side 1 ind) (hS : SameSets st.board b0) :
    SameSets (castle_block side true exit_on_legal mask (b0.side_sets side)
      (b0.side_sets 0 ||| b0.side_sets 1) ind st).2.board b0 := by
  obtain ⟨h64, hty, hsd, hp0⟩ := ho
  unfold castle_block
  simp only [castle_step_pseudo_flag, Bool.false_eq_true, if_false]
  rw [shr3, hS.2.2]
  have hl : ((b0.side_sets side &&& b0.piece_sets rook) &&& shl64 1 (8 * (ind / 8)) != 0) = true →
      (((0 : Int) = 0 ∧ b0.pieces (8 * (ind / 8)) = 5 + 8 * (b0.pieces ind / 8)) ∨
      ((0 : Int) = 7 ∧ b0.pieces (7 + 8 * (ind / 8)) = 5 + 8 * (b0.pieces ind / 8))) := by
    intro h
    have := rook_of_bit_mc mc hs (by omega) h
    exact Or.inl ⟨rfl, by rw [this, hsd]⟩
  have hr : ((b0.side_sets side &&& b0.piece_sets rook) &&& shl64 1 (7 + 8 * (ind / 8)) != 0) = true →
      (((7 : Int) = 0 ∧ b0.pieces (8 * (ind / 8)) = 5 + 8 * (b0.pieces ind / 8)) ∨
      ((7 : Int) = 7 ∧ b0.pieces (7 + 8 * (ind / 8)) = 5 + 8 * (b0.pieces ind / 8))) := by
    intro h
    have := rook_of_bit_mc mc hs (by omega) h
    exact Or.inr ⟨rfl, by rw [this, hsd]⟩
  split_ifs
  · exact castle_step_sets exit_on_legal mask _ 7 _ _ _ mc h64 hty
      (castle_step_sets exit_on_legal mask _ 0 _ _ st mc h64 hty hS hl) hr
  · exact hS

/-- In pseudo mode the loop over the knights or the kings leaves `pieces` and the masks as
they were. -/
theorem jump_loop_sets {b0 : chessboard} {side : Nat} (exit_on_legal : Bool)
    (mask not_friendly type : Nat) (mc : MC b0.pieces b0.side_sets b0.piece_sets)
    (hs : side < 2) :
    ∀ (l : List Nat) (st : gen_state), (type = king → ∀ i, i ∈ l → Own b0 side 1 i) →
      SameSets st.board b0 →
      SameSets (jump_loop side true exit_on_legal mask (b0.side_sets side)
        (b0.side_sets 0 ||| b0.side_sets 1) not_friendly type l st).2.board b0 := by
  intro l
  induction l with
  | nil => intro st _ hS; exact hS
  | cons ind rest ih =>
    intro st hown hS
    simp only [jump_loop, legalize_step_pseudo, Bool.false_eq_true, if_false]
    by_cases hk : type = king
    · simp only [hk, if_true, castle_block_pseudo_flag, Bool.false_eq_true, if_false]
      have h1 := @castle_block_sets b0 side ind exit_on_legal mask
        { st with matrices := setAt st.matrices ind (capture_masks ind king &&& not_friendly) }
        mc hs (hown hk ind (List.mem_cons_self _ _)) hS
      have h2 := ih _ (fun e i hi => hown e i (List.mem_cons_of_mem _ hi)) h1
      rw [hk] at h2
      exact h2
    · simp only [hk, if_false, Bool.false_eq_true]
      exact ih _ (fun e => absurd e hk) hS

/-- In pseudo mode the entry of a pawn of `side` is `pawn_moves`, on every board whose masks
are consistent with `pieces`: the later loops leave `pieces` and the masks as they were, so
they do not come back to the square of the pawn. -/
theorem generate_pseudo_pawn {b : chessboard} (mc : MC b.pieces b.side_sets b.piece_sets)
    {side : Nat} (hs : side < 2) (M0 : Nat → Nat) (exit_on_legal : Bool) (mask : Nat) {o : Nat}
    (ho : Own b side 6 o) :
    (generate_moves b side M0 true exit_on_legal mask).2.matrices o =
      pawn_moves b (last_move b) side o (b.side_sets (side ^^^ 1))
        (not64 (b.side_sets 0 ||| b.side_sets 1)) := by
  unfold generate_moves
  have own : ∀ t, 1 ≤ t → t ≤ 6 → ∀ i, i ∈ set_bits (b.piece_sets t &&& b.side_sets side) →
      Own b side t i := fun t h1 h6 i hi => own_of_mem_mc mc hs h1 h6 hi
  have nm : ∀ t, 1 ≤ t → t ≤ 6 → t ≠ 6 → o ∉ set_bits (b.piece_sets t &&& b.side_sets side) :=
    fun t h1 h6 hne hm => hne ((own t h1 h6 o hm).2.1.symm.trans ho.2.1)
  have p1 := pawn_loop_pseudo (last_move b) side exit_on_legal mask (b.side_sets (side ^^^ 1))
    (not64 (b.side_sets 0 ||| b.side_sets 1))
    (set_bits (b.piece_sets pawn &&& b.side_sets side)) { matrices := M0, board := b }
  have g1 : (pawn_loop (last_move b) side true exit_on_legal mask (b.side_sets (side ^^^ 1))
      (not64 (b.side_sets 0 ||| b.side_sets 1))
      (set_bits (b.piece_sets pawn &&& b.side_sets side))
      { matrices := M0, board := b }).2.board = b := p1.1
  have v1 := p1.2 o (mem_of_own_mc mc hs (by decide) (by decide) ho)
  have s1 : SameSets (pawn_loop (last_move b) side true exit_on_legal mask
      (b.side_sets (side ^^^ 1)) (not64 (b.side_sets 0 ||| b.side_sets 1))
      (set_bits (b.piece_sets pawn &&& b.side_sets side))
      { matrices := M0, board := b }).2.board b := by
    rw [g1]; exact ⟨rfl, rfl, rfl⟩
  simp only []
  split
  · exact v1
  rw [g1]
  have s2 := jump_loop_sets exit_on_legal mask
    (not64 (b.side_sets 0 ||| b.side_sets 1) ||| b.side_sets (side ^^^ 1)) knight mc hs
    (set_bits (b.piece_sets knight &&& b.side_sets side)) _
    (fun e => absurd e (by decide)) s1
  have v2 := (jump_loop_frame side true exit_on_legal mask (b.side_sets side)
    (b.side_sets 0 ||| b.side_sets 1)
    (not64 (b.side_sets 0 ||| b.side_sets 1) ||| b.side_sets (side ^^^ 1)) knight
    (set_bits (b.piece_sets knight &&& b.side_sets side)) _
    (nm 4 (by decide) (by decide) (by decide))).trans v1
  split
  · exact v2
  rw [s2.2.2]
  have s3 := jump_loop_sets exit_on_legal mask
    (not64 (b.side_sets 0 ||| b.side_sets 1) ||| b.side_sets (side ^^^ 1)) king mc hs
    (set_bits (b.piece_sets king &&& b.side_sets side)) _
    (fun _ => own 1 (by decide) (by decide)) s2
  have v3 := (jump_loop_frame side true exit_on_legal mask (b.side_sets side)
    (b.side_sets 0 ||| b.side_sets 1)
    (not64 (b.side_sets 0 ||| b.side_sets 1) ||| b.side_sets (side ^^^ 1)) king
    (set_bits (b.piece_sets king &&& b.side_sets side)) _
    (nm 1 (by decide) (by decide) (by decide))).trans v2
  split
  · exact v3
  rw [s3.2.2]
  have g4 := (sliding_loop_pseudo side exit_on_legal mask (b.side_sets 0 ||| b.side_sets 1)
    (not64 (b.side_sets 0 ||| b.side_sets 1) ||| b.side_sets (side ^^^ 1)) bishop
    (set_bits (b.piece_sets bishop &&& b.side_sets side))
    (jump_loop side true exit_on_legal mask (b.side_sets side)
      (b.side_sets 0 ||| b.side_sets 1)
      (not64 (b.side_sets 0 ||| b.side_sets 1) ||| b.side_sets (side ^^^ 1)) king
      (set_bits (b.piece_sets king &&& b.side_sets side))
      (jump_loop side true exit_on_legal mask (b.side_sets side)
        (b.side_sets 0 ||| b.side_sets 1)
        (not64 (b.side_sets 0 ||| b.side_sets 1) ||| b.side_sets (side ^^^ 1)) knight
        (set_bits (b.piece_sets knight &&& b.side_sets side))
        (pawn_loop (last_move b) side true exit_on_legal mask (b.side_sets (side ^^^ 1))
          (not64 (b.side_sets 0 ||| b.side_sets 1))
          (set_bits (b.piece_sets pawn &&& b.side_sets side))
          { matrices := M0, board := b }).2).2).2).2.1
  have v4 := (sliding_loop_frame side true exit_on_legal mask
    (b.side_sets 0 ||| b.side_sets 1)
    (not64 (b.side_sets 0 ||| b.side_sets 1) ||| b.side_sets (side ^^^ 1)) bishop
    (set_bits (b.piece_sets bishop &&& b.side_sets side)) _
    (nm 3 (by decide) (by decide) (by decide))).trans v3
  split
  · exact v4
  rw [g4, s3.2.2]
  have g5 := (sliding_loop_pseudo side exit_on_legal mask (b.side_sets 0 ||| b.side_sets 1)
    (not64 (b.side_sets 0 ||| b.side_sets 1) ||| b.side_sets (side ^^^ 1)) rook
    (set_bits (b.piece_sets rook &&& b.side_sets side))
    (sliding_loop side true exit_on_legal mask (b.side_sets 0 ||| b.side_sets 1)
      (not64 (b.side_sets 0 ||| b.side_sets 1) ||| b.side_sets (side ^^^ 1)) bishop
      (set_bits (b.piece_sets bishop &&& b.side_sets side))
      (jump_loop side true exit_on_legal mask (b.side_sets side)
        (b.side_sets 0 ||| b.side_sets 1)
        (not64 (b.side_sets 0 ||| b.side_sets 1) ||| b.side_sets (side ^^^ 1)) king
        (set_bits (b.piece_sets king &&& b.side_sets side))
        (jump_loop side true exit_on_legal mask (b.side_sets side)
          (b.side_sets 0 ||| b.side_sets 1)
          (not64 (b.side_sets 0 ||| b.side_sets 1) ||| b.side_sets (side ^^^ 1)) knight
          (set_bits (b.piece_sets knight &&& b.side_sets side))
          (pawn_loop (last_move b) side true exit_on_legal mask (b.side_sets (side ^^^ 1))
            (not64 (b.side_sets 0 ||| b.side_sets 1))
            (set_bits (b.piece_sets pawn &&& b.side_sets side))
            { matrices := M0, board := b }).2).2).2).2).2.1
  have v5 := (sliding_loop_frame side true exit_on_legal mask
    (b.side_sets 0 ||| b.side_sets 1)
    (not64 (b.side_sets 0 ||| b.side_sets 1) ||| b.side_sets (side ^^^ 1)) rook
    (set_bits (b.piece_sets rook &&& b.side_sets side)) _
    (nm 5 (by decide) (by decide) (by decide))).trans v4
  split
  · exact v5
  rw [g5, g4, s3.2.2]
  exact (sliding_loop_frame side true exit_on_legal mask
    (b.side_sets 0 ||| b.side_sets 1)
    (not64 (b.side_sets 0 ||| b.side_sets 1) ||| b.side_sets (side ^^^ 1)) queen
    (set_bits (b.piece_sets queen &&& b.side_sets side)) _
    (nm 2 (by decide) (by decide) (by decide))).trans v5

/-! ## Pawn pushes -/

theorem testBit_flag_mul_of {x y d : Nat} (hx : x = 1) (hy : y.testBit d = true) (hd : d < 64) :
    ((x * y) % 2 ^ 64).testBit d = true := by
  subst hx
  rw [Nat.one_mul, Nat.testBit_mod_two_pow]
  simp [hd, hy]

theorem and_one_of_testBit {z : Nat} (h : z.testBit 0 = true) : z &&& 1 = 1 := by
  apply Nat.eq_of_testBit_eq
  intro i
  rw [Nat.testBit_and]
  cases i with
  | zero => rw [h]; rfl
  | succ n =>
    have : (1 : Nat).testBit (n + 1) = false := by
      rw [Nat.testBit_succ]; simp
    rw [this, Bool.and_false]

theorem unmoved_flag {b : chessboard} {ind : Nat} (h64 : ind < 64) :
    shr64 (not64 b.has_moved) ind &&& 1 = 1 ↔ b.has_moved.testBit ind = false := by
  have h5 : ind % 64 + 0 = ind := by omega
  constructor
  · intro h
    have h3 := and_one_eq_one h
    rw [testBit_shr64, testBit_not64, h5] at h3
    simp only [Bool.and_eq_true, decide_eq_true_eq, Bool.not_eq_true'] at h3
    exact h3.2.2
  · intro h
    apply and_one_of_testBit
    rw [testBit_shr64, testBit_not64, h5, h]
    simp [h64]

set_option synthInstance.maxSize 1000 in
set_option synthInstance.maxHeartbeats 200000 in
theorem capture_base_wide1 :
    ∀ ind, ind < 64 → ∀ d, d < 64 →
      (8 ≤ ind ∧ (capture_base 1 ind).testBit d = true) →
        ((d + 9 = ind ∧ ind % 8 ≠ 0) ∨ (d + 7 = ind ∧ ind % 8 ≠ 7)) := by
  decide!

set_option synthInstance.maxSize 1000 in
set_option synthInstance.maxHeartbeats 200000 in
theorem capture_base_wide0 :
    ∀ ind, ind < 64 → ∀ d, d < 64 →
      (ind < 56 ∧ (capture_base 0 ind).testBit d = true) →
        ((d = ind + 9 ∧ ind % 8 ≠ 7) ∨ (d = ind + 7 ∧ ind % 8 ≠ 0)) := by
  decide!

/-- The three facts of mask consistency, for masks that are 64-bit words and with the unused
slot `piece_sets[0]` empty, give the relation `MC` between `pieces` and the masks. -/
theorem MC_of_mask_consistent {b : chessboard} (h : mask_consistent b)
    (hS : ∀ s, s < 2 → b.side_sets s < 2 ^ 64) (hT : ∀ t, t < 7 → b.piece_sets t < 2 ^ 64)
    (h0 : b.piece_sets 0 = 0) : MC b.pieces b.side_sets b.piece_sets := by
  obtain ⟨_, hu, hq⟩ := h
  have hsh : ∀ p : Nat, p >>> side_shift = p / 8 := fun p => shr3 p
  have htm : ∀ p : Nat, p &&& type_mask = p % 8 := fun p => and7 p
  refine ⟨?_, ?_, ?_, h0⟩
  · intro i hi
    obtain ⟨q1, q2, q3⟩ := hq i hi
    unfold valid_code
    by_cases hp : b.pieces i = 0
    · rw [hp]; decide
    · have ha := q1.1 hp
      have hb := ha
      rw [hu] at hb
      simp only [Nat.testBit_or, Bool.or_eq_true] at ha hb
      have e1 : b.pieces i / 8 < 2 := by
        rcases ha with h | h
        · have := ((q2 0 (by decide)).1 h).2; rw [hsh] at this; omega
        · have := ((q2 1 (by decide)).1 h).2; rw [hsh] at this; omega
      have e2 : 1 ≤ b.pieces i % 8 ∧ b.pieces i % 8 ≤ 6 := by
        rcases hb with ((((h | h) | h) | h) | h) | h
        · have := ((q3 1 (by decide) (by decide)).1 h).2; rw [htm] at this; omega
        · have := ((q3 2 (by decide) (by decide)).1 h).2; rw [htm] at this; omega
        · have := ((q3 3 (by decide) (by decide)).1 h).2; rw [htm] at this; omega
        · have := ((q3 4 (by decide) (by decide)).1 h).2; rw [htm] at this; omega
        · have := ((q3 5 (by decide) (by decide)).1 h).2; rw [htm] at this; omega
        · have := ((q3 6 (by decide) (by decide)).1 h).2; rw [htm] at this; omega
      omega
  · intro s i hs
    constructor
    · intro hb
      have h64 := testBit_lt_two_pow (hS s hs) hb
      have := ((hq i h64).2.1 s hs).1 hb
      rw [hsh] at this
      exact ⟨h64, this⟩
    · rintro ⟨h64, hp, hsd⟩
      exact ((hq i h64).2.1 s hs).2 ⟨hp, by rw [hsh]; exact hsd⟩
  · intro t i h1 h6
    constructor
    · intro hb
      have h64 := testBit_lt_two_pow (hT t (by omega)) hb
      have := ((hq i h64).2.2 t (by omega) h1).1 hb
      rw [htm] at this
      exact ⟨h64, this.2⟩
    · rintro ⟨h64, ht⟩
      refine ((hq i h64).2.2 t (by omega) h1).2 ⟨fun e => ?_, by rw [htm]; exact ht⟩
      rw [e] at ht
      omega

/-- The forward squares in the entry of a pawn of side 1, which moves towards rank 0. -/
theorem pawn_push_side1 {b : chessboard} {ind : Nat} (last : chessmove)
    (mc : MC b.pieces b.side_sets b.piece_sets) (ho : Own b 1 6 ind) (hr8 : 8 ≤ ind) :
    ((pawn_moves b last 1 ind (b.side_sets (1 ^^^ 1))
        (not64 (b.side_sets 0 ||| b.side_sets 1))).testBit (ind - 8) = true ↔
      b.pieces (ind - 8) = 0) ∧
    (16 ≤ ind →
      ((pawn_moves b last 1 ind (b.side_sets (1 ^^^ 1))
          (not64 (b.side_sets 0 ||| b.side_sets 1))).testBit (ind - 16) = true ↔
        b.pieces (ind - 16) = 0 ∧ b.pieces (ind - 8) = 0 ∧ b.has_moved.testBit ind = false)) := by
  obtain ⟨h64, ht, hsd, hp0⟩ := ho
  have hcb : ∀ d, (capture_base 1 ind).testBit d = true →
      (d + 9 = ind ∧ ind % 8 ≠ 0) ∨ (d + 7 = ind ∧ ind % 8 ≠ 7) := fun d hb =>
    capture_base_wide1 ind h64 d (testBit_lt64 (capture_base_lt 1 ind) hb) ⟨hr8, hb⟩
  have hbit : ∀ j, (shl64 1 ind).testBit j = decide (j = ind) := testBit_shl64_one h64
  unfold pawn_moves
  simp only [Nat.testBit_or, Bool.or_eq_true]
  constructor
  · constructor
    · intro h
      rcases h with ((h | h) | h) | h
      · rw [Nat.testBit_and, Bool.and_eq_true] at h
        rcases hcb _ h.1 with x | x <;> omega
      · simp only [ne_eq, one_ne_zero, not_false_eq_true, if_true, Nat.testBit_and,
          Bool.and_eq_true, testBit_shr64, hbit, decide_eq_true_eq] at h
        exact ((free_bit_mc mc _).1 h.2).2
      · have h4 := (testBit_flag_mul (and_one_le _) h).2
        simp only [ne_eq, one_ne_zero, not_false_eq_true, if_true, Nat.testBit_and,
          Bool.and_eq_true, testBit_shr64, hbit, decide_eq_true_eq] at h4
        omega
      · have h2 := (testBit_flag_mul (b2n_le _) h).2
        rw [Nat.testBit_and, Bool.and_eq_true] at h2
        rcases hcb _ h2.2 with x | x <;> omega
    · intro h
      refine Or.inl (Or.inl (Or.inr ?_))
      simp only [ne_eq, one_ne_zero, not_false_eq_true, if_true, Nat.testBit_and,
        Bool.and_eq_true, testBit_shr64, hbit, decide_eq_true_eq]
      exact ⟨⟨by omega, by omega⟩, (free_bit_mc mc _).2 ⟨by omega, h⟩⟩
  · intro h16
    constructor
    · intro h
      rcases h with ((h | h) | h) | h
      · rw [Nat.testBit_and, Bool.and_eq_true] at h
        rcases hcb _ h.1 with x | x <;> omega
      · simp only [ne_eq, one_ne_zero, not_false_eq_true, if_true, Nat.testBit_and,
          Bool.and_eq_true, testBit_shr64, hbit, decide_eq_true_eq] at h
        omega
      · have h2 := testBit_flag_mul (and_one_le _) h
        have h3 := (unmoved_flag h64).1 h2.1
        have h4 := h2.2
        simp only [ne_eq, one_ne_zero, not_false_eq_true, if_true, Nat.testBit_and,
          Bool.and_eq_true, testBit_shr64, hbit, decide_eq_true_eq] at h4
        have e : 8 % 64 + (ind - 16) = ind - 8 := by omega
        rw [e] at h4
        exact ⟨((free_bit_mc mc _).1 h4.1.2).2, ((free_bit_mc mc _).1 h4.2.2).2, h3⟩
      · have h2 := (testBit_flag_mul (b2n_le _) h).2
        rw [Nat.testBit_and, Bool.and_eq_true] at h2
        rcases hcb _ h2.2 with x | x <;> omega
    · rintro ⟨p2, p1, hm⟩
      refine Or.inl (Or.inr ?_)
      apply testBit_flag_mul_of ((unmoved_flag h64).2 hm) _ (by omega)
      simp only [ne_eq, one_ne_zero, not_false_eq_true, if_true, Nat.testBit_and,
        Bool.and_eq_true, testBit_shr64, hbit, decide_eq_true_eq]
      have e : 8 % 64 + (ind - 16) = ind - 8 := by omega
      rw [e]
      exact ⟨⟨⟨by omega, by omega⟩, (free_bit_mc mc _).2 ⟨by omega, p2⟩⟩, by omega,
        (free_bit_mc mc _).2 ⟨by omega, p1⟩⟩

/-- The forward squares in the entry of a pawn of side 0, which moves towards rank 7. -/
theorem pawn_push_side0 {b : chessboard} {ind : Nat} (last : chessmove)
    (mc : MC b.pieces b.side_sets b.piece_sets) (ho : Own b 0 6 ind) (hr56 : ind < 56) :
    ((pawn_moves b last 0 ind (b.side_sets (0 ^^^ 1))
        (not64 (b.side_sets 0 ||| b.side_sets 1))).testBit (ind + 8) = true ↔
      b.pieces (ind + 8) = 0) ∧
    (ind + 16 < 64 →
      ((pawn_moves b last 0 ind (b.side_sets (0 ^^^ 1))
          (not64 (b.side_sets 0 ||| b.side_sets 1))).testBit (ind + 16) = true ↔
        b.pieces (ind + 16) = 0 ∧ b.pieces (ind + 8) = 0 ∧ b.has_moved.testBit ind = false)) := by
  obtain ⟨h64, ht, hsd, hp0⟩ := ho
  have hcb : ∀ d, (capture_base 0 ind).testBit d = true →
      (d = ind + 9 ∧ ind % 8 ≠ 7) ∨ (d = ind + 7 ∧ ind % 8 ≠ 0) := fun d hb =>
    capture_base_wide0 ind h64 d (testBit_lt64 (capture_base_lt 0 ind) hb) ⟨hr56, hb⟩
  have hbit : ∀ j, (shl64 1 ind).testBit j = decide (j = ind) := testBit_shl64_one h64
  unfold pawn_moves
  simp only [Nat.testBit_or, Bool.or_eq_true]
  constructor
  · constructor
    · intro h
      rcases h with ((h | h) | h) | h
      · rw [Nat.testBit_and, Bool.and_eq_true] at h
        rcases hcb _ h.1 with x | x <;> omega
      · simp only [ne_eq, not_true_eq_false, if_false, Nat.testBit_and, Bool.and_eq_true,
          testBit_shl64, hbit, decide_eq_true_eq] at h
        exact ((free_bit_mc mc _).1 h.2).2
      · have h4 := (testBit_flag_mul (and_one_le _) h).2
        simp only [ne_eq, not_true_eq_false, if_false, Nat.testBit_and, Bool.and_eq_true,
          testBit_shl64, hbit, decide_eq_true_eq] at h4
        omega
      · have h2 := (testBit_flag_mul (b2n_le _) h).2
        rw [Nat.testBit_and, Bool.and_eq_true] at h2
        rcases hcb _ h2.2 with x | x <;> omega
    · intro h
      refine Or.inl (Or.inl (Or.inr ?_))
      simp only [ne_eq, not_true_eq_false, if_false, Nat.testBit_and, Bool.and_eq_true,
        testBit_shl64, hbit, decide_eq_true_eq]
      exact ⟨⟨⟨by omega, by omega⟩, by omega⟩, (free_bit_mc mc _).2 ⟨by omega, h⟩⟩
  · intro h16
    constructor
    · intro h
      rcases h with ((h | h) | h) | h
      · rw [Nat.testBit_and, Bool.and_eq_true] at h
        rcases hcb _ h.1 with x | x <;> omega
      · simp only [ne_eq, not_true_eq_false, if_false, Nat.testBit_and, Bool.and_eq_true,
          testBit_shl64, hbit, decide_eq_true_eq] at h
        omega
      · have h2 := testBit_flag_mul (and_one_le _) h
        have h3 := (unmoved_flag h64).1 h2.1
        have h4 := h2.2
        simp only [ne_eq, not_true_eq_false, if_false, Nat.testBit_and, Bool.and_eq_true,
          testBit_shl64, hbit, decide_eq_true_eq] at h4
        have e : ind + 16 - 8 % 64 = ind + 8 := by omega
        rw [e] at h4
        exact ⟨((free_bit_mc mc _).1 h4.1.2).2, ((free_bit_mc mc _).1 h4.2.2).2, h3⟩
      · have h2 := (testBit_flag_mul (b2n_le _) h).2
        rw [Nat.testBit_and, Bool.and_eq_true] at h2
        rcases hcb _ h2.2 with x | x <;> omega
    · rintro ⟨p2, p1, hm⟩
      refine Or.inl (Or.inr ?_)
      apply testBit_flag_mul_of ((unmoved_flag h64).2 hm) _ (by omega)
      simp only [ne_eq, not_true_eq_false, if_false, Nat.testBit_and, Bool.and_eq_true,
        testBit_shl64, hbit, decide_eq_true_eq]
      have e : ind + 16 - 8 % 64 = ind + 8 := by omega
      rw [e]
      exact ⟨⟨⟨⟨by omega, by omega⟩, by omega⟩, (free_bit_mc mc _).2 ⟨by omega, p2⟩⟩,
        ⟨by omega, by omega⟩, (free_bit_mc mc _).2 ⟨by omega, p1⟩⟩

/-- C26. Pawn pushes: on every board whose masks are consistent with `pieces` (the three
facts of `mask_consistent`, the masks being 64-bit words and the unused slot `piece_sets[0]`
empty), for every pawn of side `s` on a square `o` that is not on its last rank (`8 ≤ o` for
side 1, `o < 56` for side 0), the destination set that `generate_moves` produces for it in
pseudo mode contains the square one rank forward iff that square is empty, and contains the
square two ranks forward, when there is one, iff that square is empty, the square in between
is empty and the `has_moved` bit of the pawn is clear; forward is towards rank 7 (`o + 8`)
for side 0 and towards rank 0 (`o - 8`) for side 1.  Nothing is assumed about `has_moved`
or about where kings and pawns stand. -/
theorem pawn_pushes (b : chessboard) (s o : Nat) (M0 : Nat → Nat) (exit_on_legal : Bool)
    (mask : Nat) (hc : mask_consistent b) (hS : ∀ s, s < 2 → b.side_sets s < 2 ^ 64)
    (hT : ∀ t, t < 7 → b.piece_sets t < 2 ^ 64) (h0 : b.piece_sets 0 = 0)
    (hs : s < 2) (ho : o < 64) (hp : b.pieces o = pawn + 8 * s)
    (hlast : (s = 1 → 8 ≤ o) ∧ (s = 0 → o < 56)) :
    (s = 1 →
      (((generate_moves b s M0 true exit_on_legal mask).2.matrices o).testBit (o - 8) = true ↔
        b.pieces (o - 8) = 0) ∧
      (16 ≤ o →
        (((generate_moves b s M0 true exit_on_legal mask).2.matrices o).testBit (o - 16) = true ↔
          b.pieces (o - 16) = 0 ∧ b.pieces (o - 8) = 0 ∧ b.has_moved.testBit o = false))) ∧
    (s = 0 →
      (((generate_moves b s M0 true exit_on_legal mask).2.matrices o).testBit (o + 8) = true ↔
        b.pieces (o + 8) = 0) ∧
      (o + 16 < 64 →
        (((generate_moves b s M0 true exit_on_legal mask).2.matrices o).testBit (o + 16) = true ↔
          b.pieces (o + 16) = 0 ∧ b.pieces (o + 8) = 0 ∧ b.has_moved.testBit o = false))) := by
  have mc := MC_of_mask_consistent hc hS hT h0
  have hpawn : pawn = 6 := rfl
  have own : Own b s 6 o := by
    refine ⟨ho, ?_, ?_, ?_⟩ <;> rw [hp, hpawn] <;> omega
  rw [generate_pseudo_pawn mc hs M0 exit_on_legal mask own]
  constructor
  · intro e; subst e
    exact pawn_push_side1 (last_move b) mc own (hlast.1 rfl)
  · intro e; subst e
    exact pawn_push_side0 (last_move b) mc own (hlast.2 rfl)

set_option maxRecDepth 1000000 in
/-- C26 for the pawn of side 1 on a6 with a clear `has_moved` bit, on a board that
`process_move` builds (kings on e8 and e1): a7 and a8 are empty, so both the step to a7 and
the step to a8 are in the set of a6. -/
theorem pawn_pushes_witness :
    (((generate_moves (board_of codes_pawn_sixth) 1 (fun _ => 0) true false
        (2 ^ 64 - 1)).2.matrices 16).testBit (16 - 8) = true ↔
      (board_of codes_pawn_sixth).pieces (16 - 8) = 0) ∧
    (16 ≤ 16 →
      (((generate_moves (board_of codes_pawn_sixth) 1 (fun _ => 0) true false
          (2 ^ 64 - 1)).2.matrices 16).testBit (16 - 16) = true ↔
        (board_of codes_pawn_sixth).pieces (16 - 16) = 0 ∧
          (board_of codes_pawn_sixth).pieces (16 - 8) = 0 ∧
          (board_of codes_pawn_sixth).has_moved.testBit 16 = false)) :=
  (pawn_pushes (board_of codes_pawn_sixth) 1 16 (fun _ => 0) false (2 ^ 64 - 1) (by decide!)
    (by decide!) (by decide!) (by decide!) (by decide) (by decide) (by decide!)
    ⟨fun _ => by decide, fun h => absurd h (by decide)⟩).1 rfl

set_option maxRecDepth 1000000 in
/-- C14 fails as stated.  On the board with the king of side 1 on c1, its rook on a1, its
bishop on b1 and its pawn on a2, against the king on a3, the rooks on d4 and e2 and the
knights on d5 and c2 of side 0, the masks are consistent, each side has one king and neither
king is attacked.  `any_moves(1)` returns true, and
`generate_moves(1, matrices, pseudo = false, exit_on_legal = false)` on a zeroed array leaves
all 64 sets empty. -/
theorem any_moves_disagrees :
    mask_consistent (board_of codes_bishop_b1) ∧
    set_bits ((board_of codes_bishop_b1).piece_sets king &&&
      (board_of codes_bishop_b1).side_sets 0) = [40] ∧
    set_bits ((board_of codes_bishop_b1).piece_sets king &&&
      (board_of codes_bishop_b1).side_sets 1) = [58] ∧
    in_check (board_of codes_bishop_b1) 0 = false ∧
    in_check (board_of codes_bishop_b1) 1 = false ∧
    (any_moves (board_of codes_bishop_b1) 1).1 = true ∧
    ∀ i, i < 64 →
      (generate_moves (board_of codes_bishop_b1) 1 (fun _ => 0) false false
        (2 ^ 64 - 1)).2.matrices i = 0 :=
  ⟨by decide!, by decide!, by decide!, by decide!, by decide!, by decide!, by decide!⟩

set_option maxRecDepth 1000000 in
/-- C25 fails as stated.  On the board with the king of side 1 on b8, the king of side 0 on
h8 and a pawn of side 0 on a1 the masks are consistent, each side has one king, and the
side not to move (side 0) is not in check.  `in_check(1)` is true: the shift count of the
pawn's capture mask wraps around, so that the pawn on a1 is taken to attack b8.  No piece of
side 0 attacks b8 under the reference definition. -/
theorem in_check_pawn_on_last_rank :
    mask_consistent (board_of codes_pawn_last) ∧
    set_bits ((board_of codes_pawn_last).piece_sets king &&&
      (board_of codes_pawn_last).side_sets 0) = [7] ∧
    set_bits ((board_of codes_pawn_last).piece_sets king &&&
      (board_of codes_pawn_last).side_sets 1) = [1] ∧
    (board_of codes_pawn_last).side_to_move = 1 ∧
    in_check (board_of codes_pawn_last) 0 = false ∧
    attacked (board_of codes_pawn_last) 0 7 = false ∧
    in_check (board_of codes_pawn_last) 1 = true ∧
    attacked (board_of codes_pawn_last) 1 1 = false :=
  ⟨by decide!, by decide!, by decide!, by decide!, by decide!, by decide!, by decide!,
    by decide!⟩

/-! ## The attack test and the attack rules -/

theorem mod_two_pow_eq_zero_iff (m k : Nat) :
    m % 2 ^ k = 0 ↔ ∀ i, i < k → m.testBit i = false := by
  constructor
  · intro h i hi
    have := Nat.testBit_mod_two_pow m k i
    rw [h, Nat.zero_testBit] at this
    simpa [hi] using this.symm
  · intro h
    apply Nat.eq_of_testBit_eq
    intro i
    rw [Nat.testBit_mod_two_pow, Nat.zero_testBit]
    by_cases hi : i < k
    · simp [hi, h i hi]
    · simp [hi]

/-- Bit `k` of `m - 1`: it differs from bit `k` of `m` exactly when all lower bits of `m` are
clear. -/
theorem testBit_pred (m k : Nat) (hm : 1 ≤ m) :
    (m - 1).testBit k = (m.testBit k != decide (m % 2 ^ k = 0)) := by
  have hp : 0 < 2 ^ k := Nat.two_pow_pos k
  rw [Nat.testBit_to_div_mod, Nat.testBit_to_div_mod]
  generalize 2 ^ k = p at hp ⊢
  have h1 := Nat.div_add_mod m p
  have h2 := Nat.mod_lt m hp
  by_cases hr : m % p = 0
  · have hq : 1 ≤ m / p := by
      rcases Nat.eq_zero_or_pos (m / p) with h0 | h0
      · rw [h0, hr] at h1
        omega
      · exact h0
    obtain ⟨q, hq2⟩ : ∃ q, m / p = q + 1 := ⟨m / p - 1, by omega⟩
    have hm3 : m - 1 = p * q + (p - 1) := by
      rw [hq2, hr, Nat.mul_succ] at h1
      omega
    have hlt : p - 1 < p := by omega
    have hdiv : (m - 1) / p = q := by
      rw [hm3, Nat.mul_add_div hp, Nat.div_eq_of_lt hlt, Nat.add_zero]
    rw [hdiv, hq2]
    simp only [hr, decide_True]
    by_cases hpar : q % 2 = 1
    · have : (q + 1) % 2 = 0 := by omega
      simp [hpar, this]
    · have : (q + 1) % 2 = 1 := by omega
      simp [hpar, this]
  · have hm3 : m - 1 = p * (m / p) + (m % p - 1) := by omega
    have hlt : m % p - 1 < p := by omega
    have hdiv : (m - 1) / p = m / p := by
      rw [hm3, Nat.mul_add_div hp, Nat.div_eq_of_lt hlt, Nat.add_zero]
    rw [hdiv]
    simp [hr]

/-- The expression `m & -m` keeps the lowest set bit of `m`. -/
theorem testBit_and_neg64 (m k : Nat) (hm : m < 2 ^ 64) :
    (m &&& neg64 m).testBit k = true ↔
      m.testBit k = true ∧ ∀ i, i < k → m.testBit i = false := by
  rw [Nat.testBit_and]
  by_cases h0 : m = 0
  · subst h0
    simp
  · have hm1 : 1 ≤ m := Nat.pos_of_ne_zero h0
    have hneg : neg64 m = 2 ^ 64 - (m - 1 + 1) := by
      unfold neg64
      rw [Nat.mod_eq_of_lt hm, Nat.mod_eq_of_lt (by omega)]
      congr 1
      omega
    rw [hneg, Nat.testBit_two_pow_sub_succ (by omega), testBit_pred m k hm1,
      ← mod_two_pow_eq_zero_iff]
    by_cases hb : m.testBit k = true
    · have hk : k < 64 := testBit_lt_two_pow hm hb
      by_cases hr : m % 2 ^ k = 0 <;> simp [hb, hk, hr]
    · simp [hb]

/-- On an `R`-sorted list of squares, the first set bit of `bits_of l &&& occ` is the
occupied square at which `cut_at` ends. -/
theorem first_hit {R : Nat → Nat → Prop} (hasym : ∀ u v, R u v → R v u → False) (occ : Nat) :
    ∀ (l : List Nat), l.Pairwise R → (∀ e, e ∈ l → e < 64) → ∀ k,
      (IsFirst R (bits_of l &&& occ) k ↔ k ∈ cut_at occ l ∧ occ.testBit k = true) := by
  intro l
  induction l with
  | nil =>
    intro _ _ k
    simp [IsFirst, bits_of, cut_at]
  | cons q r ih =>
    intro hp hlt k
    obtain ⟨h1, h2⟩ := List.pairwise_cons.1 hp
    have hq := hlt q (List.mem_cons_self _ _)
    have hr : ∀ e, e ∈ r → e < 64 := fun e he => hlt e (List.mem_cons_of_mem _ he)
    have hbit : ∀ i, (bits_of (q :: r) &&& occ).testBit i =
        ((decide (i = q) || decide (i ∈ r)) && occ.testBit i) := by
      intro i
      rw [Nat.testBit_and, testBit_bits_of hlt]
      simp [List.mem_cons]
    have hbitr : ∀ i, (bits_of r &&& occ).testBit i = (decide (i ∈ r) && occ.testBit i) := by
      intro i
      rw [Nat.testBit_and, testBit_bits_of hr]
    by_cases ho : occ.testBit q = true
    · simp only [cut_at, ho, if_true, List.mem_singleton]
      constructor
      · rintro ⟨hk, hmin⟩
        rw [hbit] at hk
        simp only [Bool.and_eq_true, Bool.or_eq_true, decide_eq_true_eq] at hk
        have hqS : (bits_of (q :: r) &&& occ).testBit q = true := by
          rw [hbit]; simp [ho]
        rcases hk.1 with e | e
        · exact ⟨e, hk.2⟩
        · rcases hmin q hq hqS with e2 | e2
          · exact ⟨e2.symm, hk.2⟩
          · exact absurd e2 (fun c => hasym _ _ (h1 k e) c)
      · rintro ⟨e, hk⟩
        subst e
        refine ⟨by rw [hbit]; simp [hk], fun i _ hi => ?_⟩
        rw [hbit] at hi
        simp only [Bool.and_eq_true, Bool.or_eq_true, decide_eq_true_eq] at hi
        rcases hi.1 with e | e
        · exact Or.inl e
        · exact Or.inr (h1 i e)
    · have hsame : ∀ i, (bits_of (q :: r) &&& occ).testBit i = (bits_of r &&& occ).testBit i := by
        intro i
        rw [hbit, hbitr]
        by_cases e : i = q
        · subst e
          simp only [Bool.not_eq_true] at ho
          simp [ho]
        · simp [e]
      have hIF : IsFirst R (bits_of (q :: r) &&& occ) k ↔ IsFirst R (bits_of r &&& occ) k := by
        unfold IsFirst
        simp only [hsame]
      rw [hIF, ih h2 hr k]
      simp only [cut_at, ho, Bool.false_eq_true, if_false, List.mem_cons]
      constructor
      · rintro ⟨a1, a2⟩; exact ⟨Or.inr a1, a2⟩
      · rintro ⟨a1 | a1, a2⟩
        · subst a1; exact absurd a2 ho
        · exact ⟨a1, a2⟩

theorem bsr_lt (S : Nat) : bsr S < 64 := by
  unfold bsr
  cases h : (List.range 64).reverse.find? (fun i => S.testBit i) with
  | none => simp
  | some q =>
    have := List.mem_of_find?_eq_some h
    simp only [List.mem_reverse, List.mem_range] at this
    simpa using this

theorem isFirst_lt_iff (m k : Nat) (hk : k < 64) :
    IsFirst (fun u v => u < v) m k ↔ m.testBit k = true ∧ ∀ i, i < k → m.testBit i = false := by
  unfold IsFirst
  constructor
  · rintro ⟨h1, h2⟩
    refine ⟨h1, fun i hi => ?_⟩
    cases hb : m.testBit i
    · rfl
    · rcases h2 i (by omega) hb with e | e <;> omega
  · rintro ⟨h1, h2⟩
    refine ⟨h1, fun i _ hb => ?_⟩
    by_cases e : i < k
    · rw [h2 i e] at hb; exact absurd hb (by simp)
    · omega

/-- The test `(mask & -mask) & target` of a forward ray, for the target with the single bit
`k`: the first occupied square of the walk along the ray is `k`. -/
theorem fw_test (I occ k : Nat) (h : I < 64) (hk : k < 64) (hocc : occ < 2 ^ 64) (dx dy : Int)
    (hd : 0 < dx + 8 * dy) :
    ((ray I dx dy).last &&& occ &&& neg64 ((ray I dx dy).last &&& occ) &&& shl64 1 k != 0) =
      (decide (k ∈ walk occ dx dy 8 ((I % 8 : Nat) : Int) ((I / 8 : Nat) : Int)) &&
        occ.testBit k) := by
  have hw := walk_increasing dx dy hd 8 _ _ (square_on_board I h)
  have hm : (ray I dx dy).last &&& occ < 2 ^ 64 := Nat.and_lt_two_pow _ hocc
  have hf := first_hit (R := fun u v => u < v) (fun u v h1 h2 => absurd h1 (by omega)) occ
    (walk 0 dx dy 8 ((I % 8 : Nat) : Int) ((I / 8 : Nat) : Int)) hw.2 (walk_lt 0 dx dy 8 _ _) k
  rw [and_shl64_one_ne_zero _ hk, Bool.eq_iff_iff, testBit_and_neg64 _ _ hm, ← isFirst_lt_iff _ _ hk]
  rw [ray_eq] at hm ⊢
  simp only [] at hm ⊢
  rw [hf, ← walk_cut occ]
  simp

/-- The test of a reverse ray, `mask != 0` and bit `bsr(mask)` in the target, for the target
with the single bit `k`. -/
theorem rev_test (I occ k : Nat) (h : I < 64) (hk : k < 64) (hocc : occ < 2 ^ 64) (dx dy : Int)
    (hd : dx + 8 * dy < 0) :
    ((ray I dx dy).last &&& occ != 0 &&
      (shl64 1 (bsr ((ray I dx dy).last &&& occ)) &&& shl64 1 k != 0)) =
      (decide (k ∈ walk occ dx dy 8 ((I % 8 : Nat) : Int) ((I / 8 : Nat) : Int)) &&
        occ.testBit k) := by
  have hw := walk_decreasing dx dy hd 8 _ _ (square_on_board I h)
  have hm : (ray I dx dy).last &&& occ < 2 ^ 64 := Nat.and_lt_two_pow _ hocc
  have hf := first_hit (R := fun u v => v < u) (fun u v h1 h2 => absurd h1 (by omega)) occ
    (walk 0 dx dy 8 ((I % 8 : Nat) : Int) ((I / 8 : Nat) : Int)) hw.2 (walk_lt 0 dx dy 8 _ _) k
  have key : ((ray I dx dy).last &&& occ ≠ 0 ∧ bsr ((ray I dx dy).last &&& occ) = k) ↔
      IsFirst (fun u v => v < u) ((ray I dx dy).last &&& occ) k := by
    generalize (ray I dx dy).last &&& occ = m at hm
    unfold IsFirst
    constructor
    · rintro ⟨h0, hb⟩
      obtain ⟨q, hq1, hq2⟩ := Nat.exists_most_significant_bit h0
      have hq64 := testBit_lt_two_pow hm hq1
      have hmax : ∀ i, i < 64 → m.testBit i = true → i = q ∨ i < q := by
        intro i _ hi
        by_contra hc
        have : q < i := by omega
        rw [hq2 i this] at hi
        exact absurd hi (by simp)
      have := bsr_eq m q hq64 hq1 hmax
      rw [this] at hb
      subst hb
      exact ⟨hq1, hmax⟩
    · rintro ⟨h1, h2⟩
      refine ⟨fun e => ?_, bsr_eq m k hk h1 h2⟩
      rw [e] at h1
      simp at h1
  rw [and_shl64_one_ne_zero _ hk, testBit_shl64_one (bsr_lt _), Bool.eq_iff_iff]
  simp only [Bool.and_eq_true, bne_iff_ne, ne_eq, decide_eq_true_eq]
  rw [show (k = bsr ((ray I dx dy).last &&& occ)) ↔ (bsr ((ray I dx dy).last &&& occ) = k) from
    eq_comm, key]
  rw [ray_eq]
  simp only []
  rw [hf, ← walk_cut occ]

/-- The squares of a walk: `k` is in the walk iff it is the square `n + 1` steps away for
some `n` below the fuel, all squares up to it are on the board, and the squares before it
are not occupied. -/
theorem walk_mem (occ : Nat) (dx dy : Int) (k : Nat) : ∀ (fuel : Nat) (x y : Int),
    k ∈ walk occ dx dy fuel x y ↔
      ∃ n : Nat, n < fuel ∧
        (0 ≤ x + ((n : Int) + 1) * dx ∧ x + ((n : Int) + 1) * dx ≤ 7 ∧
          0 ≤ y + ((n : Int) + 1) * dy ∧ y + ((n : Int) + 1) * dy ≤ 7) ∧
        sq (x + ((n : Int) + 1) * dx) (y + ((n : Int) + 1) * dy) = k ∧
        ∀ m : Nat, m < n →
          (0 ≤ x + ((m : Int) + 1) * dx ∧ x + ((m : Int) + 1) * dx ≤ 7 ∧
            0 ≤ y + ((m : Int) + 1) * dy ∧ y + ((m : Int) + 1) * dy ≤ 7) ∧
          occ.testBit (sq (x + ((m : Int) + 1) * dx) (y + ((m : Int) + 1) * dy)) = false := by
  intro fuel
  induction fuel with
  | zero =>
    intro x y
    simp [walk]
  | succ f ih =>
    intro x y
    have e0x : x + (((0 : Nat) : Int) + 1) * dx = x + dx := by simp
    have e0y : y + (((0 : Nat) : Int) + 1) * dy = y + dy := by simp
    have esx : ∀ n : Nat, x + dx + ((n : Int) + 1) * dx = x + (((n + 1 : Nat) : Int) + 1) * dx := by
      intro n; push_cast; ring
    have esy : ∀ n : Nat, y + dy + ((n : Int) + 1) * dy = y + (((n + 1 : Nat) : Int) + 1) * dy := by
      intro n; push_cast; ring
    simp only [walk]
    constructor
    · intro h
      by_cases hc : 0 ≤ x + dx ∧ x + dx ≤ 7 ∧ 0 ≤ y + dy ∧ y + dy ≤ 7
      · rw [if_pos hc] at h
        by_cases ho : occ.testBit (sq (x + dx) (y + dy)) = true
        · rw [if_pos ho] at h
          refine ⟨0, Nat.succ_pos f, ?_, ?_, fun m hm => absurd hm (Nat.not_lt_zero m)⟩
          · rw [e0x, e0y]; exact hc
          · rw [e0x, e0y]; exact (List.mem_singleton.1 h).symm
        · rw [if_neg ho] at h
          rcases List.mem_cons.1 h with e | e
          · refine ⟨0, Nat.succ_pos f, ?_, ?_, fun m hm => absurd hm (Nat.not_lt_zero m)⟩
            · rw [e0x, e0y]; exact hc
            · rw [e0x, e0y]; exact e.symm
          · obtain ⟨n, hn, hb, hs, hmid⟩ := (ih (x + dx) (y + dy)).1 e
            refine ⟨n + 1, Nat.succ_lt_succ hn, ?_, ?_, ?_⟩
            · rw [← esx, ← esy]; exact hb
            · rw [← esx, ← esy]; exact hs
            · intro m hm
              cases m with
              | zero =>
                rw [e0x, e0y]
                exact ⟨hc, by simpa using ho⟩
              | succ m =>
                rw [← esx, ← esy]
                exact hmid m (by omega)
      · rw [if_neg hc] at h
        exact absurd h (List.not_mem_nil k)
    · rintro ⟨n, hn, hb, hs, hmid⟩
      cases n with
      | zero =>
        rw [e0x, e0y] at hb hs
        rw [if_pos hb]
        split_ifs
        · exact List.mem_singleton.2 hs.symm
        · exact List.mem_cons.2 (Or.inl hs.symm)
      | succ n =>
        have h0 := hmid 0 (Nat.succ_pos n)
        rw [e0x, e0y] at h0
        rw [if_pos h0.1, if_neg (by rw [h0.2]; simp)]
        refine List.mem_cons.2 (Or.inr ((ih (x + dx) (y + dy)).2 ⟨n, by omega, ?_, ?_, ?_⟩))
        · rw [esx, esy]; exact hb
        · rw [esx, esy]; exact hs
        · intro m hm
          rw [esx, esy]
          exact hmid (m + 1) (by omega)

/-- The reference definition of a clear line agrees with the walk of the ray: `k` is reached
from `o` with nothing strictly in between iff `k` is a square of the walk that stops at the
first occupied square. -/
theorem clear_line_iff {b : chessboard} (mc : MC b.pieces b.side_sets b.piece_sets)
    (o k : Nat) (ho : o < 64) (dx dy : Int) (hd : unit_dir dx dy) :
    clear_line b o k dx dy = true ↔
      k ∈ walk (b.side_sets 0 ||| b.side_sets 1) dx dy 8 ((o % 8 : Nat) : Int)
        ((o / 8 : Nat) : Int) := by
  have hob := square_on_board o ho
  rw [walk_mem]
  unfold clear_line
  simp only [List.any_eq_true, List.mem_range, Bool.and_eq_true, decide_eq_true_eq,
    List.all_eq_true, beq_iff_eq]
  obtain ⟨hdx, hdy, hnz⟩ := hd
  constructor
  · rintro ⟨n, hn, ⟨hb, hs⟩, hmid⟩
    refine ⟨n, by omega, hb, hs, fun m hm => ?_⟩
    have hbm : 0 ≤ ((o % 8 : Nat) : Int) + ((m : Int) + 1) * dx ∧
        ((o % 8 : Nat) : Int) + ((m : Int) + 1) * dx ≤ 7 ∧
        0 ≤ ((o / 8 : Nat) : Int) + ((m : Int) + 1) * dy ∧
        ((o / 8 : Nat) : Int) + ((m : Int) + 1) * dy ≤ 7 := by
      rcases hdx with e | e | e <;> rcases hdy with e2 | e2 | e2 <;> subst e <;> subst e2 <;>
        omega
    refine ⟨hbm, ?_⟩
    have h0 := hmid m hm
    have e0 : (b.side_sets 0).testBit _ = false := mc.side_empty (by decide) h0
    have e1 : (b.side_sets 1).testBit _ = false := mc.side_empty (by decide) h0
    rw [Nat.testBit_or, e0, e1]
    rfl
  · rintro ⟨n, hn, hb, hs, hmid⟩
    have hn7 : n < 7 := by
      rcases hdx with e | e | e <;> rcases hdy with e2 | e2 | e2 <;> subst e <;> subst e2 <;>
        omega
    refine ⟨n, hn7, ⟨hb, hs⟩, fun m hm => ?_⟩
    obtain ⟨hbm, hocc⟩ := hmid m hm
    by_contra hc
    have := (all_bit_mc mc _).2 ⟨sq_lt hbm, hc⟩
    rw [hocc] at this
    exact absurd this (by simp)

set_option maxRecDepth 1000000 in
set_option synthInstance.maxSize 1000 in
set_option synthInstance.maxHeartbeats 200000 in
theorem capture_base_rule :
    ∀ side, side < 2 → ∀ o, o < 64 → ∀ k, k < 64 →
      ((side = 1 → 8 ≤ o) ∧ (side = 0 → o < 56)) →
        (capture_base side o).testBit k = pawn_attacks side o k := by
  decide!

set_option maxRecDepth 1000000 in
theorem knight_mask_rule :
    ∀ o, o < 64 → ∀ k, k < 64 → (capture_masks o knight).testBit k = knight_attacks o k := by
  decide!

set_option maxRecDepth 1000000 in
theorem king_mask_rule :
    ∀ o, o < 64 → ∀ k, k < 64 → (capture_masks o king).testBit k = king_attacks o k := by
  decide!

/-- The target of `in_check` when side `s` has its one king on `k`: the single bit `k`. -/
theorem king_target {b : chessboard} (mc : MC b.pieces b.side_sets b.piece_sets) {s k : Nat}
    (hs : s < 2) (hk : k < 64) (huniq : ∀ i, i < 64 → (b.pieces i = king + 8 * s ↔ i = k)) :
    b.piece_sets king &&& b.side_sets s = shl64 1 k := by
  apply Nat.eq_of_testBit_eq
  intro i
  rw [Nat.testBit_and, testBit_shl64_one hk, Bool.eq_iff_iff, Bool.and_eq_true,
    decide_eq_true_eq, mc.type king i (by decide) (by decide), mc.side s i hs]
  have hking : king = 1 := rfl
  constructor
  · rintro ⟨⟨h64, h1⟩, _, _, h3⟩
    rw [hking] at h1
    exact (huniq i h64).1 (by rw [hking]; omega)
  · intro e
    subst e
    have := (huniq i hk).2 rfl
    rw [hking] at this
    exact ⟨⟨hk, by omega⟩, hk, by omega, by omega⟩

theorem clear_line_eq {b : chessboard} (mc : MC b.pieces b.side_sets b.piece_sets)
    (o k : Nat) (ho : o < 64) (dx dy : Int) (hd : unit_dir dx dy) :
    decide (k ∈ walk (b.side_sets 0 ||| b.side_sets 1) dx dy 8 ((o % 8 : Nat) : Int)
        ((o / 8 : Nat) : Int)) = clear_line b o k dx dy := by
  rw [Bool.eq_iff_iff, decide_eq_true_eq]
  exact (clear_line_iff mc o k ho dx dy hd).symm

/-- The test of `any_pseudo_captures` for one sliding piece, against the target with the
single bit `k` of an occupied square: some line of the piece reaches `k` with nothing
strictly in between. -/
theorem slide_test {b : chessboard} (mc : MC b.pieces b.side_sets b.piece_sets) (type : Nat)
    (ht : type = bishop ∨ type = rook ∨ type = queen) (ind k : Nat) (hi : ind < 64)
    (hk : k < 64) (hocc : (b.side_sets 0 ||| b.side_sets 1).testBit k = true) :
    (List.range' (if type = rook then 2 else 0)
        ((if type = bishop then 2 else 4) - (if type = rook then 2 else 0))).any
      (fun i =>
        ((masks_fw ind i).last &&& (b.side_sets 0 ||| b.side_sets 1) &&&
            neg64 ((masks_fw ind i).last &&& (b.side_sets 0 ||| b.side_sets 1)) &&&
            shl64 1 k != 0) ||
        ((masks_rev ind i).last &&& (b.side_sets 0 ||| b.side_sets 1) != 0 &&
          (shl64 1 (bsr ((masks_rev ind i).last &&& (b.side_sets 0 ||| b.side_sets 1)))
            &&& shl64 1 k != 0))) =
      (ray_dirs type).any (fun v => clear_line b ind k v.1 v.2) := by
  have hall : b.side_sets 0 ||| b.side_sets 1 < 2 ^ 64 :=
    Nat.or_lt_two_pow (mc.side_lt (by decide)) (mc.side_lt (by decide))
  have F : ∀ dx dy : Int, 0 < dx + 8 * dy → unit_dir dx dy →
      ((ray ind dx dy).last &&& (b.side_sets 0 ||| b.side_sets 1) &&&
        neg64 ((ray ind dx dy).last &&& (b.side_sets 0 ||| b.side_sets 1)) &&&
        shl64 1 k != 0) = clear_line b ind k dx dy := by
    intro dx dy hd hu
    rw [fw_test ind _ k hi hk hall dx dy hd, hocc, Bool.and_true, clear_line_eq mc ind k hi dx dy hu]
  have R : ∀ dx dy : Int, dx + 8 * dy < 0 → unit_dir dx dy →
      ((ray ind dx dy).last &&& (b.side_sets 0 ||| b.side_sets 1) != 0 &&
        (shl64 1 (bsr ((ray ind dx dy).last &&& (b.side_sets 0 ||| b.side_sets 1)))
          &&& shl64 1 k != 0)) = clear_line b ind k dx dy := by
    intro dx dy hd hu
    rw [rev_test ind _ k hi hk hall dx dy hd, hocc, Bool.and_true, clear_line_eq mc ind k hi dx dy hu]
  have u1 : unit_dir (-1) 1 := by unfold unit_dir; decide
  have u2 : unit_dir 1 1 := by unfold unit_dir; decide
  have u3 : unit_dir (-1) (-1) := by unfold unit_dir; decide
  have u4 : unit_dir 1 (-1) := by unfold unit_dir; decide
  have u5 : unit_dir 1 0 := by unfold unit_dir; decide
  have u6 : unit_dir 0 1 := by unfold unit_dir; decide
  have u7 : unit_dir (-1) 0 := by unfold unit_dir; decide
  have u8 : unit_dir 0 (-1) := by unfold unit_dir; decide
  have f0 := F (-1) 1 (by decide) u1
  have f1 := F 1 1 (by decide) u2
  have f2 := F 1 0 (by decide) u5
  have f3 := F 0 1 (by decide) u6
  have r0 := R (-1) (-1) (by decide) u3
  have r1 := R 1 (-1) (by decide) u4
  have r2 := R (-1) 0 (by decide) u7
  have r3 := R 0 (-1) (by decide) u8
  rcases ht with e | e | e <;> subst e
  · have hl : List.range' (if bishop = rook then 2 else 0)
        ((if bishop = bishop then 2 else 4) - (if bishop = rook then 2 else 0)) = [0, 1] := by
      decide
    have hr : ray_dirs bishop = [(-1, 1), (1, 1), (-1, -1), (1, -1)] := by decide
    rw [hl, hr]
    simp only [List.any_cons, List.any_nil, Bool.or_false, masks_fw_0, masks_fw_1, masks_rev_0,
      masks_rev_1, f0, f1, r0, r1]
    ac_rfl
  · have hl : List.range' (if rook = rook then 2 else 0)
        ((if rook = bishop then 2 else 4) - (if rook = rook then 2 else 0)) = [2, 3] := by
      decide
    have hr : ray_dirs rook = [(1, 0), (0, 1), (-1, 0), (0, -1)] := by decide
    rw [hl, hr]
    simp only [List.any_cons, List.any_nil, Bool.or_false, masks_fw_2, masks_fw_3, masks_rev_2,
      masks_rev_3, f2, f3, r2, r3]
    ac_rfl
  · have hl : List.range' (if queen = rook then 2 else 0)
        ((if queen = bishop then 2 else 4) - (if queen = rook then 2 else 0)) = [0, 1, 2, 3] := by
      decide
    have hr : ray_dirs queen =
        [(-1, 1), (1, 1), (-1, -1), (1, -1), (1, 0), (0, 1), (-1, 0), (0, -1)] := by decide
    rw [hl, hr]
    simp only [List.any_cons, List.any_nil, Bool.or_false, masks_fw_0, masks_fw_1, masks_rev_0,
      masks_rev_1, masks_fw_2, masks_fw_3, masks_rev_2, masks_rev_3, f0, f1, r0, r1, f2, f3,
      r2, r3]
    ac_rfl

theorem attacks_pawn {b : chessboard} {o : Nat} (k : Nat) (h : b.pieces o % 8 = 6) :
    attacks b o k = pawn_attacks (b.pieces o / 8) o k := by
  unfold attacks
  rw [if_pos (show b.pieces o % 8 = pawn from h)]

theorem attacks_knight {b : chessboard} {o : Nat} (k : Nat) (h : b.pieces o % 8 = 4) :
    attacks b o k = knight_attacks o k := by
  unfold attacks
  rw [if_neg (by rw [h]; decide), if_pos (show b.pieces o % 8 = knight from h)]

theorem attacks_king {b : chessboard} {o : Nat} (k : Nat) (h : b.pieces o % 8 = 1) :
    attacks b o k = king_attacks o k := by
  unfold attacks
  rw [if_neg (by rw [h]; decide), if_neg (by rw [h]; decide),
    if_pos (show b.pieces o % 8 = king from h)]

theorem attacks_slider {b : chessboard} {o t : Nat} (k : Nat) (h : b.pieces o % 8 = t)
    (ht : t = bishop ∨ t = rook ∨ t = queen) :
    attacks b o k = (ray_dirs t).any (fun v => clear_line b o k v.1 v.2) := by
  unfold attacks
  rw [h]
  rcases ht with e | e | e <;> subst e
  · rw [if_neg (by decide), if_neg (by decide), if_neg (by decide), if_pos (Or.inl rfl)]
  · rw [if_neg (by decide), if_neg (by decide), if_neg (by decide), if_pos (Or.inr (Or.inl rfl))]
  · rw [if_neg (by decide), if_neg (by decide), if_neg (by decide), if_pos (Or.inr (Or.inr rfl))]

/-- C25, amended: on every board whose masks are consistent with `pieces` (the three facts
of `mask_consistent`, the masks being 64-bit words and the unused slot `piece_sets[0]`
empty), on which side `s` has exactly one king, on the square `k`, and no pawn of the
opponent stands on the last rank of its advance, `in_check(s)` is true if and only if the
king's square is attacked by some opponent piece under the reference definition `attacked`:
a pawn one rank behind `k` in the pawn's direction of advance on an adjacent file, a knight
a knight's jump away, the king on a neighbouring square, or a bishop, rook or queen on a
matching diagonal or orthogonal line with no piece strictly between. -/
theorem in_check_matches_rules (b : chessboard) (s k : Nat) (hc : mask_consistent b)
    (hS : ∀ s, s < 2 → b.side_sets s < 2 ^ 64) (hT : ∀ t, t < 7 → b.piece_sets t < 2 ^ 64)
    (h0 : b.piece_sets 0 = 0) (hs : s < 2) (hk : k < 64)
    (huniq : ∀ i, i < 64 → (b.pieces i = king + 8 * s ↔ i = k))
    (hpawn : ∀ i, i < 64 → b.pieces i = pawn + 8 * (s ^^^ 1) →
      (s ^^^ 1 = 1 → 8 ≤ i) ∧ (s ^^^ 1 = 0 → i < 56)) :
    in_check b s = attacked b s k := by
  have mc := MC_of_mask_consistent hc hS hT h0
  obtain ⟨he, hne⟩ := xor_one_lt hs
  have hkp : b.pieces k = king + 8 * s := (huniq k hk).2 rfl
  have hocc : (b.side_sets 0 ||| b.side_sets 1).testBit k = true :=
    (all_bit_mc mc k).2 ⟨hk, by rw [hkp]; unfold king; omega⟩
  have htm : ∀ p : Nat, p &&& type_mask = p % 8 := fun p => and7 p
  have hpw : pawn = 6 := rfl
  have hkn : knight = 4 := rfl
  have hki : king = 1 := rfl
  have hbi : bishop = 3 := rfl
  have hro : rook = 5 := rfl
  have hqu : queen = 2 := rfl
  unfold in_check
  rw [any_pseudo_captures_eq, king_target mc hs hk huniq, Bool.eq_iff_iff]
  unfold attacked
  constructor
  · intro h
    rw [Bool.or_eq_true, Bool.or_eq_true] at h
    rcases h with (h | h) | h
    · obtain ⟨ind, hmem, ht⟩ := List.any_eq_true.1 h
      have own := own_of_mem_mc mc he (by decide) (by decide) hmem
      obtain ⟨h64, hty, hsd, hp0⟩ := own
      rw [and_shl64_one_ne_zero _ hk] at ht
      have hcode : b.pieces ind = pawn + 8 * (s ^^^ 1) := by rw [hpw]; omega
      rw [capture_base_rule _ he ind h64 k hk (hpawn ind h64 hcode)] at ht
      refine List.any_eq_true.2 ⟨ind, List.mem_range.2 h64, ?_⟩
      rw [attacks_pawn k hty, hsd, ht]
      simp [hp0, hne]
    · obtain ⟨ind, hmem, ht⟩ := List.any_eq_true.1 h
      obtain ⟨h64, hb⟩ := mem_set_bits.1 hmem
      rw [Nat.testBit_and, Bool.and_eq_true, Nat.testBit_or, Bool.or_eq_true] at hb
      have hsd := (mc.side _ ind he).1 hb.2
      rw [and_shl64_one_ne_zero _ hk, htm] at ht
      refine List.any_eq_true.2 ⟨ind, List.mem_range.2 h64, ?_⟩
      rcases hb.1 with hb1 | hb1
      · have hty := ((mc.type knight ind (by decide) (by decide)).1 hb1).2
        rw [hty, knight_mask_rule ind h64 k hk] at ht
        rw [hkn] at hty
        rw [attacks_knight k hty, ht, hsd.2.2]
        simp [hsd.2.1, hne]
      · have hty := ((mc.type king ind (by decide) (by decide)).1 hb1).2
        rw [hty, king_mask_rule ind h64 k hk] at ht
        rw [hki] at hty
        rw [attacks_king k hty, ht, hsd.2.2]
        simp [hsd.2.1, hne]
    · obtain ⟨type, htype, h2⟩ := List.any_eq_true.1 h
      obtain ⟨ind, hmem, ht⟩ := List.any_eq_true.1 h2
      have htype2 : type = bishop ∨ type = rook ∨ type = queen := by
        simpa using htype
      have h16 : 1 ≤ type ∧ type ≤ 6 := by
        rcases htype2 with e | e | e <;> subst e <;> decide
      obtain ⟨h64, hty, hsd, hp0⟩ := own_of_mem_mc mc he h16.1 h16.2 hmem
      rw [slide_test mc type htype2 ind k h64 hk hocc] at ht
      refine List.any_eq_true.2 ⟨ind, List.mem_range.2 h64, ?_⟩
      rw [attacks_slider k hty htype2, ht, hsd]
      simp [hp0, hne]
  · intro h
    obtain ⟨o, ho, hconj⟩ := List.any_eq_true.1 h
    have h64 := List.mem_range.1 ho
    simp only [Bool.and_eq_true, bne_iff_ne, ne_eq] at hconj
    obtain ⟨⟨hp0, hsn⟩, hat⟩ := hconj
    have hv := mc.codes o h64
    unfold valid_code at hv
    have hsd : b.pieces o / 8 = s ^^^ 1 := by omega
    rw [Bool.or_eq_true, Bool.or_eq_true]
    have hcases : b.pieces o % 8 = 6 ∨ b.pieces o % 8 = 4 ∨ b.pieces o % 8 = 1 ∨
        b.pieces o % 8 = 3 ∨ b.pieces o % 8 = 5 ∨ b.pieces o % 8 = 2 := by omega
    have hsideb : (b.side_sets (s ^^^ 1)).testBit o = true :=
      (mc.side _ o he).2 ⟨h64, hp0, hsd⟩
    rcases hcases with hty | hty | hty | hty | hty | hty
    · rw [attacks_pawn k hty, hsd] at hat
      have hcode : b.pieces o = pawn + 8 * (s ^^^ 1) := by rw [hpw]; omega
      rw [← capture_base_rule _ he o h64 k hk (hpawn o h64 hcode)] at hat
      refine Or.inl (Or.inl (List.any_eq_true.2 ⟨o,
        mem_of_own_mc mc he (by decide) (by decide) ⟨h64, hty, hsd, hp0⟩, ?_⟩))
      rw [and_shl64_one_ne_zero _ hk]
      exact hat
    · rw [attacks_knight k hty, ← knight_mask_rule o h64 k hk] at hat
      refine Or.inl (Or.inr (List.any_eq_true.2 ⟨o, ?_, ?_⟩))
      · rw [mem_set_bits, Nat.testBit_and, Nat.testBit_or,
          (mc.type knight o (by decide) (by decide)).2 ⟨h64, by rw [hkn]; exact hty⟩, hsideb]
        exact ⟨h64, rfl⟩
      · rw [and_shl64_one_ne_zero _ hk, htm, hty, ← hkn]
        exact hat
    · rw [attacks_king k hty, ← king_mask_rule o h64 k hk] at hat
      refine Or.inl (Or.inr (List.any_eq_true.2 ⟨o, ?_, ?_⟩))
      · rw [mem_set_bits, Nat.testBit_and, Nat.testBit_or,
          (mc.type king o (by decide) (by decide)).2 ⟨h64, by rw [hki]; exact hty⟩, hsideb]
        exact ⟨h64, by simp⟩
      · rw [and_shl64_one_ne_zero _ hk, htm, hty, ← hki]
        exact hat
    · rw [← hbi] at hty
      rw [attacks_slider k hty (Or.inl rfl)] at hat
      refine Or.inr (List.any_eq_true.2 ⟨bishop, by simp, List.any_eq_true.2 ⟨o,
        mem_of_own_mc mc he (by decide) (by decide) ⟨h64, hty, hsd, hp0⟩, ?_⟩⟩)
      rw [slide_test mc bishop (Or.inl rfl) o k h64 hk hocc]
      exact hat
    · rw [← hro] at hty
      rw [attacks_slider k hty (Or.inr (Or.inl rfl))] at hat
      refine Or.inr (List.any_eq_true.2 ⟨rook, by simp, List.any_eq_true.2 ⟨o,
        mem_of_own_mc mc he (by decide) (by decide) ⟨h64, hty, hsd, hp0⟩, ?_⟩⟩)
      rw [slide_test mc rook (Or.inr (Or.inl rfl)) o k h64 hk hocc]
      exact hat
    · rw [← hqu] at hty
      rw [attacks_slider k hty (Or.inr (Or.inr rfl))] at hat
      refine Or.inr (List.any_eq_true.2 ⟨queen, by simp, List.any_eq_true.2 ⟨o,
        mem_of_own_mc mc he (by decide) (by decide) ⟨h64, hty, hsd, hp0⟩, ?_⟩⟩)
      rw [slide_test mc queen (Or.inr (Or.inr rfl)) o k h64 hk hocc]
      exact hat

set_option maxRecDepth 1000000 in
/-- The amended C25 on the checkmate with the king of side 1 on e1, the queen of side 0 on e2
and the king of side 0 on e3. -/
theorem in_check_matches_rules_witness :
    in_check (board_of codes_mated) 1 = attacked (board_of codes_mated) 1 60 :=
  in_check_matches_rules (board_of codes_mated) 1 60 (by decide!) (by decide!) (by decide!)
    (by decide!) (by decide) (by decide) (by decide!) (by decide!)

end WebChess
